import Mathlib

/-! dump978: a shallow embedding of the UAT demodulator.

The definitions below follow `src/dump978.c` function by function.

* Phase samples are `uint16_t`: a phase buffer is a function `Nat → Nat` together with the
  number `len` of valid samples; every load is bounds-checked against `len` and reduced
  modulo `2^16`.
* Byte buffers (`uint8_t[]`) are lists of naturals; every store is bounds-checked and
  reduced modulo `2^8`.
* C `int` values that may be negative are `Int`.
* A function that can read or write outside its buffers returns `Except Trap _`.
* The Reed-Solomon decoder (`fec/rs.h`) is external: it is a parameter of the model.
* A finite `double` is the rational number it denotes; `atan2` of the C library and the
  rounding of a floating-point result are external: they are a parameter of the model.
-/

namespace Dump978

/-! ## Constants -/

def UPLINK_POLY : Nat := 0x187
def ADSB_POLY : Nat := 0x187

def SYNC_BITS : Nat := 36
def ADSB_SYNC_WORD : Nat := 0xEACDDA4E2
def UPLINK_SYNC_WORD : Nat := 0x153225B1D

/-- Modelled from the spec: `uat.h` is not among the sources; value of the constants table. -/
def SHORT_FRAME_DATA_BYTES : Nat := 18
/-- Modelled from the spec: `uat.h` is not among the sources; value of the constants table. -/
def SHORT_FRAME_BYTES : Nat := 30
/-- Modelled from the spec: `uat.h` is not among the sources; value of the constants table. -/
def SHORT_FRAME_BITS : Nat := 240
/-- Modelled from the spec: `uat.h` is not among the sources; value of the constants table. -/
def LONG_FRAME_DATA_BYTES : Nat := 34
/-- Modelled from the spec: `uat.h` is not among the sources; value of the constants table. -/
def LONG_FRAME_BYTES : Nat := 48
/-- Modelled from the spec: `uat.h` is not among the sources; value of the constants table. -/
def LONG_FRAME_BITS : Nat := 384
/-- Modelled from the spec: `uat.h` is not among the sources; value of the constants table. -/
def UPLINK_FRAME_BLOCKS : Nat := 6
/-- Modelled from the spec: `uat.h` is not among the sources; value of the constants table. -/
def UPLINK_BLOCK_DATA_BYTES : Nat := 72
/-- Modelled from the spec: `uat.h` is not among the sources; value of the constants table. -/
def UPLINK_BLOCK_BYTES : Nat := 92
/-- Modelled from the spec: `uat.h` is not among the sources; value of the constants table. -/
def UPLINK_FRAME_DATA_BYTES : Nat := 432
/-- Modelled from the spec: `uat.h` is not among the sources; value of the constants table. -/
def UPLINK_FRAME_BYTES : Nat := 552
/-- Modelled from the spec: `uat.h` is not among the sources; value of the constants table. -/
def UPLINK_FRAME_BITS : Nat := 4416

def MAX_SYNC_ERRORS : Nat := 2

def CHECK_BITS : Nat := 18
def CHECK_MASK : Nat := (1 <<< CHECK_BITS) - 1
def CHECK_ADSB : Nat := ADSB_SYNC_WORD >>> (SYNC_BITS - CHECK_BITS)
def CHECK_UPLINK : Nat := UPLINK_SYNC_WORD >>> (SYNC_BITS - CHECK_BITS)

/-! ## Traps and checked memory access -/

/-- The ways in which a run of the model can leave defined behaviour. -/
inductive Trap where
  | out_of_bounds
  | div_by_zero
  | out_of_fuel
  deriving DecidableEq, Repr

deriving instance DecidableEq for Except

/-- Load `phi[i]` from a buffer holding `len` valid phase samples. -/
def load (phi : Nat → Nat) (len : Nat) (i : Nat) : Except Trap Nat :=
  if i < len then .ok (phi i % 65536) else .error .out_of_bounds

/-- Load `data[i]` from a byte buffer. -/
def load8 (data : List Nat) (i : Nat) : Except Trap Nat :=
  if i < data.length then .ok (data.getD i 0 % 256) else .error .out_of_bounds

/-- Store `data[i] = v` into a byte buffer. -/
def store8 (data : List Nat) (i : Nat) (v : Nat) : Except Trap (List Nat) :=
  if i < data.length then .ok (data.set i (v % 256)) else .error .out_of_bounds

/-- A counting loop `for (i = i0; i < i0 + k; ++i) body`. -/
def for_loop {σ : Type} (body : Nat → σ → Except Trap σ) : Nat → Nat → σ → Except Trap σ
  | 0, _, s => .ok s
  | k + 1, i, s => do
    let s' ← body i s
    for_loop body k (i + 1) s'

/-- Conversion of an `int` to `int16_t` (two's complement wrap). -/
def to_int16 (x : Int) : Int := (x + 32768) % 65536 - 32768

/-! ## phi_difference -/

/-- The inline function `phi_difference` (the variant compiled without `USE_SIGNED_OVERFLOW`). -/
def phi_difference (from_phi to_phi : Nat) : Int :=
  let difference : Int := (to_phi : Int) - (from_phi : Int)
  if difference ≥ 32768 then difference - 65536
  else if difference < -32768 then difference + 65536
  else difference

/-- The value `phi_difference(phi[i], phi[i+1])`. -/
def dphi_at (phi : Nat → Nat) (len : Nat) (i : Nat) : Except Trap Int := do
  let a ← load phi len i
  let b ← load phi len (i + 1)
  pure (phi_difference a b)

/-! ## check_sync_word -/

/-- The four accumulators of the first loop of `check_sync_word`. -/
structure SyncSums where
  dphi_zero_total : Int
  zero_bits : Nat
  dphi_one_total : Int
  one_bits : Nat
  deriving DecidableEq, Repr

/-- Body of the first loop of `check_sync_word`. -/
def sync_sum_body (phi : Nat → Nat) (len base pattern : Nat) (i : Nat) (s : SyncSums) :
    Except Trap SyncSums := do
  let dphi ← dphi_at phi len (base + i * 2)
  if pattern &&& (1 <<< (35 - i)) ≠ 0 then
    pure { s with one_bits := s.one_bits + 1, dphi_one_total := s.dphi_one_total + dphi }
  else
    pure { s with zero_bits := s.zero_bits + 1, dphi_zero_total := s.dphi_zero_total + dphi }

/-- Body of the second loop of `check_sync_word`: the state is `error_bits`. -/
def sync_err_body (phi : Nat → Nat) (len base pattern : Nat) (center : Int) (i : Nat)
    (error_bits : Nat) : Except Trap Nat := do
  let dphi ← dphi_at phi len (base + i * 2)
  if pattern &&& (1 <<< (35 - i)) ≠ 0 then
    pure (if dphi < center then error_bits + 1 else error_bits)
  else
    pure (if dphi ≥ center then error_bits + 1 else error_bits)

/-- The function `check_sync_word(phi + base, pattern, &center)`: returns the value stored in
`*center` and the return value. -/
def check_sync_word (phi : Nat → Nat) (len base pattern : Nat) : Except Trap (Int × Bool) := do
  let s ← for_loop (sync_sum_body phi len base pattern) 36 0 ⟨0, 0, 0, 0⟩
  if s.zero_bits = 0 ∨ s.one_bits = 0 then .error .div_by_zero
  else
    let dphi_zero_total := s.dphi_zero_total.tdiv s.zero_bits
    let dphi_one_total := s.dphi_one_total.tdiv s.one_bits
    let center := to_int16 ((dphi_one_total + dphi_zero_total).tdiv 2)
    let error_bits ← for_loop (sync_err_body phi len base pattern center) 36 0 0
    pure (center, decide (error_bits ≤ MAX_SYNC_ERRORS))

/-! ## demod_frame -/

/-- One line of `demod_frame`: `if (phi_difference(phi[i], phi[i+1]) > center_dphi) b |= m`. -/
def slice_bit (phi : Nat → Nat) (len : Nat) (i : Nat) (center_dphi : Int) (m : Nat) (b : Nat) :
    Except Trap Nat := do
  let d ← dphi_at phi len i
  pure (if d > center_dphi then b ||| m else b)

/-- The eight bit decisions making up one byte, from the samples at `p .. p+15`. -/
def demod_byte (phi : Nat → Nat) (len : Nat) (p : Nat) (center_dphi : Int) : Except Trap Nat := do
  let b ← slice_bit phi len p center_dphi 0x80 0
  let b ← slice_bit phi len (p + 2) center_dphi 0x40 b
  let b ← slice_bit phi len (p + 4) center_dphi 0x20 b
  let b ← slice_bit phi len (p + 6) center_dphi 0x10 b
  let b ← slice_bit phi len (p + 8) center_dphi 0x08 b
  let b ← slice_bit phi len (p + 10) center_dphi 0x04 b
  let b ← slice_bit phi len (p + 12) center_dphi 0x02 b
  slice_bit phi len (p + 14) center_dphi 0x01 b

/-- Body of the loop of `demod_frame`: iteration `k` reads `phi[16k .. 16k+15]` (relative to
`base`) and stores `frame[k]`. -/
def demod_frame_body (phi : Nat → Nat) (len base : Nat) (center_dphi : Int) (k : Nat)
    (frame : List Nat) : Except Trap (List Nat) := do
  let b ← demod_byte phi len (base + 16 * k) center_dphi
  store8 frame k b

/-- The function `demod_frame(phi + base, frame, bytes, center_dphi)`; `bytes` is not negative. -/
def demod_frame (phi : Nat → Nat) (len base : Nat) (frame : List Nat) (bytes : Nat)
    (center_dphi : Int) : Except Trap (List Nat) :=
  for_loop (demod_frame_body phi len base center_dphi) bytes 0 frame

/-! ## The Reed-Solomon decoder -/

/-- The three decoders set up by `main`. Each field is the behaviour of `decode_rs_char` on a
codeword: the returned count and the codeword it leaves behind. -/
structure Decoders where
  rs_adsb_short : List Nat → Int × List Nat
  rs_adsb_long : List Nat → Int × List Nat
  rs_uplink : List Nat → Int × List Nat

/-- The bytes a decoder leaves in a codeword buffer of `n` bytes: a byte the decoder result
does not cover keeps its value, and every byte is a `uint8_t`. -/
def codeword_after (n : Nat) (before after : List Nat) : List Nat :=
  (List.range n).map fun i => after.getD i (before.getD i 0) % 256

/-- The call `decode_rs_char(rs, data + pos, NULL, 0)` for a codec set up with
`init_rs_char(8, _, _, _, _, pad)`: the codeword is the `255 - pad` bytes at `data + pos`,
corrected in place. -/
def decode_rs_char (rs : List Nat → Int × List Nat) (pad : Nat) (data : List Nat) (pos : Nat) :
    Except Trap (Int × List Nat) :=
  let n := 255 - pad
  if pos + n ≤ data.length then
    let codeword := (data.drop pos).take n
    let r := rs codeword
    .ok (r.1, data.take pos ++ codeword_after n codeword r.2 ++ data.drop (pos + n))
  else .error .out_of_bounds

/-! ## The frame demodulators -/

/-- What a frame demodulator leaves behind: its return value, `*rs_errors` and the buffer. -/
structure Demod where
  skip : Int
  rs_errors : Int
  frame : List Nat
  deriving DecidableEq, Repr

/-- The function `demod_adsb_frame(phi + base, frame, &rs_errors)`. -/
def demod_adsb_frame (rs : Decoders) (phi : Nat → Nat) (len base : Nat) (frame : List Nat) :
    Except Trap Demod := do
  let (center_dphi, sync_ok) ← check_sync_word phi len base ADSB_SYNC_WORD
  if !sync_ok then
    pure ⟨0, 9999, frame⟩
  else
    let frame ← demod_frame phi len (base + SYNC_BITS * 2) frame LONG_FRAME_BYTES center_dphi
    let (n_corrected, frame) ← decode_rs_char rs.rs_adsb_long 207 frame 0
    let byte0 ← load8 frame 0
    if n_corrected ≥ 0 ∧ n_corrected ≤ 7 ∧ byte0 >>> 3 ≠ 0 then
      pure ⟨(SYNC_BITS + LONG_FRAME_BITS : Nat), n_corrected, frame⟩
    else
      let (n_corrected, frame) ← decode_rs_char rs.rs_adsb_short 225 frame 0
      let byte0 ← load8 frame 0
      if n_corrected ≥ 0 ∧ n_corrected ≤ 6 ∧ byte0 >>> 3 = 0 then
        pure ⟨(SYNC_BITS + SHORT_FRAME_BITS : Nat), n_corrected, frame⟩
      else
        pure ⟨0, 9999, frame⟩

/-- Body of the copy loop of `demod_uplink_frame`:
`blockdata[i] = interleaved[i * UPLINK_FRAME_BLOCKS + block]`, with
`blockdata = &frame[block * UPLINK_BLOCK_DATA_BYTES]`. -/
def deinterleave_body (interleaved : List Nat) (block : Nat) (i : Nat) (frame : List Nat) :
    Except Trap (List Nat) := do
  let v ← load8 interleaved (i * UPLINK_FRAME_BLOCKS + block)
  store8 frame (block * UPLINK_BLOCK_DATA_BYTES + i) v

/-- The block loop of `demod_uplink_frame`, from block `block` on, with `k` blocks left. -/
def uplink_blocks (rs : Decoders) (interleaved : List Nat) :
    Nat → Nat → Int → List Nat → Except Trap Demod
  | 0, _, total_corrected, frame =>
    pure ⟨(UPLINK_FRAME_BITS + SYNC_BITS : Nat), total_corrected, frame⟩
  | k + 1, block, total_corrected, frame => do
    let frame ← for_loop (deinterleave_body interleaved block) UPLINK_BLOCK_BYTES 0 frame
    let (n_corrected, frame) ←
      decode_rs_char rs.rs_uplink 163 frame (block * UPLINK_BLOCK_DATA_BYTES)
    if n_corrected < 0 ∨ n_corrected > 10 then
      pure ⟨0, 9999, frame⟩
    else
      uplink_blocks rs interleaved k (block + 1) (total_corrected + n_corrected) frame

/-- The function `demod_uplink_frame(phi + base, frame, &rs_errors)`. The local array
`interleaved` is written in full by `demod_frame` before it is read. -/
def demod_uplink_frame (rs : Decoders) (phi : Nat → Nat) (len base : Nat) (frame : List Nat) :
    Except Trap Demod := do
  let (center_dphi, sync_ok) ← check_sync_word phi len base UPLINK_SYNC_WORD
  if !sync_ok then
    pure ⟨0, 9999, frame⟩
  else
    let interleaved ← demod_frame phi len (base + SYNC_BITS * 2)
      (List.replicate UPLINK_FRAME_BYTES 0) UPLINK_FRAME_BYTES center_dphi
    uplink_blocks rs interleaved UPLINK_FRAME_BLOCKS 0 0 frame

/-! ## The record sink -/

/-- One lowercase hexadecimal digit. -/
def hex_digit (n : Nat) : Char :=
  if n < 10 then Char.ofNat (48 + n) else Char.ofNat (87 + n)

/-- The conversion `%02x` of a `uint8_t`. -/
def hex_byte (b : Nat) : List Char :=
  [hex_digit (b % 256 / 16), hex_digit (b % 16)]

/-- The conversion `%d` of an `int`. -/
def decimal (n : Int) : List Char :=
  if n < 0 then '-' :: Nat.toDigits 10 n.natAbs else Nat.toDigits 10 n.natAbs

/-- The function `dump_raw_message`: the characters it prints. -/
def dump_raw_message (updown : Char) (data : List Nat) (len : Nat) (rs_errors : Int) :
    List Char :=
  [updown] ++ (data.take len).flatMap hex_byte
    ++ (if rs_errors ≠ 0 then [';', 'r', 's', '='] ++ decimal rs_errors else [])
    ++ [';', '\n']

/-- The function `handle_adsb_frame`: the characters it prints. -/
def handle_adsb_frame (_timestamp : Nat) (frame : List Nat) (rs : Int) : List Char :=
  dump_raw_message '-' frame
    (if frame.getD 0 0 >>> 3 = 0 then SHORT_FRAME_DATA_BYTES else LONG_FRAME_DATA_BYTES) rs

/-- The function `handle_uplink_frame`: the characters it prints. -/
def handle_uplink_frame (_timestamp : Nat) (frame : List Nat) (rs : Int) : List Char :=
  dump_raw_message '+' frame UPLINK_FRAME_DATA_BYTES rs

/-! ## process_buffer -/

/-- The variables of `process_buffer` that live across iterations of its loop, and the text
printed so far. -/
structure Scan where
  bit : Nat
  sync0 : Nat
  sync1 : Nat
  demod_buf_a : List Nat
  demod_buf_b : List Nat
  out : List Char
  deriving DecidableEq, Repr

/-- Lines 282-292 and 307-317 of `process_buffer`: given the two demodulation attempts, print
at most one of them and move `bit`. The two places differ in the handler only. -/
def dispatch (handler : Nat → List Nat → Int → List Char) (offset index startbit : Nat)
    (d0 d1 : Demod) (s : Scan) : Scan :=
  if d0.skip ≠ 0 ∧ d0.rs_errors ≤ d1.rs_errors then
    { s with
      out := s.out ++ handler ((offset + index) % 2 ^ 64) d0.frame d0.rs_errors
      bit := (startbit + d0.skip).toNat }
  else if d1.skip ≠ 0 ∧ d1.rs_errors ≤ d0.rs_errors then
    { s with
      out := s.out ++ handler ((offset + index + 1) % 2 ^ 64) d1.frame d1.rs_errors
      bit := (startbit + d1.skip).toNat }
  else
    s

/-- The body of the loop of `process_buffer`, without the `++bit` that ends every iteration
(also after `continue`). -/
def scan_body (rs : Decoders) (phi : Nat → Nat) (len offset : Nat) (s : Scan) :
    Except Trap Scan := do
  let dphi0 ← dphi_at phi len (s.bit * 2)
  let dphi1 ← dphi_at phi len (s.bit * 2 + 1)
  let sync0 := ((s.sync0 <<< 1) ||| (if dphi0 > 0 then 1 else 0)) % 2 ^ 64
  let sync1 := ((s.sync1 <<< 1) ||| (if dphi1 > 0 then 1 else 0)) % 2 ^ 64
  let s := { s with sync0 := sync0, sync1 := sync1 }
  if s.bit < CHECK_BITS then
    pure s
  else if sync0 &&& CHECK_MASK = CHECK_ADSB ∨ sync1 &&& CHECK_MASK = CHECK_ADSB then
    let startbit := s.bit - CHECK_BITS + 1
    let shift := if sync0 &&& CHECK_MASK = CHECK_ADSB then 0 else 1
    let index := startbit * 2 + shift
    let d0 ← demod_adsb_frame rs phi len index s.demod_buf_a
    let d1 ← demod_adsb_frame rs phi len (index + 1) s.demod_buf_b
    pure (dispatch handle_adsb_frame offset index startbit d0 d1
      { s with demod_buf_a := d0.frame, demod_buf_b := d1.frame })
  else if sync0 &&& CHECK_MASK = CHECK_UPLINK ∨ sync1 &&& CHECK_MASK = CHECK_UPLINK then
    let startbit := s.bit - CHECK_BITS + 1
    let shift := if sync0 &&& CHECK_MASK = CHECK_UPLINK then 0 else 1
    let index := startbit * 2 + shift
    let d0 ← demod_uplink_frame rs phi len index s.demod_buf_a
    let d1 ← demod_uplink_frame rs phi len (index + 1) s.demod_buf_b
    pure (dispatch handle_uplink_frame offset index startbit d0 d1
      { s with demod_buf_a := d0.frame, demod_buf_b := d1.frame })
  else
    pure s

/-- The loop `for (bit = 0; bit < lenbits; ++bit)` of `process_buffer`, with a bound on the
number of iterations left. -/
def scan (rs : Decoders) (phi : Nat → Nat) (len offset : Nat) (lenbits : Int) :
    Nat → Scan → Except Trap Scan
  | 0, s => if (s.bit : Int) < lenbits then .error .out_of_fuel else .ok s
  | fuel + 1, s =>
    if (s.bit : Int) < lenbits then do
      let s' ← scan_body rs phi len offset s
      scan rs phi len offset lenbits fuel { s' with bit := s'.bit + 1 }
    else .ok s

/-- The function `process_buffer(phi, len, offset)`: its return value and the text it prints.
The arrays `demod_buf_a` and `demod_buf_b` start out zeroed here; a demodulator writes every
byte of them that is read later. -/
def process_buffer (rs : Decoders) (phi : Nat → Nat) (len offset : Nat) :
    Except Trap (Int × List Char) := do
  let lenbits : Int := ((len / 2 : Nat) : Int) - (((SYNC_BITS - CHECK_BITS) + UPLINK_FRAME_BITS : Nat) : Int)
  let s ← scan rs phi len offset lenbits lenbits.toNat
    ⟨0, 0, 0, List.replicate UPLINK_FRAME_BYTES 0, List.replicate UPLINK_FRAME_BYTES 0, []⟩
  pure (((s.bit : Int) - (CHECK_BITS : Nat)) * 2, s.out)

/-! ## The sample intake -/

/-- Load the 16-bit word `((uint16_t*) buffer)[i]` (little endian). -/
def load16 (buffer : List Nat) (i : Nat) : Except Trap Nat :=
  if 2 * i + 1 < buffer.length then
    .ok (buffer.getD (2 * i) 0 % 256 + 256 * (buffer.getD (2 * i + 1) 0 % 256))
  else .error .out_of_bounds

/-- Store the 16-bit word `((uint16_t*) buffer)[i] = v` (little endian). -/
def store16 (buffer : List Nat) (i : Nat) (v : Nat) : Except Trap (List Nat) :=
  if 2 * i + 1 < buffer.length then
    .ok ((buffer.set (2 * i) (v % 256)).set (2 * i + 1) (v / 256 % 256))
  else .error .out_of_bounds

/-- The phase buffer `(uint16_t*) buffer` seen by `process_buffer`. -/
def phi_of (buffer : List Nat) : Nat → Nat :=
  fun i => buffer.getD (2 * i) 0 % 256 + 256 * (buffer.getD (2 * i + 1) 0 % 256)

/-- Body of the loop of `convert_to_phi`, on the words from word index `start` on. -/
def convert_body (iqphase : Nat → Nat) (start : Nat) (i : Nat) (buffer : List Nat) :
    Except Trap (List Nat) := do
  let w ← load16 buffer (start + i)
  store16 buffer (start + i) (iqphase w)

/-- The function `convert_to_phi((uint16_t*) buffer + start, n)`; the table `iqphase` that
`make_atan2_table` fills is a parameter. -/
def convert_to_phi (iqphase : Nat → Nat) (buffer : List Nat) (start n : Nat) :
    Except Trap (List Nat) :=
  for_loop (convert_body iqphase start) n 0 buffer

/-- The variables of `read_from_stdin`, the text printed so far, and the trap that stopped the
run, if any. `buffer` holds the first `used` bytes of the C array. -/
structure Intake where
  buffer : List Nat
  used : Int
  offset : Nat
  out : List Char
  trap : Option Trap
  deriving DecidableEq, Repr

/-- The size of the array `buffer` of `read_from_stdin`. -/
def BUFFER_SIZE : Nat := 65536 * 2

/-- The body of the loop of `read_from_stdin`, after `read` has returned the bytes `chunk`
(stored at `buffer + used`). -/
def intake_body (rs : Decoders) (iqphase : Nat → Nat) (chunk : List Nat) (s : Intake) : Intake :=
  let n : Int := chunk.length
  match convert_to_phi iqphase (s.buffer ++ chunk) (s.used / 2).toNat
      ((s.used % 2 + n) / 2).toNat with
  | .error t => { s with trap := some t }
  | .ok buffer =>
    let used := s.used + n
    match process_buffer rs (phi_of buffer) (used / 2).toNat s.offset with
    | .error t => { s with buffer := buffer, used := used, trap := some t }
    | .ok (processed, text) =>
      let used := used - processed * 2
      let offset := (((s.offset : Int) + processed) % 2 ^ 64).toNat
      let out := s.out ++ text
      if used > 0 then
        -- memmove(buffer, buffer + processed * 2, used)
        if 0 ≤ processed ∧ processed * 2 + used ≤ buffer.length then
          ⟨(buffer.drop (processed * 2).toNat).take used.toNat, used, offset, out, none⟩
        else
          ⟨buffer, used, offset, out, some .out_of_bounds⟩
      else
        ⟨[], used, offset, out, none⟩

/-- The function `read_from_stdin`. The environment is the byte stream `input` on standard
input and, for each call of `read`, the largest number of bytes the call returns; `read` returns
0 (and the loop ends) when the stream is exhausted, when no room is left, or when the list of
calls ends. -/
def read_from_stdin (rs : Decoders) (iqphase : Nat → Nat) :
    List Nat → List Nat → Intake → Intake
  | [], _, s => s
  | most :: reads, input, s =>
    let n := min most (min (BUFFER_SIZE - s.used.toNat) input.length)
    if n = 0 then s
    else
      let s' := intake_body rs iqphase (input.take n) s
      if s'.trap.isSome then s' else read_from_stdin rs iqphase reads (input.drop n) s'

/-- The program started on the byte stream `input`: the text it prints, and the trap that
stopped it, if any. -/
def run (rs : Decoders) (iqphase : Nat → Nat) (reads : List Nat) (input : List Nat) :
    List Char × Option Trap :=
  let s := read_from_stdin rs iqphase reads input ⟨[], 0, 0, [], none⟩
  (s.out, s.trap)

/-! ## Specification helpers -/

/-- The number of one bits among the first `i` bits (from bit 35 down) of a sync pattern. -/
def sync_ones (pattern : Nat) : Nat → Nat
  | 0 => 0
  | i + 1 => sync_ones pattern i + (if pattern &&& (1 <<< (35 - i)) ≠ 0 then 1 else 0)

/-- The codeword of uplink block `b`: the wire bytes at indices `b, b + 6, b + 12, ...`. -/
def wire_block (interleaved : List Nat) (b : Nat) : List Nat :=
  (List.range UPLINK_BLOCK_BYTES).map fun i =>
    interleaved.getD (i * UPLINK_FRAME_BLOCKS + b) 0 % 256

/-- The count the uplink decoder reports for block `b`. -/
def block_count (rs : Decoders) (interleaved : List Nat) (b : Nat) : Int :=
  (rs.rs_uplink (wire_block interleaved b)).1

/-- The bytes of block `b` as its RS decode leaves them. -/
def block_decoded (rs : Decoders) (interleaved : List Nat) (b : Nat) : List Nat :=
  codeword_after UPLINK_BLOCK_BYTES (wire_block interleaved b)
    (rs.rs_uplink (wire_block interleaved b)).2

/-- The sum of the counts reported for the `k` blocks from block `b` on. -/
def block_count_sum (rs : Decoders) (interleaved : List Nat) : Nat → Nat → Int
  | _, 0 => 0
  | b, k + 1 => block_count rs interleaved b + block_count_sum rs interleaved (b + 1) k

/-- What a frame demodulator reports: failure, as `0` and `9999`, or success, as a positive
number of bits and a count of corrected errors in 0..60. -/
def Demod.reported (d : Demod) : Prop :=
  (d.skip = 0 ∧ d.rs_errors = 9999) ∨ (0 < d.skip ∧ 0 ≤ d.rs_errors ∧ d.rs_errors ≤ 60)

/-! ## The scan loop away from a match -/

/-- The bit decision `dphi > 0 ? 1 : 0` for the pair of samples `phi[i], phi[i+1]`. -/
def dbit (phi : Nat → Nat) (i : Nat) : Nat :=
  if phi_difference (phi i % 65536) (phi (i + 1) % 65536) > 0 then 1 else 0

/-- The update `sync = (sync << 1) | b` of a 64-bit correlator register. -/
def shift_in (r b : Nat) : Nat := ((r <<< 1) ||| b) % 2 ^ 64

/-- One of the four tests of `process_buffer` on the low `CHECK_BITS` bits succeeds. -/
def window_hit (r0 r1 : Nat) : Prop :=
  (r0 &&& CHECK_MASK = CHECK_ADSB ∨ r1 &&& CHECK_MASK = CHECK_ADSB) ∨
    (r0 &&& CHECK_MASK = CHECK_UPLINK ∨ r1 &&& CHECK_MASK = CHECK_UPLINK)

instance (r0 r1 : Nat) : Decidable (window_hit r0 r1) := by
  unfold window_hit
  infer_instance

/-- The next `k` iterations, from `bit` on and with the registers `r0`, `r1`, call no
demodulator: each comes before the registers are filled or finds no match. -/
def regs_quiet (phi : Nat → Nat) : Nat → Nat → Nat → Nat → Prop
  | 0, _, _, _ => True
  | k + 1, bit, r0, r1 =>
    (bit < CHECK_BITS ∨
      ¬ window_hit (shift_in r0 (dbit phi (bit * 2))) (shift_in r1 (dbit phi (bit * 2 + 1)))) ∧
    regs_quiet phi k (bit + 1) (shift_in r0 (dbit phi (bit * 2)))
      (shift_in r1 (dbit phi (bit * 2 + 1)))

instance regs_quiet_decidable (phi : Nat → Nat) : (k bit r0 r1 : Nat) →
    Decidable (regs_quiet phi k bit r0 r1)
  | 0, _, _, _ => isTrue trivial
  | k + 1, bit, r0, r1 =>
    have := regs_quiet_decidable phi k (bit + 1) (shift_in r0 (dbit phi (bit * 2)))
      (shift_in r1 (dbit phi (bit * 2 + 1)))
    inferInstanceAs (Decidable (_ ∧ _))

/-- The registers after `k` iterations from `bit` on. -/
def regs_after (phi : Nat → Nat) : Nat → Nat → Nat → Nat → Nat × Nat
  | 0, _, r0, r1 => (r0, r1)
  | k + 1, bit, r0, r1 =>
    regs_after phi k (bit + 1) (shift_in r0 (dbit phi (bit * 2)))
      (shift_in r1 (dbit phi (bit * 2 + 1)))

/-- Registers that cause no match however many zero bits are shifted in after them. -/
def drained (r0 r1 : Nat) : Prop :=
  ∀ j, 1 ≤ j → ¬ window_hit (r0 * 2 ^ j % 2 ^ 64) (r1 * 2 ^ j % 2 ^ 64)

/-! ## A planted long ADS-B frame -/

/-- Bit `j` of the planted transmission: the 36 bits of the ADS-B sync word, most significant
first, then the bits of the frame bytes, most significant first. -/
def adsb_bit (payload : List Nat) (j : Nat) : Bool :=
  if j < SYNC_BITS then ADSB_SYNC_WORD.testBit (35 - j)
  else (payload.getD ((j - SYNC_BITS) / 8) 0).testBit (7 - (j - SYNC_BITS) % 8)

/-- Byte `i` of the planted input: sample `i / 2` is (I, Q) = (0, 0) among the 400 leading
samples, from sample 1240 on, and for the first sample of each of the 420 bit periods; the
second sample of a bit period is (255, 0) for a one and (0, 255) for a zero. -/
def planted_byte (payload : List Nat) (i : Nat) : Nat :=
  if i / 2 < 400 ∨ 1240 ≤ i / 2 then 0
  else if (i / 2 - 400) % 2 = 0 then 0
  else if adsb_bit payload ((i / 2 - 400) / 2) then (if i % 2 = 0 then 255 else 0)
  else (if i % 2 = 0 then 0 else 255)

/-- The planted input: 400 zero samples, the sync word and the 48 frame bytes at two samples
per bit, then `trailing` zero samples. -/
def planted_stream (payload : List Nat) (trailing : Nat) : List Nat :=
  (List.range (2 * (1240 + trailing))).map (planted_byte payload)

/-- The phase of sample `k` of the planted input, for a table that maps the samples (0, 0),
(255, 0) and (0, 255) to 8192, 8192 + 16384 and 8192 - 16384: the phase difference over a bit
period is +16384 for a one and -16384 for a zero. -/
def planted_phase (payload : List Nat) (k : Nat) : Nat :=
  if k < 400 ∨ 1240 ≤ k then 8192
  else if (k - 400) % 2 = 0 then 8192
  else if adsb_bit payload ((k - 400) / 2) then 24576 else 57344

/-- The record printed for a long frame decoded without corrections. -/
def long_record (payload : List Nat) : List Char :=
  ['-'] ++ (payload.take LONG_FRAME_DATA_BYTES).flatMap hex_byte ++ [';', '\n']

/-! ## Two frames back to back -/

/-- The bit sent in bit period `m` of the back-to-back input, if any: the ADS-B sync word in
periods 1..36 and the uplink sync word in periods 277..312, directly after the 240 bit periods
of a short ADS-B frame. -/
def b2b_bit (m : Nat) : Option Bool :=
  if 1 ≤ m ∧ m < 37 then some (ADSB_SYNC_WORD.testBit (36 - m))
  else if 277 ≤ m ∧ m < 313 then some (UPLINK_SYNC_WORD.testBit (312 - m))
  else none

/-- Byte `i` of the back-to-back input: the first sample of every bit period is (I, Q) = (0, 0);
the second is (255, 0) for a one, (0, 255) for a zero and (0, 0) where nothing is sent (so the
frame bytes are all zero). -/
def b2b_byte (i : Nat) : Nat :=
  if i / 2 % 2 = 0 then 0
  else match b2b_bit (i / 4) with
    | some true => if i % 2 = 0 then 255 else 0
    | some false => if i % 2 = 0 then 0 else 255
    | none => 0

/-- The back-to-back input: 4729 bit periods (one idle, 276 of a short ADS-B frame, 4452 of an
uplink frame) and `trailing` idle ones, four bytes each. -/
def b2b_stream (trailing : Nat) : List Nat :=
  (List.range (4 * (4729 + trailing))).map b2b_byte

/-- The phase of sample `k` of the back-to-back input, for a table that maps the samples
(0, 0), (255, 0) and (0, 255) to 8192, 8192 + 16384 and 8192 - 16384. -/
def b2b_phase (k : Nat) : Nat :=
  if k % 2 = 0 then 8192
  else match b2b_bit (k / 2) with
    | some true => 24576
    | some false => 57344
    | none => 8192

/-- The record printed for a short frame of 18 zero bytes decoded without corrections. -/
def short_zero_record : List Char :=
  ['-'] ++ (List.replicate SHORT_FRAME_DATA_BYTES 0).flatMap hex_byte ++ [';', '\n']

/-! ## Concrete inputs -/

/-- A decoder that finds every codeword uncorrectable and leaves it unchanged. -/
def rs_reject : Decoders :=
  ⟨fun codeword => (-1, codeword), fun codeword => (-1, codeword), fun codeword => (-1, codeword)⟩

/-- A decoder that knows the all-zero codeword only: it reports no correction for it and finds
every other codeword uncorrectable. -/
def rs_zero : Decoders :=
  ⟨fun codeword => (if codeword.all (fun b => b == 0) then 0 else -1, codeword),
   fun codeword => (if codeword.all (fun b => b == 0) then 0 else -1, codeword),
   fun codeword => (if codeword.all (fun b => b == 0) then 0 else -1, codeword)⟩

/-- A phase buffer that holds the uplink sync word from sample 3 on, every bit as a pair
`(8192, 8192 + 16384)` or `(8192, 8192 - 16384)`, and the phase 8192 everywhere else. -/
def phi_uplink_at_3 (i : Nat) : Nat :=
  if 3 ≤ i ∧ i < 75 then
    (if (i - 3) % 2 = 0 then 8192
     else if UPLINK_SYNC_WORD.testBit (35 - (i - 3) / 2) then 24576 else 57344)
  else 8192

/-- The entries of the table of `make_atan2_table` for the four samples whose I and Q are 0 or
255, where `atan2` is an odd multiple of pi/4; every other entry is left 0 here. -/
def iqphase_corners (w : Nat) : Nat :=
  if w = 0x0000 then 8192 else if w = 0x00FF then 24576
  else if w = 0xFFFF then 40960 else if w = 0xFF00 then 57344 else 0

/-- Bounded-distance decoding around the all-zero codeword, for a code that corrects `t` byte
errors: a word with at most `t` nonzero bytes is corrected to zeros and their number reported;
any other word is found uncorrectable and left unchanged. -/
def near_zero (t : Nat) (codeword : List Nat) : Int × List Nat :=
  if (codeword.filter (fun b => b != 0)).length ≤ t then
    (((codeword.filter (fun b => b != 0)).length : Nat), List.replicate codeword.length 0)
  else (-1, codeword)

/-- The three codecs of `main` (12, 14 and 20 roots, so 6, 7 and 10 correctable bytes), as far
as words near the all-zero codeword go. -/
def rs_near_zero : Decoders :=
  ⟨near_zero 6, near_zero 7, near_zero 10⟩

/-- A decoder whose long ADS-B codec reports no correction for the codeword `payload` and finds
every other codeword uncorrectable. -/
def rs_planted (payload : List Nat) : Decoders :=
  ⟨fun codeword => (-1, codeword),
   fun codeword => (if codeword = payload then 0 else -1, codeword),
   fun codeword => (-1, codeword)⟩

/-- The 48 bytes of a long frame of type 1 with all other bytes zero. -/
def payload_example : List Nat := 8 :: List.replicate 47 0

/-! ## The other variant of phi_difference -/

/-- The macro `phi_difference` compiled with `USE_SIGNED_OVERFLOW`:
`((int16_t)((to) - (from)))`. The operands are promoted to `int`, and the conversion of the
difference to `int16_t` wraps. -/
def phi_difference_overflow (from_phi to_phi : Nat) : Int :=
  to_int16 ((to_phi : Int) - (from_phi : Int))

/-! ## A sync word on the air -/

/-- Phase samples that carry the low `n` bits of `word`, most significant first, at two samples
per bit: the phase rises by 16384 over a one bit, falls by 16384 over a zero bit, and is 8192 at
the start of every bit period and after the last bit. -/
def word_phase (word n : Nat) (k : Nat) : Nat :=
  if k % 2 = 0 ∨ n ≤ k / 2 then 8192
  else if word.testBit (n - 1 - k / 2) then 24576 else 57344

/-! ## The record format in the words of the specification -/

/-- The sixteen lowercase hexadecimal digits. -/
def lower_hex_digits : List Char :=
  "0123456789abcdef".toList

/-- A byte as two lowercase hexadecimal digits, the high one first. -/
def lower_hex (b : Nat) : List Char :=
  [lower_hex_digits.getD (b / 16) '?', lower_hex_digits.getD (b % 16) '?']

/-- The record for a frame of direction `dir` with the payload bytes `payload` and `n`
corrected errors: the direction character, the payload in hexadecimal, `;rs=<n>` in decimal
when `n > 0`, a semicolon and a newline. -/
def record_text (dir : Char) (payload : List Nat) (n : Int) : List Char :=
  [dir] ++ payload.flatMap lower_hex
    ++ (if n > 0 then [';', 'r', 's', '='] ++ (Nat.repr n.toNat).toList else [])
    ++ [';', '\n']

/-! ## More concrete inputs -/

/-- A frame buffer of zero bytes. -/
def zero_frame : List Nat := List.replicate UPLINK_FRAME_BYTES 0

/-- Phase samples that carry the uplink sync word from sample 2 on, two samples per bit, with
a frequency offset of 1000 and a deviation of 4096: the phase moves by 1000 + 4096 over a one
bit and by 1000 - 4096 over a zero bit. -/
def offset_phase (k : Nat) : Nat :=
  if k % 2 = 0 ∨ k < 2 ∨ 74 ≤ k then 30000
  else if UPLINK_SYNC_WORD.testBit (35 - (k - 2) / 2) then 30000 + 1000 + 4096
  else 30000 + 1000 - 4096

/-! ## The conversion invariant of the intake loop -/

/-- The bytes `buffer` are the bytes `c .. c + buffer.length - 1` of the input `stream`, with
each of the first `buffer.length / 2` words replaced by the table entry of the raw byte pair
and a trailing odd byte still raw; `c` is even. -/
def carried (iqphase : Nat → Nat) (stream : List Nat) (c : Nat) (buffer : List Nat) : Prop :=
  c % 2 = 0 ∧ c + buffer.length ≤ stream.length ∧
    (∀ k, k < buffer.length / 2 →
      phi_of buffer k = iqphase (phi_of stream (c / 2 + k)) % 65536) ∧
    (buffer.length % 2 = 1 →
      buffer.getD (buffer.length - 1) 0 = stream.getD (c + buffer.length - 1) 0)

instance (iqphase : Nat → Nat) (stream : List Nat) (c : Nat) (buffer : List Nat) :
    Decidable (carried iqphase stream c buffer) := by
  unfold carried
  infer_instance

/-! ## A frame followed by the tail of a sync word -/

/-- The bit sent in bit period `m` of the overlap input, if any: the ADS-B sync word in periods
1..36 (a short frame of zero bytes follows in periods 37..276) and, in periods 278..292, the
last 15 of the first 18 bits of the ADS-B sync word. -/
def ovl_bit (m : Nat) : Option Bool :=
  if 1 ≤ m ∧ m < 37 then some (ADSB_SYNC_WORD.testBit (36 - m))
  else if 278 ≤ m ∧ m < 293 then some (CHECK_ADSB.testBit (292 - m))
  else none

/-- The phase of sample `k` of the overlap input: 8192 at the first sample of every bit
period, and at the second sample 8192 + 16384 for a one, 8192 - 16384 for a zero and 8192
where nothing is sent. -/
def ovl_phase (k : Nat) : Nat :=
  if k % 2 = 0 then 8192
  else match ovl_bit (k / 2) with
    | some true => 24576
    | some false => 57344
    | none => 8192

/-! ## make_atan2_table -/

/-- The function `round` of the C library on a finite `double`, which is a rational number:
the nearest integer, halfway cases away from zero. -/
def c_round (x : ℚ) : Int :=
  if x < 0 then -⌊-x + 1 / 2⌋ else ⌊x + 1 / 2⌋

/-- The value stored by
`iqphase[u.iq16] = (scaled_ang < 0 ? 0 : scaled_ang > 65535 ? 65535 : (uint16_t)scaled_ang)`
for `scaled_ang = round(x)`. -/
def phase_entry (x : ℚ) : Nat :=
  let scaled_ang := c_round x
  if scaled_ang < 0 then 0 else if scaled_ang > 65535 then 65535 else scaled_ang.toNat

/-- The floating-point environment of `make_atan2_table`. A finite `double` is taken as the
rational number it denotes; `atan2` is the function of the C library on two doubles, and `fl`
rounds the exact result of an arithmetic operation to a `double`. -/
structure Floats where
  atan2 : ℚ → ℚ → ℚ
  fl : ℚ → ℚ

/-- The constant `M_PI` of `math.h`, the `double` nearest to pi: `0x1.921fb54442d18p+1`. -/
def M_PI : ℚ := 884279719003555 / 281474976710656

/-- The value of `32768 * ang / M_PI` in the inner loop of `make_atan2_table`, for
`double d_i = (i - 127.5); double d_q = (q - 127.5); double ang = atan2(d_q, d_i) + M_PI;`.
The two differences are multiples of 1/2 below 128 and so exact; the sum, the product and the
quotient are rounded. -/
def scaled_angle (fp : Floats) (i q : Nat) : ℚ :=
  let d_i : ℚ := (i : ℚ) - 255 / 2
  let d_q : ℚ := (q : ℚ) - 255 / 2
  let ang : ℚ := fp.fl (fp.atan2 d_q d_i + M_PI)
  fp.fl (fp.fl (32768 * ang) / M_PI)

/-- Body of the inner loop of `make_atan2_table`: `scaled_ang = round(32768 * ang / M_PI)` is
clamped and stored. The union `u` puts `i` in the low byte of the index and `q` in the high
byte (little endian). -/
def atan2_inner_body (fp : Floats) (i : Nat) (q : Nat) (table : Nat → Nat) :
    Except Trap (Nat → Nat) :=
  pure fun index => if index = i + 256 * q then phase_entry (scaled_angle fp i q) else table index

/-- Body of the outer loop of `make_atan2_table`. -/
def atan2_outer_body (fp : Floats) (i : Nat) (table : Nat → Nat) :
    Except Trap (Nat → Nat) :=
  for_loop (atan2_inner_body fp i) 256 0 table

/-- The function `make_atan2_table`: the array `iqphase` it leaves, which starts out zeroed. -/
def make_atan2_table (fp : Floats) : Except Trap (Nat → Nat) :=
  for_loop (atan2_outer_body fp) 256 0 (fun _ => 0)

/-- A floating-point environment with exact arithmetic whose `atan2` returns the `double`
nearest to the angle on the two diagonals, the odd multiples of `M_PI / 4`, and 0 elsewhere. -/
def fp_diagonal : Floats :=
  ⟨fun y x =>
      if y = x then (if 0 < x then M_PI / 4 else -(3 * M_PI / 4))
      else if y = -x then (if 0 < x then -(M_PI / 4) else 3 * M_PI / 4)
      else 0,
    fun x => x⟩

/-! ## The output buffer of the uplink demodulator, block by block -/

/-- The output buffer of `demod_uplink_frame` when its block loop arrives at block `b`: the
buffer of the caller in which, for each earlier block `c` in turn, the 92 bytes from position
`72 c` on have been replaced by the codeword of block `c` as its RS decode leaves it. -/
def frame_after (rs : Decoders) (interleaved frame : List Nat) : Nat → List Nat
  | 0 => frame
  | b + 1 =>
    (frame_after rs interleaved frame b).take (b * UPLINK_BLOCK_DATA_BYTES) ++
      block_decoded rs interleaved b ++
      (frame_after rs interleaved frame b).drop (b * UPLINK_BLOCK_DATA_BYTES + UPLINK_BLOCK_BYTES)

/-! ## The intake loop followed past the bytes read so far -/

/-- The variables of `read_from_stdin` and the text printed so far, with the memory in and
around the array: `mem a` is the byte at the address `buffer + a`, inside the array for
`0 ≤ a < 131072` and next to it otherwise. A load outside the bytes read so far finds
whatever this memory holds. -/
structure Flat where
  mem : Int → Nat
  used : Int
  offset : Nat
  out : List Char

/-- The phase buffer `(uint16_t*) buffer` in the memory `mem` (little endian). -/
def phi_flat (mem : Int → Nat) : Nat → Nat :=
  fun i => mem (2 * (i : Int)) % 256 + 256 * (mem (2 * (i : Int) + 1) % 256)

/-- The call `read(0, buffer + used, _)` that returned the bytes `chunk`. -/
def read_flat (mem : Int → Nat) (used : Int) (chunk : List Nat) : Int → Nat :=
  fun a =>
    if used ≤ a ∧ a < used + (chunk.length : Int) then chunk.getD (a - used).toNat 0 % 256
    else mem a

/-- Body of the loop of `convert_to_phi((uint16_t*) (buffer + base), n)` in the memory `mem`:
`buffer[i] = iqphase[buffer[i]]`. -/
def convert_body_flat (iqphase : Nat → Nat) (base : Int) (mem : Int → Nat) (i : Nat) :
    Int → Nat :=
  let w := mem (base + 2 * (i : Int)) % 256 + 256 * (mem (base + 2 * (i : Int) + 1) % 256)
  let v := iqphase w
  fun a =>
    if a = base + 2 * (i : Int) then v % 256
    else if a = base + 2 * (i : Int) + 1 then v / 256 % 256
    else mem a

/-- The function `convert_to_phi((uint16_t*) (buffer + base), n)` in the memory `mem`. -/
def convert_to_phi_flat (iqphase : Nat → Nat) (mem : Int → Nat) (base : Int) (n : Nat) :
    Int → Nat :=
  (List.range n).foldl (convert_body_flat iqphase base) mem

/-- The call `memmove(buffer, buffer + shift, used)` in the memory `mem`. -/
def memmove_flat (mem : Int → Nat) (shift used : Int) : Int → Nat :=
  fun a => if 0 ≤ a ∧ a < used then mem (a + shift) else mem a

/-- The function `process_buffer(phi, len, offset)` with every load checked against `reach`
samples instead of `len`: its return value and the text it prints. With `reach = len` this is
`process_buffer`. -/
def process_buffer_within (rs : Decoders) (phi : Nat → Nat) (reach len offset : Nat) :
    Except Trap (Int × List Char) := do
  let lenbits : Int := ((len / 2 : Nat) : Int) - (((SYNC_BITS - CHECK_BITS) + UPLINK_FRAME_BITS : Nat) : Int)
  let s ← scan rs phi reach offset lenbits lenbits.toNat
    ⟨0, 0, 0, List.replicate UPLINK_FRAME_BYTES 0, List.replicate UPLINK_FRAME_BYTES 0, []⟩
  pure (((s.bit : Int) - (CHECK_BITS : Nat)) * 2, s.out)

/-- The body of the loop of `read_from_stdin` in the memory `mem`, after `read` has returned
the bytes `chunk`: every statement is carried out, whatever `process_buffer` returns. The loads
of `process_buffer` are checked against `used / 2 + 2` samples, which they never exceed. -/
def intake_body_flat (rs : Decoders) (iqphase : Nat → Nat) (chunk : List Nat) (s : Flat) :
    Except Trap Flat := do
  let n : Int := chunk.length
  let mem := read_flat s.mem s.used chunk
  let mem := convert_to_phi_flat iqphase mem (s.used - s.used % 2) ((s.used % 2 + n) / 2).toNat
  let used := s.used + n
  let (processed, text) ←
    process_buffer_within rs (phi_flat mem) ((used / 2).toNat + 2) (used / 2).toNat s.offset
  let used := used - processed * 2
  let offset := (((s.offset : Int) + processed) % 2 ^ 64).toNat
  pure ⟨if used > 0 then memmove_flat mem (processed * 2) used else mem, used, offset,
    s.out ++ text⟩

/-- The function `read_from_stdin` in the memory `mem`, with the environment of
`read_from_stdin`: the byte stream `input` and, for each call of `read`, the largest number of
bytes the call returns. -/
def read_from_stdin_flat (rs : Decoders) (iqphase : Nat → Nat) :
    List Nat → List Nat → Flat → Except Trap Flat
  | [], _, s => pure s
  | most :: reads, input, s =>
    let n := min most (min (BUFFER_SIZE - s.used.toNat) input.length)
    if n = 0 then pure s
    else do
      let s' ← intake_body_flat rs iqphase (input.take n) s
      read_from_stdin_flat rs iqphase reads (input.drop n) s'

/-! ## Checking angles with integers

A pair of enclosures `(clo, chi, slo, shi)` bounds `2^64 cos t` and `2^64 sin t` for an angle
`t` in the first quadrant. The functions below multiply such enclosures along the binary digits
of an angle and compare the angle of a point `(u, v)` with the result; they use the arithmetic
of `Nat` directly, so that they evaluate fast. They are not part of the program: they serve
the proof that no value of the phase table lies close to halfway between two integers. -/

/-- Enclosures of `2^64 cos (pi / 2^m)` and `2^64 sin (pi / 2^m)` for `m = 1, ..., 30`. -/
def dyadic_list : List (Nat × Nat × Nat × Nat) :=
  [(0, 0, 18446744073709551616, 18446744073709551616),
   (13043817825332782212, 13043817825332782213, 13043817825332782211, 13043817825332782213),
   (17042569291174129989, 17042569291174129990, 7059263338087549765, 7059263338087549768),
   (18092295058859852118, 18092295058859852119, 3598781241489102187, 3598781241489102190),
   (18357917958986607856, 18357917958986607857, 1808097102496279520, 1808097102496279523),
   (18424524162600791837, 18424524162600791838, 905138830610008562, 905138830610008565),
   (18441188259278644697, 18441188259278644698, 452705761816584061, 452705761816584064),
   (18445355067807029947, 18445355067807029948, 226369926147403916, 226369926147403918),
   (18446396818965434987, 18446396818965434988, 113187093788755729, 113187093788755731),
   (18446657259819241109, 18446657259819241110, 56593813235639762, 56593813235639764),
   (18446722370224206389, 18446722370224206391, 28296939910536373, 28296939910536375),
   (18446738647837417334, 18446738647837417335, 14148474116859584, 14148474116859586),
   (18446742717241468172, 18446742717241468173, 7074237578628774, 7074237578628776),
   (18446743734592527637, 18446743734592527639, 3537118854339261, 3537118854339263),
   (18446743988930295426, 18446743988930295427, 1768559435297739, 1768559435297741),
   (18446744052514737556, 18446744052514737557, 884279718664883, 884279718664885),
   (18446744068410848100, 18446744068410848101, 442139859459443, 442139859459445),
   (18446744072384875736, 18446744072384875738, 221069929745596, 221069929745598),
   (18446744073378382645, 18446744073378382647, 110534964874782, 110534964874784),
   (18446744073626759373, 18446744073626759374, 55267482437639, 55267482437641),
   (18446744073688853555, 18446744073688853556, 27633741218850, 27633741218852),
   (18446744073704377100, 18446744073704377101, 13816870609428, 13816870609430),
   (18446744073708257986, 18446744073708257988, 6908435304714, 6908435304716),
   (18446744073709228208, 18446744073709228209, 3454217652357, 3454217652359),
   (18446744073709470763, 18446744073709470765, 1727108826178, 1727108826180),
   (18446744073709531402, 18446744073709531404, 863554413089, 863554413091),
   (18446744073709546562, 18446744073709546563, 431777206544, 431777206546),
   (18446744073709550352, 18446744073709550353, 215888603272, 215888603274),
   (18446744073709551299, 18446744073709551301, 107944301636, 107944301638),
   (18446744073709551536, 18446744073709551538, 53972150818, 53972150820)]

/-- The integer inequalities by which an enclosure for the angle `2 t` yields `cur` as an
enclosure for the angle `t`: `2 cos^2 t = 1 + cos 2t` and `2 sin t cos t = sin 2t`. -/
def half_angle_ok (prev cur : Nat × Nat × Nat × Nat) : Bool :=
  decide (2 * cur.1 ^ 2 ≤ 2 ^ 128 + prev.1 * 2 ^ 64) &&
    decide (2 ^ 128 + prev.2.1 * 2 ^ 64 ≤ 2 * cur.2.1 ^ 2) &&
    decide (cur.2.2.1 * (2 * cur.2.1) ≤ prev.2.2.1 * 2 ^ 64) &&
    decide (prev.2.2.2 * 2 ^ 64 ≤ cur.2.2.2 * (2 * cur.1)) &&
    decide (0 < cur.1)

/-- Every entry of a list halves the angle of the entry before it. -/
def chain_ok : List (Nat × Nat × Nat × Nat) → Bool
  | a :: b :: rest => half_angle_ok a b && chain_ok (b :: rest)
  | _ => true

/-- The last step of `turn`: the enclosure of the angle `t` is multiplied by that of
`pi / 2^30`, and the point `(u, v)` is found strictly above the angle `t + pi / 2^30` when
`u * shi < v * clo` for the product. -/
def turn_end (u v : Nat) (_K clo chi _slo shi : Nat) : Bool :=
  Nat.blt
    (Nat.mul u (Nat.add (Nat.add (Nat.shiftRight (Nat.mul shi 18446744073709551538) 64)
      (Nat.shiftRight (Nat.mul chi 53972150820) 64)) 2))
    (Nat.mul v (Nat.sub (Nat.shiftRight (Nat.mul clo 18446744073709551536) 64)
      (Nat.add (Nat.shiftRight (Nat.mul shi 53972150820) 64) 1)))

/-- One step of `turn`: when the lowest bit of `K` is set, the enclosure is multiplied by the
enclosure `(a, b, c, d)` of the angle of this step; `K` is halved for the step `k` that
follows. -/
def turn_step (a b c d : Nat) (k : Nat → Nat → Nat → Nat → Nat → Bool)
    (K clo chi slo shi : Nat) : Bool :=
  cond (Nat.beq (Nat.land K 1) 1)
    (k (Nat.shiftRight K 1)
      (Nat.sub (Nat.shiftRight (Nat.mul clo a) 64)
        (Nat.add (Nat.shiftRight (Nat.mul shi d) 64) 1))
      (Nat.sub (Nat.add (Nat.shiftRight (Nat.mul chi b) 64) 1)
        (Nat.shiftRight (Nat.mul slo c) 64))
      (Nat.add (Nat.shiftRight (Nat.mul slo a) 64) (Nat.shiftRight (Nat.mul clo c) 64))
      (Nat.add (Nat.add (Nat.shiftRight (Nat.mul shi b) 64)
        (Nat.shiftRight (Nat.mul chi d) 64)) 2))
    (k (Nat.shiftRight K 1) clo chi slo shi)

/-- The steps for the angles `pi / 2^16`, `pi / 2^15`, ..., `pi / 4`, in this order, one for
each of the 15 bits of `K` from the lowest on, and the last step: from the enclosure of the
angle 0 the result is true only if the point `(u, v)` lies strictly above the angle
`K pi / 2^16 + pi / 2^30`. -/
def turn (u v : Nat) : Nat → Nat → Nat → Nat → Nat → Bool :=
  (turn_step 18446744052514737556 18446744052514737557
    884279718664883 884279718664885
    (turn_step 18446743988930295426 18446743988930295427
    1768559435297739 1768559435297741
    (turn_step 18446743734592527637 18446743734592527639
    3537118854339261 3537118854339263
    (turn_step 18446742717241468172 18446742717241468173
    7074237578628774 7074237578628776
    (turn_step 18446738647837417334 18446738647837417335
    14148474116859584 14148474116859586
    (turn_step 18446722370224206389 18446722370224206391
    28296939910536373 28296939910536375
    (turn_step 18446657259819241109 18446657259819241110
    56593813235639762 56593813235639764
    (turn_step 18446396818965434987 18446396818965434988
    113187093788755729 113187093788755731
    (turn_step 18445355067807029947 18445355067807029948
    226369926147403916 226369926147403918
    (turn_step 18441188259278644697 18441188259278644698
    452705761816584061 452705761816584064
    (turn_step 18424524162600791837 18424524162600791838
    905138830610008562 905138830610008565
    (turn_step 18357917958986607856 18357917958986607857
    1808097102496279520 1808097102496279523
    (turn_step 18092295058859852118 18092295058859852119
    3598781241489102187 3598781241489102190
    (turn_step 17042569291174129989 17042569291174129990
    7059263338087549765 7059263338087549768
    (turn_step 13043817825332782212 13043817825332782213
    13043817825332782211 13043817825332782213
    (turn_end u v))))))))))))))))

/-- True only if `(2 n - 1) pi / 65536 + pi / 2^30 < arctan (v / u)`. -/
def below (u v n : Nat) : Bool :=
  and (and (Nat.ble 1 n) (Nat.ble n 16383))
    (turn u v (Nat.sub (Nat.mul 2 n) 1) 18446744073709551616 18446744073709551616 0 0)

/-- The sum `1 - T2 / 3 + T2^2 / 5 - ...` with `k + 1` terms more, scaled by `2^64`. -/
def atan_horner (T2 : Nat) : Nat → Nat → Nat
  | 0, h => h
  | k + 1, h => atan_horner T2 k
      (Nat.sub (Nat.div 18446744073709551616 (Nat.add (Nat.mul 2 k) 1))
        (Nat.shiftRight (Nat.mul T2 h) 64))

/-- An approximation of `32768 (base ± arctan (num / den)) / pi`, rounded to the nearest
integer, for a small quotient. -/
def guess_low (num den base : Nat) (neg : Bool) : Nat :=
  (fun T => (fun a =>
      Nat.shiftRight (Nat.add (Nat.shiftRight (Nat.mul (cond neg (Nat.sub base a) (Nat.add base a))
        192406520023089244274688) 64) 9223372036854775808) 64)
    (Nat.shiftRight (Nat.mul T
      (atan_horner (Nat.shiftRight (Nat.mul T T) 64) 8 1085102592571150095)) 64))
    (Nat.div (Nat.mul num 18446744073709551616) den)

/-- An approximation of `32768 arctan (v / u) / pi`, rounded to the nearest integer, for
`v ≤ u`: from the series of `arctan` around 0 or around 1/2. Nothing is claimed for it; `cell_ok`
checks the result. -/
def guess_oct (u v : Nat) : Nat :=
  cond (Nat.ble u (Nat.mul 4 v))
    (cond (Nat.ble u (Nat.mul 2 v))
      (guess_low (Nat.sub (Nat.mul 2 v) u) (Nat.add (Nat.mul 2 u) v) 8552788783625223168 false)
      (guess_low (Nat.sub u (Nat.mul 2 v)) (Nat.add (Nat.mul 2 u) v) 8552788783625223168 true))
    (guess_low v u 0 false)

/-- True only if `32768 arctan (v / u) / pi` lies between `n - 1/2 + 2^-15` and
`n + 1/2 - 2^-15` for `n = guess_oct u v`. -/
def cell_ok (u v : Nat) : Bool :=
  (fun n => and (below u v n) (below v u (Nat.sub 16384 n))) (guess_oct u v)

/-- The cells `(u, 1), (u, 3), ..., (u, 2 b - 1)` pass. -/
def row_ok (u : Nat) : Nat → Bool
  | 0 => true
  | b + 1 => and (cell_ok u (Nat.add (Nat.mul 2 b) 1)) (row_ok u b)

/-- The cells `(u, v)` with `u` and `v` odd, `v ≤ u ≤ 2 a - 1` pass. -/
def rows_ok : Nat → Bool
  | 0 => true
  | a + 1 => and (row_ok (Nat.add (Nat.mul 2 a) 1) (Nat.add a 1)) (rows_ok a)

/-- The numbers `clo ≤ chi` and `slo ≤ shi` enclose `2^64 cos t` and `2^64 sin t`. -/
def Encl (t : ℝ) (clo chi slo shi : Nat) : Prop :=
  (clo : ℝ) ≤ 2 ^ 64 * Real.cos t ∧ 2 ^ 64 * Real.cos t ≤ (chi : ℝ) ∧
    (slo : ℝ) ≤ 2 ^ 64 * Real.sin t ∧ 2 ^ 64 * Real.sin t ≤ (shi : ℝ)

/-- The step `k` of `turn`, which finds `m - 1` bits in `K`, is sound: from an enclosure of an
angle `t` it answers true only if the point `(u, v)` lies strictly above the angle
`t + K pi / 2^m + pi / 2^30`. -/
def turn_sound (u v m : Nat) (k : Nat → Nat → Nat → Nat → Nat → Bool) : Prop :=
  ∀ (K clo chi slo shi : Nat) (t : ℝ), K < 2 ^ (m - 1) → 0 ≤ t →
    t + (K : ℝ) * Real.pi / 2 ^ m ≤ Real.pi / 2 - Real.pi / 2 ^ 16 →
    Encl t clo chi slo shi → k K clo chi slo shi = true →
    (u : ℝ) * Real.sin (t + (K : ℝ) * Real.pi / 2 ^ m + Real.pi / 2 ^ 30) <
      (v : ℝ) * Real.cos (t + (K : ℝ) * Real.pi / 2 ^ m + Real.pi / 2 ^ 30)
/-! # Theorems -/

/-! ## Generic lemmas -/

@[simp] theorem ok_bind {α β : Type} (a : α) (f : α → Except Trap β) :
    (Except.ok a >>= f) = f a := rfl

@[simp] theorem error_bind {α β : Type} (t : Trap) (f : α → Except Trap β) :
    ((Except.error t : Except Trap α) >>= f) = Except.error t := rfl

@[simp] theorem pure_eq_ok {α : Type} (a : α) : (pure a : Except Trap α) = Except.ok a := rfl

theorem load_ok (phi : Nat → Nat) (len i : Nat) (h : i < len) :
    load phi len i = .ok (phi i % 65536) := by
  simp [load, h]

theorem dphi_at_ok (phi : Nat → Nat) (len i : Nat) (h : i + 1 < len) :
    dphi_at phi len i = .ok (phi_difference (phi i % 65536) (phi (i + 1) % 65536)) := by
  have h0 : i < len := by omega
  simp [dphi_at, load_ok, h, h0]

/-- A counting loop whose body keeps an invariant runs to its end and establishes the invariant
at the final index. -/
theorem for_loop_inv {σ : Type} (body : Nat → σ → Except Trap σ) (P : Nat → σ → Prop) :
    ∀ (k i : Nat) (s : σ), P i s →
      (∀ j t, i ≤ j → j < i + k → P j t → ∃ t', body j t = .ok t' ∧ P (j + 1) t') →
      ∃ s', for_loop body k i s = .ok s' ∧ P (i + k) s' := by
  intro k
  induction k with
  | zero => intro i s h0 _; exact ⟨s, rfl, by simpa using h0⟩
  | succ k ih =>
    intro i s h0 hstep
    obtain ⟨t', hb, hP⟩ := hstep i s (le_refl i) (by omega) h0
    obtain ⟨s', hs', hP'⟩ := ih (i + 1) t' hP (fun j t hj1 hj2 hPj =>
      hstep j t (by omega) (by omega) hPj)
    refine ⟨s', ?_, ?_⟩
    · simp [for_loop, hb, hs']
    · have : i + (k + 1) = i + 1 + k := by omega
      rw [this]; exact hP'

/-! ## C5 -/

/-- C5: for phases `from`, `to` in `[0, 65535]`, `d = phi_difference(from, to)` lies in
`[-32768, 32767]` and `(from + d) mod 65536 = to`. -/
theorem phi_difference_range_and_congruence (from_phi to_phi : Nat)
    (hfrom : from_phi ≤ 65535) (hto : to_phi ≤ 65535) :
    -32768 ≤ phi_difference from_phi to_phi ∧ phi_difference from_phi to_phi ≤ 32767 ∧
      ((from_phi : Int) + phi_difference from_phi to_phi) % 65536 = (to_phi : Int) := by
  unfold phi_difference
  simp only []
  split_ifs <;> omega

theorem phi_difference_range_and_congruence_witness :
    (40000 : Nat) ≤ 65535 ∧ (100 : Nat) ≤ 65535 ∧ phi_difference 40000 100 = 25636 ∧
      -32768 ≤ phi_difference 40000 100 ∧ phi_difference 40000 100 ≤ 32767 ∧
      (((40000 : Nat) : Int) + phi_difference 40000 100) % 65536 = ((100 : Nat) : Int) :=
  ⟨by decide, by decide, by decide,
    phi_difference_range_and_congruence 40000 100 (by decide) (by decide)⟩


/-! ## C6 -/

theorem slice_bit_ok (phi : Nat → Nat) (len i : Nat) (c : Int) (m b : Nat) (h : i + 1 < len) :
    slice_bit phi len i c m b =
      .ok (if phi_difference (phi i % 65536) (phi (i + 1) % 65536) > c then b ||| m else b) := by
  simp [slice_bit, dphi_at_ok, h]

/-- The byte assembled from eight bit decisions, most significant first. -/
theorem byte_of_bits_testBit (c0 c1 c2 c3 c4 c5 c6 c7 : Prop) [Decidable c0] [Decidable c1]
    [Decidable c2] [Decidable c3] [Decidable c4] [Decidable c5] [Decidable c6] [Decidable c7] :
    let b0 : Nat := if c0 then 0 ||| 0x80 else 0
    let b1 : Nat := if c1 then b0 ||| 0x40 else b0
    let b2 : Nat := if c2 then b1 ||| 0x20 else b1
    let b3 : Nat := if c3 then b2 ||| 0x10 else b2
    let b4 : Nat := if c4 then b3 ||| 0x08 else b3
    let b5 : Nat := if c5 then b4 ||| 0x04 else b4
    let b6 : Nat := if c6 then b5 ||| 0x02 else b5
    let b7 : Nat := if c7 then b6 ||| 0x01 else b6
    b7 < 256 ∧ (b7.testBit 7 = true ↔ c0) ∧ (b7.testBit 6 = true ↔ c1) ∧
      (b7.testBit 5 = true ↔ c2) ∧ (b7.testBit 4 = true ↔ c3) ∧ (b7.testBit 3 = true ↔ c4) ∧
      (b7.testBit 2 = true ↔ c5) ∧ (b7.testBit 1 = true ↔ c6) ∧ (b7.testBit 0 = true ↔ c7) := by
  intro b0 b1 b2 b3 b4 b5 b6 b7
  by_cases h0 : c0 <;> by_cases h1 : c1 <;> by_cases h2 : c2 <;> by_cases h3 : c3 <;>
    by_cases h4 : c4 <;> by_cases h5 : c5 <;> by_cases h6 : c6 <;> by_cases h7 : c7 <;>
    simp only [b0, b1, b2, b3, b4, b5, b6, b7, h0, h1, h2, h3, h4, h5, h6, h7, if_true,
      if_false, iff_true, iff_false] <;> decide


theorem demod_byte_spec (phi : Nat → Nat) (len p : Nat) (c : Int) (h : p + 16 ≤ len) :
    ∃ b, demod_byte phi len p c = .ok b ∧ b < 256 ∧
      ∀ j, j < 8 → (b.testBit (7 - j) = true ↔
        phi_difference (phi (p + 2 * j) % 65536) (phi (p + 2 * j + 1) % 65536) > c) := by
  have key := byte_of_bits_testBit
    (phi_difference (phi p % 65536) (phi (p + 1) % 65536) > c)
    (phi_difference (phi (p + 2) % 65536) (phi (p + 2 + 1) % 65536) > c)
    (phi_difference (phi (p + 4) % 65536) (phi (p + 4 + 1) % 65536) > c)
    (phi_difference (phi (p + 6) % 65536) (phi (p + 6 + 1) % 65536) > c)
    (phi_difference (phi (p + 8) % 65536) (phi (p + 8 + 1) % 65536) > c)
    (phi_difference (phi (p + 10) % 65536) (phi (p + 10 + 1) % 65536) > c)
    (phi_difference (phi (p + 12) % 65536) (phi (p + 12 + 1) % 65536) > c)
    (phi_difference (phi (p + 14) % 65536) (phi (p + 14 + 1) % 65536) > c)
  simp only [] at key
  obtain ⟨hlt, k7, k6, k5, k4, k3, k2, k1, k0⟩ := key
  refine ⟨_, ?_, hlt, ?_⟩
  · unfold demod_byte
    rw [slice_bit_ok _ _ _ _ _ _ (by omega)]; simp only [ok_bind]
    rw [slice_bit_ok _ _ _ _ _ _ (by omega)]; simp only [ok_bind]
    rw [slice_bit_ok _ _ _ _ _ _ (by omega)]; simp only [ok_bind]
    rw [slice_bit_ok _ _ _ _ _ _ (by omega)]; simp only [ok_bind]
    rw [slice_bit_ok _ _ _ _ _ _ (by omega)]; simp only [ok_bind]
    rw [slice_bit_ok _ _ _ _ _ _ (by omega)]; simp only [ok_bind]
    rw [slice_bit_ok _ _ _ _ _ _ (by omega)]; simp only [ok_bind]
    rw [slice_bit_ok _ _ _ _ _ _ (by omega)]
  · intro j hj
    have hcases : j = 0 ∨ j = 1 ∨ j = 2 ∨ j = 3 ∨ j = 4 ∨ j = 5 ∨ j = 6 ∨ j = 7 := by omega
    rcases hcases with rfl | rfl | rfl | rfl | rfl | rfl | rfl | rfl
    · simpa using k7
    · simpa using k6
    · simpa using k5
    · simpa using k4
    · simpa using k3
    · simpa using k2
    · simpa using k1
    · simpa using k0

theorem store8_ok (data : List Nat) (i v : Nat) (h : i < data.length) :
    store8 data i v = .ok (data.set i (v % 256)) := by
  simp [store8, h]

/-- What `demod_frame` does when its buffers are large enough. -/
theorem demod_frame_spec (phi : Nat → Nat) (len base : Nat) (frame : List Nat) (n : Nat)
    (c : Int) (hphi : base + 16 * n ≤ len) (hframe : n ≤ frame.length) :
    ∃ out, demod_frame phi len base frame n c = .ok out ∧ out.length = frame.length ∧
      (∀ k, n ≤ k → out.getD k 0 = frame.getD k 0) ∧
      ∀ k, k < n → out.getD k 0 < 256 ∧ ∀ j, j < 8 →
        ((out.getD k 0).testBit (7 - j) = true ↔
          phi_difference (phi (base + 16 * k + 2 * j) % 65536)
            (phi (base + 16 * k + 2 * j + 1) % 65536) > c) := by
  have h := for_loop_inv (demod_frame_body phi len base c)
    (fun i out => out.length = frame.length ∧
      (∀ k, i ≤ k → out.getD k 0 = frame.getD k 0) ∧
      ∀ k, k < i → out.getD k 0 < 256 ∧ ∀ j, j < 8 →
        ((out.getD k 0).testBit (7 - j) = true ↔
          phi_difference (phi (base + 16 * k + 2 * j) % 65536)
            (phi (base + 16 * k + 2 * j + 1) % 65536) > c))
    n 0 frame ⟨rfl, fun _ _ => rfl, fun k hk => absurd hk (Nat.not_lt_zero k)⟩ ?_
  · simpa [demod_frame] using h
  · intro j t _ hj ⟨hlen, hrest, hdone⟩
    obtain ⟨b, hb, hb256, hbits⟩ := demod_byte_spec phi len (base + 16 * j) c (by omega)
    have hjt : j < t.length := by omega
    refine ⟨t.set j (b % 256), ?_, ?_, ?_, ?_⟩
    · simp [demod_frame_body, hb, store8_ok, hjt]
    · simpa using hlen
    · intro k hk
      have hne : j ≠ k := by omega
      rw [List.getD_eq_getElem?_getD, List.getElem?_set_ne hne, ← List.getD_eq_getElem?_getD]
      exact hrest k (by omega)
    · intro k hk
      by_cases hkj : k = j
      · subst hkj
        have hval : (t.set k (b % 256)).getD k 0 = b := by
          rw [List.getD_eq_getElem?_getD, List.getElem?_set_self hjt]
          simp [Nat.mod_eq_of_lt hb256]
        rw [hval]
        exact ⟨hb256, hbits⟩
      · have hne : j ≠ k := fun h => hkj h.symm
        rw [List.getD_eq_getElem?_getD, List.getElem?_set_ne hne, ← List.getD_eq_getElem?_getD]
        exact hdone k (by omega)

/-- C6: for every byte count `n`, threshold `c` and phase array holding at least `16 n` samples
(and a frame buffer of at least `n` bytes), `demod_frame` returns, has written exactly the bytes
`0 .. n-1` of the frame buffer, and the bit of weight `2^(7-j)` of byte `k` is 1 if and only if
`phi_difference(phi[16k+2j], phi[16k+2j+1]) > c`. -/
theorem demod_frame_bits (phi : Nat → Nat) (len base : Nat) (frame : List Nat) (n : Nat)
    (c : Int) (hphi : base + 16 * n ≤ len) (hframe : n ≤ frame.length) :
    ∃ out, demod_frame phi len base frame n c = .ok out ∧ out.length = frame.length ∧
      (∀ k, n ≤ k → out.getD k 0 = frame.getD k 0) ∧
      ∀ k, k < n → out.getD k 0 < 256 ∧ ∀ j, j < 8 →
        ((out.getD k 0).testBit (7 - j) = true ↔
          phi_difference (phi (base + 16 * k + 2 * j) % 65536)
            (phi (base + 16 * k + 2 * j + 1) % 65536) > c) :=
  demod_frame_spec phi len base frame n c hphi hframe

theorem demod_frame_bits_witness :
    0 + 16 * 2 ≤ 32 ∧ 2 ≤ [7, 7, 7].length ∧
      ∃ out, demod_frame (fun i => if i % 2 = 1 then 16384 else 0) 32 0 [7, 7, 7] 2 0 = .ok out ∧
        out.length = [7, 7, 7].length ∧
        (∀ k, 2 ≤ k → out.getD k 0 = [7, 7, 7].getD k 0) ∧
        ∀ k, k < 2 → out.getD k 0 < 256 ∧ ∀ j, j < 8 →
          ((out.getD k 0).testBit (7 - j) = true ↔
            phi_difference ((fun i => if i % 2 = 1 then 16384 else 0) (0 + 16 * k + 2 * j) % 65536)
              ((fun i => if i % 2 = 1 then 16384 else 0) (0 + 16 * k + 2 * j + 1) % 65536) > 0) :=
  ⟨by decide, by decide,
    demod_frame_bits (fun i => if i % 2 = 1 then 16384 else 0) 32 0 [7, 7, 7] 2 0
      (by decide) (by decide)⟩

/-! ## check_sync_word and the decoder run without a trap -/

theorem sync_sums_ok (phi : Nat → Nat) (len base pattern : Nat) (h : base + 72 ≤ len) :
    ∃ s, for_loop (sync_sum_body phi len base pattern) 36 0 ⟨0, 0, 0, 0⟩ = .ok s ∧
      s.one_bits = sync_ones pattern 36 ∧ s.one_bits + s.zero_bits = 36 := by
  have := for_loop_inv (sync_sum_body phi len base pattern)
    (fun i s => s.one_bits = sync_ones pattern i ∧ s.one_bits + s.zero_bits = i)
    36 0 ⟨0, 0, 0, 0⟩ ⟨rfl, rfl⟩ ?_
  · simpa using this
  · intro j t _ hj ⟨h1, h2⟩
    have hd := dphi_at_ok phi len (base + j * 2) (by omega)
    by_cases hb : pattern &&& (1 <<< (35 - j)) ≠ 0
    · refine ⟨_, by simp only [sync_sum_body, hd, ok_bind, pure_eq_ok]; rw [if_pos hb], ?_, ?_⟩
      · simp [sync_ones, hb, h1]
      · simp only []; omega
    · refine ⟨_, by simp only [sync_sum_body, hd, ok_bind, pure_eq_ok]; rw [if_neg hb], ?_, ?_⟩
      · simp [sync_ones, hb, h1]
      · simp only []; omega

theorem sync_errs_ok (phi : Nat → Nat) (len base pattern : Nat) (center : Int)
    (h : base + 72 ≤ len) :
    ∃ e, for_loop (sync_err_body phi len base pattern center) 36 0 0 = .ok e := by
  have := for_loop_inv (sync_err_body phi len base pattern center) (fun _ _ => True)
    36 0 0 trivial ?_
  · obtain ⟨e, he, _⟩ := this
    exact ⟨e, he⟩
  · intro j t _ hj _
    have hd := dphi_at_ok phi len (base + j * 2) (by omega)
    by_cases hb : pattern &&& (1 <<< (35 - j)) ≠ 0
    · exact ⟨_, by simp only [sync_err_body, hd, ok_bind, pure_eq_ok]; rw [if_pos hb], trivial⟩
    · exact ⟨_, by simp only [sync_err_body, hd, ok_bind, pure_eq_ok]; rw [if_neg hb], trivial⟩

/-- With 72 samples in reach and a pattern that has both one and zero bits, `check_sync_word`
returns. -/
theorem check_sync_word_ok (phi : Nat → Nat) (len base pattern : Nat) (h : base + 72 ≤ len)
    (h1 : 0 < sync_ones pattern 36) (h0 : sync_ones pattern 36 < 36) :
    ∃ center sync_ok, check_sync_word phi len base pattern = .ok (center, sync_ok) := by
  obtain ⟨s, hs, hone, hsum⟩ := sync_sums_ok phi len base pattern h
  have hz : ¬ (s.zero_bits = 0 ∨ s.one_bits = 0) := by omega
  obtain ⟨e, he⟩ := sync_errs_ok phi len base pattern
    (to_int16 ((s.dphi_one_total.tdiv s.one_bits + s.dphi_zero_total.tdiv s.zero_bits).tdiv 2)) h
  refine ⟨to_int16 ((s.dphi_one_total.tdiv s.one_bits + s.dphi_zero_total.tdiv s.zero_bits).tdiv 2),
    decide (e ≤ MAX_SYNC_ERRORS), ?_⟩
  simp only [check_sync_word, hs, ok_bind]
  rw [if_neg hz]
  simp only [he, ok_bind, pure_eq_ok]

theorem sync_ones_adsb : sync_ones ADSB_SYNC_WORD 36 = 20 := by decide

theorem sync_ones_uplink : sync_ones UPLINK_SYNC_WORD 36 = 16 := by decide

theorem codeword_after_length (n : Nat) (before after : List Nat) :
    (codeword_after n before after).length = n := by
  simp [codeword_after]

theorem decode_rs_char_ok (rs : List Nat → Int × List Nat) (pad : Nat) (data : List Nat)
    (pos : Nat) (h : pos + (255 - pad) ≤ data.length) :
    decode_rs_char rs pad data pos =
      .ok ((rs ((data.drop pos).take (255 - pad))).1,
        data.take pos ++ codeword_after (255 - pad) ((data.drop pos).take (255 - pad))
          (rs ((data.drop pos).take (255 - pad))).2 ++ data.drop (pos + (255 - pad))) := by
  simp [decode_rs_char, h]

theorem decode_rs_char_length (rs : List Nat → Int × List Nat) (pad : Nat) (data : List Nat)
    (pos : Nat) (r : Int × List Nat) (h : decode_rs_char rs pad data pos = .ok r) :
    r.2.length = data.length := by
  unfold decode_rs_char at h
  simp only [] at h
  split_ifs at h with hle
  cases h
  simp [codeword_after_length]
  omega

theorem load8_ok (data : List Nat) (i : Nat) (h : i < data.length) :
    load8 data i = .ok (data.getD i 0 % 256) := by
  simp [load8, h]

/-! ## C7 -/

theorem decode_rs_char_head (rs : List Nat → Int × List Nat) (pad : Nat) (data : List Nat)
    (r : Int × List Nat) (h : decode_rs_char rs pad data 0 = .ok r) (hpad : pad < 255) :
    r.2.getD 0 0 < 256 := by
  unfold decode_rs_char at h
  simp only [] at h
  split_ifs at h with hle
  cases h
  obtain ⟨m, hm⟩ : ∃ m, 255 - pad = m + 1 := ⟨254 - pad, by omega⟩
  simp only [List.take_zero, List.nil_append, codeword_after, hm, List.range_succ_eq_map,
    List.map_cons, List.cons_append, List.getD_cons_zero]
  exact Nat.mod_lt _ (by decide)

/-- What `demod_adsb_frame` does when its buffers are large enough. -/
theorem demod_adsb_frame_spec (rs : Decoders) (phi : Nat → Nat) (len base : Nat)
    (frame : List Nat) (hphi : base + (SYNC_BITS * 2 + 16 * LONG_FRAME_BYTES) ≤ len)
    (hframe : LONG_FRAME_BYTES ≤ frame.length) :
    ∃ d, demod_adsb_frame rs phi len base frame = .ok d ∧ d.frame.length = frame.length ∧
      ((d.skip = 420 ∧ 0 ≤ d.rs_errors ∧ d.rs_errors ≤ 7 ∧ d.frame.getD 0 0 >>> 3 ≠ 0) ∨
       (d.skip = 276 ∧ 0 ≤ d.rs_errors ∧ d.rs_errors ≤ 6 ∧ d.frame.getD 0 0 >>> 3 = 0) ∨
       (d.skip = 0 ∧ d.rs_errors = 9999)) := by
  simp only [SYNC_BITS, LONG_FRAME_BYTES] at hphi hframe
  obtain ⟨center, sync_ok, hsync⟩ := check_sync_word_ok phi len base ADSB_SYNC_WORD (by omega)
    (by rw [sync_ones_adsb]; decide) (by rw [sync_ones_adsb]; decide)
  unfold demod_adsb_frame
  simp only [hsync, ok_bind]
  cases sync_ok with
  | false => exact ⟨_, rfl, rfl, Or.inr (Or.inr ⟨rfl, rfl⟩)⟩
  | true =>
    obtain ⟨out, hout, houtlen, _, _⟩ := demod_frame_spec phi len (base + SYNC_BITS * 2) frame
      LONG_FRAME_BYTES center (by simp only [SYNC_BITS, LONG_FRAME_BYTES]; omega)
      (by simp only [LONG_FRAME_BYTES]; omega)
    simp only [Bool.not_true, Bool.false_eq_true, if_false, hout, ok_bind]
    have hl := decode_rs_char_ok rs.rs_adsb_long 207 out 0 (by omega)
    generalize hrl : ((rs.rs_adsb_long ((out.drop 0).take (255 - 207))).1,
        out.take 0 ++ codeword_after (255 - 207) ((out.drop 0).take (255 - 207))
          (rs.rs_adsb_long ((out.drop 0).take (255 - 207))).2 ++ out.drop (0 + (255 - 207)))
      = rl at hl
    obtain ⟨n_long, frame_long⟩ := rl
    have hlen_long : frame_long.length = out.length :=
      decode_rs_char_length _ _ _ _ _ hl
    have hhead_long : frame_long.getD 0 0 < 256 := decode_rs_char_head _ _ _ _ hl (by decide)
    simp only [hl, ok_bind, load8_ok frame_long 0 (by omega), Nat.mod_eq_of_lt hhead_long]
    by_cases hacc : n_long ≥ 0 ∧ n_long ≤ 7 ∧ frame_long.getD 0 0 >>> 3 ≠ 0
    · rw [if_pos hacc]
      refine ⟨_, rfl, by simp only []; omega, Or.inl ⟨?_, hacc.1, hacc.2.1, hacc.2.2⟩⟩
      simp [SYNC_BITS, LONG_FRAME_BITS]
    · rw [if_neg hacc]
      have hs := decode_rs_char_ok rs.rs_adsb_short 225 frame_long 0 (by omega)
      generalize hrs : ((rs.rs_adsb_short ((frame_long.drop 0).take (255 - 225))).1,
          frame_long.take 0 ++ codeword_after (255 - 225) ((frame_long.drop 0).take (255 - 225))
            (rs.rs_adsb_short ((frame_long.drop 0).take (255 - 225))).2
            ++ frame_long.drop (0 + (255 - 225)))
        = rshort at hs
      obtain ⟨n_short, frame_short⟩ := rshort
      have hlen_short : frame_short.length = frame_long.length :=
        decode_rs_char_length _ _ _ _ _ hs
      have hhead_short : frame_short.getD 0 0 < 256 :=
        decode_rs_char_head _ _ _ _ hs (by decide)
      simp only [hs, ok_bind, load8_ok frame_short 0 (by omega),
        Nat.mod_eq_of_lt hhead_short]
      by_cases hacc2 : n_short ≥ 0 ∧ n_short ≤ 6 ∧ frame_short.getD 0 0 >>> 3 = 0
      · rw [if_pos hacc2]
        refine ⟨_, rfl, by simp only []; omega, Or.inr (Or.inl ⟨?_, hacc2.1, hacc2.2.1, hacc2.2.2⟩)⟩
        simp [SYNC_BITS, SHORT_FRAME_BITS]
      · rw [if_neg hacc2]
        exact ⟨_, rfl, by simp only []; omega, Or.inr (Or.inr ⟨rfl, rfl⟩)⟩

/-- C7: for every phase input (with the 840 samples of sync word and long frame in reach, and a
frame buffer of at least 48 bytes) and every behaviour of the RS decoder, `demod_adsb_frame`
returns, in exactly one of three ways: it returns 420 with `rs_errors` in 0..7 and output
`byte0 >> 3 != 0`; or it returns 276 with `rs_errors` in 0..6 and output `byte0 >> 3 == 0`; or
it returns 0 with `rs_errors = 9999`. -/
theorem demod_adsb_frame_outcomes (rs : Decoders) (phi : Nat → Nat) (len base : Nat)
    (frame : List Nat) (hphi : base + (SYNC_BITS * 2 + 16 * LONG_FRAME_BYTES) ≤ len)
    (hframe : LONG_FRAME_BYTES ≤ frame.length) :
    ∃ d, demod_adsb_frame rs phi len base frame = .ok d ∧
      ((d.skip = 420 ∧ 0 ≤ d.rs_errors ∧ d.rs_errors ≤ 7 ∧ d.frame.getD 0 0 >>> 3 ≠ 0) ∨
       (d.skip = 276 ∧ 0 ≤ d.rs_errors ∧ d.rs_errors ≤ 6 ∧ d.frame.getD 0 0 >>> 3 = 0) ∨
       (d.skip = 0 ∧ d.rs_errors = 9999)) ∧
      ¬ (d.skip = 420 ∧ d.frame.getD 0 0 >>> 3 = 0) ∧
      ¬ (d.skip = 276 ∧ d.frame.getD 0 0 >>> 3 ≠ 0) := by
  obtain ⟨d, hd, _, hcases⟩ := demod_adsb_frame_spec rs phi len base frame hphi hframe
  refine ⟨d, hd, hcases, ?_, ?_⟩
  · rintro ⟨h1, h2⟩
    rcases hcases with h | h | h
    · exact h.2.2.2 h2
    · omega
    · omega
  · rintro ⟨h1, h2⟩
    rcases hcases with h | h | h
    · omega
    · exact h2 h.2.2.2
    · omega

theorem demod_adsb_frame_outcomes_witness :
    0 + (SYNC_BITS * 2 + 16 * LONG_FRAME_BYTES) ≤ 840 ∧
      LONG_FRAME_BYTES ≤ (List.replicate 48 0).length ∧
      ∃ d, demod_adsb_frame rs_reject (fun _ => 0) 840 0 (List.replicate 48 0) = .ok d ∧
        ((d.skip = 420 ∧ 0 ≤ d.rs_errors ∧ d.rs_errors ≤ 7 ∧ d.frame.getD 0 0 >>> 3 ≠ 0) ∨
         (d.skip = 276 ∧ 0 ≤ d.rs_errors ∧ d.rs_errors ≤ 6 ∧ d.frame.getD 0 0 >>> 3 = 0) ∨
         (d.skip = 0 ∧ d.rs_errors = 9999)) ∧
        ¬ (d.skip = 420 ∧ d.frame.getD 0 0 >>> 3 = 0) ∧
        ¬ (d.skip = 276 ∧ d.frame.getD 0 0 >>> 3 ≠ 0) :=
  ⟨by decide, by decide,
    demod_adsb_frame_outcomes rs_reject (fun _ => 0) 840 0 (List.replicate 48 0)
      (by decide) (by decide)⟩

/-! ## C8, C9: the uplink demodulator -/

theorem list_eq_of_getD (l1 l2 : List Nat) (hlen : l1.length = l2.length)
    (h : ∀ j, j < l1.length → l1.getD j 0 = l2.getD j 0) : l1 = l2 := by
  apply List.ext_getElem hlen
  intro j h1 h2
  have := h j h1
  rw [List.getD_eq_getElem _ _ h1, List.getD_eq_getElem _ _ h2] at this
  exact this

theorem getD_set (l : List Nat) (i j v : Nat) (hi : i < l.length) :
    (l.set i v).getD j 0 = if j = i then v else l.getD j 0 := by
  by_cases hji : j = i
  · subst hji
    rw [List.getD_eq_getElem?_getD, List.getElem?_set_self hi]
    simp
  · rw [if_neg hji, List.getD_eq_getElem?_getD, List.getElem?_set_ne (fun h => hji h.symm),
      ← List.getD_eq_getElem?_getD]

theorem getD_splice (l mid : List Nat) (pos n j : Nat) (hmid : mid.length = n)
    (hl : pos + n ≤ l.length) :
    (l.take pos ++ mid ++ l.drop (pos + n)).getD j 0 =
      if pos ≤ j ∧ j < pos + n then mid.getD (j - pos) 0 else l.getD j 0 := by
  have htake : (l.take pos).length = pos := by simp; omega
  simp only [List.getD_eq_getElem?_getD]
  by_cases h1 : j < pos
  · rw [if_neg (by omega), List.append_assoc, List.getElem?_append_left (by omega),
      List.getElem?_take_of_lt h1]
  · by_cases h2 : j < pos + n
    · rw [if_pos ⟨by omega, h2⟩, List.getElem?_append_left (by simp; omega),
        List.getElem?_append_right (by omega), htake]
    · rw [if_neg (by omega), List.getElem?_append_right (by simp; omega),
        List.getElem?_drop]
      congr 2
      simp
      omega

theorem getD_drop_take (l : List Nat) (pos n j : Nat) (hj : j < n) :
    ((l.drop pos).take n).getD j 0 = l.getD (pos + j) 0 := by
  simp only [List.getD_eq_getElem?_getD]
  rw [List.getElem?_take_of_lt hj, List.getElem?_drop]

theorem wire_block_length (interleaved : List Nat) (b : Nat) :
    (wire_block interleaved b).length = UPLINK_BLOCK_BYTES := by
  simp [wire_block]

theorem wire_block_getD (interleaved : List Nat) (b i : Nat) (hi : i < UPLINK_BLOCK_BYTES) :
    (wire_block interleaved b).getD i 0 =
      interleaved.getD (i * UPLINK_FRAME_BLOCKS + b) 0 % 256 := by
  simp only [wire_block, List.getD_eq_getElem?_getD]
  rw [List.getElem?_map, List.getElem?_range hi]
  rfl

/-- The copy loop of `demod_uplink_frame` places the codeword of block `block` at
`frame[72 block .. 72 block + 91]` and changes nothing else. -/
theorem deinterleave_ok (interleaved frame : List Nat) (block : Nat)
    (hblock : block < UPLINK_FRAME_BLOCKS) (hil : interleaved.length = UPLINK_FRAME_BYTES)
    (hframe : frame.length = UPLINK_FRAME_BYTES) :
    ∃ out, for_loop (deinterleave_body interleaved block) UPLINK_BLOCK_BYTES 0 frame = .ok out ∧
      out.length = frame.length ∧
      ∀ j, out.getD j 0 =
        if block * UPLINK_BLOCK_DATA_BYTES ≤ j ∧
            j < block * UPLINK_BLOCK_DATA_BYTES + UPLINK_BLOCK_BYTES
        then (wire_block interleaved block).getD (j - block * UPLINK_BLOCK_DATA_BYTES) 0
        else frame.getD j 0 := by
  have h := for_loop_inv (deinterleave_body interleaved block)
    (fun i out => out.length = frame.length ∧
      ∀ j, out.getD j 0 =
        if block * UPLINK_BLOCK_DATA_BYTES ≤ j ∧ j < block * UPLINK_BLOCK_DATA_BYTES + i
        then (wire_block interleaved block).getD (j - block * UPLINK_BLOCK_DATA_BYTES) 0
        else frame.getD j 0)
    UPLINK_BLOCK_BYTES 0 frame ⟨rfl, fun j => by rw [if_neg (by omega)]⟩ ?_
  · simpa using h
  · intro i t _ hi ⟨hlen, hval⟩
    simp only [UPLINK_FRAME_BLOCKS, UPLINK_FRAME_BYTES, UPLINK_BLOCK_BYTES,
      UPLINK_BLOCK_DATA_BYTES] at *
    have hsrc : i * 6 + block < interleaved.length := by omega
    have hdst : block * 72 + i < t.length := by omega
    refine ⟨t.set (block * 72 + i) (interleaved.getD (i * 6 + block) 0 % 256 % 256), ?_, ?_, ?_⟩
    · simp only [deinterleave_body, UPLINK_FRAME_BLOCKS, UPLINK_BLOCK_DATA_BYTES,
        load8_ok _ _ hsrc, ok_bind, store8_ok _ _ _ hdst]
    · simpa using hlen
    · intro j
      rw [getD_set _ _ _ _ hdst]
      by_cases hj : j = block * 72 + i
      · subst hj
        rw [if_pos rfl, if_pos (by omega)]
        have : block * 72 + i - block * 72 = i := by omega
        rw [this, wire_block_getD _ _ _ (by simp only [UPLINK_BLOCK_BYTES]; omega)]
        simp [UPLINK_FRAME_BLOCKS]
      · rw [if_neg hj, hval j]
        by_cases hin : block * 72 ≤ j ∧ j < block * 72 + i
        · rw [if_pos hin, if_pos (by omega)]
        · rw [if_neg hin, if_neg (by omega)]

/-- After the copy loop, the 92 bytes at `frame + 72 block`, which is what `decode_rs_char` is
handed, are the codeword of the block. -/
theorem deinterleave_codeword (interleaved frame out1 : List Nat) (block : Nat)
    (hblock : block < UPLINK_FRAME_BLOCKS) (hframe : frame.length = UPLINK_FRAME_BYTES)
    (hlen1 : out1.length = frame.length)
    (hval1 : ∀ j, out1.getD j 0 =
        if block * UPLINK_BLOCK_DATA_BYTES ≤ j ∧
            j < block * UPLINK_BLOCK_DATA_BYTES + UPLINK_BLOCK_BYTES
        then (wire_block interleaved block).getD (j - block * UPLINK_BLOCK_DATA_BYTES) 0
        else frame.getD j 0) :
    (out1.drop (block * UPLINK_BLOCK_DATA_BYTES)).take (255 - 163) =
      wire_block interleaved block := by
  simp only [UPLINK_FRAME_BLOCKS, UPLINK_FRAME_BYTES, UPLINK_BLOCK_BYTES,
    UPLINK_BLOCK_DATA_BYTES] at *
  apply list_eq_of_getD
  · rw [wire_block_length]
    simp [UPLINK_BLOCK_BYTES]
    omega
  · intro j hj
    have hj92 : j < 92 := by
      simp at hj
      omega
    rw [getD_drop_take _ _ _ _ (by omega), hval1, if_pos (by omega)]
    congr 1
    omega

/-- One iteration of the block loop up to the RS decode: the decoder is handed the codeword of
the block and its result lands at `frame[72 block .. 72 block + 91]`. -/
theorem block_step_ok (rs : Decoders) (interleaved frame : List Nat) (block : Nat)
    (hblock : block < UPLINK_FRAME_BLOCKS) (hil : interleaved.length = UPLINK_FRAME_BYTES)
    (hframe : frame.length = UPLINK_FRAME_BYTES) :
    ∃ out1 out2,
      for_loop (deinterleave_body interleaved block) UPLINK_BLOCK_BYTES 0 frame = .ok out1 ∧
      decode_rs_char rs.rs_uplink 163 out1 (block * UPLINK_BLOCK_DATA_BYTES) =
        .ok (block_count rs interleaved block, out2) ∧
      out2.length = frame.length ∧
      ∀ j, out2.getD j 0 =
        if block * UPLINK_BLOCK_DATA_BYTES ≤ j ∧
            j < block * UPLINK_BLOCK_DATA_BYTES + UPLINK_BLOCK_BYTES
        then (block_decoded rs interleaved block).getD (j - block * UPLINK_BLOCK_DATA_BYTES) 0
        else frame.getD j 0 := by
  obtain ⟨out1, h1, hlen1, hval1⟩ := deinterleave_ok interleaved frame block hblock hil hframe
  have hcw := deinterleave_codeword interleaved frame out1 block hblock hframe hlen1 hval1
  have hdec := decode_rs_char_ok rs.rs_uplink 163 out1 (block * UPLINK_BLOCK_DATA_BYTES)
    (by simp only [UPLINK_FRAME_BLOCKS, UPLINK_FRAME_BYTES, UPLINK_BLOCK_DATA_BYTES] at *; omega)
  rw [hcw] at hdec
  refine ⟨out1, _, h1, hdec, ?_, ?_⟩
  · simp only [UPLINK_FRAME_BLOCKS, UPLINK_FRAME_BYTES, UPLINK_BLOCK_DATA_BYTES] at *
    simp [codeword_after_length]
    omega
  · intro j
    have hsp := getD_splice out1 (block_decoded rs interleaved block)
      (block * UPLINK_BLOCK_DATA_BYTES) (255 - 163) j
      (by simp [block_decoded, codeword_after_length, UPLINK_BLOCK_BYTES])
      (by simp only [UPLINK_FRAME_BLOCKS, UPLINK_FRAME_BYTES, UPLINK_BLOCK_DATA_BYTES] at *; omega)
    have h92 : (255 - 163 : Nat) = UPLINK_BLOCK_BYTES := by decide
    rw [h92] at hsp
    show (out1.take (block * UPLINK_BLOCK_DATA_BYTES) ++
      codeword_after (255 - 163) (wire_block interleaved block)
        (rs.rs_uplink (wire_block interleaved block)).2 ++
      out1.drop (block * UPLINK_BLOCK_DATA_BYTES + (255 - 163))).getD j 0 = _
    rw [h92]
    rw [show codeword_after UPLINK_BLOCK_BYTES (wire_block interleaved block)
        (rs.rs_uplink (wire_block interleaved block)).2 = block_decoded rs interleaved block
      from rfl, hsp]
    by_cases hin : block * UPLINK_BLOCK_DATA_BYTES ≤ j ∧
        j < block * UPLINK_BLOCK_DATA_BYTES + UPLINK_BLOCK_BYTES
    · rw [if_pos hin, if_pos hin]
    · rw [if_neg hin, if_neg hin, hval1, if_neg hin]

/-- The block loop of `demod_uplink_frame`: it returns; it accepts exactly when every block it
decodes reports 0..10 corrections; on acceptance the data bytes of every block are the bytes
left by that block's decode, earlier bytes are untouched, and the counts are summed. -/
theorem uplink_blocks_spec (rs : Decoders) (interleaved : List Nat)
    (hil : interleaved.length = UPLINK_FRAME_BYTES) :
    ∀ (k block : Nat) (total : Int) (frame : List Nat),
      block + k ≤ UPLINK_FRAME_BLOCKS → frame.length = UPLINK_FRAME_BYTES →
      ∃ d, uplink_blocks rs interleaved k block total frame = .ok d ∧
        d.frame.length = UPLINK_FRAME_BYTES ∧
        (d.skip = 4452 ↔ ∀ b, block ≤ b → b < block + k →
          0 ≤ block_count rs interleaved b ∧ block_count rs interleaved b ≤ 10) ∧
        (d.skip = 4452 →
          d.rs_errors = total + block_count_sum rs interleaved block k ∧
          (∀ b, block ≤ b → b < block + k → ∀ i, i < UPLINK_BLOCK_DATA_BYTES →
            d.frame.getD (b * UPLINK_BLOCK_DATA_BYTES + i) 0 =
              (block_decoded rs interleaved b).getD i 0) ∧
          ∀ j, j < block * UPLINK_BLOCK_DATA_BYTES → d.frame.getD j 0 = frame.getD j 0) ∧
        (d.skip ≠ 4452 → d.skip = 0 ∧ d.rs_errors = 9999) := by
  intro k
  induction k with
  | zero =>
    intro block total frame _ hframe
    refine ⟨⟨(UPLINK_FRAME_BITS + SYNC_BITS : Nat), total, frame⟩, rfl, hframe, ?_, ?_, ?_⟩
    · simp [UPLINK_FRAME_BITS, SYNC_BITS]
      intro b h1 h2
      omega
    · intro _
      refine ⟨by simp [block_count_sum], ?_, fun j _ => rfl⟩
      intro b h1 h2
      omega
    · intro h
      simp [UPLINK_FRAME_BITS, SYNC_BITS] at h
  | succ k ih =>
    intro block total frame hk hframe
    obtain ⟨out1, out2, h1, h2, hlen2, hval2⟩ := block_step_ok rs interleaved frame block
      (by omega) hil hframe
    unfold uplink_blocks
    simp only [h1, ok_bind, h2]
    by_cases hbad : block_count rs interleaved block < 0 ∨ block_count rs interleaved block > 10
    · rw [if_pos hbad]
      refine ⟨_, rfl, by simpa [hframe] using hlen2, ?_, ?_, ?_⟩
      · simp only [pure_eq_ok]
        constructor
        · intro h
          norm_num at h
        · intro h
          have := h block (le_refl _) (by omega)
          omega
      · intro h
        norm_num at h
      · intro _
        exact ⟨rfl, rfl⟩
    · rw [if_neg hbad]
      obtain ⟨d, hd, hdlen, hiff, hacc, hrej⟩ := ih (block + 1)
        (total + block_count rs interleaved block) out2 (by omega) (by rw [hlen2, hframe])
      refine ⟨d, hd, hdlen, ?_, ?_, hrej⟩
      · rw [hiff]
        constructor
        · intro h b hb1 hb2
          by_cases hbb : b = block
          · subst hbb
            omega
          · exact h b (by omega) (by omega)
        · intro h b hb1 hb2
          exact h b (by omega) (by omega)
      · intro hskip
        obtain ⟨hsum, hdata, hkeep⟩ := hacc hskip
        refine ⟨?_, ?_, ?_⟩
        · rw [hsum]
          simp only [block_count_sum]
          ring
        · intro b hb1 hb2 i hi
          by_cases hbb : b = block
          · subst hbb
            rw [hkeep _ (by simp only [UPLINK_BLOCK_DATA_BYTES] at *; omega), hval2,
              if_pos (by simp only [UPLINK_BLOCK_DATA_BYTES, UPLINK_BLOCK_BYTES] at *; omega)]
            congr 1
            omega
          · exact hdata b (by omega) (by omega) i hi
        · intro j hj
          rw [hkeep j (by simp only [UPLINK_BLOCK_DATA_BYTES] at *; omega), hval2,
            if_neg (by omega)]

/-- What `demod_uplink_frame` does when its buffers are large enough. -/
theorem demod_uplink_frame_spec (rs : Decoders) (phi : Nat → Nat) (len base : Nat)
    (frame : List Nat) (hphi : base + (SYNC_BITS * 2 + 16 * UPLINK_FRAME_BYTES) ≤ len)
    (hframe : frame.length = UPLINK_FRAME_BYTES) :
    ∃ center sync_ok wire d,
      check_sync_word phi len base UPLINK_SYNC_WORD = .ok (center, sync_ok) ∧
      demod_frame phi len (base + SYNC_BITS * 2) (List.replicate UPLINK_FRAME_BYTES 0)
        UPLINK_FRAME_BYTES center = .ok wire ∧
      wire.length = UPLINK_FRAME_BYTES ∧ (∀ k, k < UPLINK_FRAME_BYTES → wire.getD k 0 < 256) ∧
      demod_uplink_frame rs phi len base frame = .ok d ∧
      d.frame.length = UPLINK_FRAME_BYTES ∧
      (d.skip = 4452 ↔ sync_ok = true ∧ ∀ b, b < UPLINK_FRAME_BLOCKS →
        0 ≤ block_count rs wire b ∧ block_count rs wire b ≤ 10) ∧
      (d.skip = 4452 →
        d.rs_errors = block_count_sum rs wire 0 UPLINK_FRAME_BLOCKS ∧
        ∀ b, b < UPLINK_FRAME_BLOCKS → ∀ i, i < UPLINK_BLOCK_DATA_BYTES →
          d.frame.getD (b * UPLINK_BLOCK_DATA_BYTES + i) 0 =
            (block_decoded rs wire b).getD i 0) ∧
      (d.skip ≠ 4452 → d.skip = 0 ∧ d.rs_errors = 9999) := by
  obtain ⟨center, sync_ok, hsync⟩ := check_sync_word_ok phi len base UPLINK_SYNC_WORD
    (by simp only [SYNC_BITS, UPLINK_FRAME_BYTES] at hphi; omega)
    (by rw [sync_ones_uplink]; decide) (by rw [sync_ones_uplink]; decide)
  obtain ⟨wire, hwire, hwlen, _, hwbytes⟩ := demod_frame_spec phi len (base + SYNC_BITS * 2)
    (List.replicate UPLINK_FRAME_BYTES 0) UPLINK_FRAME_BYTES center
    (by simp only [SYNC_BITS, UPLINK_FRAME_BYTES] at *; omega) (by simp)
  have hwlen' : wire.length = UPLINK_FRAME_BYTES := by simpa using hwlen
  have hunf : demod_uplink_frame rs phi len base frame =
      if (!sync_ok) = true then .ok ⟨0, 9999, frame⟩
      else uplink_blocks rs wire UPLINK_FRAME_BLOCKS 0 0 frame := by
    unfold demod_uplink_frame
    simp only [hsync, ok_bind]
    cases sync_ok <;> simp [hwire]
  refine ⟨center, sync_ok, wire, ?_⟩
  cases sync_ok with
  | false =>
    refine ⟨⟨0, 9999, frame⟩, hsync, hwire, hwlen', fun k hk => (hwbytes k hk).1, ?_, hframe,
      ?_, ?_, ?_⟩
    · rw [hunf]
      rfl
    · simp
    · intro h
      norm_num at h
    · intro _
      exact ⟨rfl, rfl⟩
  | true =>
    obtain ⟨d, hd, hdlen, hiff, hacc, hrej⟩ := uplink_blocks_spec rs wire hwlen'
      UPLINK_FRAME_BLOCKS 0 0 frame (by simp) hframe
    refine ⟨d, hsync, hwire, hwlen', fun k hk => (hwbytes k hk).1, ?_, hdlen, ?_, ?_, hrej⟩
    · rw [hunf, ← hd]
      rfl
    · rw [hiff]
      constructor
      · intro h
        exact ⟨rfl, fun b hb => h b (Nat.zero_le b) (by omega)⟩
      · intro h b _ hb
        exact h.2 b (by omega)
    · intro hskip
      obtain ⟨hsum, hdata, _⟩ := hacc hskip
      refine ⟨by simpa using hsum, ?_⟩
      intro b hb i hi
      exact hdata b (Nat.zero_le b) (by omega) i hi

theorem block_count_sum_six (rs : Decoders) (wire : List Nat) :
    block_count_sum rs wire 0 UPLINK_FRAME_BLOCKS =
      block_count rs wire 0 + block_count rs wire 1 + block_count rs wire 2 +
        block_count rs wire 3 + block_count rs wire 4 + block_count rs wire 5 := by
  simp only [UPLINK_FRAME_BLOCKS, block_count_sum]
  ring

/-- C9: `demod_uplink_frame` (with the 8904 samples of sync word and frame in reach and a
552-byte output buffer) returns 4452 if and only if the uplink sync check passes and each of the
six block decodes reports a count in 0..10, and then `rs_errors` is the sum of the six counts,
at most 60; in every other case it returns 0 with `rs_errors = 9999`. -/
theorem demod_uplink_frame_outcomes (rs : Decoders) (phi : Nat → Nat) (len base : Nat)
    (frame : List Nat) (hphi : base + (SYNC_BITS * 2 + 16 * UPLINK_FRAME_BYTES) ≤ len)
    (hframe : frame.length = UPLINK_FRAME_BYTES) :
    ∃ center sync_ok wire d,
      check_sync_word phi len base UPLINK_SYNC_WORD = .ok (center, sync_ok) ∧
      demod_frame phi len (base + SYNC_BITS * 2) (List.replicate UPLINK_FRAME_BYTES 0)
        UPLINK_FRAME_BYTES center = .ok wire ∧
      demod_uplink_frame rs phi len base frame = .ok d ∧
      (d.skip = 4452 ↔ sync_ok = true ∧ ∀ b, b < 6 →
        0 ≤ block_count rs wire b ∧ block_count rs wire b ≤ 10) ∧
      (d.skip = 4452 →
        d.rs_errors = block_count rs wire 0 + block_count rs wire 1 + block_count rs wire 2 +
          block_count rs wire 3 + block_count rs wire 4 + block_count rs wire 5 ∧
        0 ≤ d.rs_errors ∧ d.rs_errors ≤ 60) ∧
      (d.skip ≠ 4452 → d.skip = 0 ∧ d.rs_errors = 9999) := by
  obtain ⟨center, sync_ok, wire, d, hsync, hwire, _, _, hd, _, hiff, hacc, hrej⟩ :=
    demod_uplink_frame_spec rs phi len base frame hphi hframe
  refine ⟨center, sync_ok, wire, d, hsync, hwire, hd, hiff, ?_, hrej⟩
  intro hskip
  have hsum := (hacc hskip).1
  rw [block_count_sum_six] at hsum
  have hb := (hiff.mp hskip).2
  have h0 := hb 0 (by decide)
  have h1 := hb 1 (by decide)
  have h2 := hb 2 (by decide)
  have h3 := hb 3 (by decide)
  have h4 := hb 4 (by decide)
  have h5 := hb 5 (by decide)
  refine ⟨hsum, ?_, ?_⟩ <;> omega

theorem demod_uplink_frame_outcomes_witness :
    3 + (SYNC_BITS * 2 + 16 * UPLINK_FRAME_BYTES) ≤ 8907 ∧
      (List.replicate 552 0).length = UPLINK_FRAME_BYTES ∧
      ∃ center sync_ok wire d,
        check_sync_word phi_uplink_at_3 8907 3 UPLINK_SYNC_WORD = .ok (center, sync_ok) ∧
        demod_frame phi_uplink_at_3 8907 (3 + SYNC_BITS * 2)
          (List.replicate UPLINK_FRAME_BYTES 0) UPLINK_FRAME_BYTES center = .ok wire ∧
        demod_uplink_frame rs_zero phi_uplink_at_3 8907 3 (List.replicate 552 0) = .ok d ∧
        (d.skip = 4452 ↔ sync_ok = true ∧ ∀ b, b < 6 →
          0 ≤ block_count rs_zero wire b ∧ block_count rs_zero wire b ≤ 10) ∧
        (d.skip = 4452 →
          d.rs_errors = block_count rs_zero wire 0 + block_count rs_zero wire 1 +
            block_count rs_zero wire 2 + block_count rs_zero wire 3 +
            block_count rs_zero wire 4 + block_count rs_zero wire 5 ∧
          0 ≤ d.rs_errors ∧ d.rs_errors ≤ 60) ∧
        (d.skip ≠ 4452 → d.skip = 0 ∧ d.rs_errors = 9999) :=
  ⟨by decide, List.length_replicate 552 0,
    demod_uplink_frame_outcomes rs_zero phi_uplink_at_3 8907 3 (List.replicate 552 0)
      (by decide) (List.length_replicate 552 0)⟩

/-! ## C10: the choice between the two alignments -/

theorem demod_adsb_frame_reported (rs : Decoders) (phi : Nat → Nat) (len base : Nat)
    (frame : List Nat) (hphi : base + (SYNC_BITS * 2 + 16 * LONG_FRAME_BYTES) ≤ len)
    (hframe : LONG_FRAME_BYTES ≤ frame.length) :
    ∃ d, demod_adsb_frame rs phi len base frame = .ok d ∧ d.reported := by
  obtain ⟨d, hd, _, h⟩ := demod_adsb_frame_spec rs phi len base frame hphi hframe
  refine ⟨d, hd, ?_⟩
  unfold Demod.reported
  rcases h with h | h | h
  · right; omega
  · right; omega
  · left; exact h

theorem demod_uplink_frame_reported (rs : Decoders) (phi : Nat → Nat) (len base : Nat)
    (frame : List Nat) (hphi : base + (SYNC_BITS * 2 + 16 * UPLINK_FRAME_BYTES) ≤ len)
    (hframe : frame.length = UPLINK_FRAME_BYTES) :
    ∃ d, demod_uplink_frame rs phi len base frame = .ok d ∧ d.reported := by
  obtain ⟨_, _, wire, d, _, _, _, _, hd, _, hiff, hacc, hrej⟩ :=
    demod_uplink_frame_spec rs phi len base frame hphi hframe
  refine ⟨d, hd, ?_⟩
  unfold Demod.reported
  by_cases hs : d.skip = 4452
  · right
    have hsum := (hacc hs).1
    rw [block_count_sum_six] at hsum
    have hb := (hiff.mp hs).2
    have h0 := hb 0 (by decide)
    have h1 := hb 1 (by decide)
    have h2 := hb 2 (by decide)
    have h3 := hb 3 (by decide)
    have h4 := hb 4 (by decide)
    have h5 := hb 5 (by decide)
    omega
  · left
    exact hrej hs

/-- C10: on a match, given what the two demodulation attempts report (`d0` at the candidate
sample, `d1` at the next one): if exactly one attempt succeeds, that one is printed; if both
succeed, the one with strictly fewer corrected errors is printed, the earlier one on equal
counts; if neither succeeds nothing is printed and `bit` is unchanged. At most one record is
printed, and after printing `bit` is `startbit` plus the printed attempt's `skip`. -/
theorem dispatch_choice (handler : Nat → List Nat → Int → List Char)
    (offset index startbit : Nat) (d0 d1 : Demod) (s : Scan)
    (h0 : d0.reported) (h1 : d1.reported) :
    (d0.skip ≠ 0 → (d1.skip = 0 ∨ d0.rs_errors ≤ d1.rs_errors) →
      dispatch handler offset index startbit d0 d1 s =
        { s with
          out := s.out ++ handler ((offset + index) % 2 ^ 64) d0.frame d0.rs_errors
          bit := (startbit + d0.skip).toNat } ∧
      (((startbit + d0.skip).toNat : Nat) : Int) = startbit + d0.skip) ∧
    (d1.skip ≠ 0 → (d0.skip = 0 ∨ d1.rs_errors < d0.rs_errors) →
      dispatch handler offset index startbit d0 d1 s =
        { s with
          out := s.out ++ handler ((offset + index + 1) % 2 ^ 64) d1.frame d1.rs_errors
          bit := (startbit + d1.skip).toNat } ∧
      (((startbit + d1.skip).toNat : Nat) : Int) = startbit + d1.skip) ∧
    (d0.skip = 0 → d1.skip = 0 → dispatch handler offset index startbit d0 d1 s = s) := by
  unfold Demod.reported at h0 h1
  refine ⟨?_, ?_, ?_⟩
  · intro hs hc
    have hle : d0.rs_errors ≤ d1.rs_errors := by omega
    refine ⟨?_, by omega⟩
    unfold dispatch
    rw [if_pos ⟨hs, hle⟩]
  · intro hs hc
    have hlt : ¬ (d0.skip ≠ 0 ∧ d0.rs_errors ≤ d1.rs_errors) := by omega
    have hle : d1.rs_errors ≤ d0.rs_errors := by omega
    refine ⟨?_, by omega⟩
    unfold dispatch
    rw [if_neg hlt, if_pos ⟨hs, hle⟩]
  · intro hs0 hs1
    unfold dispatch
    rw [if_neg (by omega), if_neg (by omega)]

theorem dispatch_choice_witness :
    (⟨420, 0, [8]⟩ : Demod).reported ∧ (⟨0, 9999, []⟩ : Demod).reported ∧
      dispatch handle_adsb_frame 0 400 200 ⟨420, 0, [8]⟩ ⟨0, 9999, []⟩ ⟨217, 0, 0, [], [], []⟩ =
        ⟨620, 0, 0, [], [], handle_adsb_frame 400 [8] 0⟩ :=
  ⟨Or.inr ⟨by decide, by decide, by decide⟩, Or.inl ⟨rfl, rfl⟩,
    ((dispatch_choice handle_adsb_frame 0 400 200 ⟨420, 0, [8]⟩ ⟨0, 9999, []⟩
      ⟨217, 0, 0, [], [], []⟩ (Or.inr ⟨by decide, by decide, by decide⟩)
      (Or.inl ⟨rfl, rfl⟩)).1 (by decide) (Or.inl rfl)).1⟩

/-! ## C2: the return value for a short buffer -/

/-- When fewer than 4435 bit periods are in the buffer the loop of `process_buffer` does not run
and the function returns `(0 - CHECK_BITS) * 2`. -/
theorem process_buffer_short (rs : Decoders) (phi : Nat → Nat) (len offset : Nat)
    (h : len / 2 ≤ 4434) : process_buffer rs phi len offset = .ok (-36, []) := by
  unfold process_buffer
  simp only [SYNC_BITS, CHECK_BITS, UPLINK_FRAME_BITS]
  have hle : ((len / 2 : Nat) : Int) - ((36 - 18 + 4416 : Nat) : Int) ≤ 0 := by omega
  have hnat : (((len / 2 : Nat) : Int) - ((36 - 18 + 4416 : Nat) : Int)).toNat = 0 := by omega
  rw [hnat]
  simp only [scan]
  rw [if_neg (by simp only [Nat.cast_zero]; omega)]
  rfl

/-- C2 (the code at the failing input): on a buffer of 512 phase samples, the 1024 bytes of a
short read, `process_buffer` returns -36, which is not in `0 .. len`. -/
theorem process_buffer_512_returns_negative (rs : Decoders) (phi : Nat → Nat) (offset : Nat) :
    process_buffer rs phi 512 offset = .ok (-36, []) :=
  process_buffer_short rs phi 512 offset (by decide)

/-! ## The loop of process_buffer, iteration by iteration -/

theorem scan_done (rs : Decoders) (phi : Nat → Nat) (len offset : Nat) (lenbits : Int)
    (fuel : Nat) (s : Scan) (h : lenbits ≤ (s.bit : Int)) :
    scan rs phi len offset lenbits fuel s = .ok s := by
  cases fuel with
  | zero => simp only [scan]; rw [if_neg (by omega)]
  | succ n => simp only [scan]; rw [if_neg (by omega)]

theorem scan_succ (rs : Decoders) (phi : Nat → Nat) (len offset : Nat) (lenbits : Int)
    (fuel : Nat) (s : Scan) (h : (s.bit : Int) < lenbits) :
    scan rs phi len offset lenbits (fuel + 1) s =
      (scan_body rs phi len offset s >>= fun s' =>
        scan rs phi len offset lenbits fuel { s' with bit := s'.bit + 1 }) := by
  simp only [scan]
  rw [if_pos h]

/-- The start of every iteration: the two phase differences and the register updates. -/
theorem scan_body_unfold (rs : Decoders) (phi : Nat → Nat) (len offset : Nat) (s : Scan)
    (hlen : s.bit * 2 + 2 < len) :
    scan_body rs phi len offset s =
      (let sync0 := shift_in s.sync0 (dbit phi (s.bit * 2))
       let sync1 := shift_in s.sync1 (dbit phi (s.bit * 2 + 1))
       let s1 : Scan := { s with sync0 := sync0, sync1 := sync1 }
       if s.bit < CHECK_BITS then .ok s1
       else if sync0 &&& CHECK_MASK = CHECK_ADSB ∨ sync1 &&& CHECK_MASK = CHECK_ADSB then
         demod_adsb_frame rs phi len
            ((s.bit - CHECK_BITS + 1) * 2 + (if sync0 &&& CHECK_MASK = CHECK_ADSB then 0 else 1))
            s.demod_buf_a >>= fun d0 =>
         demod_adsb_frame rs phi len
            ((s.bit - CHECK_BITS + 1) * 2 + (if sync0 &&& CHECK_MASK = CHECK_ADSB then 0 else 1)
              + 1) s.demod_buf_b >>= fun d1 =>
         .ok (dispatch handle_adsb_frame offset
            ((s.bit - CHECK_BITS + 1) * 2 + (if sync0 &&& CHECK_MASK = CHECK_ADSB then 0 else 1))
            (s.bit - CHECK_BITS + 1) d0 d1
            { s1 with demod_buf_a := d0.frame, demod_buf_b := d1.frame })
       else if sync0 &&& CHECK_MASK = CHECK_UPLINK ∨ sync1 &&& CHECK_MASK = CHECK_UPLINK then
         demod_uplink_frame rs phi len
            ((s.bit - CHECK_BITS + 1) * 2 + (if sync0 &&& CHECK_MASK = CHECK_UPLINK then 0 else 1))
            s.demod_buf_a >>= fun d0 =>
         demod_uplink_frame rs phi len
            ((s.bit - CHECK_BITS + 1) * 2 + (if sync0 &&& CHECK_MASK = CHECK_UPLINK then 0 else 1)
              + 1) s.demod_buf_b >>= fun d1 =>
         .ok (dispatch handle_uplink_frame offset
            ((s.bit - CHECK_BITS + 1) * 2 + (if sync0 &&& CHECK_MASK = CHECK_UPLINK then 0 else 1))
            (s.bit - CHECK_BITS + 1) d0 d1
            { s1 with demod_buf_a := d0.frame, demod_buf_b := d1.frame })
       else .ok s1) := by
  unfold scan_body
  rw [dphi_at_ok phi len (s.bit * 2) (by omega), dphi_at_ok phi len (s.bit * 2 + 1) (by omega)]
  simp only [ok_bind, pure_eq_ok, shift_in, dbit]

theorem scan_body_quiet (rs : Decoders) (phi : Nat → Nat) (len offset : Nat) (s : Scan)
    (hlen : s.bit * 2 + 2 < len)
    (hq : s.bit < CHECK_BITS ∨
      ¬ window_hit (shift_in s.sync0 (dbit phi (s.bit * 2)))
        (shift_in s.sync1 (dbit phi (s.bit * 2 + 1)))) :
    scan_body rs phi len offset s =
      .ok { s with
            sync0 := shift_in s.sync0 (dbit phi (s.bit * 2))
            sync1 := shift_in s.sync1 (dbit phi (s.bit * 2 + 1)) } := by
  rw [scan_body_unfold rs phi len offset s hlen]
  simp only []
  unfold window_hit at hq
  by_cases hb : s.bit < CHECK_BITS
  · rw [if_pos hb]
  · rw [if_neg hb]
    have hq' := hq.resolve_left hb
    rw [if_neg (fun h => hq' (Or.inl h)), if_neg (fun h => hq' (Or.inr h))]

/-- A stretch of `k` iterations that call no demodulator. -/
theorem scan_quiet_run (rs : Decoders) (phi : Nat → Nat) (len offset : Nat) (lenbits : Int) :
    ∀ (k fuel : Nat) (s : Scan), regs_quiet phi k s.bit s.sync0 s.sync1 →
      ((s.bit + k : Nat) : Int) ≤ lenbits → (s.bit + k) * 2 < len →
      scan rs phi len offset lenbits (fuel + k) s =
        scan rs phi len offset lenbits fuel
          { s with
            bit := s.bit + k
            sync0 := (regs_after phi k s.bit s.sync0 s.sync1).1
            sync1 := (regs_after phi k s.bit s.sync0 s.sync1).2 } := by
  intro k
  induction k with
  | zero => intro fuel s _ _ _; rfl
  | succ k ih =>
    intro fuel s hq hbits hlen
    obtain ⟨hq1, hqk⟩ := hq
    have hlt : (s.bit : Int) < lenbits := by push_cast at hbits; omega
    rw [show fuel + (k + 1) = (fuel + k) + 1 by omega, scan_succ _ _ _ _ _ _ _ hlt,
      scan_body_quiet rs phi len offset s (by omega) hq1]
    simp only [ok_bind]
    have := ih fuel { s with
        sync0 := shift_in s.sync0 (dbit phi (s.bit * 2))
        sync1 := shift_in s.sync1 (dbit phi (s.bit * 2 + 1))
        bit := s.bit + 1 } hqk (by push_cast at hbits ⊢; omega) (by simp only []; omega)
    rw [this]
    simp only [regs_after]
    congr 2
    omega

/-! ## C1: a read past the valid phase samples -/

theorem load_oob (phi : Nat → Nat) (len i : Nat) (h : len ≤ i) :
    load phi len i = .error .out_of_bounds := by
  simp [load, Nat.not_lt.mpr h]

theorem slice_bit_oob (phi : Nat → Nat) (len i : Nat) (c : Int) (m b : Nat)
    (h : len ≤ i + 1) : slice_bit phi len i c m b = .error .out_of_bounds := by
  unfold slice_bit dphi_at
  by_cases h0 : i < len
  · rw [load_ok _ _ _ h0, load_oob _ _ _ h]
    rfl
  · rw [load_oob _ _ _ (by omega)]
    rfl

/-- When fewer than 16 samples are left, `demod_byte` reads past the end. -/
theorem demod_byte_oob (phi : Nat → Nat) (len p : Nat) (c : Int) (h : len < p + 16) :
    demod_byte phi len p c = .error .out_of_bounds := by
  unfold demod_byte
  by_cases h0 : p + 1 < len
  swap
  · rw [slice_bit_oob _ _ _ _ _ _ (by omega)]; rfl
  rw [slice_bit_ok _ _ _ _ _ _ h0]; simp only [ok_bind]
  by_cases h1 : p + 2 + 1 < len
  swap
  · rw [slice_bit_oob _ _ _ _ _ _ (by omega)]; rfl
  rw [slice_bit_ok _ _ _ _ _ _ h1]; simp only [ok_bind]
  by_cases h2 : p + 4 + 1 < len
  swap
  · rw [slice_bit_oob _ _ _ _ _ _ (by omega)]; rfl
  rw [slice_bit_ok _ _ _ _ _ _ h2]; simp only [ok_bind]
  by_cases h3 : p + 6 + 1 < len
  swap
  · rw [slice_bit_oob _ _ _ _ _ _ (by omega)]; rfl
  rw [slice_bit_ok _ _ _ _ _ _ h3]; simp only [ok_bind]
  by_cases h4 : p + 8 + 1 < len
  swap
  · rw [slice_bit_oob _ _ _ _ _ _ (by omega)]; rfl
  rw [slice_bit_ok _ _ _ _ _ _ h4]; simp only [ok_bind]
  by_cases h5 : p + 10 + 1 < len
  swap
  · rw [slice_bit_oob _ _ _ _ _ _ (by omega)]; rfl
  rw [slice_bit_ok _ _ _ _ _ _ h5]; simp only [ok_bind]
  by_cases h6 : p + 12 + 1 < len
  swap
  · rw [slice_bit_oob _ _ _ _ _ _ (by omega)]; rfl
  rw [slice_bit_ok _ _ _ _ _ _ h6]; simp only [ok_bind]
  rw [slice_bit_oob _ _ _ _ _ _ (by omega)]

/-- When the phase buffer ends before the last sample of the frame, `demod_frame` reads past
the end. -/
theorem demod_frame_oob (phi : Nat → Nat) (len base : Nat) (c : Int) :
    ∀ (k i : Nat) (frame : List Nat), 0 < k → i + k ≤ frame.length →
      len < base + 16 * (i + k) →
      for_loop (demod_frame_body phi len base c) k i frame = .error .out_of_bounds := by
  intro k
  induction k with
  | zero => intro i frame h; omega
  | succ k ih =>
    intro i frame _ hframe hlen
    simp only [for_loop, demod_frame_body]
    by_cases hin : base + 16 * i + 16 ≤ len
    · obtain ⟨b, hb, _, _⟩ := demod_byte_spec phi len (base + 16 * i) c hin
      rw [hb]
      simp only [ok_bind, store8_ok frame i b (by omega)]
      have := ih (i + 1) (frame.set i (b % 256)) (by omega) (by simp; omega) (by omega)
      simpa [demod_frame_body] using this
    · rw [demod_byte_oob phi len (base + 16 * i) c (by omega)]
      rfl

/-- A buffer in which an uplink sync word is found by `sync1` in the last iteration of the
loop (`bit = 18 = lenbits - 1`, first sample 3), and which holds at most 8906 samples, makes
`demod_frame` read past the end. -/
theorem process_buffer_oob_of_late_uplink (rs : Decoders) (phi : Nat → Nat) (len offset : Nat)
    (r0 r1 : Nat) (center : Int) (hhalf : len / 2 = 4453) (hlen : len ≤ 8906)
    (hq : regs_quiet phi 18 0 0 0) (hrun : regs_after phi 18 0 0 0 = (r0, r1))
    (h0a : shift_in r0 (dbit phi (18 * 2)) &&& CHECK_MASK ≠ CHECK_ADSB)
    (h1a : shift_in r1 (dbit phi (18 * 2 + 1)) &&& CHECK_MASK ≠ CHECK_ADSB)
    (h0u : shift_in r0 (dbit phi (18 * 2)) &&& CHECK_MASK ≠ CHECK_UPLINK)
    (h1u : shift_in r1 (dbit phi (18 * 2 + 1)) &&& CHECK_MASK = CHECK_UPLINK)
    (hsync : check_sync_word phi len 3 UPLINK_SYNC_WORD = .ok (center, true)) :
    process_buffer rs phi len offset = .error .out_of_bounds := by
  have hdemod : ∀ frame : List Nat,
      demod_uplink_frame rs phi len 3 frame = .error .out_of_bounds := by
    intro frame
    unfold demod_uplink_frame
    rw [hsync]
    simp only [ok_bind, Bool.not_true, Bool.false_eq_true, if_false]
    unfold demod_frame
    rw [demod_frame_oob phi len (3 + SYNC_BITS * 2) center UPLINK_FRAME_BYTES 0
      (List.replicate UPLINK_FRAME_BYTES 0) (by decide)
      (by rw [List.length_replicate]; omega)
      (by simp only [SYNC_BITS, UPLINK_FRAME_BYTES]; omega)]
    rfl
  unfold process_buffer
  have hlenbits : (((len / 2 : Nat) : Int) -
      (((SYNC_BITS - CHECK_BITS) + UPLINK_FRAME_BITS : Nat) : Int)) = 19 := by
    rw [hhalf]; decide
  simp only [hlenbits]
  rw [show (19 : Int).toNat = 1 + 18 by decide,
    scan_quiet_run rs phi len offset 19 18 1 _ hq (by decide) (by simp only []; omega)]
  simp only [hrun]
  rw [scan_succ _ _ _ _ _ _ _ (by simp only []; omega),
    scan_body_unfold _ _ _ _ _ (by simp only []; omega)]
  simp only [Nat.zero_add]
  rw [if_neg (by decide), if_neg (by rintro (h | h); exact h0a h; exact h1a h),
    if_pos (Or.inr h1u), if_neg h0u]
  rw [show (18 - CHECK_BITS + 1) * 2 + 1 = 3 by decide, hdemod]
  rfl

/-- C1 (the code at the failing input): with 8906 valid samples and the uplink sync word at
sample 3, `sync1` matches at `bit = 18`, the last iteration, and `demod_frame`, called for the
frame that starts at sample 3, reads `phi[8906]`, past the end of the valid samples. -/
theorem process_buffer_reads_past_len (rs : Decoders) (offset : Nat) :
    process_buffer rs phi_uplink_at_3 8906 offset = .error .out_of_bounds :=
  process_buffer_oob_of_late_uplink rs phi_uplink_at_3 8906 offset 60109 10852 0
    (by decide) (by decide) (by decide) (by decide) (by decide) (by decide) (by decide)
    (by decide) (by decide)

/-! ## The phase buffer matters only below `len` -/

theorem for_loop_congr {σ : Type} (body body' : Nat → σ → Except Trap σ) :
    ∀ (k i : Nat) (s : σ), (∀ j t, i ≤ j → j < i + k → body j t = body' j t) →
      for_loop body k i s = for_loop body' k i s := by
  intro k
  induction k with
  | zero => intro i s _; rfl
  | succ k ih =>
    intro i s h
    simp only [for_loop]
    rw [h i s (le_refl i) (by omega)]
    cases body' i s with
    | error t => rfl
    | ok t =>
      simp only [ok_bind]
      exact ih (i + 1) t (fun j u h1 h2 => h j u (by omega) (by omega))

theorem load_congr (phi psi : Nat → Nat) (len : Nat)
    (h : ∀ i, i < len → phi i % 65536 = psi i % 65536) : load phi len = load psi len := by
  funext i
  unfold load
  by_cases hi : i < len
  · rw [if_pos hi, if_pos hi, h i hi]
  · rw [if_neg hi, if_neg hi]

theorem dphi_at_congr (phi psi : Nat → Nat) (len : Nat) (h : load phi len = load psi len) :
    dphi_at phi len = dphi_at psi len := by
  funext i
  unfold dphi_at
  rw [h]

theorem check_sync_word_congr (phi psi : Nat → Nat) (len : Nat)
    (h : load phi len = load psi len) : check_sync_word phi len = check_sync_word psi len := by
  have hd := dphi_at_congr phi psi len h
  have h1 : sync_sum_body phi len = sync_sum_body psi len := by
    funext base pattern i s
    unfold sync_sum_body
    rw [hd]
  have h2 : sync_err_body phi len = sync_err_body psi len := by
    funext base pattern center i e
    unfold sync_err_body
    rw [hd]
  funext base pattern
  unfold check_sync_word
  rw [h1, h2]

theorem demod_frame_congr (phi psi : Nat → Nat) (len : Nat)
    (h : load phi len = load psi len) : demod_frame phi len = demod_frame psi len := by
  have hd := dphi_at_congr phi psi len h
  have h1 : slice_bit phi len = slice_bit psi len := by
    funext i c m b
    unfold slice_bit
    rw [hd]
  have h2 : demod_byte phi len = demod_byte psi len := by
    funext p c
    unfold demod_byte
    rw [h1]
  have h3 : demod_frame_body phi len = demod_frame_body psi len := by
    funext base c k frame
    unfold demod_frame_body
    rw [h2]
  funext base frame bytes c
  unfold demod_frame
  rw [h3]

theorem scan_body_congr (rs : Decoders) (phi psi : Nat → Nat) (len : Nat)
    (h : load phi len = load psi len) : scan_body rs phi len = scan_body rs psi len := by
  have hd := dphi_at_congr phi psi len h
  have hc := check_sync_word_congr phi psi len h
  have hf := demod_frame_congr phi psi len h
  have ha : demod_adsb_frame rs phi len = demod_adsb_frame rs psi len := by
    funext base frame
    unfold demod_adsb_frame
    rw [hc, hf]
  have hu : demod_uplink_frame rs phi len = demod_uplink_frame rs psi len := by
    funext base frame
    unfold demod_uplink_frame
    rw [hc, hf]
  funext offset s
  simp only [scan_body, hd, ha, hu]

theorem scan_congr (rs : Decoders) (phi psi : Nat → Nat) (len offset : Nat) (lenbits : Int)
    (h : load phi len = load psi len) : ∀ (fuel : Nat) (s : Scan),
      scan rs phi len offset lenbits fuel s = scan rs psi len offset lenbits fuel s := by
  have hb := scan_body_congr rs phi psi len h
  intro fuel
  induction fuel with
  | zero => intro s; rfl
  | succ fuel ih =>
    intro s
    have hstep : ∀ chi : Nat → Nat, scan rs chi len offset lenbits (fuel + 1) s =
        if (s.bit : Int) < lenbits then
          scan_body rs chi len offset s >>= fun s' =>
            scan rs chi len offset lenbits fuel { s' with bit := s'.bit + 1 }
        else .ok s := fun chi => rfl
    rw [hstep phi, hstep psi, hb]
    have hfun : (fun s' : Scan => scan rs phi len offset lenbits fuel
        { s' with bit := s'.bit + 1 }) =
        (fun s' : Scan => scan rs psi len offset lenbits fuel
        { s' with bit := s'.bit + 1 }) := funext fun s' => ih _
    rw [hfun]

/-- `process_buffer` depends on the phase buffer only through its first `len` samples. -/
theorem process_buffer_congr (rs : Decoders) (phi psi : Nat → Nat) (len offset : Nat)
    (h : ∀ i, i < len → phi i % 65536 = psi i % 65536) :
    process_buffer rs phi len offset = process_buffer rs psi len offset := by
  unfold process_buffer
  simp only []
  rw [scan_congr rs phi psi len offset _ (load_congr phi psi len h)]

/-! ## The intake loop on its first read -/

theorem load16_ok (buffer : List Nat) (i : Nat) (h : 2 * i + 1 < buffer.length) :
    load16 buffer i = .ok (phi_of buffer i) := by
  simp [load16, phi_of, h]

theorem store16_ok (buffer : List Nat) (i v : Nat) (h : 2 * i + 1 < buffer.length) :
    store16 buffer i v = .ok ((buffer.set (2 * i) (v % 256)).set (2 * i + 1) (v / 256 % 256)) := by
  simp [store16, h]

theorem phi_of_lt (buffer : List Nat) (i : Nat) : phi_of buffer i < 65536 := by
  unfold phi_of
  omega

theorem phi_of_set_set (t : List Nat) (p a b k : Nat) (h : 2 * p + 1 < t.length) :
    phi_of ((t.set (2 * p) a).set (2 * p + 1) b) k =
      if k = p then a % 256 + 256 * (b % 256) else phi_of t k := by
  have hlen1 : 2 * p < t.length := by omega
  have hlen2 : 2 * p + 1 < (t.set (2 * p) a).length := by simpa using h
  unfold phi_of
  rw [getD_set _ _ _ _ hlen2, getD_set _ _ _ _ hlen2, getD_set _ _ _ _ hlen1,
    getD_set _ _ _ _ hlen1]
  by_cases hk : k = p
  · subst hk
    rw [if_neg (by omega), if_pos rfl, if_pos rfl, if_pos rfl]
  · rw [if_neg (by omega), if_neg (by omega), if_neg (by omega), if_neg (by omega), if_neg hk]

/-- `convert_to_phi` replaces the words `start .. start + cnt - 1` by their table entries and
leaves every other byte alone. -/
theorem convert_to_phi_spec (iqphase : Nat → Nat) (buffer : List Nat) (start cnt : Nat)
    (h : 2 * (start + cnt) ≤ buffer.length) :
    ∃ out, convert_to_phi iqphase buffer start cnt = .ok out ∧ out.length = buffer.length ∧
      (∀ k, start ≤ k → k < start + cnt →
        phi_of out k = iqphase (phi_of buffer k) % 65536) ∧
      ∀ j, (j < 2 * start ∨ 2 * (start + cnt) ≤ j) → out.getD j 0 = buffer.getD j 0 := by
  have hinv := for_loop_inv (convert_body iqphase start)
    (fun i out => out.length = buffer.length ∧
      (∀ k, start ≤ k → k < start + i → phi_of out k = iqphase (phi_of buffer k) % 65536) ∧
      ∀ j, (j < 2 * start ∨ 2 * (start + i) ≤ j) → out.getD j 0 = buffer.getD j 0)
    cnt 0 buffer ⟨rfl, fun k h1 h2 => by omega, fun j _ => rfl⟩ ?_
  · simpa [convert_to_phi] using hinv
  · intro i t _ hi ⟨hlen, hdone, hrest⟩
    have hidx : 2 * (start + i) + 1 < t.length := by omega
    have hword : phi_of t (start + i) = phi_of buffer (start + i) := by
      unfold phi_of
      rw [hrest (2 * (start + i)) (Or.inr (by omega)),
        hrest (2 * (start + i) + 1) (Or.inr (by omega))]
    have hbody : convert_body iqphase start i t =
        .ok ((t.set (2 * (start + i)) (iqphase (phi_of t (start + i)) % 256)).set
          (2 * (start + i) + 1) (iqphase (phi_of t (start + i)) / 256 % 256)) := by
      simp only [convert_body, load16_ok t _ hidx, ok_bind]
      exact store16_ok t _ _ hidx
    refine ⟨_, hbody, ?_, ?_, ?_⟩
    · simpa using hlen
    · intro k hk1 hk2
      rw [phi_of_set_set t (start + i) _ _ k hidx]
      by_cases hki : k = start + i
      · rw [if_pos hki, hword, hki]
        omega
      · rw [if_neg hki]
        exact hdone k hk1 (by omega)
    · intro j hj
      have hlen1 : 2 * (start + i) < t.length := by omega
      have hlen2 : 2 * (start + i) + 1 < (t.set (2 * (start + i))
          (iqphase (phi_of t (start + i)) % 256)).length := by simpa using hidx
      rw [getD_set _ _ _ _ hlen2, getD_set _ _ _ _ hlen1, if_neg (by omega), if_neg (by omega)]
      exact hrest j (by omega)

/-- The first iteration of the intake loop, on the bytes `chunk`, up to the call of
`process_buffer`: what `process_buffer` is called with. -/
theorem intake_body_first (rs : Decoders) (iqphase : Nat → Nat) (chunk : List Nat) :
    ∃ buffer, buffer.length = chunk.length ∧
      (∀ k, k < chunk.length / 2 → phi_of buffer k = iqphase (phi_of chunk k) % 65536) ∧
      intake_body rs iqphase chunk ⟨[], 0, 0, [], none⟩ =
        match process_buffer rs (phi_of buffer) (chunk.length / 2) 0 with
        | .error t => ⟨buffer, chunk.length, 0, [], some t⟩
        | .ok (processed, text) =>
          if (chunk.length : Int) - processed * 2 > 0 then
            if 0 ≤ processed ∧ processed * 2 + ((chunk.length : Int) - processed * 2) ≤
                buffer.length then
              ⟨(buffer.drop (processed * 2).toNat).take
                  ((chunk.length : Int) - processed * 2).toNat,
                (chunk.length : Int) - processed * 2,
                ((((0 : Nat) : Int) + processed) % 2 ^ 64).toNat, text, none⟩
            else
              ⟨buffer, (chunk.length : Int) - processed * 2,
                ((((0 : Nat) : Int) + processed) % 2 ^ 64).toNat, text, some .out_of_bounds⟩
          else
            ⟨[], (chunk.length : Int) - processed * 2,
              ((((0 : Nat) : Int) + processed) % 2 ^ 64).toNat, text, none⟩ := by
  obtain ⟨buffer, hconv, hlen, hwords, _⟩ := convert_to_phi_spec iqphase chunk 0
    (chunk.length / 2) (by omega)
  refine ⟨buffer, hlen, fun k hk => hwords k (Nat.zero_le k) (by omega), ?_⟩
  unfold intake_body
  have hstart : ((0 : Int) / 2).toNat = 0 := by decide
  have hcnt : (((0 : Int) % 2 + (chunk.length : Int)) / 2).toNat = chunk.length / 2 := by
    omega
  have hlen2 : (((0 : Int) + (chunk.length : Int)) / 2).toNat = chunk.length / 2 := by
    omega
  simp only [List.nil_append, hstart, hcnt, hconv, hlen2]
  cases process_buffer rs (phi_of buffer) (chunk.length / 2) 0 with
  | error t => simp
  | ok r =>
    obtain ⟨processed, text⟩ := r
    simp

theorem read_from_stdin_exhausted (rs : Decoders) (iqphase : Nat → Nat) (reads : List Nat)
    (s : Intake) : read_from_stdin rs iqphase reads [] s = s := by
  cases reads with
  | nil => rfl
  | cons most rest => simp [read_from_stdin]

/-- A run in which the first `read` returns the whole input. -/
theorem run_first_read (rs : Decoders) (iqphase : Nat → Nat) (most : Nat) (rest input : List Nat)
    (hne : 0 < input.length) (hmost : input.length ≤ most) (hbuf : input.length ≤ BUFFER_SIZE) :
    run rs iqphase (most :: rest) input =
      ((intake_body rs iqphase input ⟨[], 0, 0, [], none⟩).out,
        (intake_body rs iqphase input ⟨[], 0, 0, [], none⟩).trap) := by
  have hn : min most (min (BUFFER_SIZE - (0 : Int).toNat) input.length) = input.length := by
    simp only [Int.toNat_zero, Nat.sub_zero]
    omega
  unfold run
  simp only [read_from_stdin, hn]
  rw [if_neg (by omega), List.take_length, List.drop_length, read_from_stdin_exhausted]
  by_cases ht : (intake_body rs iqphase input ⟨[], 0, 0, [], none⟩).trap.isSome = true
  · rw [if_pos ht]
  · rw [if_neg ht]

/-- A run on a single read for which `process_buffer` returns a count in range: the text
printed is the text of that one call. -/
theorem run_single_read (rs : Decoders) (iqphase : Nat → Nat) (most : Nat)
    (rest input : List Nat) (phi : Nat → Nat) (processed : Int) (text : List Char)
    (hne : 0 < input.length) (hmost : input.length ≤ most) (hbuf : input.length ≤ BUFFER_SIZE)
    (hphi : ∀ k, k < input.length / 2 → iqphase (phi_of input k) % 65536 = phi k % 65536)
    (hproc : process_buffer rs phi (input.length / 2) 0 = .ok (processed, text))
    (h0 : 0 ≤ processed) :
    run rs iqphase (most :: rest) input = (text, none) := by
  rw [run_first_read rs iqphase most rest input hne hmost hbuf]
  obtain ⟨buffer, hlen, hwords, hbody⟩ := intake_body_first rs iqphase input
  have hcongr : process_buffer rs (phi_of buffer) (input.length / 2) 0 =
      process_buffer rs phi (input.length / 2) 0 := by
    apply process_buffer_congr
    intro i hi
    rw [hwords i hi, Nat.mod_mod, hphi i hi]
  rw [hbody, hcongr, hproc]
  simp only []
  by_cases hpos : (input.length : Int) - processed * 2 > 0
  · rw [if_pos hpos, if_pos ⟨h0, by rw [hlen]; omega⟩]
  · rw [if_neg hpos]

/-! ## The intake loop on a later read -/

theorem phi_of_append_left (a b : List Nat) (k : Nat) (h : 2 * k + 1 < a.length) :
    phi_of (a ++ b) k = phi_of a k := by
  unfold phi_of
  rw [List.getD_append _ _ _ _ (by omega), List.getD_append _ _ _ _ h]

theorem phi_of_append_right (a b : List Nat) (h k : Nat) (ha : a.length = 2 * h) :
    phi_of (a ++ b) (h + k) = phi_of b k := by
  unfold phi_of
  rw [List.getD_append_right _ _ _ _ (by omega), List.getD_append_right _ _ _ _ (by omega)]
  congr 3 <;> congr 1 <;> omega

theorem phi_of_drop_take (b : List Nat) (p u k : Nat) (h : 2 * k + 1 < u) :
    phi_of ((b.drop (2 * p)).take u) k = phi_of b (k + p) := by
  unfold phi_of
  rw [getD_drop_take _ _ _ _ (by omega), getD_drop_take _ _ _ _ h]
  congr 3 <;> congr 1 <;> omega

theorem phi_of_drop (b : List Nat) (p k : Nat) :
    phi_of (b.drop (2 * p)) k = phi_of b (k + p) := by
  unfold phi_of
  simp only [List.getD_eq_getElem?_getD, List.getElem?_drop]
  congr 3 <;> congr 2 <;> omega

/-- An iteration of the intake loop that starts with an even number of bytes in the buffer, up
to the call of `process_buffer`: the words carried over are kept, the words read are
converted. -/
theorem intake_body_even (rs : Decoders) (iqphase : Nat → Nat) (chunk : List Nat) (s : Intake)
    (h : Nat) (hused : s.used = (s.buffer.length : Int)) (heven : s.buffer.length = 2 * h) :
    ∃ buffer, buffer.length = s.buffer.length + chunk.length ∧
      (∀ k, k < h → phi_of buffer k = phi_of s.buffer k) ∧
      (∀ k, k < chunk.length / 2 → phi_of buffer (h + k) = iqphase (phi_of chunk k) % 65536) ∧
      intake_body rs iqphase chunk s =
        match process_buffer rs (phi_of buffer) ((s.buffer.length + chunk.length) / 2)
            s.offset with
        | .error t =>
          { s with buffer := buffer, used := s.used + (chunk.length : Int), trap := some t }
        | .ok (processed, text) =>
          if s.used + (chunk.length : Int) - processed * 2 > 0 then
            if 0 ≤ processed ∧ processed * 2 + (s.used + (chunk.length : Int) - processed * 2) ≤
                buffer.length then
              ⟨(buffer.drop (processed * 2).toNat).take
                  (s.used + (chunk.length : Int) - processed * 2).toNat,
                s.used + (chunk.length : Int) - processed * 2,
                (((s.offset : Int) + processed) % 2 ^ 64).toNat, s.out ++ text, none⟩
            else
              ⟨buffer, s.used + (chunk.length : Int) - processed * 2,
                (((s.offset : Int) + processed) % 2 ^ 64).toNat, s.out ++ text,
                some .out_of_bounds⟩
          else
            ⟨[], s.used + (chunk.length : Int) - processed * 2,
              (((s.offset : Int) + processed) % 2 ^ 64).toNat, s.out ++ text, none⟩ := by
  obtain ⟨buffer, hconv, hlen, hwords, hkeep⟩ := convert_to_phi_spec iqphase
    (s.buffer ++ chunk) h (chunk.length / 2) (by rw [List.length_append]; omega)
  have hlen' : buffer.length = s.buffer.length + chunk.length := by
    rw [hlen, List.length_append]
  refine ⟨buffer, hlen', ?_, ?_, ?_⟩
  · intro k hk
    unfold phi_of
    rw [hkeep (2 * k) (Or.inl (by omega)), hkeep (2 * k + 1) (Or.inl (by omega)),
      List.getD_append _ _ _ _ (by omega), List.getD_append _ _ _ _ (by omega)]
  · intro k hk
    rw [hwords (h + k) (by omega) (by omega), phi_of_append_right _ _ h k heven]
  · unfold intake_body
    have hstart : (s.used / 2).toNat = h := by rw [hused, heven]; omega
    have hcnt : ((s.used % 2 + (chunk.length : Int)) / 2).toNat = chunk.length / 2 := by
      rw [hused, heven]; omega
    have hlen2 : ((s.used + (chunk.length : Int)) / 2).toNat =
        (s.buffer.length + chunk.length) / 2 := by
      rw [hused]; omega
    rcases hpb : process_buffer rs (phi_of buffer) ((s.buffer.length + chunk.length) / 2)
      s.offset with t | ⟨processed, text⟩
    · simp only [hstart, hcnt, hconv, hlen2, hpb]
    · simp only [hstart, hcnt, hconv, hlen2, hpb]

theorem phi_of_take (b : List Nat) (u k : Nat) (h : 2 * k + 1 < u) :
    phi_of (b.take u) k = phi_of b k := by
  have := phi_of_drop_take b 0 u k h
  simpa using this

/-- A run on two reads, the first of an even number `k1` of bytes, in which `process_buffer`
returns counts in range: the second call sees the samples from `p1` on and the text printed is
the text of the two calls. -/
theorem run_two_reads (rs : Decoders) (iqphase : Nat → Nat) (k1 most2 : Nat)
    (rest input : List Nat) (phi : Nat → Nat) (p1 : Nat) (p2 : Int) (text1 text2 : List Char)
    (hk1e : k1 % 2 = 0) (hk1lt : k1 < input.length) (hbuf : input.length ≤ BUFFER_SIZE)
    (hmost2 : input.length - k1 ≤ most2)
    (hphi : ∀ k, k < input.length / 2 → iqphase (phi_of input k) % 65536 = phi k % 65536)
    (hp1 : process_buffer rs phi (k1 / 2) 0 = .ok ((p1 : Int), text1)) (hp1lt : 2 * p1 < k1)
    (hp2 : process_buffer rs (fun k => phi (k + p1)) ((input.length - 2 * p1) / 2) p1 =
      .ok (p2, text2))
    (hp2nn : 0 ≤ p2) :
    run rs iqphase (k1 :: most2 :: rest) input = (text1 ++ text2, none) := by
  simp only [BUFFER_SIZE] at hbuf
  -- the first read
  have hc1 : (input.take k1).length = k1 := by rw [List.length_take]; omega
  obtain ⟨buffer1, hlen1, _, hnew1, hbody1⟩ := intake_body_even rs iqphase (input.take k1)
    ⟨[], 0, 0, [], none⟩ 0 rfl rfl
  simp only [List.length_nil, Nat.zero_add, hc1] at hlen1 hnew1 hbody1
  have hcongr1 : process_buffer rs (phi_of buffer1) (k1 / 2) 0 =
      process_buffer rs phi (k1 / 2) 0 := by
    apply process_buffer_congr
    intro i hi
    rw [hnew1 i hi, Nat.mod_mod, phi_of_take _ _ _ (by omega), hphi i (by omega)]
  rw [hcongr1, hp1] at hbody1
  simp only [] at hbody1
  rw [if_pos (by omega), if_pos ⟨by omega, by rw [hlen1]; omega⟩] at hbody1
  have hu1 : ((0 : Int) + (k1 : Int) - (p1 : Int) * 2).toNat = k1 - 2 * p1 := by omega
  have hd1 : ((p1 : Int) * 2).toNat = 2 * p1 := by omega
  have ho1 : ((((0 : Nat) : Int) + (p1 : Int)) % 2 ^ 64).toNat = p1 := by omega
  rw [hu1, hd1, ho1] at hbody1
  simp only [List.nil_append] at hbody1
  -- the second read
  have hb1len : ((buffer1.drop (2 * p1)).take (k1 - 2 * p1)).length = 2 * ((k1 - 2 * p1) / 2) := by
    rw [List.length_take, List.length_drop, hlen1]
    omega
  have hc2 : (input.drop k1).length = input.length - k1 := List.length_drop _ _
  obtain ⟨buffer2, hlen2, hold2, hnew2, hbody2⟩ := intake_body_even rs iqphase (input.drop k1)
    ⟨(buffer1.drop (2 * p1)).take (k1 - 2 * p1), (0 : Int) + (k1 : Int) - (p1 : Int) * 2, p1,
      text1, none⟩ ((k1 - 2 * p1) / 2) (by simp only []; rw [hb1len]; omega) hb1len
  simp only [hb1len, hc2] at hlen2 hold2 hnew2 hbody2
  have hlen2' : (2 * ((k1 - 2 * p1) / 2) + (input.length - k1)) / 2 =
      (input.length - 2 * p1) / 2 := by omega
  rw [hlen2'] at hbody2
  have hcongr2 : process_buffer rs (phi_of buffer2) ((input.length - 2 * p1) / 2) p1 =
      process_buffer rs (fun k => phi (k + p1)) ((input.length - 2 * p1) / 2) p1 := by
    apply process_buffer_congr
    intro i hi
    by_cases hcar : i < (k1 - 2 * p1) / 2
    · rw [hold2 i hcar, phi_of_drop_take _ _ _ _ (by omega), hnew1 (i + p1) (by omega),
        Nat.mod_mod, phi_of_take _ _ _ (by omega), hphi (i + p1) (by omega)]
    · have hi' : i = (k1 - 2 * p1) / 2 + (i - (k1 - 2 * p1) / 2) := by omega
      rw [hi', hnew2 _ (by omega), Nat.mod_mod]
      have hk1 : k1 = 2 * (k1 / 2) := by omega
      rw [show phi_of (input.drop k1) (i - (k1 - 2 * p1) / 2) =
          phi_of input (i - (k1 - 2 * p1) / 2 + k1 / 2) by
        rw [← phi_of_drop input (k1 / 2), ← hk1], hphi _ (by omega)]
      congr 2
      omega
  rw [hcongr2, hp2] at hbody2
  simp only [] at hbody2
  -- the run
  have hn1 : min k1 (min (131072 - (0 : Int).toNat) input.length) = k1 := by
    simp only [Int.toNat_zero, Nat.sub_zero]
    omega
  have hn2 : min most2 (min (131072 - ((0 : Int) + (k1 : Int) - (p1 : Int) * 2).toNat)
      (input.drop k1).length) = input.length - k1 := by
    rw [hu1, hc2]
    omega
  unfold run
  simp only [read_from_stdin, BUFFER_SIZE, hn1]
  rw [if_neg (by omega), hbody1]
  simp only [Option.isSome_none, Bool.false_eq_true, if_false, hn2]
  rw [if_neg (by omega), ← hc2, List.take_length, List.drop_length, hbody2]
  by_cases hpos : (0 : Int) + (k1 : Int) - (p1 : Int) * 2 + ((input.length - k1 : Nat) : Int) -
      p2 * 2 > 0
  · rw [if_pos hpos]
    by_cases hmove : 0 ≤ p2 ∧ p2 * 2 + ((0 : Int) + (k1 : Int) - (p1 : Int) * 2 +
        ((input.length - k1 : Nat) : Int) - p2 * 2) ≤ buffer2.length
    · rw [if_pos hmove]
      simp only [Option.isSome_none, Bool.false_eq_true, if_false, read_from_stdin_exhausted]
    · exfalso
      apply hmove
      refine ⟨hp2nn, ?_⟩
      rw [hlen2]
      omega
  · rw [if_neg hpos]
    simp only [Option.isSome_none, Bool.false_eq_true, if_false, read_from_stdin_exhausted]

/-! ## Registers: dependence on the bit decisions, and runs of zero bits -/

theorem regs_congr (phi psi : Nat → Nat) : ∀ (k bit r0 r1 : Nat),
    (∀ i, bit * 2 ≤ i → i < (bit + k) * 2 → dbit phi i = dbit psi i) →
    (regs_quiet phi k bit r0 r1 ↔ regs_quiet psi k bit r0 r1) ∧
      regs_after phi k bit r0 r1 = regs_after psi k bit r0 r1 := by
  intro k
  induction k with
  | zero => intro bit r0 r1 _; exact ⟨Iff.rfl, rfl⟩
  | succ k ih =>
    intro bit r0 r1 h
    have h0 := h (bit * 2) (le_refl _) (by omega)
    have h1 := h (bit * 2 + 1) (by omega) (by omega)
    simp only [regs_quiet, regs_after, h0, h1]
    have := ih (bit + 1) (shift_in r0 (dbit psi (bit * 2)))
      (shift_in r1 (dbit psi (bit * 2 + 1))) (fun i hi1 hi2 => h i (by omega) (by omega))
    rw [this.1, this.2]
    exact ⟨Iff.rfl, rfl⟩

theorem shift_in_zero (r : Nat) : shift_in r 0 = r * 2 ^ 1 % 2 ^ 64 := by
  unfold shift_in
  rw [Nat.or_zero, Nat.shiftLeft_eq]

theorem drained_step (r0 r1 : Nat) (h : drained r0 r1) :
    ¬ window_hit (shift_in r0 0) (shift_in r1 0) ∧ drained (shift_in r0 0) (shift_in r1 0) := by
  refine ⟨?_, ?_⟩
  · rw [shift_in_zero, shift_in_zero]
    exact h 1 (le_refl 1)
  · intro j hj
    rw [shift_in_zero, shift_in_zero, Nat.mod_mul_mod, Nat.mod_mul_mod, Nat.mul_assoc,
      Nat.mul_assoc, ← pow_add]
    exact h (1 + j) (by omega)

/-- While zero bits are shifted into drained registers, no demodulator is called. -/
theorem regs_quiet_zero (phi : Nat → Nat) : ∀ (k bit r0 r1 : Nat),
    (∀ i, bit * 2 ≤ i → i < (bit + k) * 2 → dbit phi i = 0) → drained r0 r1 →
    regs_quiet phi k bit r0 r1 := by
  intro k
  induction k with
  | zero => intro bit r0 r1 _ _; trivial
  | succ k ih =>
    intro bit r0 r1 h hd
    have h0 := h (bit * 2) (le_refl _) (by omega)
    have h1 := h (bit * 2 + 1) (by omega) (by omega)
    obtain ⟨hno, hd'⟩ := drained_step r0 r1 hd
    simp only [regs_quiet, h0, h1]
    exact ⟨Or.inr hno, ih (bit + 1) _ _ (fun i hi1 hi2 => h i (by omega) (by omega)) hd'⟩

theorem drained_of_bounded (r0 r1 : Nat)
    (h : ∀ j, j < 64 → 1 ≤ j → ¬ window_hit (r0 * 2 ^ j % 2 ^ 64) (r1 * 2 ^ j % 2 ^ 64)) :
    drained r0 r1 := by
  intro j hj
  by_cases hlt : j < 64
  · exact h j hlt hj
  · have hdvd : (2 : Nat) ^ 64 ∣ 2 ^ j := Nat.pow_dvd_pow 2 (by omega)
    have h0 : r0 * 2 ^ j % 2 ^ 64 = 0 := Nat.mod_eq_zero_of_dvd (Dvd.dvd.mul_left hdvd r0)
    have h1 : r1 * 2 ^ j % 2 ^ 64 = 0 := Nat.mod_eq_zero_of_dvd (Dvd.dvd.mul_left hdvd r1)
    rw [h0, h1]
    decide

theorem drained_after_adsb_sync : drained 240439 21704 :=
  drained_of_bounded 240439 21704 (by decide)

/-- The loop of `process_buffer` from an iteration on in which all remaining bit decisions are
zero and the registers are drained: it runs to its end and prints nothing more. -/
theorem scan_zero_to_end (rs : Decoders) (phi : Nat → Nat) (len offset : Nat) (lenbits : Int)
    (fuel : Nat) (s : Scan) (hfuel : lenbits ≤ (s.bit : Int) + fuel)
    (hlen : lenbits * 2 < len)
    (hz : ∀ i, s.bit * 2 ≤ i → i + 1 < len → dbit phi i = 0) (hd : drained s.sync0 s.sync1) :
    ∃ t, scan rs phi len offset lenbits fuel s = .ok t ∧ t.out = s.out ∧
      (t.bit : Int) = max (s.bit : Int) lenbits := by
  by_cases hdone : lenbits ≤ (s.bit : Int)
  · exact ⟨s, scan_done rs phi len offset lenbits fuel s hdone, rfl, by omega⟩
  · obtain ⟨k, hk⟩ : ∃ k : Nat, (k : Int) = lenbits - s.bit := ⟨(lenbits - s.bit).toNat, by omega⟩
    obtain ⟨f, hf⟩ : ∃ f : Nat, fuel = f + k := ⟨fuel - k, by omega⟩
    have hq := regs_quiet_zero phi k s.bit s.sync0 s.sync1
      (fun i h1 h2 => hz i h1 (by omega)) hd
    rw [hf, scan_quiet_run rs phi len offset lenbits k f s hq (by push_cast; omega) (by omega)]
    refine ⟨_, scan_done rs phi len offset lenbits f _ (by simp only []; push_cast; omega), rfl,
      ?_⟩
    simp only []
    push_cast
    omega

/-! ## The planted frame: its phase samples -/

theorem planted_phase_lt (payload : List Nat) (k : Nat) : planted_phase payload k < 65536 := by
  unfold planted_phase
  split_ifs <;> decide

theorem planted_phase_sync (payload : List Nat) (k : Nat) (h : k < 472) :
    planted_phase payload k = planted_phase [] k := by
  unfold planted_phase adsb_bit
  have hj : (k - 400) / 2 < SYNC_BITS := by simp only [SYNC_BITS]; omega
  simp only [hj, if_true]

theorem planted_phase_tail (payload : List Nat) (k : Nat) (h : 1240 ≤ k) :
    planted_phase payload k = 8192 := by
  unfold planted_phase
  rw [if_pos (Or.inr h)]

theorem dbit_planted_tail (payload : List Nat) (i : Nat) (h : 1240 ≤ i) :
    dbit (planted_phase payload) i = 0 := by
  unfold dbit
  rw [planted_phase_tail payload i h, planted_phase_tail payload (i + 1) (by omega)]
  decide

theorem dbit_planted_sync (payload : List Nat) (i : Nat) (h : i + 1 < 472) :
    dbit (planted_phase payload) i = dbit (planted_phase []) i := by
  unfold dbit
  rw [planted_phase_sync payload i (by omega), planted_phase_sync payload (i + 1) h]

/-- The phase difference over bit period `m` of the planted transmission is positive exactly
for a one bit. -/
theorem planted_bit_decision (payload : List Nat) (m : Nat) (h : m < 420) :
    (phi_difference (planted_phase payload (400 + 2 * m) % 65536)
      (planted_phase payload (400 + 2 * m + 1) % 65536) > 0) ↔ adsb_bit payload m = true := by
  have h1 : planted_phase payload (400 + 2 * m) = 8192 := by
    unfold planted_phase
    rw [if_neg (by omega), if_pos (by omega)]
  have h2 : planted_phase payload (400 + 2 * m + 1) =
      if adsb_bit payload m then 24576 else 57344 := by
    unfold planted_phase
    rw [if_neg (by omega), if_neg (by omega)]
    have : (400 + 2 * m + 1 - 400) / 2 = m := by omega
    rw [this]
  rw [h1, h2]
  cases adsb_bit payload m <;> decide

/-- The 36 bit periods from sample `base` on matter to `check_sync_word`, nothing else. -/
theorem check_sync_word_window (phi psi : Nat → Nat) (len len' base base' pattern : Nat)
    (hlen : base + 72 ≤ len) (hlen' : base' + 72 ≤ len')
    (h : ∀ i, i < 72 → phi (base + i) % 65536 = psi (base' + i) % 65536) :
    check_sync_word phi len base pattern = check_sync_word psi len' base' pattern := by
  have hd : ∀ j, j < 36 → dphi_at phi len (base + j * 2) = dphi_at psi len' (base' + j * 2) := by
    intro j hj
    rw [dphi_at_ok phi len _ (by omega), dphi_at_ok psi len' _ (by omega),
      h (j * 2) (by omega)]
    have := h (j * 2 + 1) (by omega)
    rw [show base + j * 2 + 1 = base + (j * 2 + 1) by omega,
      show base' + j * 2 + 1 = base' + (j * 2 + 1) by omega, this]
  have h1 : ∀ s, for_loop (sync_sum_body phi len base pattern) 36 0 s =
      for_loop (sync_sum_body psi len' base' pattern) 36 0 s := by
    intro s
    apply for_loop_congr
    intro j t _ hj
    unfold sync_sum_body
    rw [hd j (by omega)]
  have h2 : ∀ c e, for_loop (sync_err_body phi len base pattern c) 36 0 e =
      for_loop (sync_err_body psi len' base' pattern c) 36 0 e := by
    intro c e
    apply for_loop_congr
    intro j t _ hj
    unfold sync_err_body
    rw [hd j (by omega)]
  unfold check_sync_word
  rw [h1]
  simp only [h2]

theorem sync_check_planted (payload : List Nat) (len : Nat) (h : 472 ≤ len) :
    check_sync_word (planted_phase payload) len 400 ADSB_SYNC_WORD = .ok (0, true) := by
  rw [check_sync_word_window (planted_phase payload) (planted_phase []) len 472 400 400
    ADSB_SYNC_WORD (by omega) (by decide)
    (fun i hi => by rw [planted_phase_sync payload (400 + i) (by omega)])]
  decide

/-! ## The planted frame: demodulation at the planted alignment -/

theorem byte_eq_of_bits (x y : Nat) (hx : x < 256) (hy : y < 256)
    (h : ∀ j, j < 8 → (x.testBit (7 - j) = true ↔ y.testBit (7 - j) = true)) : x = y := by
  apply Nat.eq_of_testBit_eq
  intro i
  by_cases hi : i < 8
  · have := h (7 - i) (by omega)
    rw [show 7 - (7 - i) = i by omega] at this
    cases hxi : x.testBit i <;> cases hyi : y.testBit i <;> simp_all
  · have h8 : (256 : Nat) ≤ 2 ^ i :=
      calc (256 : Nat) = 2 ^ 8 := by decide
        _ ≤ 2 ^ i := Nat.pow_le_pow_right (by decide) (by omega)
    rw [Nat.testBit_lt_two_pow (by omega), Nat.testBit_lt_two_pow (by omega)]

theorem adsb_bit_payload (payload : List Nat) (k j : Nat) (hj : j < 8) :
    adsb_bit payload (36 + 8 * k + j) = (payload.getD k 0).testBit (7 - j) := by
  unfold adsb_bit
  rw [if_neg (by simp only [SYNC_BITS]; omega)]
  have h1 : (36 + 8 * k + j - SYNC_BITS) / 8 = k := by simp only [SYNC_BITS]; omega
  have h2 : (36 + 8 * k + j - SYNC_BITS) % 8 = j := by simp only [SYNC_BITS]; omega
  rw [h1, h2]

/-- Slicing the 768 samples after the sync word with threshold 0 gives back the 48 planted
bytes. -/
theorem demod_frame_planted (payload frame : List Nat) (len : Nat) (hlen : 1240 ≤ len)
    (hp : payload.length = 48) (hb : ∀ k, k < 48 → payload.getD k 0 < 256)
    (hframe : 48 ≤ frame.length) :
    ∃ out, demod_frame (planted_phase payload) len (400 + SYNC_BITS * 2) frame
        LONG_FRAME_BYTES 0 = .ok out ∧ out.length = frame.length ∧
      (out.drop 0).take (255 - 207) = payload := by
  obtain ⟨out, hout, hlen', _, hbits⟩ := demod_frame_spec (planted_phase payload) len
    (400 + SYNC_BITS * 2) frame LONG_FRAME_BYTES 0
    (by simp only [SYNC_BITS, LONG_FRAME_BYTES]; omega) hframe
  refine ⟨out, hout, hlen', ?_⟩
  apply list_eq_of_getD
  · simp only [List.drop_zero, List.length_take, hp]
    omega
  · intro k hk
    have hk48 : k < 48 := by
      simp only [List.drop_zero, List.length_take] at hk
      omega
    rw [getD_drop_take _ _ _ _ (by omega), Nat.zero_add]
    obtain ⟨h256, hb8⟩ := hbits k (by simp only [LONG_FRAME_BYTES]; omega)
    apply byte_eq_of_bits _ _ h256 (hb k hk48)
    intro j hj
    rw [hb8 j hj, ← adsb_bit_payload payload k j hj]
    have := planted_bit_decision payload (36 + 8 * k + j) (by omega)
    rw [show 400 + SYNC_BITS * 2 + 16 * k + 2 * j = 400 + 2 * (36 + 8 * k + j) by
      simp only [SYNC_BITS]; omega]
    exact this

theorem codeword_after_self (n : Nat) (p : List Nat) (hp : p.length = n)
    (hb : ∀ k, k < n → p.getD k 0 < 256) : codeword_after n p p = p := by
  apply list_eq_of_getD
  · rw [codeword_after_length, hp]
  · intro k hk
    rw [codeword_after_length] at hk
    simp only [codeword_after, List.getD_eq_getElem?_getD]
    rw [List.getElem?_map, List.getElem?_range hk]
    simp only [Option.map_some', Option.getD_some]
    have hk' : k < p.length := by omega
    rw [List.getElem?_eq_getElem hk']
    simp only [Option.getD_some]
    have := hb k hk
    rw [List.getD_eq_getElem?_getD, List.getElem?_eq_getElem hk'] at this
    simp only [Option.getD_some] at this
    exact Nat.mod_eq_of_lt this

/-- At the planted alignment `demod_adsb_frame` accepts the frame as long, with no correction,
and leaves the 48 planted bytes at the start of the buffer. -/
theorem demod_adsb_planted (rs : Decoders) (payload frame : List Nat) (len : Nat)
    (hlen : 1240 ≤ len) (hp : payload.length = 48) (hb : ∀ k, k < 48 → payload.getD k 0 < 256)
    (htype : payload.getD 0 0 >>> 3 ≠ 0) (hrs : rs.rs_adsb_long payload = (0, payload))
    (hframe : 48 ≤ frame.length) :
    ∃ tail, demod_adsb_frame rs (planted_phase payload) len 400 frame =
      .ok ⟨420, 0, payload ++ tail⟩ := by
  obtain ⟨out, hout, hlen', hcw⟩ := demod_frame_planted payload frame len hlen hp hb hframe
  have hdec := decode_rs_char_ok rs.rs_adsb_long 207 out 0 (by omega)
  rw [hcw, hrs] at hdec
  simp only [List.take_zero, List.nil_append] at hdec
  rw [show (255 - 207 : Nat) = 48 by decide, codeword_after_self 48 payload hp hb] at hdec
  have hload : load8 (payload ++ out.drop (0 + 48)) 0 = .ok (payload.getD 0 0) := by
    rw [load8_ok _ _ (by simp only [List.length_append]; omega),
      List.getD_append _ _ _ _ (by omega), Nat.mod_eq_of_lt (hb 0 (by decide))]
  refine ⟨out.drop (0 + 48), ?_⟩
  unfold demod_adsb_frame
  rw [sync_check_planted payload len (by omega)]
  simp only [ok_bind, Bool.not_true, Bool.false_eq_true, if_false, hout, hdec, hload]
  rw [if_pos ⟨by decide, by decide, htype⟩]
  rfl

/-! ## The planted frame: the whole scan -/

set_option maxRecDepth 100000 in
theorem regs_planted_sync :
    regs_quiet (planted_phase []) 217 0 0 0 ∧
      regs_after (planted_phase []) 217 0 0 0 = (120219, 10852) := by
  decide!

theorem regs_planted (payload : List Nat) :
    regs_quiet (planted_phase payload) 217 0 0 0 ∧
      regs_after (planted_phase payload) 217 0 0 0 = (120219, 10852) := by
  have hc := regs_congr (planted_phase payload) (planted_phase []) 217 0 0 0
    (fun i _ hi => dbit_planted_sync payload i (by omega))
  exact ⟨hc.1.mpr regs_planted_sync.1, hc.2.trans regs_planted_sync.2⟩

theorem handle_adsb_frame_long (timestamp : Nat) (payload tail : List Nat)
    (hp : payload.length = 48) (htype : payload.getD 0 0 >>> 3 ≠ 0) :
    handle_adsb_frame timestamp (payload ++ tail) 0 = long_record payload := by
  unfold handle_adsb_frame dump_raw_message long_record
  rw [List.getD_append _ _ _ _ (by omega), if_neg htype,
    List.take_append_of_le_length (by simp only [LONG_FRAME_DATA_BYTES]; omega)]
  simp

/-- The loop of `process_buffer` on the planted input: one record is printed, for the planted
frame. -/
theorem scan_planted (rs : Decoders) (payload : List Nat) (len offset : Nat) (lenbits : Int)
    (hlenbits : lenbits = ((len / 2 : Nat) : Int) - 4434) (hlen : 9304 ≤ len)
    (hp : payload.length = 48) (hb : ∀ k, k < 48 → payload.getD k 0 < 256)
    (htype : payload.getD 0 0 >>> 3 ≠ 0) (hrs : rs.rs_adsb_long payload = (0, payload)) :
    ∃ t, scan rs (planted_phase payload) len offset lenbits lenbits.toNat
        ⟨0, 0, 0, List.replicate UPLINK_FRAME_BYTES 0, List.replicate UPLINK_FRAME_BYTES 0, []⟩ =
        .ok t ∧ t.out = long_record payload ∧ 18 ≤ (t.bit : Int) := by
  obtain ⟨hq, hafter⟩ := regs_planted payload
  obtain ⟨f, hf⟩ : ∃ f : Nat, lenbits.toNat = f + 1 + 217 := ⟨lenbits.toNat - 218, by omega⟩
  have hbuf : (List.replicate UPLINK_FRAME_BYTES 0).length = 552 := List.length_replicate _ _
  obtain ⟨tail, hd0⟩ := demod_adsb_planted rs payload (List.replicate UPLINK_FRAME_BYTES 0) len
    (by omega) hp hb htype hrs (by rw [hbuf]; decide)
  obtain ⟨d1, hd1, hrep⟩ := demod_adsb_frame_reported rs (planted_phase payload) len 401
    (List.replicate UPLINK_FRAME_BYTES 0)
    (by simp only [SYNC_BITS, LONG_FRAME_BYTES]; omega) (by rw [hbuf]; decide)
  have h0 : shift_in 120219 (dbit (planted_phase payload) (217 * 2)) = 240439 := by
    rw [dbit_planted_sync payload _ (by decide)]
    decide
  have h1 : shift_in 10852 (dbit (planted_phase payload) (217 * 2 + 1)) = 21704 := by
    rw [dbit_planted_sync payload _ (by decide)]
    decide
  have hle : (0 : Int) ≤ d1.rs_errors := by
    unfold Demod.reported at hrep
    omega
  rw [hf, scan_quiet_run rs (planted_phase payload) len offset lenbits 217 (f + 1) _ hq
    (by simp only []; omega) (by simp only []; omega)]
  simp only [hafter, Nat.zero_add]
  rw [scan_succ _ _ _ _ _ _ _ (by simp only []; omega),
    scan_body_unfold _ _ _ _ _ (by simp only []; omega)]
  simp only [h0, h1]
  rw [if_neg (by decide), if_pos (Or.inl (by decide)), if_pos (by decide)]
  rw [show (217 - CHECK_BITS + 1) * 2 + 0 = 400 by decide, hd0,
    show (400 : Nat) + 1 = 401 by decide, hd1]
  simp only [ok_bind, dispatch]
  rw [if_pos ⟨by decide, hle⟩]
  simp only [List.nil_append, handle_adsb_frame_long _ payload tail hp htype]
  have hbit : ((((217 - CHECK_BITS + 1 : Nat) : Int) + 420).toNat + 1 : Nat) = 621 := by decide
  simp only [hbit]
  obtain ⟨t, ht, hout, htbit⟩ := scan_zero_to_end rs (planted_phase payload) len offset lenbits f
    ⟨621, 240439, 21704, payload ++ tail, d1.frame, long_record payload⟩
    (by simp only []; omega) (by omega)
    (fun i hi _ => dbit_planted_tail payload i (by simp only [] at hi; omega))
    drained_after_adsb_sync
  refine ⟨t, ht, hout, ?_⟩
  rw [htbit]
  simp only []
  omega

/-- On the planted input with at least 8064 trailing samples `process_buffer` prints the record
of the planted frame and returns a count that is not negative. -/
theorem process_buffer_planted (rs : Decoders) (payload : List Nat) (trailing : Nat)
    (htrail : 8064 ≤ trailing) (hp : payload.length = 48)
    (hb : ∀ k, k < 48 → payload.getD k 0 < 256) (htype : payload.getD 0 0 >>> 3 ≠ 0)
    (hrs : rs.rs_adsb_long payload = (0, payload)) :
    ∃ processed : Int, process_buffer rs (planted_phase payload) (1240 + trailing) 0 =
      .ok (processed, long_record payload) ∧ 0 ≤ processed := by
  obtain ⟨t, ht, hout, hbit⟩ := scan_planted rs payload (1240 + trailing) 0
    ((((1240 + trailing) / 2 : Nat) : Int) -
      (((SYNC_BITS - CHECK_BITS) + UPLINK_FRAME_BITS : Nat) : Int))
    (by simp only [SYNC_BITS, CHECK_BITS, UPLINK_FRAME_BITS]; omega) (by omega) hp hb htype hrs
  refine ⟨((t.bit : Int) - (CHECK_BITS : Nat)) * 2, ?_, ?_⟩
  · unfold process_buffer
    simp only [ht, ok_bind, pure_eq_ok, hout]
  · simp only [CHECK_BITS]
    omega

/-! ## C3, C4: whole runs -/

theorem planted_stream_length (payload : List Nat) (trailing : Nat) :
    (planted_stream payload trailing).length = 2 * (1240 + trailing) := by
  simp [planted_stream]

theorem planted_stream_getD (payload : List Nat) (trailing i : Nat)
    (h : i < 2 * (1240 + trailing)) :
    (planted_stream payload trailing).getD i 0 = planted_byte payload i := by
  simp only [planted_stream, List.getD_eq_getElem?_getD]
  rw [List.getElem?_map, List.getElem?_range h]
  rfl

/-- The table entries of the samples of the planted input are the planted phases. -/
theorem planted_stream_phase (iqphase : Nat → Nat) (payload : List Nat) (trailing : Nat)
    (h00 : iqphase 0x0000 % 65536 = 8192) (h0f : iqphase 0x00FF % 65536 = 24576)
    (hf0 : iqphase 0xFF00 % 65536 = 57344) (k : Nat) (hk : k < 1240 + trailing) :
    iqphase (phi_of (planted_stream payload trailing) k) % 65536 =
      planted_phase payload k % 65536 := by
  unfold phi_of
  rw [planted_stream_getD payload trailing (2 * k) (by omega),
    planted_stream_getD payload trailing (2 * k + 1) (by omega),
    Nat.mod_eq_of_lt (planted_phase_lt payload k)]
  unfold planted_byte planted_phase
  have e0 : 2 * k / 2 = k := by omega
  have e1 : (2 * k + 1) / 2 = k := by omega
  have e2 : 2 * k % 2 = 0 := by omega
  have e3 : (2 * k + 1) % 2 = 1 := by omega
  rw [e0, e1, e2, e3]
  by_cases hz : k < 400 ∨ 1240 ≤ k
  · rw [if_pos hz, if_pos hz, if_pos hz]
    exact h00
  · rw [if_neg hz, if_neg hz, if_neg hz]
    by_cases he : (k - 400) % 2 = 0
    · rw [if_pos he, if_pos he, if_pos he]
      exact h00
    · rw [if_neg he, if_neg he, if_neg he]
      cases adsb_bit payload ((k - 400) / 2)
      · simpa using hf0
      · simpa using h0f

/-- The planted input with at least 8064 trailing samples, delivered by one `read`: the program
prints the record of the planted frame and nothing else. -/
theorem run_planted (rs : Decoders) (iqphase : Nat → Nat) (payload : List Nat)
    (trailing most : Nat) (rest : List Nat)
    (h00 : iqphase 0x0000 % 65536 = 8192) (h0f : iqphase 0x00FF % 65536 = 24576)
    (hf0 : iqphase 0xFF00 % 65536 = 57344)
    (hp : payload.length = 48) (hb : ∀ k, k < 48 → payload.getD k 0 < 256)
    (htype : payload.getD 0 0 >>> 3 ≠ 0) (hrs : rs.rs_adsb_long payload = (0, payload))
    (htrail : 8064 ≤ trailing) (hfit : 2 * (1240 + trailing) ≤ BUFFER_SIZE)
    (hmost : 2 * (1240 + trailing) ≤ most) :
    run rs iqphase (most :: rest) (planted_stream payload trailing) =
      (long_record payload, none) := by
  obtain ⟨processed, hproc, h0⟩ := process_buffer_planted rs payload trailing htrail hp hb
    htype hrs
  have hlen := planted_stream_length payload trailing
  have hhalf : (planted_stream payload trailing).length / 2 = 1240 + trailing := by omega
  apply run_single_read rs iqphase most rest (planted_stream payload trailing)
    (planted_phase payload) processed (long_record payload) (by omega) (by omega) (by omega)
  · intro k hk
    exact planted_stream_phase iqphase payload trailing h00 h0f hf0 k (by omega)
  · rw [hhalf]
    exact hproc
  · exact h0

/-- A run whose first `read` returns fewer than 8870 samples, whatever is read later:
`process_buffer` returns -36 and the source of `memmove` lies before the start of the
buffer. -/
theorem run_short_first_read (rs : Decoders) (iqphase : Nat → Nat) (most : Nat)
    (rest input : List Nat) (hmost : 0 < most) (hne : 0 < input.length)
    (hshort : min most input.length / 2 / 2 ≤ 4434) :
    run rs iqphase (most :: rest) input = ([], some .out_of_bounds) := by
  have hn : min most (min (BUFFER_SIZE - (0 : Int).toNat) input.length) =
      min most input.length := by
    simp only [Int.toNat_zero, Nat.sub_zero, BUFFER_SIZE]
    omega
  have hchunk : (input.take (min most input.length)).length = min most input.length := by
    rw [List.length_take]
    omega
  obtain ⟨buffer, hlen, _, hbody⟩ := intake_body_first rs iqphase
    (input.take (min most input.length))
  rw [hchunk] at hbody
  rw [process_buffer_short rs (phi_of buffer) (min most input.length / 2) 0 hshort] at hbody
  simp only [] at hbody
  rw [if_pos (by omega), if_neg (by omega)] at hbody
  unfold run
  simp only [read_from_stdin, hn]
  rw [if_neg (by omega), hbody]
  rfl

theorem payload_example_length : payload_example.length = 48 := by
  simp [payload_example]

theorem payload_example_bytes : ∀ k, k < 48 → payload_example.getD k 0 < 256 := by
  decide

theorem payload_example_accepted :
    (rs_planted payload_example).rs_adsb_long payload_example = (0, payload_example) := by
  simp [rs_planted]

/-- C3 (as amended): for the input made of 400 zero samples, the ADS-B sync word and 48 frame
bytes at two samples per bit (the first sample of a bit period a zero sample, the phase
difference over the bit period +16384 for a one and -16384 for a zero), and then at least 8064
zero samples, with `byte0 >> 3 != 0` and a decoder that reports no correction for the 48 bytes
and leaves them unchanged, delivered by one `read` and followed by end of stream, the program
prints exactly one record: `-`, the 68 hex digits of the 34 data bytes, `;` and a newline, with
no `;rs=` part. -/
theorem planted_long_frame_decoded (rs : Decoders) (iqphase : Nat → Nat) (payload : List Nat)
    (trailing most : Nat) (rest : List Nat)
    (h00 : iqphase 0x0000 % 65536 = 8192) (h0f : iqphase 0x00FF % 65536 = 24576)
    (hf0 : iqphase 0xFF00 % 65536 = 57344)
    (hp : payload.length = 48) (hb : ∀ k, k < 48 → payload.getD k 0 < 256)
    (htype : payload.getD 0 0 >>> 3 ≠ 0) (hrs : rs.rs_adsb_long payload = (0, payload))
    (htrail : 8064 ≤ trailing) (hfit : 2 * (1240 + trailing) ≤ BUFFER_SIZE)
    (hmost : 2 * (1240 + trailing) ≤ most) :
    run rs iqphase (most :: rest) (planted_stream payload trailing) =
      (['-'] ++ (payload.take 34).flatMap hex_byte ++ [';', '\n'], none) :=
  run_planted rs iqphase payload trailing most rest h00 h0f hf0 hp hb htype hrs htrail hfit hmost

theorem planted_long_frame_decoded_witness :
    iqphase_corners 0x0000 % 65536 = 8192 ∧ iqphase_corners 0x00FF % 65536 = 24576 ∧
      iqphase_corners 0xFF00 % 65536 = 57344 ∧ payload_example.length = 48 ∧
      (∀ k, k < 48 → payload_example.getD k 0 < 256) ∧ payload_example.getD 0 0 >>> 3 ≠ 0 ∧
      (rs_planted payload_example).rs_adsb_long payload_example = (0, payload_example) ∧
      8064 ≤ 8064 ∧ 2 * (1240 + 8064) ≤ BUFFER_SIZE ∧ 2 * (1240 + 8064) ≤ BUFFER_SIZE ∧
      run (rs_planted payload_example) iqphase_corners (BUFFER_SIZE :: [BUFFER_SIZE])
          (planted_stream payload_example 8064) =
        (['-'] ++ (payload_example.take 34).flatMap hex_byte ++ [';', '\n'], none) :=
  ⟨by decide, by decide, by decide, payload_example_length, payload_example_bytes, by decide,
    payload_example_accepted, by decide, by decide, by decide,
    planted_long_frame_decoded (rs_planted payload_example) iqphase_corners payload_example
      8064 BUFFER_SIZE [BUFFER_SIZE] (by decide) (by decide) (by decide) payload_example_length
      payload_example_bytes (by decide) payload_example_accepted (by decide) (by decide)
      (by decide)⟩

/-- C3, counterexample: with the 400 trailing zero samples of the scenario the input has
1640 samples, the loop of `process_buffer` does not run, and the program prints nothing (and
then moves memory from before the start of its buffer) instead of the record of the planted
frame. -/
theorem planted_400_trailing_prints_nothing :
    run (rs_planted payload_example) iqphase_corners (BUFFER_SIZE :: [BUFFER_SIZE])
        (planted_stream payload_example 400) = ([], some .out_of_bounds) ∧
      (['-'] ++ (payload_example.take 34).flatMap hex_byte ++ [';', '\n'] : List Char) ≠ [] :=
  ⟨run_short_first_read (rs_planted payload_example) iqphase_corners BUFFER_SIZE [BUFFER_SIZE]
      (planted_stream payload_example 400) (by decide)
      (by rw [planted_stream_length]; decide) (by rw [planted_stream_length]; decide),
    by simp⟩

/-- A split that leaves the first `read` short: the planted input with 8064 trailing samples
prints the record of the planted frame when one `read` delivers it, and prints nothing when a
first `read` delivers its first 3280 bytes: `process_buffer` then returns -36 and the
carry-over moves memory from before the start of the buffer. -/
theorem split_read_differs :
    run (rs_planted payload_example) iqphase_corners (BUFFER_SIZE :: [BUFFER_SIZE])
        (planted_stream payload_example 8064) =
        (long_record payload_example, none) ∧
      run (rs_planted payload_example) iqphase_corners (3280 :: [BUFFER_SIZE])
        (planted_stream payload_example 8064) = ([], some .out_of_bounds) :=
  ⟨run_planted (rs_planted payload_example) iqphase_corners payload_example
      8064 BUFFER_SIZE [BUFFER_SIZE] (by decide) (by decide) (by decide) payload_example_length
      payload_example_bytes (by decide) payload_example_accepted (by decide) (by decide)
      (by decide),
    run_short_first_read (rs_planted payload_example) iqphase_corners 3280 [BUFFER_SIZE]
      (planted_stream payload_example 8064) (by decide)
      (by rw [planted_stream_length]; decide) (by rw [planted_stream_length]; decide)⟩

/-! ## A short ADS-B frame of zero bytes -/

theorem byte_zero_of_bits (x : Nat) (hx : x < 256)
    (h : ∀ j, j < 8 → ¬ (x.testBit (7 - j) = true)) : x = 0 := by
  apply byte_eq_of_bits x 0 hx (by decide)
  intro j hj
  constructor
  · intro hxj
    exact absurd hxj (h j hj)
  · intro h0
    simp at h0

theorem codeword_after_getD (n : Nat) (before after : List Nat) (k : Nat) (hk : k < n) :
    (codeword_after n before after).getD k 0 = after.getD k (before.getD k 0) % 256 := by
  simp only [codeword_after, List.getD_eq_getElem?_getD]
  rw [List.getElem?_map, List.getElem?_range hk]
  rfl

/-- A decoder that leaves a codeword alone or replaces it by zeros keeps leading zero bytes. -/
theorem codeword_after_zeros (cw after : List Nat) (hlen : cw.length = 48)
    (h0 : ∀ k, k < 30 → cw.getD k 0 = 0)
    (h : after = cw ∨ after = List.replicate cw.length 0) (k : Nat) (hk : k < 30) :
    (codeword_after 48 cw after).getD k 0 = 0 := by
  rw [codeword_after_getD 48 cw after k (by omega)]
  rcases h with h | h
  · rw [h, h0 k hk]
    have := h0 k hk
    rw [this]
  · rw [h, hlen]
    simp only [List.getD_eq_getElem?_getD]
    rw [List.getElem?_replicate_of_lt (by omega)]
    rfl

/-- When the sync check passes and none of the first 240 bit decisions after the sync word is
a one, the long decoder leaves a codeword alone or replaces it by zeros, and the short decoder
accepts the all-zero codeword, `demod_adsb_frame` accepts a short frame of zero bytes. -/
theorem demod_adsb_zero_short (rs : Decoders) (phi : Nat → Nat) (len base : Nat)
    (frame : List Nat) (center : Int) (hlen : base + 840 ≤ len) (hframe : 48 ≤ frame.length)
    (hsync : check_sync_word phi len base ADSB_SYNC_WORD = .ok (center, true))
    (hzero : ∀ t, t < 240 → ¬ (phi_difference (phi (base + 72 + 2 * t) % 65536)
      (phi (base + 72 + 2 * t + 1) % 65536) > center))
    (hlong : ∀ codeword, (rs.rs_adsb_long codeword).2 = codeword ∨
      (rs.rs_adsb_long codeword).2 = List.replicate codeword.length 0)
    (hshort : rs.rs_adsb_short (List.replicate 30 0) = (0, List.replicate 30 0)) :
    ∃ tail, demod_adsb_frame rs phi len base frame =
      .ok ⟨276, 0, List.replicate 30 0 ++ tail⟩ := by
  obtain ⟨out, hout, hlen', _, hbits⟩ := demod_frame_spec phi len (base + SYNC_BITS * 2) frame
    LONG_FRAME_BYTES center (by simp only [SYNC_BITS, LONG_FRAME_BYTES]; omega) hframe
  have hout256 : ∀ k, k < 48 → out.getD k 0 < 256 := fun k hk => (hbits k hk).1
  have hout0 : ∀ k, k < 30 → out.getD k 0 = 0 := by
    intro k hk
    apply byte_zero_of_bits _ (hout256 k (by omega))
    intro j hj
    rw [(hbits k (by simp only [LONG_FRAME_BYTES]; omega)).2 j hj]
    have := hzero (8 * k + j) (by omega)
    rw [show base + SYNC_BITS * 2 + 16 * k + 2 * j = base + 72 + 2 * (8 * k + j) by
      simp only [SYNC_BITS]; omega]
    exact this
  -- the long attempt leaves the 30 zero bytes in place
  have hdec := decode_rs_char_ok rs.rs_adsb_long 207 out 0 (by omega)
  simp only [List.take_zero, List.nil_append, List.drop_zero, Nat.zero_add] at hdec
  rw [show (255 - 207 : Nat) = 48 by decide] at hdec
  have hcw48 : (out.take 48).length = 48 := by
    rw [List.length_take]
    omega
  have hcw0 : ∀ k, k < 30 → (out.take 48).getD k 0 = 0 := by
    intro k hk
    have := getD_drop_take out 0 48 k (by omega)
    simp only [List.drop_zero, Nat.zero_add] at this
    rw [this]
    exact hout0 k hk
  obtain ⟨mid, hmid⟩ : ∃ mid, mid = codeword_after 48 (out.take 48)
      (rs.rs_adsb_long (out.take 48)).2 ++ out.drop 48 := ⟨_, rfl⟩
  rw [← hmid] at hdec
  have hmidlen : 48 ≤ mid.length := by
    rw [hmid, List.length_append, codeword_after_length]
    omega
  have hmid0 : ∀ k, k < 30 → mid.getD k 0 = 0 := by
    intro k hk
    rw [hmid, List.getD_append _ _ _ _ (by rw [codeword_after_length]; omega)]
    exact codeword_after_zeros _ _ hcw48 hcw0 (hlong _) k hk
  have hload1 : load8 mid 0 = .ok 0 := by
    rw [load8_ok _ _ (by omega), hmid0 0 (by decide)]
  -- the short attempt
  have hcw30 : (mid.drop 0).take (255 - 225) = List.replicate 30 0 := by
    apply list_eq_of_getD
    · simp only [List.drop_zero, List.length_take, List.length_replicate]
      omega
    · intro k hk
      have hk30 : k < 30 := by
        simp only [List.drop_zero, List.length_take] at hk
        omega
      rw [getD_drop_take _ _ _ _ (by omega), Nat.zero_add, hmid0 k hk30]
      simp only [List.getD_eq_getElem?_getD]
      rw [List.getElem?_replicate_of_lt hk30]
      rfl
  have hdec2 := decode_rs_char_ok rs.rs_adsb_short 225 mid 0 (by omega)
  rw [hcw30, hshort] at hdec2
  simp only [List.take_zero, List.nil_append, Nat.zero_add] at hdec2
  rw [show (255 - 225 : Nat) = 30 by decide, codeword_after_self 30 (List.replicate 30 0)
    (List.length_replicate _ _) (by decide)] at hdec2
  have hload2 : load8 (List.replicate 30 0 ++ mid.drop 30) 0 = .ok 0 := by
    rw [load8_ok _ _ (by simp only [List.length_append, List.length_replicate]; omega),
      List.getD_append _ _ _ _ (by simp only [List.length_replicate]; decide)]
    rfl
  refine ⟨mid.drop 30, ?_⟩
  unfold demod_adsb_frame
  rw [hsync]
  simp only [ok_bind, Bool.not_true, Bool.false_eq_true, if_false, hout, hdec, hload1]
  rw [if_neg (fun h => h.2.2 (by decide))]
  simp only [hdec2, ok_bind, hload2]
  rw [if_pos ⟨by decide, by decide, by decide⟩]
  rfl

theorem demod_adsb_no_sync (rs : Decoders) (phi : Nat → Nat) (len base : Nat)
    (frame : List Nat) (center : Int)
    (hsync : check_sync_word phi len base ADSB_SYNC_WORD = .ok (center, false)) :
    demod_adsb_frame rs phi len base frame = .ok ⟨0, 9999, frame⟩ := by
  unfold demod_adsb_frame
  rw [hsync]
  rfl

theorem handle_adsb_frame_zero (timestamp : Nat) (tail : List Nat) :
    handle_adsb_frame timestamp (List.replicate 30 0 ++ tail) 0 = short_zero_record := by
  unfold handle_adsb_frame dump_raw_message short_zero_record
  rw [List.getD_append _ _ _ _ (by simp only [List.length_replicate]; decide)]
  rw [if_pos (by decide),
    List.take_append_of_le_length (by
      simp only [SHORT_FRAME_DATA_BYTES, List.length_replicate]; decide)]
  simp [List.take_replicate, SHORT_FRAME_DATA_BYTES]

/-- An iteration in which `sync0` or `sync1` matches the ADS-B word, the first attempt is
accepted with no correction and the second fails: the record of the first attempt is printed
and `bit` moves behind the frame. -/
theorem scan_adsb_hit (rs : Decoders) (phi : Nat → Nat) (len offset : Nat) (lenbits : Int)
    (fuel : Nat) (s : Scan) (r0 r1 index : Nat) (d0 d1 : Demod)
    (hbit : CHECK_BITS ≤ s.bit) (hlt : (s.bit : Int) < lenbits) (hlen : s.bit * 2 + 2 < len)
    (h0 : shift_in s.sync0 (dbit phi (s.bit * 2)) = r0)
    (h1 : shift_in s.sync1 (dbit phi (s.bit * 2 + 1)) = r1)
    (hhit : r0 &&& CHECK_MASK = CHECK_ADSB ∨ r1 &&& CHECK_MASK = CHECK_ADSB)
    (hindex : (s.bit - CHECK_BITS + 1) * 2 +
      (if r0 &&& CHECK_MASK = CHECK_ADSB then 0 else 1) = index)
    (hd0 : demod_adsb_frame rs phi len index s.demod_buf_a = .ok d0)
    (hd1 : demod_adsb_frame rs phi len (index + 1) s.demod_buf_b = .ok d1)
    (hskip : d0.skip ≠ 0) (hrs : d0.rs_errors ≤ d1.rs_errors) :
    scan rs phi len offset lenbits (fuel + 1) s =
      scan rs phi len offset lenbits fuel
        ⟨(((s.bit - CHECK_BITS + 1 : Nat) : Int) + d0.skip).toNat + 1, r0, r1, d0.frame, d1.frame,
          s.out ++ handle_adsb_frame ((offset + index) % 2 ^ 64) d0.frame d0.rs_errors⟩ := by
  rw [scan_succ _ _ _ _ _ _ _ hlt, scan_body_unfold _ _ _ _ _ hlen]
  simp only [h0, h1]
  rw [if_neg (by omega), if_pos hhit, hindex, hd0, hd1]
  simp only [ok_bind, dispatch]
  rw [if_pos ⟨hskip, hrs⟩]

/-! ## Two frames back to back: the phase samples -/

theorem b2b_phase_lt (k : Nat) : b2b_phase k < 65536 := by
  unfold b2b_phase
  split_ifs
  · decide
  · split <;> decide

theorem b2b_phase_idle (k : Nat) (h : (37 ≤ k / 2 ∧ k / 2 < 277) ∨ 313 ≤ k / 2) :
    b2b_phase k = 8192 := by
  have hb : b2b_bit (k / 2) = none := by
    unfold b2b_bit
    rw [if_neg (by omega), if_neg (by omega)]
  unfold b2b_phase
  rw [hb]
  split_ifs <;> rfl

theorem b2b_no_one (d t : Nat) (h : (74 ≤ d + 2 * t ∧ d + 2 * t + 1 < 554) ∨ 626 ≤ d + 2 * t) :
    ¬ (phi_difference (b2b_phase (d + 2 * t) % 65536) (b2b_phase (d + 2 * t + 1) % 65536) > 0) := by
  rw [b2b_phase_idle _ (by omega), b2b_phase_idle _ (by omega)]
  decide

theorem dbit_b2b_idle (i : Nat) (h : 626 ≤ i) : dbit b2b_phase i = 0 := by
  unfold dbit
  rw [b2b_phase_idle _ (by omega), b2b_phase_idle _ (by omega)]
  decide

theorem dbit_b2b_shifted_idle (i : Nat) (h : 106 ≤ i) :
    dbit (fun k => b2b_phase (k + 520)) i = 0 := by
  have ha : b2b_phase (i + 520) = 8192 := b2b_phase_idle _ (Or.inr (by omega))
  have hb : b2b_phase (i + 1 + 520) = 8192 := b2b_phase_idle _ (Or.inr (by omega))
  unfold dbit
  simp only [ha, hb]
  decide

theorem sync_checks_b2b (len : Nat) (h : 75 ≤ len) :
    check_sync_word b2b_phase len 2 ADSB_SYNC_WORD = .ok (0, true) ∧
      check_sync_word b2b_phase len 3 ADSB_SYNC_WORD = .ok (0, false) := by
  constructor
  · rw [check_sync_word_window b2b_phase b2b_phase len 74 2 2 ADSB_SYNC_WORD (by omega)
      (by decide) (fun i _ => rfl)]
    decide
  · rw [check_sync_word_window b2b_phase b2b_phase len 75 3 3 ADSB_SYNC_WORD (by omega)
      (by decide) (fun i _ => rfl)]
    decide

theorem sync_checks_b2b_shifted (len : Nat) (h : 108 ≤ len) :
    check_sync_word (fun k => b2b_phase (k + 520)) len 35 ADSB_SYNC_WORD = .ok (0, true) ∧
      check_sync_word (fun k => b2b_phase (k + 520)) len 36 ADSB_SYNC_WORD =
        .ok (-1741, false) := by
  constructor
  · rw [check_sync_word_window (fun k => b2b_phase (k + 520)) (fun k => b2b_phase (k + 520))
      len 107 35 35 ADSB_SYNC_WORD (by omega) (by decide) (fun i _ => rfl)]
    decide
  · rw [check_sync_word_window (fun k => b2b_phase (k + 520)) (fun k => b2b_phase (k + 520))
      len 108 36 36 ADSB_SYNC_WORD (by omega) (by decide) (fun i _ => rfl)]
    decide

theorem regs_b2b :
    regs_quiet b2b_phase 18 0 0 0 ∧ regs_after b2b_phase 18 0 0 0 = (120219, 10852) ∧
      shift_in 120219 (dbit b2b_phase (18 * 2)) = 240439 ∧
      shift_in 10852 (dbit b2b_phase (18 * 2 + 1)) = 21704 := by
  decide

set_option maxRecDepth 100000 in
theorem regs_b2b_stale :
    regs_quiet b2b_phase 35 278 240439 21704 ∧
      regs_after b2b_phase 35 278 240439 21704 = (8261426823191325, 745772431549666) := by
  decide!

theorem drained_b2b_stale : drained 8261426823191325 745772431549666 :=
  drained_of_bounded _ _ (by decide)

set_option maxRecDepth 100000 in
theorem regs_b2b_shifted :
    regs_quiet (fun k => b2b_phase (k + 520)) 34 0 0 0 ∧
      regs_after (fun k => b2b_phase (k + 520)) 34 0 0 0 = (10852, 120219) ∧
      shift_in 10852 (dbit (fun k => b2b_phase (k + 520)) (34 * 2)) = 21704 ∧
      shift_in 120219 (dbit (fun k => b2b_phase (k + 520)) (34 * 2 + 1)) = 240439 := by
  decide!

theorem drained_b2b_shifted : drained 21704 240439 :=
  drained_of_bounded _ _ (by decide)

/-! ## Two frames back to back: the scan -/

/-- The first 19 iterations on the back-to-back input: the ADS-B word is seen at bit 18, the
short frame of zero bytes is printed and `bit` moves to 278. -/
theorem scan_b2b_first (rs : Decoders) (len offset : Nat) (lenbits : Int) (fuel : Nat)
    (hlenbits : 19 ≤ lenbits) (hlen : 842 ≤ len)
    (hlong : ∀ codeword, (rs.rs_adsb_long codeword).2 = codeword ∨
      (rs.rs_adsb_long codeword).2 = List.replicate codeword.length 0)
    (hshort : rs.rs_adsb_short (List.replicate 30 0) = (0, List.replicate 30 0)) :
    ∃ fa fb, scan rs b2b_phase len offset lenbits (fuel + 19)
        ⟨0, 0, 0, List.replicate UPLINK_FRAME_BYTES 0, List.replicate UPLINK_FRAME_BYTES 0, []⟩ =
      scan rs b2b_phase len offset lenbits fuel
        ⟨278, 240439, 21704, fa, fb, short_zero_record⟩ := by
  obtain ⟨hq, hafter, h0, h1⟩ := regs_b2b
  have hbuf : (List.replicate UPLINK_FRAME_BYTES 0).length = 552 := List.length_replicate _ _
  obtain ⟨hs2, hs3⟩ := sync_checks_b2b len (by omega)
  obtain ⟨tail, hd0⟩ := demod_adsb_zero_short rs b2b_phase len 2
    (List.replicate UPLINK_FRAME_BYTES 0) 0 (by omega) (by rw [hbuf]; decide) hs2
    (fun t ht => by
      have := b2b_no_one 74 t (Or.inl (by omega))
      rw [show 2 + 72 + 2 * t = 74 + 2 * t by omega]
      exact this)
    hlong hshort
  have hd1 := demod_adsb_no_sync rs b2b_phase len 3 (List.replicate UPLINK_FRAME_BYTES 0) 0 hs3
  refine ⟨List.replicate 30 0 ++ tail, List.replicate UPLINK_FRAME_BYTES 0, ?_⟩
  rw [show fuel + 19 = (fuel + 1) + 18 by omega,
    scan_quiet_run rs b2b_phase len offset lenbits 18 (fuel + 1) _ hq
      (by simp only []; omega) (by simp only []; omega)]
  simp only [hafter, Nat.zero_add]
  rw [scan_adsb_hit rs b2b_phase len offset lenbits fuel
    ⟨18, 120219, 10852, List.replicate UPLINK_FRAME_BYTES 0,
      List.replicate UPLINK_FRAME_BYTES 0, []⟩ 240439 21704 2
    ⟨276, 0, List.replicate 30 0 ++ tail⟩ ⟨0, 9999, List.replicate UPLINK_FRAME_BYTES 0⟩
    (by decide) (by simp only []; omega) (by simp only []; omega) h0 h1 (Or.inl (by decide))
    (by decide) hd0 hd1
    (by show (276 : Int) ≠ 0; decide) (by show (0 : Int) ≤ 9999; decide)]
  simp only [List.nil_append, handle_adsb_frame_zero]
  rfl

/-- A buffer that holds the whole back-to-back input: one record is printed. -/
theorem process_buffer_b2b_whole (rs : Decoders) (trailing : Nat) (htrail : 18 ≤ trailing)
    (hlong : ∀ codeword, (rs.rs_adsb_long codeword).2 = codeword ∨
      (rs.rs_adsb_long codeword).2 = List.replicate codeword.length 0)
    (hshort : rs.rs_adsb_short (List.replicate 30 0) = (0, List.replicate 30 0)) :
    ∃ processed : Int, process_buffer rs b2b_phase (2 * (4729 + trailing)) 0 =
      .ok (processed, short_zero_record) ∧ 0 ≤ processed := by
  obtain ⟨lenbits, hlb⟩ : ∃ lenbits : Int, lenbits = ((2 * (4729 + trailing) / 2 : Nat) : Int) -
      (((SYNC_BITS - CHECK_BITS) + UPLINK_FRAME_BITS : Nat) : Int) := ⟨_, rfl⟩
  have hval : lenbits = 295 + trailing := by
    rw [hlb, Nat.mul_div_cancel_left _ (by decide)]
    simp only [SYNC_BITS, CHECK_BITS, UPLINK_FRAME_BITS]
    push_cast
    omega
  obtain ⟨f, hf⟩ : ∃ f : Nat, lenbits.toNat = (f + 35) + 19 := ⟨lenbits.toNat - 54, by omega⟩
  obtain ⟨fa, fb, h1⟩ := scan_b2b_first rs (2 * (4729 + trailing)) 0 lenbits (f + 35)
    (by omega) (by omega) hlong hshort
  obtain ⟨hq, hafter⟩ := regs_b2b_stale
  obtain ⟨t, ht, hout, htbit⟩ := scan_zero_to_end rs b2b_phase (2 * (4729 + trailing)) 0 lenbits f
    ⟨313, 8261426823191325, 745772431549666, fa, fb, short_zero_record⟩
    (by simp only []; omega) (by omega)
    (fun i hi _ => dbit_b2b_idle i (by simp only [] at hi; omega))
    drained_b2b_stale
  have hscan : scan rs b2b_phase (2 * (4729 + trailing)) 0 lenbits lenbits.toNat
      ⟨0, 0, 0, List.replicate UPLINK_FRAME_BYTES 0, List.replicate UPLINK_FRAME_BYTES 0, []⟩ =
      .ok t := by
    rw [hf, h1, scan_quiet_run rs b2b_phase (2 * (4729 + trailing)) 0 lenbits 35 f _ hq
      (by simp only []; omega) (by simp only []; omega)]
    simp only [hafter]
    exact ht
  refine ⟨((t.bit : Int) - (CHECK_BITS : Nat)) * 2, ?_, ?_⟩
  · unfold process_buffer
    simp only [← hlb, hscan, ok_bind, pure_eq_ok, hout]
  · rw [htbit]
    simp only [CHECK_BITS]
    omega

/-- A buffer that ends inside the first frame of the back-to-back input: the record is
printed and 520 samples count as processed. -/
theorem process_buffer_b2b_head (rs : Decoders) (len : Nat)
    (hlo : 8906 ≤ len) (hhi : len ≤ 9425)
    (hlong : ∀ codeword, (rs.rs_adsb_long codeword).2 = codeword ∨
      (rs.rs_adsb_long codeword).2 = List.replicate codeword.length 0)
    (hshort : rs.rs_adsb_short (List.replicate 30 0) = (0, List.replicate 30 0)) :
    process_buffer rs b2b_phase len 0 = .ok (((520 : Nat) : Int), short_zero_record) := by
  obtain ⟨lenbits, hlb⟩ : ∃ lenbits : Int, lenbits = ((len / 2 : Nat) : Int) -
      (((SYNC_BITS - CHECK_BITS) + UPLINK_FRAME_BITS : Nat) : Int) := ⟨_, rfl⟩
  have hval : lenbits = ((len / 2 : Nat) : Int) - 4434 := by
    rw [hlb]
    simp only [SYNC_BITS, CHECK_BITS, UPLINK_FRAME_BITS]
    push_cast
    omega
  obtain ⟨f, hf⟩ : ∃ f : Nat, lenbits.toNat = f + 19 := ⟨lenbits.toNat - 19, by omega⟩
  obtain ⟨fa, fb, h1⟩ := scan_b2b_first rs len 0 lenbits f (by omega) (by omega) hlong hshort
  have hdone := scan_done rs b2b_phase len 0 lenbits f
    ⟨278, 240439, 21704, fa, fb, short_zero_record⟩ (by simp only []; omega)
  unfold process_buffer
  simp only [← hlb, hf, h1, hdone, ok_bind, pure_eq_ok]
  rfl

/-- The second buffer, which starts 520 samples into the back-to-back input, inside the frame
that was already printed: the record is printed again. -/
theorem process_buffer_b2b_again (rs : Decoders) (len offset : Nat) (hlen : 8938 ≤ len)
    (hlong : ∀ codeword, (rs.rs_adsb_long codeword).2 = codeword ∨
      (rs.rs_adsb_long codeword).2 = List.replicate codeword.length 0)
    (hshort : rs.rs_adsb_short (List.replicate 30 0) = (0, List.replicate 30 0)) :
    ∃ processed : Int, process_buffer rs (fun k => b2b_phase (k + 520)) len offset =
      .ok (processed, short_zero_record) ∧ 0 ≤ processed := by
  obtain ⟨lenbits, hlb⟩ : ∃ lenbits : Int, lenbits = ((len / 2 : Nat) : Int) -
      (((SYNC_BITS - CHECK_BITS) + UPLINK_FRAME_BITS : Nat) : Int) := ⟨_, rfl⟩
  have hval : lenbits = ((len / 2 : Nat) : Int) - 4434 := by
    rw [hlb]
    simp only [SYNC_BITS, CHECK_BITS, UPLINK_FRAME_BITS]
    push_cast
    omega
  obtain ⟨f, hf⟩ : ∃ f : Nat, lenbits.toNat = (f + 1) + 34 := ⟨lenbits.toNat - 35, by omega⟩
  obtain ⟨hq, hafter, h0, h1⟩ := regs_b2b_shifted
  have hbuf : (List.replicate UPLINK_FRAME_BYTES 0).length = 552 := List.length_replicate _ _
  obtain ⟨hs35, hs36⟩ := sync_checks_b2b_shifted len (by omega)
  obtain ⟨tail, hd0⟩ := demod_adsb_zero_short rs (fun k => b2b_phase (k + 520)) len 35
    (List.replicate UPLINK_FRAME_BYTES 0) 0 (by omega) (by rw [hbuf]; decide) hs35
    (fun t ht => by
      have := b2b_no_one 627 t (Or.inr (by omega))
      simp only []
      rw [show 35 + 72 + 2 * t + 520 = 627 + 2 * t by omega,
        show 35 + 72 + 2 * t + 1 + 520 = 627 + 2 * t + 1 by omega]
      exact this)
    hlong hshort
  have hd1 := demod_adsb_no_sync rs (fun k => b2b_phase (k + 520)) len 36
    (List.replicate UPLINK_FRAME_BYTES 0) (-1741) hs36
  obtain ⟨t, ht, hout, htbit⟩ := scan_zero_to_end rs (fun k => b2b_phase (k + 520)) len offset
    lenbits f
    ⟨294, 21704, 240439, List.replicate 30 0 ++ tail, List.replicate UPLINK_FRAME_BYTES 0,
      short_zero_record⟩
    (by simp only []; omega) (by omega)
    (fun i hi _ => dbit_b2b_shifted_idle i (by simp only [] at hi; omega))
    drained_b2b_shifted
  have hscan : scan rs (fun k => b2b_phase (k + 520)) len offset lenbits lenbits.toNat
      ⟨0, 0, 0, List.replicate UPLINK_FRAME_BYTES 0, List.replicate UPLINK_FRAME_BYTES 0, []⟩ =
      .ok t := by
    rw [hf, scan_quiet_run rs (fun k => b2b_phase (k + 520)) len offset lenbits 34 (f + 1) _ hq
      (by simp only []; omega) (by simp only []; omega)]
    simp only [hafter, Nat.zero_add]
    rw [scan_adsb_hit rs (fun k => b2b_phase (k + 520)) len offset lenbits f
      ⟨34, 10852, 120219, List.replicate UPLINK_FRAME_BYTES 0,
        List.replicate UPLINK_FRAME_BYTES 0, []⟩ 21704 240439 35
      ⟨276, 0, List.replicate 30 0 ++ tail⟩ ⟨0, 9999, List.replicate UPLINK_FRAME_BYTES 0⟩
      (by decide) (by simp only []; omega) (by simp only []; omega) h0 h1 (Or.inr (by decide))
      (by decide) hd0 hd1
    (by show (276 : Int) ≠ 0; decide) (by show (0 : Int) ≤ 9999; decide)]
    simp only [List.nil_append, handle_adsb_frame_zero]
    exact ht
  refine ⟨((t.bit : Int) - (CHECK_BITS : Nat)) * 2, ?_, ?_⟩
  · unfold process_buffer
    simp only [← hlb, hscan, ok_bind, pure_eq_ok, hout]
  · rw [htbit]
    simp only [CHECK_BITS]
    omega

/-! ## Two frames back to back: whole runs -/

theorem b2b_stream_length (trailing : Nat) :
    (b2b_stream trailing).length = 4 * (4729 + trailing) := by
  simp [b2b_stream]

theorem b2b_stream_getD (trailing i : Nat) (h : i < 4 * (4729 + trailing)) :
    (b2b_stream trailing).getD i 0 = b2b_byte i := by
  simp only [b2b_stream, List.getD_eq_getElem?_getD]
  rw [List.getElem?_map, List.getElem?_range h]
  rfl

/-- The table entries of the samples of the back-to-back input are its phases. -/
theorem b2b_stream_phase (iqphase : Nat → Nat) (trailing : Nat)
    (h00 : iqphase 0x0000 % 65536 = 8192) (h0f : iqphase 0x00FF % 65536 = 24576)
    (hf0 : iqphase 0xFF00 % 65536 = 57344) (k : Nat) (hk : k < 2 * (4729 + trailing)) :
    iqphase (phi_of (b2b_stream trailing) k) % 65536 = b2b_phase k % 65536 := by
  unfold phi_of
  rw [b2b_stream_getD trailing (2 * k) (by omega),
    b2b_stream_getD trailing (2 * k + 1) (by omega), Nat.mod_eq_of_lt (b2b_phase_lt k)]
  unfold b2b_byte b2b_phase
  have e0 : 2 * k / 2 = k := by omega
  have e1 : (2 * k + 1) / 2 = k := by omega
  have e2 : 2 * k % 2 = 0 := by omega
  have e3 : (2 * k + 1) % 2 = 1 := by omega
  have e4 : 2 * k / 4 = k / 2 := by omega
  have e5 : (2 * k + 1) / 4 = k / 2 := by omega
  rw [e0, e1, e2, e3, e4, e5]
  by_cases he : k % 2 = 0
  · rw [if_pos he, if_pos he, if_pos he]
    exact h00
  · rw [if_neg he, if_neg he, if_neg he]
    rcases hbit : b2b_bit (k / 2) with _ | b
    · exact h00
    · cases b
      · simpa using hf0
      · simpa using h0f

/-- The back-to-back input delivered by one `read`: one record is printed. -/
theorem run_b2b_whole (rs : Decoders) (iqphase : Nat → Nat) (trailing most : Nat)
    (rest : List Nat)
    (h00 : iqphase 0x0000 % 65536 = 8192) (h0f : iqphase 0x00FF % 65536 = 24576)
    (hf0 : iqphase 0xFF00 % 65536 = 57344)
    (hlong : ∀ codeword, (rs.rs_adsb_long codeword).2 = codeword ∨
      (rs.rs_adsb_long codeword).2 = List.replicate codeword.length 0)
    (hshort : rs.rs_adsb_short (List.replicate 30 0) = (0, List.replicate 30 0))
    (htrail : 18 ≤ trailing) (hfit : 4 * (4729 + trailing) ≤ BUFFER_SIZE)
    (hmost : 4 * (4729 + trailing) ≤ most) :
    run rs iqphase (most :: rest) (b2b_stream trailing) = (short_zero_record, none) := by
  obtain ⟨processed, hproc, h0⟩ := process_buffer_b2b_whole rs trailing htrail hlong hshort
  have hlen := b2b_stream_length trailing
  have hhalf : (b2b_stream trailing).length / 2 = 2 * (4729 + trailing) := by omega
  apply run_single_read rs iqphase most rest (b2b_stream trailing) b2b_phase processed
    short_zero_record (by omega) (by omega) (by omega)
  · intro k hk
    exact b2b_stream_phase iqphase trailing h00 h0f hf0 k (by omega)
  · rw [hhalf]
    exact hproc
  · exact h0

/-- The back-to-back input delivered by two `read`s, the first of which ends at an even byte
between 17812 and 18850: the record is printed by the first call of `process_buffer`, and the
second call, which starts 520 samples into the input with its sync registers empty, prints a
second one. -/
theorem run_b2b_split (rs : Decoders) (iqphase : Nat → Nat) (trailing first most : Nat)
    (rest : List Nat)
    (h00 : iqphase 0x0000 % 65536 = 8192) (h0f : iqphase 0x00FF % 65536 = 24576)
    (hf0 : iqphase 0xFF00 % 65536 = 57344)
    (hlong : ∀ codeword, (rs.rs_adsb_long codeword).2 = codeword ∨
      (rs.rs_adsb_long codeword).2 = List.replicate codeword.length 0)
    (hshort : rs.rs_adsb_short (List.replicate 30 0) = (0, List.replicate 30 0))
    (heven : first % 2 = 0) (hlo : 17812 ≤ first) (hhi : first ≤ 18850)
    (hfit : 4 * (4729 + trailing) ≤ BUFFER_SIZE) (hmost : 4 * (4729 + trailing) ≤ most) :
    run rs iqphase (first :: most :: rest) (b2b_stream trailing) =
      (short_zero_record ++ short_zero_record, none) := by
  have hlen := b2b_stream_length trailing
  have hp1 := process_buffer_b2b_head rs (first / 2) (by omega) (by omega) hlong hshort
  obtain ⟨p2, hp2, h2⟩ := process_buffer_b2b_again rs
    (((b2b_stream trailing).length - 2 * 520) / 2) 520 (by omega) hlong hshort
  apply run_two_reads rs iqphase first most rest (b2b_stream trailing) b2b_phase 520 p2
    short_zero_record short_zero_record heven (by omega) (by omega) (by omega)
  · intro k hk
    exact b2b_stream_phase iqphase trailing h00 h0f hf0 k (by omega)
  · exact hp1
  · omega
  · exact hp2
  · exact h2

theorem near_zero_keeps_or_clears (t : Nat) (codeword : List Nat) :
    (near_zero t codeword).2 = codeword ∨
      (near_zero t codeword).2 = List.replicate codeword.length 0 := by
  unfold near_zero
  split_ifs
  · exact Or.inr rfl
  · exact Or.inl rfl

/-- C4 (the code at the failing input): the input made of one idle bit period, a short ADS-B
frame of 18 zero data bytes, the sync word of an uplink frame directly behind it and idle bit
periods after that prints one record when one `read` delivers it, and two records when a first
`read` delivers its first 17880 bytes: the second call of `process_buffer` starts with empty
sync registers inside the samples the first call has already used. -/
theorem split_read_prints_second_record :
    run rs_near_zero iqphase_corners (BUFFER_SIZE :: [BUFFER_SIZE]) (b2b_stream 100) =
        (short_zero_record, none) ∧
      run rs_near_zero iqphase_corners (17880 :: [BUFFER_SIZE]) (b2b_stream 100) =
        (short_zero_record ++ short_zero_record, none) ∧
      short_zero_record ++ short_zero_record ≠ short_zero_record :=
  ⟨run_b2b_whole rs_near_zero iqphase_corners 100 BUFFER_SIZE [BUFFER_SIZE] (by decide)
      (by decide) (by decide) (near_zero_keeps_or_clears 7) (by decide) (by decide) (by decide)
      (by decide),
    run_b2b_split rs_near_zero iqphase_corners 100 17880 BUFFER_SIZE [] (by decide)
      (by decide) (by decide) (near_zero_keeps_or_clears 7) (by decide) (by decide) (by decide)
      (by decide) (by decide) (by decide),
    by decide⟩

/-! ## C8: the block loop of the uplink demodulator, step by step -/

theorem block_decoded_length (rs : Decoders) (interleaved : List Nat) (b : Nat) :
    (block_decoded rs interleaved b).length = UPLINK_BLOCK_BYTES :=
  codeword_after_length _ _ _

theorem frame_after_length (rs : Decoders) (interleaved frame : List Nat)
    (hframe : frame.length = UPLINK_FRAME_BYTES) :
    ∀ b, b ≤ UPLINK_FRAME_BLOCKS → (frame_after rs interleaved frame b).length =
      UPLINK_FRAME_BYTES := by
  intro b
  induction b with
  | zero => intro _; exact hframe
  | succ b ih =>
    intro hb
    have hl := ih (by omega)
    simp only [frame_after, List.length_append, List.length_take, List.length_drop,
      block_decoded_length, hl]
    simp only [UPLINK_FRAME_BLOCKS, UPLINK_FRAME_BYTES, UPLINK_BLOCK_BYTES,
      UPLINK_BLOCK_DATA_BYTES] at *
    omega

theorem frame_after_getD (rs : Decoders) (interleaved frame : List Nat)
    (hframe : frame.length = UPLINK_FRAME_BYTES) (b : Nat) (hb : b < UPLINK_FRAME_BLOCKS)
    (j : Nat) :
    (frame_after rs interleaved frame (b + 1)).getD j 0 =
      if b * UPLINK_BLOCK_DATA_BYTES ≤ j ∧ j < b * UPLINK_BLOCK_DATA_BYTES + UPLINK_BLOCK_BYTES
      then (block_decoded rs interleaved b).getD (j - b * UPLINK_BLOCK_DATA_BYTES) 0
      else (frame_after rs interleaved frame b).getD j 0 := by
  have hl := frame_after_length rs interleaved frame hframe b (by omega)
  show ((frame_after rs interleaved frame b).take (b * UPLINK_BLOCK_DATA_BYTES) ++
      block_decoded rs interleaved b ++
      (frame_after rs interleaved frame b).drop
        (b * UPLINK_BLOCK_DATA_BYTES + UPLINK_BLOCK_BYTES)).getD j 0 = _
  exact getD_splice _ _ _ _ j (block_decoded_length rs interleaved b)
    (by
      rw [hl]
      simp only [UPLINK_FRAME_BLOCKS, UPLINK_FRAME_BYTES, UPLINK_BLOCK_BYTES,
        UPLINK_BLOCK_DATA_BYTES] at *
      omega)

/-- One iteration of the block loop on the buffer `frame_after b`: the copy loop returns, the
decoder is handed the codeword of block `b`, and the decode leaves `frame_after (b + 1)`. -/
theorem block_step_frame_after (rs : Decoders) (interleaved frame : List Nat) (b : Nat)
    (hb : b < UPLINK_FRAME_BLOCKS) (hil : interleaved.length = UPLINK_FRAME_BYTES)
    (hframe : frame.length = UPLINK_FRAME_BYTES) :
    ∃ out1,
      for_loop (deinterleave_body interleaved b) UPLINK_BLOCK_BYTES 0
        (frame_after rs interleaved frame b) = .ok out1 ∧
      out1.length = UPLINK_FRAME_BYTES ∧
      (∀ j, j < b * UPLINK_BLOCK_DATA_BYTES →
        out1.getD j 0 = (frame_after rs interleaved frame b).getD j 0) ∧
      (out1.drop (b * UPLINK_BLOCK_DATA_BYTES)).take (255 - 163) = wire_block interleaved b ∧
      decode_rs_char rs.rs_uplink 163 out1 (b * UPLINK_BLOCK_DATA_BYTES) =
        .ok (block_count rs interleaved b, frame_after rs interleaved frame (b + 1)) := by
  have hl := frame_after_length rs interleaved frame hframe b (by omega)
  obtain ⟨out1, h1, hlen1, hval1⟩ := deinterleave_ok interleaved
    (frame_after rs interleaved frame b) b hb hil hl
  have hcw := deinterleave_codeword interleaved (frame_after rs interleaved frame b) out1 b hb hl
    hlen1 hval1
  have hpos : b * UPLINK_BLOCK_DATA_BYTES + (255 - 163) ≤ out1.length := by
    rw [hlen1, hl]
    simp only [UPLINK_FRAME_BLOCKS, UPLINK_FRAME_BYTES, UPLINK_BLOCK_DATA_BYTES] at *
    omega
  have hdec := decode_rs_char_ok rs.rs_uplink 163 out1 (b * UPLINK_BLOCK_DATA_BYTES) hpos
  rw [hcw] at hdec
  refine ⟨out1, h1, by rw [hlen1, hl], ?_, hcw, ?_⟩
  · intro j hj
    rw [hval1 j, if_neg (by omega)]
  · rw [hdec]
    have h92 : (255 - 163 : Nat) = UPLINK_BLOCK_BYTES := by decide
    rw [h92]
    have hmid : codeword_after UPLINK_BLOCK_BYTES (wire_block interleaved b)
        (rs.rs_uplink (wire_block interleaved b)).2 = block_decoded rs interleaved b := rfl
    rw [hmid]
    have hpos2 : b * UPLINK_BLOCK_DATA_BYTES + UPLINK_BLOCK_BYTES ≤ out1.length := by
      rw [← h92]
      exact hpos
    have heq : out1.take (b * UPLINK_BLOCK_DATA_BYTES) ++ block_decoded rs interleaved b ++
        out1.drop (b * UPLINK_BLOCK_DATA_BYTES + UPLINK_BLOCK_BYTES) =
        frame_after rs interleaved frame (b + 1) := by
      apply list_eq_of_getD
      · rw [frame_after_length rs interleaved frame hframe (b + 1) (by omega)]
        simp only [List.length_append, List.length_take, List.length_drop,
          block_decoded_length, hlen1, hl]
        simp only [UPLINK_FRAME_BLOCKS, UPLINK_FRAME_BYTES, UPLINK_BLOCK_BYTES,
          UPLINK_BLOCK_DATA_BYTES] at *
        omega
      · intro j _
        rw [getD_splice _ _ _ _ j (block_decoded_length rs interleaved b) hpos2,
          frame_after_getD rs interleaved frame hframe b hb j]
        by_cases hin : b * UPLINK_BLOCK_DATA_BYTES ≤ j ∧
            j < b * UPLINK_BLOCK_DATA_BYTES + UPLINK_BLOCK_BYTES
        · rw [if_pos hin, if_pos hin]
        · rw [if_neg hin, if_neg hin, hval1 j, if_neg hin]
    rw [heq]
    rfl

theorem block_count_sum_snoc (rs : Decoders) (interleaved : List Nat) :
    ∀ (k b : Nat), block_count_sum rs interleaved b (k + 1) =
      block_count_sum rs interleaved b k + block_count rs interleaved (b + k) := by
  intro k
  induction k with
  | zero =>
    intro b
    simp [block_count_sum]
  | succ k ih =>
    intro b
    rw [show block_count_sum rs interleaved b (k + 1 + 1) =
      block_count rs interleaved b + block_count_sum rs interleaved (b + 1) (k + 1) from rfl,
      ih (b + 1),
      show block_count_sum rs interleaved b (k + 1) =
        block_count rs interleaved b + block_count_sum rs interleaved (b + 1) k from rfl]
    rw [show b + 1 + k = b + (k + 1) by omega]
    ring

/-- The block loop arrives at block `b`, with the counts of the earlier blocks summed and the
buffer `frame_after b`, when each earlier block reports 0..10 corrections. -/
theorem uplink_blocks_reaches (rs : Decoders) (interleaved frame : List Nat)
    (hil : interleaved.length = UPLINK_FRAME_BYTES)
    (hframe : frame.length = UPLINK_FRAME_BYTES) :
    ∀ b, b ≤ UPLINK_FRAME_BLOCKS →
      (∀ c, c < b → 0 ≤ block_count rs interleaved c ∧ block_count rs interleaved c ≤ 10) →
      uplink_blocks rs interleaved UPLINK_FRAME_BLOCKS 0 0 frame =
        uplink_blocks rs interleaved (UPLINK_FRAME_BLOCKS - b) b
          (block_count_sum rs interleaved 0 b) (frame_after rs interleaved frame b) := by
  intro b
  induction b with
  | zero =>
    intro _ _
    rfl
  | succ b ih =>
    intro hb hc
    rw [ih (by omega) (fun c hcb => hc c (by omega))]
    obtain ⟨out1, h1, _, _, _, hdec⟩ := block_step_frame_after rs interleaved frame b (by omega)
      hil hframe
    obtain ⟨k, hk⟩ : ∃ k, UPLINK_FRAME_BLOCKS - b = k + 1 := ⟨UPLINK_FRAME_BLOCKS - b - 1, by omega⟩
    have hk2 : UPLINK_FRAME_BLOCKS - (b + 1) = k := by omega
    rw [hk, hk2]
    have hcb := hc b (by omega)
    show (do
        let frame ← for_loop (deinterleave_body interleaved b) UPLINK_BLOCK_BYTES 0
          (frame_after rs interleaved frame b)
        let (n_corrected, frame) ←
          decode_rs_char rs.rs_uplink 163 frame (b * UPLINK_BLOCK_DATA_BYTES)
        if n_corrected < 0 ∨ n_corrected > 10 then
          pure (⟨0, 9999, frame⟩ : Demod)
        else
          uplink_blocks rs interleaved k (b + 1)
            (block_count_sum rs interleaved 0 b + n_corrected) frame : Except Trap Demod) = _
    simp only [h1, ok_bind, hdec]
    rw [if_neg (by omega)]
    have hsum := block_count_sum_snoc rs interleaved b 0
    rw [Nat.zero_add] at hsum
    rw [hsum]

/-- C8: in `demod_uplink_frame` (with the 8904 samples of sync word and frame in reach and a
552-byte output buffer) the call returns, so no store leaves the output buffer, and when the
sync check passes the run is this: it arrives at each block `b` in 0..5 for which every earlier
block reported 0..10 corrections, with the buffer `frame_after b`; there the copy loop
returns a 552-byte buffer that agrees with `frame_after b` below position `72b` and holds at
`72b .. 72b+91` the codeword whose byte `i` is the demodulated wire byte at index `6i + b`; the
RS decoder is handed exactly that buffer at position `72b` and leaves `frame_after (b + 1)`,
which agrees with `frame_after b` below `72b` (the data bytes of the earlier blocks) and holds
the decoded codeword of block `b` from `72b` on. The call succeeds exactly when the sync check
passes and all six blocks report 0..10 corrections, and then the output is `frame_after 6` and
holds at position `72b + i`, for `b` in 0..5 and `i` in 0..71, the `i`-th byte of block `b` as
left by its RS decode. -/
theorem uplink_deinterleave_layout (rs : Decoders) (phi : Nat → Nat) (len base : Nat)
    (frame : List Nat) (hphi : base + (SYNC_BITS * 2 + 16 * UPLINK_FRAME_BYTES) ≤ len)
    (hframe : frame.length = UPLINK_FRAME_BYTES) :
    ∃ center sync_ok wire d,
      check_sync_word phi len base UPLINK_SYNC_WORD = .ok (center, sync_ok) ∧
      demod_frame phi len (base + SYNC_BITS * 2) (List.replicate UPLINK_FRAME_BYTES 0)
        UPLINK_FRAME_BYTES center = .ok wire ∧
      demod_uplink_frame rs phi len base frame = .ok d ∧
      d.frame.length = 552 ∧
      (sync_ok = true →
        ∀ b, b < 6 →
          (∀ c, c < b → 0 ≤ block_count rs wire c ∧ block_count rs wire c ≤ 10) →
          demod_uplink_frame rs phi len base frame =
            uplink_blocks rs wire (6 - b) b (block_count_sum rs wire 0 b)
              (frame_after rs wire frame b) ∧
          (frame_after rs wire frame b).length = 552 ∧
          ∃ out1,
            for_loop (deinterleave_body wire b) UPLINK_BLOCK_BYTES 0
              (frame_after rs wire frame b) = .ok out1 ∧
            out1.length = 552 ∧
            (∀ j, j < 72 * b → out1.getD j 0 = (frame_after rs wire frame b).getD j 0) ∧
            (out1.drop (b * 72)).take 92 = wire_block wire b ∧
            (wire_block wire b).length = 92 ∧
            (∀ i, i < 92 → (wire_block wire b).getD i 0 = wire.getD (6 * i + b) 0) ∧
            decode_rs_char rs.rs_uplink 163 out1 (b * 72) =
              .ok ((rs.rs_uplink (wire_block wire b)).1, frame_after rs wire frame (b + 1)) ∧
            (frame_after rs wire frame (b + 1)).length = 552 ∧
            (∀ j, j < 72 * b →
              (frame_after rs wire frame (b + 1)).getD j 0 =
                (frame_after rs wire frame b).getD j 0) ∧
            (∀ i, i < 92 →
              (frame_after rs wire frame (b + 1)).getD (72 * b + i) 0 =
                (block_decoded rs wire b).getD i 0)) ∧
      (d.skip ≠ 0 ↔ sync_ok = true ∧
        ∀ b, b < 6 → 0 ≤ block_count rs wire b ∧ block_count rs wire b ≤ 10) ∧
      (d.skip ≠ 0 →
        d.skip = 4452 ∧ d.frame = frame_after rs wire frame 6 ∧
        ∀ b, b < 6 → ∀ i, i < 72 →
          d.frame.getD (72 * b + i) 0 = (block_decoded rs wire b).getD i 0) := by
  obtain ⟨center, sync_ok, wire, d, hsync, hwire, hwlen, hwbytes, hd, hdlen, hiff, hacc, hrej⟩ :=
    demod_uplink_frame_spec rs phi len base frame hphi hframe
  have hskip : d.skip ≠ 0 → d.skip = 4452 := by
    intro h0
    by_contra hne
    exact h0 (hrej hne).1
  have hrun : sync_ok = true → demod_uplink_frame rs phi len base frame =
      uplink_blocks rs wire UPLINK_FRAME_BLOCKS 0 0 frame := by
    intro hs
    subst hs
    unfold demod_uplink_frame
    simp only [hsync, ok_bind]
    simp [hwire]
  refine ⟨center, sync_ok, wire, d, hsync, hwire, hd, hdlen, ?_, ?_, ?_⟩
  · intro hs b hb hc
    obtain ⟨out1, h1, hlen1, hkeep1, hcw, hdec⟩ := block_step_frame_after rs wire frame b hb
      hwlen hframe
    have hreach := uplink_blocks_reaches rs wire frame hwlen hframe b
      (by simp only [UPLINK_FRAME_BLOCKS]; omega) hc
    refine ⟨?_, frame_after_length rs wire frame hframe b
        (by simp only [UPLINK_FRAME_BLOCKS]; omega), out1, h1, hlen1, ?_, hcw,
      wire_block_length wire b, ?_, hdec,
      frame_after_length rs wire frame hframe (b + 1) (by simp only [UPLINK_FRAME_BLOCKS]; omega),
      ?_, ?_⟩
    · rw [hrun hs, hreach]
      rfl
    · intro j hj
      exact hkeep1 j (by simp only [UPLINK_BLOCK_DATA_BYTES]; omega)
    · intro i hi
      rw [wire_block_getD wire b i hi, Nat.mod_eq_of_lt (hwbytes _ ?_)]
      · simp only [UPLINK_FRAME_BLOCKS]
        congr 1
        omega
      · simp only [UPLINK_FRAME_BLOCKS, UPLINK_FRAME_BYTES]
        omega
    · intro j hj
      rw [frame_after_getD rs wire frame hframe b hb j,
        if_neg (by simp only [UPLINK_BLOCK_DATA_BYTES]; omega)]
    · intro i hi
      rw [frame_after_getD rs wire frame hframe b hb (72 * b + i),
        if_pos (by simp only [UPLINK_BLOCK_DATA_BYTES, UPLINK_BLOCK_BYTES]; omega)]
      congr 1
      simp only [UPLINK_BLOCK_DATA_BYTES]
      omega
  · constructor
    · intro h0
      exact hiff.mp (hskip h0)
    · intro h
      rw [hiff.mpr h]
      decide
  · intro h0
    have h4452 := hskip h0
    have hall := hiff.mp h4452
    refine ⟨h4452, ?_, ?_⟩
    · have hreach := uplink_blocks_reaches rs wire frame hwlen hframe UPLINK_FRAME_BLOCKS
        (le_refl _) (fun c hc => hall.2 c hc)
      have hrun6 := hrun hall.1
      rw [hreach, Nat.sub_self, hd] at hrun6
      have hfin : uplink_blocks rs wire 0 UPLINK_FRAME_BLOCKS
          (block_count_sum rs wire 0 UPLINK_FRAME_BLOCKS)
          (frame_after rs wire frame UPLINK_FRAME_BLOCKS) =
          .ok ⟨(UPLINK_FRAME_BITS + SYNC_BITS : Nat),
            block_count_sum rs wire 0 UPLINK_FRAME_BLOCKS,
            frame_after rs wire frame UPLINK_FRAME_BLOCKS⟩ := rfl
      rw [hfin] at hrun6
      cases hrun6
      rfl
    · intro b hb i hi
      have := (hacc h4452).2 b hb i hi
      simp only [UPLINK_BLOCK_DATA_BYTES] at this
      rw [← this]
      congr 1
      omega

/-- When none of the 4416 bit decisions after the sync word is a one, the demodulated wire
bytes are all zero. -/
theorem wire_zero_of_quiet (phi : Nat → Nat) (len base : Nat) (center : Int) (wire : List Nat)
    (hphi : base + (SYNC_BITS * 2 + 16 * UPLINK_FRAME_BYTES) ≤ len)
    (hwire : demod_frame phi len (base + SYNC_BITS * 2) (List.replicate UPLINK_FRAME_BYTES 0)
      UPLINK_FRAME_BYTES center = .ok wire)
    (hzero : ∀ t, t < 4416 → ¬ (phi_difference (phi (base + 72 + 2 * t) % 65536)
      (phi (base + 72 + 2 * t + 1) % 65536) > center)) :
    ∀ k, k < 552 → wire.getD k 0 = 0 := by
  obtain ⟨out, hout, _, _, hbits⟩ := demod_frame_spec phi len (base + SYNC_BITS * 2)
    (List.replicate UPLINK_FRAME_BYTES 0) UPLINK_FRAME_BYTES center
    (by simp only [SYNC_BITS, UPLINK_FRAME_BYTES] at *; omega) (by simp)
  rw [hwire] at hout
  cases hout
  intro k hk
  have hk' : k < UPLINK_FRAME_BYTES := hk
  apply byte_zero_of_bits _ (hbits k hk').1
  intro j hj
  rw [(hbits k hk').2 j hj]
  have := hzero (8 * k + j) (by omega)
  rw [show base + SYNC_BITS * 2 + 16 * k + 2 * j = base + 72 + 2 * (8 * k + j) by
    simp only [SYNC_BITS]; omega]
  exact this

theorem wire_block_zero (wire : List Nat) (h : ∀ k, k < 552 → wire.getD k 0 = 0) (b : Nat)
    (hb : b < 6) : wire_block wire b = List.replicate 92 0 := by
  apply list_eq_of_getD
  · rw [wire_block_length, List.length_replicate]
    rfl
  · intro i hi
    rw [wire_block_length] at hi
    rw [wire_block_getD wire b i hi, h _ (by
      simp only [UPLINK_BLOCK_BYTES, UPLINK_FRAME_BLOCKS] at *; omega)]
    simp only [UPLINK_BLOCK_BYTES] at hi
    simp only [List.getD_eq_getElem?_getD]
    rw [List.getElem?_replicate_of_lt hi]
    rfl

theorem rs_zero_uplink_zero : rs_zero.rs_uplink (List.replicate 92 0) =
    (0, List.replicate 92 0) := by
  decide

theorem phi_uplink_at_3_quiet (t : Nat) :
    ¬ (phi_difference (phi_uplink_at_3 (3 + 72 + 2 * t) % 65536)
      (phi_uplink_at_3 (3 + 72 + 2 * t + 1) % 65536) > 0) := by
  have h1 : phi_uplink_at_3 (3 + 72 + 2 * t) = 8192 := by
    unfold phi_uplink_at_3
    rw [if_neg (by omega)]
  have h2 : phi_uplink_at_3 (3 + 72 + 2 * t + 1) = 8192 := by
    unfold phi_uplink_at_3
    rw [if_neg (by omega)]
  rw [h1, h2]
  decide

theorem check_sync_word_uplink_at_3 :
    check_sync_word phi_uplink_at_3 8907 3 UPLINK_SYNC_WORD = .ok (0, true) := by
  decide

theorem uplink_deinterleave_layout_witness :
    3 + (SYNC_BITS * 2 + 16 * UPLINK_FRAME_BYTES) ≤ 8907 ∧
      (List.replicate 552 7).length = UPLINK_FRAME_BYTES ∧
      check_sync_word phi_uplink_at_3 8907 3 UPLINK_SYNC_WORD = .ok (0, true) ∧
      ∃ wire d,
        demod_frame phi_uplink_at_3 8907 (3 + SYNC_BITS * 2)
          (List.replicate UPLINK_FRAME_BYTES 0) UPLINK_FRAME_BYTES 0 = .ok wire ∧
        demod_uplink_frame rs_zero phi_uplink_at_3 8907 3 (List.replicate 552 7) = .ok d ∧
        d.skip = 4452 ∧
        d.frame = frame_after rs_zero wire (List.replicate 552 7) 6 ∧
        (∀ b, b < 6 → ∀ i, i < 72 → d.frame.getD (72 * b + i) 0 = 0) ∧
        ∀ b, b < 6 →
          demod_uplink_frame rs_zero phi_uplink_at_3 8907 3 (List.replicate 552 7) =
            uplink_blocks rs_zero wire (6 - b) b (block_count_sum rs_zero wire 0 b)
              (frame_after rs_zero wire (List.replicate 552 7) b) ∧
          ∃ out1,
            for_loop (deinterleave_body wire b) UPLINK_BLOCK_BYTES 0
              (frame_after rs_zero wire (List.replicate 552 7) b) = .ok out1 ∧
            (out1.drop (b * 72)).take 92 = wire_block wire b ∧
            (∀ i, i < 92 → (wire_block wire b).getD i 0 = wire.getD (6 * i + b) 0) ∧
            decode_rs_char rs_zero.rs_uplink 163 out1 (b * 72) =
              .ok ((rs_zero.rs_uplink (wire_block wire b)).1,
                frame_after rs_zero wire (List.replicate 552 7) (b + 1)) := by
  obtain ⟨center, sync_ok, wire, d, hsync, hwire, hd, _, htrace, hiff, hacc⟩ :=
    uplink_deinterleave_layout rs_zero phi_uplink_at_3 8907 3 (List.replicate 552 7)
      (by decide) (List.length_replicate 552 7)
  rw [check_sync_word_uplink_at_3] at hsync
  have hc : center = 0 := by
    cases hsync
    rfl
  have hs : sync_ok = true := by
    cases hsync
    rfl
  subst hc
  subst hs
  have hw0 := wire_zero_of_quiet phi_uplink_at_3 8907 3 0 wire (by decide) hwire
    (fun t _ => phi_uplink_at_3_quiet t)
  have hcount : ∀ b, b < 6 → block_count rs_zero wire b = 0 := by
    intro b hb
    unfold block_count
    rw [wire_block_zero wire hw0 b hb, rs_zero_uplink_zero]
  have hall : ∀ b, b < 6 → 0 ≤ block_count rs_zero wire b ∧ block_count rs_zero wire b ≤ 10 := by
    intro b hb
    rw [hcount b hb]
    exact ⟨le_refl _, by decide⟩
  have hne : d.skip ≠ 0 := hiff.mpr ⟨rfl, hall⟩
  obtain ⟨h4452, hfin, hdata⟩ := hacc hne
  refine ⟨by decide, List.length_replicate 552 7, check_sync_word_uplink_at_3, wire, d, hwire,
    hd, h4452, hfin, ?_, ?_⟩
  · intro b hb i hi
    rw [hdata b hb i hi]
    unfold block_decoded
    rw [wire_block_zero wire hw0 b hb, rs_zero_uplink_zero,
      codeword_after_getD _ _ _ _ (by simp only [UPLINK_BLOCK_BYTES]; omega)]
    simp only [List.getD_eq_getElem?_getD]
    rw [List.getElem?_replicate_of_lt (by omega)]
    rfl
  · intro b hb
    obtain ⟨hrun, _, out1, h1, _, _, hcw, _, hbytes, hdec, _⟩ :=
      htrace rfl b hb (fun c hc => hall c (by omega))
    exact ⟨hrun, out1, h1, hcw, hbytes, hdec⟩
/-! ## C15, C20: phi_difference -/

/-- C15: for phases `a`, `b` in `[0, 65535]`, `phi_difference(a, b) = -phi_difference(b, a)`
unless `b - a` is 32768 modulo 65536, and in that case both `phi_difference(a, b)` and
`phi_difference(b, a)` are -32768. -/
theorem phi_difference_antisymmetry (a b : Nat) (ha : a ≤ 65535) (hb : b ≤ 65535) :
    (((b : Int) - (a : Int)) % 65536 ≠ 32768 → phi_difference a b = -phi_difference b a) ∧
      (((b : Int) - (a : Int)) % 65536 = 32768 →
        phi_difference a b = -32768 ∧ phi_difference b a = -32768) := by
  unfold phi_difference
  simp only []
  constructor
  · intro h
    split_ifs <;> omega
  · intro h
    constructor <;> split_ifs <;> omega

theorem phi_difference_antisymmetry_witness :
    (100 : Nat) ≤ 65535 ∧ (32868 : Nat) ≤ 65535 ∧ (200 : Nat) ≤ 65535 ∧
      (((32868 : Nat) : Int) - ((100 : Nat) : Int)) % 65536 = 32768 ∧
      (phi_difference 100 32868 = -32768 ∧ phi_difference 32868 100 = -32768) ∧
      (((200 : Nat) : Int) - ((100 : Nat) : Int)) % 65536 ≠ 32768 ∧
      phi_difference 100 200 = -phi_difference 200 100 :=
  ⟨by decide, by decide, by decide, by decide,
    (phi_difference_antisymmetry 100 32868 (by decide) (by decide)).2 (by decide),
    by decide,
    (phi_difference_antisymmetry 100 200 (by decide) (by decide)).1 (by decide)⟩

/-- C20: for `from`, `to` in `[0, 65535]` the macro variant `(int16_t)(to - from)`, which is
the representative in `[-32768, 32767]` of the integer difference modulo 65536, equals the
value of the inline function. -/
theorem phi_difference_variants_agree (from_phi to_phi : Nat)
    (hfrom : from_phi ≤ 65535) (hto : to_phi ≤ 65535) :
    phi_difference_overflow from_phi to_phi = phi_difference from_phi to_phi ∧
      -32768 ≤ phi_difference_overflow from_phi to_phi ∧
      phi_difference_overflow from_phi to_phi ≤ 32767 ∧
      (phi_difference_overflow from_phi to_phi - ((to_phi : Int) - (from_phi : Int))) % 65536
        = 0 := by
  unfold phi_difference_overflow phi_difference to_int16
  simp only []
  refine ⟨?_, ?_, ?_, ?_⟩
  · split_ifs <;> omega
  · omega
  · omega
  · omega

theorem phi_difference_variants_agree_witness :
    (60000 : Nat) ≤ 65535 ∧ (100 : Nat) ≤ 65535 ∧
      phi_difference_overflow 60000 100 = 5636 ∧ phi_difference 60000 100 = 5636 ∧
      phi_difference_overflow 60000 100 = phi_difference 60000 100 ∧
      -32768 ≤ phi_difference_overflow 60000 100 ∧
      phi_difference_overflow 60000 100 ≤ 32767 ∧
      (phi_difference_overflow 60000 100 - (((100 : Nat) : Int) - ((60000 : Nat) : Int)))
        % 65536 = 0 :=
  ⟨by decide, by decide, by decide, by decide,
    phi_difference_variants_agree 60000 100 (by decide) (by decide)⟩

/-! ## C11: the sync words -/

/-- C11, counterexample: the ADS-B word of the code is not 0x0EACDDA4E, and neither is the
prefix tested in the scan loop that value shifted by 18; a sync check of the code fails on
samples that carry the 36 bits of 0x0EACDDA4E and passes on samples that carry 0xEACDDA4E2. -/
theorem adsb_sync_word_differs :
    ADSB_SYNC_WORD ≠ 0x0EACDDA4E ∧ CHECK_ADSB ≠ 0x0EACDDA4E >>> (36 - 18) ∧
      check_sync_word (word_phase 0x0EACDDA4E 36) 72 0 ADSB_SYNC_WORD = .ok (819, false) ∧
      check_sync_word (word_phase 0xEACDDA4E2 36) 72 0 ADSB_SYNC_WORD = .ok (0, true) := by
  refine ⟨by decide, by decide, ?_, ?_⟩ <;> decide

/-- C11 (as amended): the ADS-B sync word of the code is the 36-bit value 0xEACDDA4E2 and the
uplink word is 0x153225B1D; the prefixes tested in the scan loop are these values shifted right
by 36 - 18 = 18 bits; the downlink demodulator fails when the sync check against 0xEACDDA4E2
fails; and an iteration of the scan loop that finds neither prefix in the low 18 bits of
`sync0` or `sync1` calls no demodulator. -/
theorem sync_words_of_the_code :
    ADSB_SYNC_WORD = 0xEACDDA4E2 ∧ 2 ^ 35 ≤ ADSB_SYNC_WORD ∧ ADSB_SYNC_WORD < 2 ^ 36 ∧
      UPLINK_SYNC_WORD = 0x153225B1D ∧
      CHECK_ADSB = 0xEACDDA4E2 >>> (36 - 18) ∧ CHECK_UPLINK = 0x153225B1D >>> (36 - 18) ∧
      (∀ (rs : Decoders) (phi : Nat → Nat) (len base : Nat) (frame : List Nat) (center : Int),
        check_sync_word phi len base 0xEACDDA4E2 = .ok (center, false) →
        demod_adsb_frame rs phi len base frame = .ok ⟨0, 9999, frame⟩) ∧
      (∀ (rs : Decoders) (phi : Nat → Nat) (len offset : Nat) (s : Scan),
        s.bit * 2 + 2 < len →
        shift_in s.sync0 (dbit phi (s.bit * 2)) % 2 ^ 18 ≠ 0xEACDDA4E2 >>> (36 - 18) →
        shift_in s.sync1 (dbit phi (s.bit * 2 + 1)) % 2 ^ 18 ≠ 0xEACDDA4E2 >>> (36 - 18) →
        shift_in s.sync0 (dbit phi (s.bit * 2)) % 2 ^ 18 ≠ 0x153225B1D >>> (36 - 18) →
        shift_in s.sync1 (dbit phi (s.bit * 2 + 1)) % 2 ^ 18 ≠ 0x153225B1D >>> (36 - 18) →
        scan_body rs phi len offset s =
          .ok { s with
                sync0 := shift_in s.sync0 (dbit phi (s.bit * 2))
                sync1 := shift_in s.sync1 (dbit phi (s.bit * 2 + 1)) }) := by
  refine ⟨rfl, by decide, by decide, rfl, rfl, rfl, ?_, ?_⟩
  · intro rs phi len base frame center h
    exact demod_adsb_no_sync rs phi len base frame center h
  · intro rs phi len offset s hlen h1 h2 h3 h4
    have hmask : ∀ r : Nat, r &&& CHECK_MASK = r % 2 ^ 18 := by
      intro r
      exact Nat.and_pow_two_sub_one_eq_mod r 18
    apply scan_body_quiet rs phi len offset s hlen
    right
    unfold window_hit
    rw [hmask, hmask]
    rintro ((h | h) | (h | h))
    · exact h1 h
    · exact h2 h
    · exact h3 h
    · exact h4 h

theorem sync_words_of_the_code_witness :
    check_sync_word (word_phase 0x0EACDDA4E 36) 72 0 0xEACDDA4E2 = .ok (819, false) ∧
      demod_adsb_frame rs_reject (word_phase 0x0EACDDA4E 36) 72 0 [] = .ok ⟨0, 9999, []⟩ :=
  ⟨by decide,
    sync_words_of_the_code.2.2.2.2.2.2.1 rs_reject (word_phase 0x0EACDDA4E 36) 72 0 [] 819
      (by decide)⟩

/-! ## C12: the record format -/

theorem hex_digit_lower (n : Nat) (h : n < 16) : hex_digit n = lower_hex_digits.getD n '?' := by
  interval_cases n <;> rfl

theorem hex_byte_lower (b : Nat) (h : b < 256) : hex_byte b = lower_hex b := by
  unfold hex_byte lower_hex
  rw [Nat.mod_eq_of_lt h, hex_digit_lower _ (by omega), hex_digit_lower _ (by omega)]

theorem flatMap_hex_lower (l : List Nat) (h : ∀ b ∈ l, b < 256) :
    l.flatMap hex_byte = l.flatMap lower_hex := by
  induction l with
  | nil => rfl
  | cons a t ih =>
    simp only [List.flatMap_cons]
    rw [hex_byte_lower a (h a (List.mem_cons_self a t)),
      ih (fun b hb => h b (List.mem_cons_of_mem a hb))]

theorem length_flatMap_lower_hex (l : List Nat) : (l.flatMap lower_hex).length = 2 * l.length := by
  induction l with
  | nil => rfl
  | cons a t ih =>
    simp only [List.flatMap_cons, List.length_append, List.length_cons, ih]
    simp only [lower_hex, List.length_cons, List.length_nil]
    omega

theorem decimal_of_pos (n : Int) (h : 0 < n) : decimal n = (Nat.repr n.toNat).toList := by
  unfold decimal
  rw [if_neg (by omega)]
  have : n.natAbs = n.toNat := by omega
  rw [this]
  rfl

theorem dump_raw_message_text (updown : Char) (data : List Nat) (len : Nat) (n : Int)
    (hn : 0 ≤ n) (hb : ∀ b ∈ data, b < 256) :
    dump_raw_message updown data len n = record_text updown (data.take len) n := by
  unfold dump_raw_message record_text
  rw [flatMap_hex_lower _ (fun b hb1 => hb b (List.mem_of_mem_take hb1))]
  by_cases h0 : n = 0
  · rw [if_neg (by omega), if_neg (by omega)]
  · rw [if_pos h0, if_pos (by omega), decimal_of_pos n (by omega)]

/-- C12: for a frame buffer of bytes and a count `n ≥ 0` of corrected errors, the downlink
handler prints `-`, two lowercase hex digits for each of the first 18 bytes when
`byte0 >> 3 == 0` and for each of the first 34 bytes otherwise, `;rs=<n>` in decimal if and only
if `n > 0`, then `;` and a newline; the uplink handler prints `+` and the first 432 bytes in
the same way; the payloads are 36, 68 and 864 hex digits long. -/
theorem record_format (timestamp : Nat) (frame : List Nat) (n : Int) (hn : 0 ≤ n)
    (hlen : frame.length = UPLINK_FRAME_BYTES) (hb : ∀ b ∈ frame, b < 256) :
    handle_adsb_frame timestamp frame n =
        ['-'] ++
          (frame.take (if frame.getD 0 0 >>> 3 = 0 then 18 else 34)).flatMap lower_hex
          ++ (if n > 0 then [';', 'r', 's', '='] ++ (Nat.repr n.toNat).toList else [])
          ++ [';', '\n'] ∧
      ((frame.take (if frame.getD 0 0 >>> 3 = 0 then 18 else 34)).flatMap lower_hex).length =
        (if frame.getD 0 0 >>> 3 = 0 then 36 else 68) ∧
      handle_uplink_frame timestamp frame n =
        ['+'] ++ (frame.take 432).flatMap lower_hex
          ++ (if n > 0 then [';', 'r', 's', '='] ++ (Nat.repr n.toNat).toList else [])
          ++ [';', '\n'] ∧
      ((frame.take 432).flatMap lower_hex).length = 864 := by
  have hlen' : frame.length = 552 := hlen
  refine ⟨?_, ?_, ?_, ?_⟩
  · unfold handle_adsb_frame
    rw [dump_raw_message_text _ _ _ _ hn hb]
    rfl
  · rw [length_flatMap_lower_hex, List.length_take]
    split_ifs <;> omega
  · unfold handle_uplink_frame
    rw [dump_raw_message_text _ _ _ _ hn hb]
    rfl
  · rw [length_flatMap_lower_hex, List.length_take]
    omega

theorem record_format_witness :
    (0 : Int) ≤ 3 ∧ zero_frame.length = UPLINK_FRAME_BYTES ∧ (∀ b ∈ zero_frame, b < 256) ∧
      (handle_adsb_frame 0 zero_frame 3 =
        ['-'] ++
          (zero_frame.take (if zero_frame.getD 0 0 >>> 3 = 0 then 18 else 34)).flatMap lower_hex
          ++ (if (3 : Int) > 0 then [';', 'r', 's', '='] ++ (Nat.repr (3 : Int).toNat).toList
            else [])
          ++ [';', '\n'] ∧
      ((zero_frame.take (if zero_frame.getD 0 0 >>> 3 = 0 then 18 else 34)).flatMap
          lower_hex).length = (if zero_frame.getD 0 0 >>> 3 = 0 then 36 else 68) ∧
      handle_uplink_frame 0 zero_frame 3 =
        ['+'] ++ (zero_frame.take 432).flatMap lower_hex
          ++ (if (3 : Int) > 0 then [';', 'r', 's', '='] ++ (Nat.repr (3 : Int).toNat).toList
            else [])
          ++ [';', '\n'] ∧
      ((zero_frame.take 432).flatMap lower_hex).length = 864) :=
  ⟨by decide, List.length_replicate _ _,
    fun b hb => by rw [List.eq_of_mem_replicate hb]; decide,
    record_format 0 zero_frame 3 (by decide) (List.length_replicate _ _)
      (fun b hb => by rw [List.eq_of_mem_replicate hb]; decide)⟩

/-! ## C18, C19: the slicer threshold of check_sync_word -/

theorem phi_difference_bounds (a b : Nat) (ha : a < 65536) (hb : b < 65536) :
    -32768 ≤ phi_difference a b ∧ phi_difference a b ≤ 32767 := by
  unfold phi_difference
  simp only []
  split_ifs <;> omega

theorem tdiv_of_nonneg (t : Int) (n : Nat) (ht : 0 ≤ t) : t.tdiv n = t / n :=
  Int.tdiv_eq_ediv ht (Int.ofNat_nonneg n)

theorem tdiv_of_neg (t : Int) (n : Nat) (ht : t < 0) : t.tdiv n = -((-t) / n) := by
  have h := Int.tdiv_eq_ediv (show (0 : Int) ≤ -t by omega) (Int.ofNat_nonneg n)
  rw [Int.neg_tdiv] at h
  omega

/-- The truncated mean of `n` values between `lo` and `hi` lies between `lo` and `hi`. -/
theorem tdiv_bounds (t : Int) (n : Nat) (lo hi : Int) (hn : 0 < n) (hlo : lo ≤ 0)
    (hhi : 0 ≤ hi) (h1 : lo * n ≤ t) (h2 : t ≤ hi * n) :
    lo ≤ t.tdiv n ∧ t.tdiv n ≤ hi := by
  have hn' : (0 : Int) < n := by exact_mod_cast hn
  by_cases ht : 0 ≤ t
  · rw [tdiv_of_nonneg t n ht]
    constructor
    · exact le_trans hlo (Int.ediv_nonneg ht (le_of_lt hn'))
    · exact Int.ediv_le_of_le_mul hn' h2
  · rw [tdiv_of_neg t n (by omega)]
    have h3 : (-t) / (n : Int) ≤ -lo := Int.ediv_le_of_le_mul hn' (by nlinarith)
    have h4 : 0 ≤ (-t) / (n : Int) := Int.ediv_nonneg (by omega) (le_of_lt hn')
    constructor <;> omega

theorem tdiv_two (x : Int) : x.tdiv 2 = if 0 ≤ x then x / 2 else -((-x) / 2) := by
  split_ifs with h
  · exact tdiv_of_nonneg x 2 h
  · exact tdiv_of_neg x 2 (by omega)

theorem to_int16_of_range (x : Int) (h1 : -32768 ≤ x) (h2 : x ≤ 32767) : to_int16 x = x := by
  unfold to_int16
  omega

/-- The first loop of `check_sync_word` after `k` of its 36 iterations: the counts are those
of the pattern and each total is within 32768 times its count. -/
theorem sync_sums_bounded (phi : Nat → Nat) (len base pattern : Nat) (h : base + 72 ≤ len)
    (k : Nat) (hk : k ≤ 36) :
    ∃ s, for_loop (sync_sum_body phi len base pattern) k 0 ⟨0, 0, 0, 0⟩ = .ok s ∧
      s.one_bits = sync_ones pattern k ∧ s.one_bits + s.zero_bits = k ∧
      -32768 * (s.one_bits : Int) ≤ s.dphi_one_total ∧
      s.dphi_one_total ≤ 32767 * (s.one_bits : Int) ∧
      -32768 * (s.zero_bits : Int) ≤ s.dphi_zero_total ∧
      s.dphi_zero_total ≤ 32767 * (s.zero_bits : Int) := by
  have := for_loop_inv (sync_sum_body phi len base pattern)
    (fun i s => s.one_bits = sync_ones pattern i ∧ s.one_bits + s.zero_bits = i ∧
      -32768 * (s.one_bits : Int) ≤ s.dphi_one_total ∧
      s.dphi_one_total ≤ 32767 * (s.one_bits : Int) ∧
      -32768 * (s.zero_bits : Int) ≤ s.dphi_zero_total ∧
      s.dphi_zero_total ≤ 32767 * (s.zero_bits : Int))
    k 0 ⟨0, 0, 0, 0⟩ ⟨rfl, rfl, by decide, by decide, by decide, by decide⟩ ?_
  · simpa using this
  · intro j t _ hj ⟨h1, h2, h3, h4, h5, h6⟩
    have hd := dphi_at_ok phi len (base + j * 2) (by omega)
    obtain ⟨hlo, hhi⟩ := phi_difference_bounds (phi (base + j * 2) % 65536)
      (phi (base + j * 2 + 1) % 65536) (Nat.mod_lt _ (by decide)) (Nat.mod_lt _ (by decide))
    by_cases hb : pattern &&& (1 <<< (35 - j)) ≠ 0
    · refine ⟨_, by simp only [sync_sum_body, hd, ok_bind, pure_eq_ok]; rw [if_pos hb],
        ?_, ?_, ?_, ?_, ?_, ?_⟩
      · simp [sync_ones, hb, h1]
      · simp only []; omega
      · simp only []; push_cast; omega
      · simp only []; push_cast; omega
      · exact h5
      · exact h6
    · refine ⟨_, by simp only [sync_sum_body, hd, ok_bind, pure_eq_ok]; rw [if_neg hb],
        ?_, ?_, ?_, ?_, ?_, ?_⟩
      · simp [sync_ones, hb, h1]
      · simp only []; omega
      · exact h3
      · exact h4
      · simp only []; push_cast; omega
      · simp only []; push_cast; omega

/-- C19: for each of the two sync patterns of the code and every phase input with the 72
samples in reach, both bit groups are non-empty (20 and 16 bits), the two totals stay within
36 * 32768 in absolute value throughout the first loop, both means and the center computed from
them lie in `[-32768, 32767]`, the center lies between the two means, its `int16_t` store
keeps its value, and `check_sync_word` returns with that center. -/
theorem check_sync_word_center_safe (phi : Nat → Nat) (len base pattern : Nat)
    (hp : pattern = ADSB_SYNC_WORD ∨ pattern = UPLINK_SYNC_WORD) (h : base + 72 ≤ len) :
    (∀ k, k ≤ 36 → ∃ s, for_loop (sync_sum_body phi len base pattern) k 0 ⟨0, 0, 0, 0⟩ = .ok s ∧
      -(36 * 32768) ≤ s.dphi_one_total ∧ s.dphi_one_total ≤ 36 * 32768 ∧
      -(36 * 32768) ≤ s.dphi_zero_total ∧ s.dphi_zero_total ≤ 36 * 32768) ∧
    ∃ s sync_ok, for_loop (sync_sum_body phi len base pattern) 36 0 ⟨0, 0, 0, 0⟩ = .ok s ∧
      0 < s.one_bits ∧ 0 < s.zero_bits ∧ s.one_bits + s.zero_bits = 36 ∧
      -32768 ≤ s.dphi_one_total.tdiv s.one_bits ∧ s.dphi_one_total.tdiv s.one_bits ≤ 32767 ∧
      -32768 ≤ s.dphi_zero_total.tdiv s.zero_bits ∧
      s.dphi_zero_total.tdiv s.zero_bits ≤ 32767 ∧
      min (s.dphi_one_total.tdiv s.one_bits) (s.dphi_zero_total.tdiv s.zero_bits) ≤
        (s.dphi_one_total.tdiv s.one_bits + s.dphi_zero_total.tdiv s.zero_bits).tdiv 2 ∧
      (s.dphi_one_total.tdiv s.one_bits + s.dphi_zero_total.tdiv s.zero_bits).tdiv 2 ≤
        max (s.dphi_one_total.tdiv s.one_bits) (s.dphi_zero_total.tdiv s.zero_bits) ∧
      -32768 ≤ (s.dphi_one_total.tdiv s.one_bits + s.dphi_zero_total.tdiv s.zero_bits).tdiv 2 ∧
      (s.dphi_one_total.tdiv s.one_bits + s.dphi_zero_total.tdiv s.zero_bits).tdiv 2 ≤ 32767 ∧
      to_int16 ((s.dphi_one_total.tdiv s.one_bits + s.dphi_zero_total.tdiv s.zero_bits).tdiv 2)
        = (s.dphi_one_total.tdiv s.one_bits + s.dphi_zero_total.tdiv s.zero_bits).tdiv 2 ∧
      check_sync_word phi len base pattern =
        .ok ((s.dphi_one_total.tdiv s.one_bits + s.dphi_zero_total.tdiv s.zero_bits).tdiv 2,
          sync_ok) := by
  constructor
  · intro k hk
    obtain ⟨s, hs, _, hsum, h3, h4, h5, h6⟩ := sync_sums_bounded phi len base pattern h k hk
    refine ⟨s, hs, ?_, ?_, ?_, ?_⟩ <;> omega
  · obtain ⟨s, hs, hone, hsum, h3, h4, h5, h6⟩ :=
      sync_sums_bounded phi len base pattern h 36 (le_refl _)
    have hones : sync_ones pattern 36 = 20 ∨ sync_ones pattern 36 = 16 := by
      rcases hp with hp | hp
      · left; rw [hp]; exact sync_ones_adsb
      · right; rw [hp]; exact sync_ones_uplink
    have hpos1 : 0 < s.one_bits := by omega
    have hpos0 : 0 < s.zero_bits := by omega
    obtain ⟨a1, a2⟩ := tdiv_bounds s.dphi_one_total s.one_bits (-32768) 32767 hpos1
      (by decide) (by decide) h3 h4
    obtain ⟨b1, b2⟩ := tdiv_bounds s.dphi_zero_total s.zero_bits (-32768) 32767 hpos0
      (by decide) (by decide) h5 h6
    obtain ⟨m1, hm1⟩ : ∃ m1, m1 = s.dphi_one_total.tdiv s.one_bits := ⟨_, rfl⟩
    obtain ⟨m0, hm0⟩ : ∃ m0, m0 = s.dphi_zero_total.tdiv s.zero_bits := ⟨_, rfl⟩
    rw [← hm1] at a1 a2
    rw [← hm0] at b1 b2
    have hc : min m1 m0 ≤ (m1 + m0).tdiv 2 ∧ (m1 + m0).tdiv 2 ≤ max m1 m0 := by
      rw [tdiv_two]
      split_ifs <;> constructor <;> omega
    have hc1 : -32768 ≤ (m1 + m0).tdiv 2 := by
      have := hc.1
      omega
    have hc2 : (m1 + m0).tdiv 2 ≤ 32767 := by
      have := hc.2
      omega
    have hz : ¬ (s.zero_bits = 0 ∨ s.one_bits = 0) := by omega
    obtain ⟨e, he⟩ := sync_errs_ok phi len base pattern
      (to_int16 ((s.dphi_one_total.tdiv s.one_bits + s.dphi_zero_total.tdiv s.zero_bits).tdiv 2))
      h
    have hchk : check_sync_word phi len base pattern =
        .ok (to_int16 ((s.dphi_one_total.tdiv s.one_bits +
          s.dphi_zero_total.tdiv s.zero_bits).tdiv 2), decide (e ≤ MAX_SYNC_ERRORS)) := by
      simp only [check_sync_word, hs, ok_bind]
      rw [if_neg hz]
      simp only [he, ok_bind, pure_eq_ok]
    subst hm1
    subst hm0
    rw [to_int16_of_range _ hc1 hc2] at hchk
    exact ⟨s, decide (e ≤ MAX_SYNC_ERRORS), hs, hpos1, hpos0, hsum, a1, a2, b1, b2, hc.1, hc.2,
      hc1, hc2, to_int16_of_range _ hc1 hc2, hchk⟩

theorem check_sync_word_center_safe_witness :
    (ADSB_SYNC_WORD = ADSB_SYNC_WORD ∨ ADSB_SYNC_WORD = UPLINK_SYNC_WORD) ∧ 0 + 72 ≤ 72 ∧
      check_sync_word (word_phase 0xEACDDA4E2 36) 72 0 ADSB_SYNC_WORD = .ok (0, true) ∧
      ∃ s sync_ok,
        for_loop (sync_sum_body (word_phase 0xEACDDA4E2 36) 72 0 ADSB_SYNC_WORD) 36 0
          ⟨0, 0, 0, 0⟩ = .ok s ∧
        0 < s.one_bits ∧ 0 < s.zero_bits ∧
        to_int16 ((s.dphi_one_total.tdiv s.one_bits + s.dphi_zero_total.tdiv s.zero_bits).tdiv 2)
          = (s.dphi_one_total.tdiv s.one_bits + s.dphi_zero_total.tdiv s.zero_bits).tdiv 2 ∧
        check_sync_word (word_phase 0xEACDDA4E2 36) 72 0 ADSB_SYNC_WORD =
          .ok ((s.dphi_one_total.tdiv s.one_bits + s.dphi_zero_total.tdiv s.zero_bits).tdiv 2,
            sync_ok) := by
  refine ⟨Or.inl rfl, by decide, by decide, ?_⟩
  obtain ⟨s, sync_ok, hs, h1, h0, _, _, _, _, _, _, _, _, _, h16, hchk⟩ :=
    (check_sync_word_center_safe (word_phase 0xEACDDA4E2 36) 72 0 ADSB_SYNC_WORD (Or.inl rfl)
      (by decide)).2
  exact ⟨s, sync_ok, hs, h1, h0, h16, hchk⟩

/-- The first loop of `check_sync_word` when the phase difference is `f + d` at every one bit
of the pattern and `f - d` at every zero bit. -/
theorem sync_sums_exact (phi : Nat → Nat) (len base pattern : Nat) (f d : Int)
    (h : base + 72 ≤ len)
    (hdphi : ∀ i, i < 36 →
      phi_difference (phi (base + i * 2) % 65536) (phi (base + i * 2 + 1) % 65536) =
        if pattern &&& (1 <<< (35 - i)) ≠ 0 then f + d else f - d) :
    ∃ s, for_loop (sync_sum_body phi len base pattern) 36 0 ⟨0, 0, 0, 0⟩ = .ok s ∧
      s.one_bits = sync_ones pattern 36 ∧ s.one_bits + s.zero_bits = 36 ∧
      s.dphi_one_total = (f + d) * s.one_bits ∧ s.dphi_zero_total = (f - d) * s.zero_bits := by
  have := for_loop_inv (sync_sum_body phi len base pattern)
    (fun i s => s.one_bits = sync_ones pattern i ∧ s.one_bits + s.zero_bits = i ∧
      s.dphi_one_total = (f + d) * s.one_bits ∧ s.dphi_zero_total = (f - d) * s.zero_bits)
    36 0 ⟨0, 0, 0, 0⟩ ⟨rfl, rfl, by simp, by simp⟩ ?_
  · simpa using this
  · intro j t _ hj ⟨h1, h2, h3, h4⟩
    have hd := dphi_at_ok phi len (base + j * 2) (by omega)
    have hv := hdphi j (by omega)
    by_cases hb : pattern &&& (1 <<< (35 - j)) ≠ 0
    · rw [if_pos hb] at hv
      refine ⟨_, by simp only [sync_sum_body, hd, ok_bind, pure_eq_ok]; rw [if_pos hb],
        ?_, ?_, ?_, ?_⟩
      · simp [sync_ones, hb, h1]
      · simp only []; omega
      · simp only [hv, h3]; push_cast; ring
      · exact h4
    · rw [if_neg hb] at hv
      refine ⟨_, by simp only [sync_sum_body, hd, ok_bind, pure_eq_ok]; rw [if_neg hb],
        ?_, ?_, ?_, ?_⟩
      · simp [sync_ones, hb, h1]
      · simp only []; omega
      · exact h3
      · simp only [hv, h4]; push_cast; ring

/-- The second loop of `check_sync_word` counts no error when every one bit lies above the
center by `d > 0` and every zero bit below it by `d`. -/
theorem sync_errs_exact (phi : Nat → Nat) (len base pattern : Nat) (f d : Int)
    (h : base + 72 ≤ len) (hd0 : 0 < d)
    (hdphi : ∀ i, i < 36 →
      phi_difference (phi (base + i * 2) % 65536) (phi (base + i * 2 + 1) % 65536) =
        if pattern &&& (1 <<< (35 - i)) ≠ 0 then f + d else f - d) :
    for_loop (sync_err_body phi len base pattern f) 36 0 0 = .ok 0 := by
  have := for_loop_inv (sync_err_body phi len base pattern f) (fun _ e => e = 0)
    36 0 0 rfl ?_
  · obtain ⟨e, he, h0⟩ := this
    rw [he, h0]
  · intro j t _ hj ht
    have hd := dphi_at_ok phi len (base + j * 2) (by omega)
    have hv := hdphi j (by omega)
    by_cases hb : pattern &&& (1 <<< (35 - j)) ≠ 0
    · rw [if_pos hb] at hv
      refine ⟨t, ?_, ht⟩
      simp only [sync_err_body, hd, ok_bind, pure_eq_ok]
      rw [if_pos hb, hv, if_neg (by omega)]
    · rw [if_neg hb] at hv
      refine ⟨t, ?_, ht⟩
      simp only [sync_err_body, hd, ok_bind, pure_eq_ok]
      rw [if_neg hb, hv, if_neg (by omega)]

/-- C18: for either sync pattern of the code, a frequency offset `f` and a deviation `d > 0`
with `-32768 ≤ f - d` and `f + d ≤ 32767`: when the 36 sample pairs have phase difference
exactly `f + d` at the one bits of the pattern and `f - d` at its zero bits,
`check_sync_word` returns 1 and stores exactly `f` in `*center`. -/
theorem check_sync_word_recovers_offset (phi : Nat → Nat) (len base pattern : Nat) (f d : Int)
    (hp : pattern = ADSB_SYNC_WORD ∨ pattern = UPLINK_SYNC_WORD) (h : base + 72 ≤ len)
    (hd0 : 0 < d) (hlo : -32768 ≤ f - d) (hhi : f + d ≤ 32767)
    (hdphi : ∀ i, i < 36 →
      phi_difference (phi (base + i * 2) % 65536) (phi (base + i * 2 + 1) % 65536) =
        if pattern &&& (1 <<< (35 - i)) ≠ 0 then f + d else f - d) :
    check_sync_word phi len base pattern = .ok (f, true) := by
  obtain ⟨s, hs, hone, hsum, h1, h0⟩ := sync_sums_exact phi len base pattern f d h hdphi
  have hones : sync_ones pattern 36 = 20 ∨ sync_ones pattern 36 = 16 := by
    rcases hp with hp | hp
    · left; rw [hp]; exact sync_ones_adsb
    · right; rw [hp]; exact sync_ones_uplink
  have hpos1 : (s.one_bits : Int) ≠ 0 := by omega
  have hpos0 : (s.zero_bits : Int) ≠ 0 := by omega
  have hz : ¬ (s.zero_bits = 0 ∨ s.one_bits = 0) := by omega
  have hm1 : s.dphi_one_total.tdiv s.one_bits = f + d := by
    rw [h1]
    exact Int.mul_tdiv_cancel _ hpos1
  have hm0 : s.dphi_zero_total.tdiv s.zero_bits = f - d := by
    rw [h0]
    exact Int.mul_tdiv_cancel _ hpos0
  have hc : (f + d + (f - d)).tdiv 2 = f := by
    rw [show f + d + (f - d) = f * 2 by ring]
    exact Int.mul_tdiv_cancel _ (by decide)
  have he := sync_errs_exact phi len base pattern f d h hd0 hdphi
  simp only [check_sync_word, hs, ok_bind]
  rw [if_neg hz]
  simp only [hm1, hm0, hc, to_int16_of_range f (by omega) (by omega), he, ok_bind, pure_eq_ok]
  rfl

theorem check_sync_word_recovers_offset_witness :
    (UPLINK_SYNC_WORD = ADSB_SYNC_WORD ∨ UPLINK_SYNC_WORD = UPLINK_SYNC_WORD) ∧
      2 + 72 ≤ 80 ∧ (0 : Int) < 4096 ∧ (-32768 : Int) ≤ 1000 - 4096 ∧
      (1000 : Int) + 4096 ≤ 32767 ∧
      (∀ i, i < 36 →
        phi_difference (offset_phase (2 + i * 2) % 65536)
            (offset_phase (2 + i * 2 + 1) % 65536) =
          if UPLINK_SYNC_WORD &&& (1 <<< (35 - i)) ≠ 0 then (1000 : Int) + 4096
          else 1000 - 4096) ∧
      check_sync_word offset_phase 80 2 UPLINK_SYNC_WORD = .ok (1000, true) :=
  ⟨Or.inr rfl, by decide, by decide, by decide, by decide, by decide,
    check_sync_word_recovers_offset offset_phase 80 2 UPLINK_SYNC_WORD 1000 4096 (Or.inr rfl)
      (by decide) (by decide) (by decide) (by decide) (by decide)⟩

/-! ## C13: the watermark of the intake loop -/

/-- Whatever `demod_adsb_frame` returns is 0, 276 or 420. -/
theorem demod_adsb_frame_skip (rs : Decoders) (phi : Nat → Nat) (len base : Nat)
    (frame : List Nat) (d : Demod) (h : demod_adsb_frame rs phi len base frame = .ok d) :
    d.skip = 0 ∨ d.skip = 276 ∨ d.skip = 420 := by
  unfold demod_adsb_frame at h
  simp only [bind, Except.bind, pure, Except.pure] at h
  repeat' split at h
  all_goals cases h
  all_goals simp [SYNC_BITS, LONG_FRAME_BITS, SHORT_FRAME_BITS]

theorem uplink_blocks_skip (rs : Decoders) (interleaved : List Nat) :
    ∀ (k block : Nat) (total : Int) (frame : List Nat) (d : Demod),
      uplink_blocks rs interleaved k block total frame = .ok d →
      d.skip = 0 ∨ d.skip = 4452 := by
  intro k
  induction k with
  | zero =>
    intro block total frame d h
    simp only [uplink_blocks, pure_eq_ok] at h
    injection h with h
    subst h
    right
    simp [UPLINK_FRAME_BITS, SYNC_BITS]
  | succ k ih =>
    intro block total frame d h
    simp only [uplink_blocks, bind, Except.bind, pure, Except.pure] at h
    repeat' split at h
    all_goals first
      | exact ih _ _ _ _ h
      | (cases h; done)
      | (cases h; left; rfl)

/-- Whatever `demod_uplink_frame` returns is 0 or 4452. -/
theorem demod_uplink_frame_skip (rs : Decoders) (phi : Nat → Nat) (len base : Nat)
    (frame : List Nat) (d : Demod) (h : demod_uplink_frame rs phi len base frame = .ok d) :
    d.skip = 0 ∨ d.skip = 4452 := by
  unfold demod_uplink_frame at h
  simp only [bind, Except.bind, pure, Except.pure] at h
  repeat' split at h
  all_goals first
    | exact uplink_blocks_skip rs _ _ _ _ _ _ h
    | (cases h; done)
    | (cases h; left; rfl)

/-- Where `dispatch` leaves `bit`: in place, or `skip` bits behind `startbit` for the nonzero
`skip` of one of the two attempts. -/
theorem dispatch_bit (handler : Nat → List Nat → Int → List Char) (offset index startbit : Nat)
    (d0 d1 : Demod) (s : Scan) :
    (dispatch handler offset index startbit d0 d1 s).bit = s.bit ∨
      ((dispatch handler offset index startbit d0 d1 s).bit =
          ((startbit : Int) + d0.skip).toNat ∧ d0.skip ≠ 0) ∨
      ((dispatch handler offset index startbit d0 d1 s).bit =
          ((startbit : Int) + d1.skip).toNat ∧ d1.skip ≠ 0) := by
  unfold dispatch
  split_ifs with h0 h1
  · exact Or.inr (Or.inl ⟨rfl, h0.1⟩)
  · exact Or.inr (Or.inr ⟨rfl, h1.1⟩)
  · exact Or.inl rfl

/-- An iteration of the scan loop leaves `bit` in place or, from bit 18 on, moves it to
`bit - 17 + skip` for a `skip` of 276, 420 or 4452. -/
theorem scan_body_bit (rs : Decoders) (phi : Nat → Nat) (len offset : Nat) (s t : Scan)
    (h : scan_body rs phi len offset s = .ok t) :
    t.bit = s.bit ∨
      (CHECK_BITS ≤ s.bit ∧
        (t.bit = s.bit - 17 + 276 ∨ t.bit = s.bit - 17 + 420 ∨ t.bit = s.bit - 17 + 4452)) := by
  unfold scan_body at h
  rcases hd0 : dphi_at phi len (s.bit * 2) with e | a
  · rw [hd0] at h
    cases h
  rcases hd1 : dphi_at phi len (s.bit * 2 + 1) with e | b
  · rw [hd0, hd1] at h
    cases h
  rw [hd0, hd1] at h
  simp only [ok_bind, pure_eq_ok] at h
  by_cases hb : s.bit < CHECK_BITS
  · rw [if_pos hb] at h
    cases h
    exact Or.inl rfl
  rw [if_neg hb] at h
  have hge : CHECK_BITS ≤ s.bit := by omega
  have h18 : CHECK_BITS = 18 := rfl
  generalize ((s.sync0 <<< 1 ||| if a > 0 then 1 else 0) % 2 ^ 64) = r0 at h
  generalize ((s.sync1 <<< 1 ||| if b > 0 then 1 else 0) % 2 ^ 64) = r1 at h
  by_cases hA : r0 &&& CHECK_MASK = CHECK_ADSB ∨ r1 &&& CHECK_MASK = CHECK_ADSB
  · rw [if_pos hA] at h
    generalize ((s.bit - CHECK_BITS + 1) * 2 +
      (if r0 &&& CHECK_MASK = CHECK_ADSB then 0 else 1)) = index at h
    rcases hx : demod_adsb_frame rs phi len index s.demod_buf_a with e | d0
    · rw [hx] at h
      cases h
    rw [hx] at h
    simp only [ok_bind] at h
    rcases hy : demod_adsb_frame rs phi len (index + 1) s.demod_buf_b with e | d1
    · rw [hy] at h
      cases h
    rw [hy] at h
    simp only [ok_bind] at h
    cases h
    have k0 := demod_adsb_frame_skip _ _ _ _ _ _ hx
    have k1 := demod_adsb_frame_skip _ _ _ _ _ _ hy
    rcases dispatch_bit handle_adsb_frame offset index (s.bit - CHECK_BITS + 1) d0 d1
      ⟨s.bit, r0, r1, d0.frame, d1.frame, s.out⟩ with hq | ⟨hq, hne⟩ | ⟨hq, hne⟩
    · exact Or.inl hq
    · right
      refine ⟨hge, ?_⟩
      rw [hq]
      rcases k0 with k | k | k <;> rw [k] at hne ⊢ <;> omega
    · right
      refine ⟨hge, ?_⟩
      rw [hq]
      rcases k1 with k | k | k <;> rw [k] at hne ⊢ <;> omega
  rw [if_neg hA] at h
  by_cases hU : r0 &&& CHECK_MASK = CHECK_UPLINK ∨ r1 &&& CHECK_MASK = CHECK_UPLINK
  · rw [if_pos hU] at h
    generalize ((s.bit - CHECK_BITS + 1) * 2 +
      (if r0 &&& CHECK_MASK = CHECK_UPLINK then 0 else 1)) = index at h
    rcases hx : demod_uplink_frame rs phi len index s.demod_buf_a with e | d0
    · rw [hx] at h
      cases h
    rw [hx] at h
    simp only [ok_bind] at h
    rcases hy : demod_uplink_frame rs phi len (index + 1) s.demod_buf_b with e | d1
    · rw [hy] at h
      cases h
    rw [hy] at h
    simp only [ok_bind] at h
    cases h
    have k0 := demod_uplink_frame_skip _ _ _ _ _ _ hx
    have k1 := demod_uplink_frame_skip _ _ _ _ _ _ hy
    rcases dispatch_bit handle_uplink_frame offset index (s.bit - CHECK_BITS + 1) d0 d1
      ⟨s.bit, r0, r1, d0.frame, d1.frame, s.out⟩ with hq | ⟨hq, hne⟩ | ⟨hq, hne⟩
    · exact Or.inl hq
    · right
      refine ⟨hge, ?_⟩
      rw [hq]
      rcases k0 with k | k <;> rw [k] at hne ⊢ <;> omega
    · right
      refine ⟨hge, ?_⟩
      rw [hq]
      rcases k1 with k | k <;> rw [k] at hne ⊢ <;> omega
  · rw [if_neg hU] at h
    cases h
    exact Or.inl rfl

/-- Where the scan loop leaves `bit`: not before `lenbits`, and not more than 4435 bits behind
it unless it started there. -/
theorem scan_bit_bounds (rs : Decoders) (phi : Nat → Nat) (len offset : Nat) (lenbits : Int) :
    ∀ (fuel : Nat) (s t : Scan), scan rs phi len offset lenbits fuel s = .ok t →
      lenbits ≤ (t.bit : Int) ∧ (t.bit : Int) ≤ max (s.bit : Int) (lenbits + 4435) := by
  intro fuel
  induction fuel with
  | zero =>
    intro s t h
    simp only [scan] at h
    split_ifs at h with hlt
    cases h
    exact ⟨by omega, le_max_left _ _⟩
  | succ fuel ih =>
    intro s t h
    simp only [scan] at h
    split_ifs at h with hlt
    · rcases hb : scan_body rs phi len offset s with e | s1
      · rw [hb] at h
        cases h
      rw [hb] at h
      simp only [ok_bind] at h
      obtain ⟨h1, h2⟩ := ih _ _ h
      refine ⟨h1, ?_⟩
      have h18 : CHECK_BITS = 18 := rfl
      have hmove := scan_body_bit rs phi len offset s s1 hb
      simp only [] at h2
      have hnew : ((s1.bit + 1 : Nat) : Int) ≤ lenbits + 4435 := by
        rcases hmove with hm | ⟨hge, hm | hm | hm⟩ <;> rw [hm] <;> push_cast <;> omega
      have := le_max_right (s.bit : Int) (lenbits + 4435)
      have h3 : max ((s1.bit + 1 : Nat) : Int) (lenbits + 4435) = lenbits + 4435 :=
        max_eq_right hnew
      rw [h3] at h2
      omega
    · cases h
      exact ⟨by omega, le_max_left _ _⟩

/-- What `process_buffer` returns: -36 when fewer than 4435 bit periods are in the buffer, and
otherwise a count between `(lenbits - 18) * 2` and `(len / 2 - 17) * 2`. -/
theorem process_buffer_return_bounds (rs : Decoders) (phi : Nat → Nat) (len offset : Nat)
    (r : Int) (text : List Char) (h : process_buffer rs phi len offset = .ok (r, text)) :
    (len / 2 ≤ 4434 → r = -36) ∧
      (4434 < len / 2 →
        (((len / 2 : Nat) : Int) - 4434 - 18) * 2 ≤ r ∧ r ≤ (((len / 2 : Nat) : Int) - 17) * 2) := by
  unfold process_buffer at h
  simp only [] at h
  rcases hs : scan rs phi len offset
      (((len / 2 : Nat) : Int) - (((SYNC_BITS - CHECK_BITS) + UPLINK_FRAME_BITS : Nat) : Int))
      (((len / 2 : Nat) : Int) -
        (((SYNC_BITS - CHECK_BITS) + UPLINK_FRAME_BITS : Nat) : Int)).toNat
      ⟨0, 0, 0, List.replicate UPLINK_FRAME_BYTES 0, List.replicate UPLINK_FRAME_BYTES 0, []⟩
    with e | t
  · rw [hs] at h
    cases h
  rw [hs] at h
  simp only [ok_bind, pure_eq_ok] at h
  cases h
  obtain ⟨h1, h2⟩ := scan_bit_bounds _ _ _ _ _ _ _ _ hs
  have hk : (((SYNC_BITS - CHECK_BITS) + UPLINK_FRAME_BITS : Nat) : Int) = 4434 := by decide
  have h18 : ((CHECK_BITS : Nat) : Int) = 18 := by decide
  rw [hk] at h1 h2
  simp only [] at h2
  rw [h18]
  constructor
  · intro hle
    -- the loop does not run: `bit` stays 0
    have hdone := scan_done rs phi len offset (((len / 2 : Nat) : Int) - 4434)
      (((len / 2 : Nat) : Int) - 4434).toNat
      ⟨0, 0, 0, List.replicate UPLINK_FRAME_BYTES 0, List.replicate UPLINK_FRAME_BYTES 0, []⟩
      (by simp only []; omega)
    rw [hk, hdone] at hs
    cases hs
    simp
  · intro hgt
    have hmax : max ((0 : Nat) : Int) (((len / 2 : Nat) : Int) - 4434 + 4435) =
        ((len / 2 : Nat) : Int) - 4434 + 4435 := max_eq_right (by omega)
    rw [hmax] at h2
    constructor <;> omega

/-- One iteration of the intake loop keeps `used` inside the buffer, whatever the buffer
holds. -/
theorem intake_body_used (rs : Decoders) (iqphase : Nat → Nat) (chunk : List Nat) (s : Intake)
    (h0 : 0 ≤ s.used) (hn : s.used + (chunk.length : Int) ≤ (BUFFER_SIZE : Nat)) :
    0 ≤ (intake_body rs iqphase chunk s).used ∧
      (intake_body rs iqphase chunk s).used ≤ (BUFFER_SIZE : Nat) := by
  have hB : ((BUFFER_SIZE : Nat) : Int) = 131072 := by decide
  rw [hB] at hn ⊢
  unfold intake_body
  simp only []
  rcases hc : convert_to_phi iqphase (s.buffer ++ chunk) (s.used / 2).toNat
      ((s.used % 2 + (chunk.length : Int)) / 2).toNat with e | buffer
  · simp only []
    omega
  simp only []
  rcases hp : process_buffer rs (phi_of buffer) ((s.used + (chunk.length : Int)) / 2).toNat
      s.offset with e | ⟨processed, text⟩
  · simp only []
    omega
  simp only []
  obtain ⟨hshort, hlong⟩ := process_buffer_return_bounds _ _ _ _ _ _ hp
  have hused : 0 ≤ s.used + (chunk.length : Int) - processed * 2 ∧
      s.used + (chunk.length : Int) - processed * 2 ≤ 131072 := by
    by_cases hle : ((s.used + (chunk.length : Int)) / 2).toNat / 2 ≤ 4434
    · have := hshort hle
      omega
    · have := hlong (by omega)
      omega
  split_ifs <;> simp only [] <;> omega

/-- The intake loop keeps `used` inside the buffer. -/
theorem read_from_stdin_used (rs : Decoders) (iqphase : Nat → Nat) :
    ∀ (reads input : List Nat) (s : Intake), 0 ≤ s.used → s.used ≤ (BUFFER_SIZE : Nat) →
      0 ≤ (read_from_stdin rs iqphase reads input s).used ∧
        (read_from_stdin rs iqphase reads input s).used ≤ (BUFFER_SIZE : Nat) := by
  intro reads
  induction reads with
  | nil =>
    intro input s h0 h1
    exact ⟨h0, h1⟩
  | cons most rest ih =>
    intro input s h0 h1
    simp only [read_from_stdin]
    split_ifs with hz ht
    · exact ⟨h0, h1⟩
    · apply intake_body_used rs iqphase _ s h0
      rw [List.length_take]
      omega
    · apply ih
      · apply (intake_body_used rs iqphase _ s h0 _).1
        rw [List.length_take]
        omega
      · apply (intake_body_used rs iqphase _ s h0 _).2
        rw [List.length_take]
        omega

/-! ### The loop carried on past every return value -/

/-- With `len` samples in reach, `process_buffer_within` is `process_buffer`. -/
theorem process_buffer_within_self (rs : Decoders) (phi : Nat → Nat) (len offset : Nat) :
    process_buffer_within rs phi len len offset = process_buffer rs phi len offset :=
  rfl

theorem dispatch_bufs (handler : Nat → List Nat → Int → List Char) (offset index startbit : Nat)
    (d0 d1 : Demod) (s : Scan) :
    (dispatch handler offset index startbit d0 d1 s).demod_buf_a = s.demod_buf_a ∧
      (dispatch handler offset index startbit d0 d1 s).demod_buf_b = s.demod_buf_b := by
  unfold dispatch
  split_ifs <;> exact ⟨rfl, rfl⟩

/-- An iteration of the scan loop returns when two samples more than `2 * (len / 2)` are in
reach: no load of the iteration, nor of the demodulators it calls, goes further. -/
theorem scan_body_total (rs : Decoders) (phi : Nat → Nat) (reach offset lenq : Nat) (s : Scan)
    (hbit : s.bit + 4434 < lenq) (hreach : 2 * lenq + 2 ≤ reach)
    (ha : s.demod_buf_a.length = UPLINK_FRAME_BYTES)
    (hb : s.demod_buf_b.length = UPLINK_FRAME_BYTES) :
    ∃ t, scan_body rs phi reach offset s = .ok t ∧
      t.demod_buf_a.length = UPLINK_FRAME_BYTES ∧ t.demod_buf_b.length = UPLINK_FRAME_BYTES := by
  rw [scan_body_unfold rs phi reach offset s (by omega)]
  simp only []
  have h18 : CHECK_BITS = 18 := rfl
  by_cases hlt : s.bit < CHECK_BITS
  · rw [if_pos hlt]
    exact ⟨_, rfl, ha, hb⟩
  rw [if_neg hlt]
  generalize shift_in s.sync0 (dbit phi (s.bit * 2)) = r0
  generalize shift_in s.sync1 (dbit phi (s.bit * 2 + 1)) = r1
  by_cases hA : r0 &&& CHECK_MASK = CHECK_ADSB ∨ r1 &&& CHECK_MASK = CHECK_ADSB
  · rw [if_pos hA]
    have hidx : (s.bit - CHECK_BITS + 1) * 2 +
        (if r0 &&& CHECK_MASK = CHECK_ADSB then 0 else 1) + 1 ≤ 2 * s.bit - 32 := by
      split_ifs <;> omega
    generalize ((s.bit - CHECK_BITS + 1) * 2 +
      (if r0 &&& CHECK_MASK = CHECK_ADSB then 0 else 1)) = index at hidx ⊢
    obtain ⟨d0, hd0, hl0, _⟩ := demod_adsb_frame_spec rs phi reach index s.demod_buf_a
      (by simp only [SYNC_BITS, LONG_FRAME_BYTES]; omega)
      (by rw [ha]; decide)
    obtain ⟨d1, hd1, hl1, _⟩ := demod_adsb_frame_spec rs phi reach (index + 1) s.demod_buf_b
      (by simp only [SYNC_BITS, LONG_FRAME_BYTES]; omega)
      (by rw [hb]; decide)
    rw [hd0, hd1]
    simp only [ok_bind]
    refine ⟨_, rfl, ?_, ?_⟩
    · rw [(dispatch_bufs _ _ _ _ _ _ _).1]
      simp only []
      rw [hl0, ha]
    · rw [(dispatch_bufs _ _ _ _ _ _ _).2]
      simp only []
      rw [hl1, hb]
  rw [if_neg hA]
  by_cases hU : r0 &&& CHECK_MASK = CHECK_UPLINK ∨ r1 &&& CHECK_MASK = CHECK_UPLINK
  · rw [if_pos hU]
    have hidx : (s.bit - CHECK_BITS + 1) * 2 +
        (if r0 &&& CHECK_MASK = CHECK_UPLINK then 0 else 1) + 1 ≤ 2 * s.bit - 32 := by
      split_ifs <;> omega
    generalize ((s.bit - CHECK_BITS + 1) * 2 +
      (if r0 &&& CHECK_MASK = CHECK_UPLINK then 0 else 1)) = index at hidx ⊢
    obtain ⟨_, _, _, d0, _, _, _, _, hd0, hl0, _⟩ := demod_uplink_frame_spec rs phi reach index
      s.demod_buf_a (by simp only [SYNC_BITS, UPLINK_FRAME_BYTES]; omega) ha
    obtain ⟨_, _, _, d1, _, _, _, _, hd1, hl1, _⟩ := demod_uplink_frame_spec rs phi reach
      (index + 1) s.demod_buf_b (by simp only [SYNC_BITS, UPLINK_FRAME_BYTES]; omega) hb
    rw [hd0, hd1]
    simp only [ok_bind]
    refine ⟨_, rfl, ?_, ?_⟩
    · rw [(dispatch_bufs _ _ _ _ _ _ _).1]
      exact hl0
    · rw [(dispatch_bufs _ _ _ _ _ _ _).2]
      exact hl1
  · rw [if_neg hU]
    exact ⟨_, rfl, ha, hb⟩

/-- The scan loop returns when two samples more than `2 * (len / 2)` are in reach and the
fuel covers the bits left. -/
theorem scan_total (rs : Decoders) (phi : Nat → Nat) (reach offset lenq : Nat)
    (hreach : 2 * lenq + 2 ≤ reach) :
    ∀ (fuel : Nat) (s : Scan), lenq ≤ s.bit + 4434 + fuel →
      s.demod_buf_a.length = UPLINK_FRAME_BYTES → s.demod_buf_b.length = UPLINK_FRAME_BYTES →
      ∃ t, scan rs phi reach offset ((lenq : Int) - 4434) fuel s = .ok t := by
  intro fuel
  induction fuel with
  | zero =>
    intro s hf _ _
    exact ⟨s, scan_done rs phi reach offset _ 0 s (by omega)⟩
  | succ fuel ih =>
    intro s hf ha hb
    by_cases hlt : (s.bit : Int) < (lenq : Int) - 4434
    · rw [scan_succ rs phi reach offset _ fuel s hlt]
      obtain ⟨t, ht, hta, htb⟩ := scan_body_total rs phi reach offset lenq s (by omega) hreach
        ha hb
      rw [ht]
      simp only [ok_bind]
      have hmove := scan_body_bit rs phi reach offset s t ht
      apply ih
      · simp only []
        rcases hmove with hm | ⟨_, hm | hm | hm⟩ <;> rw [hm] <;> omega
      · exact hta
      · exact htb
    · exact ⟨s, scan_done rs phi reach offset _ (fuel + 1) s (by omega)⟩

/-- With two samples more than `len` in reach `process_buffer` returns, whatever the memory
holds; its value is -36 when fewer than 4435 bit periods are in the buffer, and otherwise a
count between `(lenbits - 18) * 2` and `(len / 2 - 17) * 2`. -/
theorem process_buffer_within_total (rs : Decoders) (phi : Nat → Nat) (reach len offset : Nat)
    (hreach : len + 2 ≤ reach) :
    ∃ r text, process_buffer_within rs phi reach len offset = .ok (r, text) ∧
      (len / 2 ≤ 4434 → r = -36 ∧ text = []) ∧
      (4434 < len / 2 →
        (((len / 2 : Nat) : Int) - 4434 - 18) * 2 ≤ r ∧
          r ≤ (((len / 2 : Nat) : Int) - 17) * 2) := by
  have hk : (((SYNC_BITS - CHECK_BITS) + UPLINK_FRAME_BITS : Nat) : Int) = 4434 := by decide
  have h18 : ((CHECK_BITS : Nat) : Int) = 18 := by decide
  obtain ⟨t, ht⟩ := scan_total rs phi reach offset (len / 2) (by omega)
    (((len / 2 : Nat) : Int) - 4434).toNat
    ⟨0, 0, 0, List.replicate UPLINK_FRAME_BYTES 0, List.replicate UPLINK_FRAME_BYTES 0, []⟩
    (by simp only []; omega) (List.length_replicate _ _) (List.length_replicate _ _)
  have hrun : process_buffer_within rs phi reach len offset =
      .ok (((t.bit : Int) - (CHECK_BITS : Nat)) * 2, t.out) := by
    unfold process_buffer_within
    simp only [hk, ht, ok_bind, pure_eq_ok]
  obtain ⟨h1, h2⟩ := scan_bit_bounds _ _ _ _ _ _ _ _ ht
  simp only [] at h2
  refine ⟨_, _, hrun, ?_, ?_⟩
  · intro hle
    have hdone := scan_done rs phi reach offset (((len / 2 : Nat) : Int) - 4434)
      (((len / 2 : Nat) : Int) - 4434).toNat
      ⟨0, 0, 0, List.replicate UPLINK_FRAME_BYTES 0, List.replicate UPLINK_FRAME_BYTES 0, []⟩
      (by simp only []; omega)
    rw [hdone] at ht
    cases ht
    refine ⟨?_, rfl⟩
    rw [h18]
    norm_num
  · intro hgt
    have hmax : max ((0 : Nat) : Int) (((len / 2 : Nat) : Int) - 4434 + 4435) =
        ((len / 2 : Nat) : Int) - 4434 + 4435 := max_eq_right (by omega)
    rw [hmax] at h2
    rw [h18]
    constructor <;> omega

/-- One iteration of the intake loop in flat memory returns, and `used` moves by the bytes
read and by twice the value `process_buffer` returned, staying inside the buffer. -/
theorem intake_body_flat_spec (rs : Decoders) (iqphase : Nat → Nat) (chunk : List Nat)
    (s : Flat) (h0 : 0 ≤ s.used) (hn : s.used + (chunk.length : Int) ≤ 131072) :
    ∃ processed text t,
      process_buffer_within rs
        (phi_flat (convert_to_phi_flat iqphase (read_flat s.mem s.used chunk)
          (s.used - s.used % 2) ((s.used % 2 + (chunk.length : Int)) / 2).toNat))
        (((s.used + (chunk.length : Int)) / 2).toNat + 2)
        ((s.used + (chunk.length : Int)) / 2).toNat s.offset = .ok (processed, text) ∧
      intake_body_flat rs iqphase chunk s = .ok t ∧
      t.used = s.used + (chunk.length : Int) - processed * 2 ∧
      t.out = s.out ++ text ∧
      0 ≤ t.used ∧ t.used ≤ 131072 ∧
      (((s.used + (chunk.length : Int)) / 2).toNat / 2 ≤ 4434 → processed = -36) := by
  obtain ⟨processed, text, hp, hshort, hlong⟩ := process_buffer_within_total rs
    (phi_flat (convert_to_phi_flat iqphase (read_flat s.mem s.used chunk)
      (s.used - s.used % 2) ((s.used % 2 + (chunk.length : Int)) / 2).toNat))
    (((s.used + (chunk.length : Int)) / 2).toNat + 2)
    ((s.used + (chunk.length : Int)) / 2).toNat s.offset (le_refl _)
  have hused : 0 ≤ s.used + (chunk.length : Int) - processed * 2 ∧
      s.used + (chunk.length : Int) - processed * 2 ≤ 131072 := by
    by_cases hle : ((s.used + (chunk.length : Int)) / 2).toNat / 2 ≤ 4434
    · have := (hshort hle).1
      omega
    · have := hlong (by omega)
      omega
  have ht : ∃ t, intake_body_flat rs iqphase chunk s = .ok t ∧
      t.used = s.used + (chunk.length : Int) - processed * 2 ∧ t.out = s.out ++ text := by
    unfold intake_body_flat
    simp only [hp, ok_bind, pure_eq_ok]
    exact ⟨_, rfl, rfl, rfl⟩
  obtain ⟨t, ht, hu, hout⟩ := ht
  refine ⟨processed, text, t, hp, ht, hu, hout, ?_, ?_, fun hle => (hshort hle).1⟩
  · rw [hu]
    exact hused.1
  · rw [hu]
    exact hused.2

/-- The intake loop in flat memory returns, with `used` inside the buffer. -/
theorem read_from_stdin_flat_used (rs : Decoders) (iqphase : Nat → Nat) :
    ∀ (reads input : List Nat) (s : Flat), 0 ≤ s.used → s.used ≤ 131072 →
      ∃ u, read_from_stdin_flat rs iqphase reads input s = .ok u ∧
        0 ≤ u.used ∧ u.used ≤ 131072 := by
  intro reads
  induction reads with
  | nil =>
    intro input s h0 h1
    exact ⟨s, rfl, h0, h1⟩
  | cons most rest ih =>
    intro input s h0 h1
    simp only [read_from_stdin_flat]
    split_ifs with hz
    · exact ⟨s, rfl, h0, h1⟩
    · have hB : BUFFER_SIZE = 131072 := by decide
      obtain ⟨_, _, t, _, ht, _, _, ht0, ht1, _⟩ := intake_body_flat_spec rs iqphase
        (input.take (min most (min (BUFFER_SIZE - s.used.toNat) input.length))) s h0
        (by rw [List.length_take, hB]; omega)
      rw [ht]
      simp only [ok_bind]
      exact ih _ t ht0 ht1

/-- C13: in the intake loop, followed in flat memory past every return value of
`process_buffer`, for a watermark `used` in `[0, 131072]`, any memory content and a `read`
that returns between 1 and `131072 - used` bytes: `used` is in `[0, 131072]` after
`used += n`; `process_buffer` returns a value `processed` (also a negative one) and the
iteration completes with `used = used + n - processed * 2`, which is in `[0, 131072]`; and
every run of further reads from there completes with `used` in `[0, 131072]`. -/
theorem used_stays_in_buffer (rs : Decoders) (iqphase : Nat → Nat) (chunk : List Nat)
    (s : Flat) (h0 : 0 ≤ s.used) (h1 : s.used ≤ 131072) (hn1 : 1 ≤ chunk.length)
    (hn : (chunk.length : Int) ≤ 131072 - s.used) :
    (0 ≤ s.used + (chunk.length : Int) ∧ s.used + (chunk.length : Int) ≤ 131072) ∧
      ∃ processed text t,
        process_buffer_within rs
          (phi_flat (convert_to_phi_flat iqphase (read_flat s.mem s.used chunk)
            (s.used - s.used % 2) ((s.used % 2 + (chunk.length : Int)) / 2).toNat))
          (((s.used + (chunk.length : Int)) / 2).toNat + 2)
          ((s.used + (chunk.length : Int)) / 2).toNat s.offset = .ok (processed, text) ∧
        intake_body_flat rs iqphase chunk s = .ok t ∧
        t.used = s.used + (chunk.length : Int) - processed * 2 ∧
        0 ≤ t.used ∧ t.used ≤ 131072 ∧
        ∀ reads input : List Nat, ∃ u,
          read_from_stdin_flat rs iqphase reads input t = .ok u ∧
            0 ≤ u.used ∧ u.used ≤ 131072 := by
  obtain ⟨processed, text, t, hp, ht, hu, _, ht0, ht1, _⟩ :=
    intake_body_flat_spec rs iqphase chunk s h0 (by omega)
  exact ⟨⟨by omega, by omega⟩, processed, text, t, hp, ht, hu, ht0, ht1,
    fun reads input => read_from_stdin_flat_used rs iqphase reads input t ht0 ht1⟩

/-- A `read` that leaves fewer than 4435 bit periods in the buffer: `process_buffer` returns
-36, the loop goes on, and `used` ends 72 above the bytes held. -/
theorem read_from_stdin_flat_short (rs : Decoders) (iqphase : Nat → Nat) (most : Nat)
    (input : List Nat) (s : Flat) (h0 : 0 ≤ s.used) (hm : 1 ≤ most)
    (hfit : s.used + (most : Int) ≤ 131072) (hin : most ≤ input.length)
    (hshort : ((s.used + (most : Int)) / 2).toNat / 2 ≤ 4434) :
    ∃ u, read_from_stdin_flat rs iqphase [most] input s = .ok u ∧
      u.used = s.used + (most : Int) + 72 := by
  have hB : BUFFER_SIZE = 131072 := by decide
  have hn : min most (min (BUFFER_SIZE - s.used.toNat) input.length) = most := by
    rw [hB]
    omega
  have hlen : (input.take most).length = most := by
    rw [List.length_take]
    omega
  obtain ⟨processed, _, t, _, ht, hu, _, _, _, hneg⟩ := intake_body_flat_spec rs iqphase
    (input.take most) s h0 (by rw [hlen]; exact hfit)
  rw [hlen] at hu hneg
  simp only [read_from_stdin_flat, hn]
  rw [if_neg (by omega), ht]
  refine ⟨t, rfl, ?_⟩
  rw [hu, hneg hshort]
  ring

theorem used_stays_in_buffer_witness :
    (0 : Int) ≤ (⟨fun _ => 0, 0, 0, []⟩ : Flat).used ∧
      (⟨fun _ => 0, 0, 0, []⟩ : Flat).used ≤ 131072 ∧
      1 ≤ (List.replicate 1024 0).length ∧
      ((List.replicate 1024 0).length : Int) ≤ 131072 - (⟨fun _ => 0, 0, 0, []⟩ : Flat).used ∧
      ∃ t u,
        intake_body_flat rs_reject iqphase_corners (List.replicate 1024 0)
          ⟨fun _ => 0, 0, 0, []⟩ = .ok t ∧
        t.used = 1096 ∧
        read_from_stdin_flat rs_reject iqphase_corners [1024] (List.replicate 1024 0) t =
          .ok u ∧
        u.used = 2192 ∧ 0 ≤ u.used ∧ u.used ≤ 131072 := by
  have hlen : (List.replicate 1024 0).length = 1024 := List.length_replicate _ _
  obtain ⟨_, processed, text, t, hp, ht, hu, ht0, _, hrun⟩ :=
    used_stays_in_buffer rs_reject iqphase_corners (List.replicate 1024 0)
      ⟨fun _ => 0, 0, 0, []⟩ (le_refl _) (by decide) (by rw [hlen]; decide)
      (by rw [hlen]; decide)
  obtain ⟨r, text2, hp2, hshort, _⟩ := process_buffer_within_total rs_reject
    (phi_flat (convert_to_phi_flat iqphase_corners
      (read_flat (⟨fun _ => 0, 0, 0, []⟩ : Flat).mem (⟨fun _ => 0, 0, 0, []⟩ : Flat).used
        (List.replicate 1024 0))
      ((⟨fun _ => 0, 0, 0, []⟩ : Flat).used - (⟨fun _ => 0, 0, 0, []⟩ : Flat).used % 2)
      (((⟨fun _ => 0, 0, 0, []⟩ : Flat).used % 2 +
        ((List.replicate 1024 0).length : Int)) / 2).toNat))
    ((((⟨fun _ => 0, 0, 0, []⟩ : Flat).used +
      ((List.replicate 1024 0).length : Int)) / 2).toNat + 2)
    (((⟨fun _ => 0, 0, 0, []⟩ : Flat).used +
      ((List.replicate 1024 0).length : Int)) / 2).toNat
    (⟨fun _ => 0, 0, 0, []⟩ : Flat).offset (le_refl _)
  rw [hp] at hp2
  have hpr : processed = -36 := by
    have hr := (hshort (by rw [hlen]; decide)).1
    cases hp2
    exact hr
  have hused : t.used = 1096 := by
    rw [hu, hpr, hlen]
    decide
  obtain ⟨u, hu1, hu2⟩ := read_from_stdin_flat_short rs_reject iqphase_corners 1024
    (List.replicate 1024 0) t ht0 (by decide) (by rw [hused]; decide) (by rw [hlen])
    (by rw [hused]; decide)
  have hu3 : u.used = 2192 := by
    rw [hu2, hused]
    decide
  refine ⟨le_refl _, by decide, by rw [hlen]; decide, by rw [hlen]; decide, t, u, ht, hused,
    hu1, hu3, ?_, ?_⟩
  · rw [hu3]
    decide
  · rw [hu3]
    decide
/-! ## C14: every word is converted once -/

/-- An iteration of the intake loop on the next `n` bytes of the stream, up to the call of
`process_buffer`: the buffer passed holds the table entries of the raw words, each taken once,
and a trailing odd byte raw. -/
theorem intake_body_carried (rs : Decoders) (iqphase : Nat → Nat) (stream : List Nat)
    (c n : Nat) (s : Intake) (hused : s.used = (s.buffer.length : Int))
    (hcar : carried iqphase stream c s.buffer)
    (hin : c + s.buffer.length + n ≤ stream.length) :
    ∃ buffer, buffer.length = s.buffer.length + n ∧ carried iqphase stream c buffer ∧
      intake_body rs iqphase ((stream.drop (c + s.buffer.length)).take n) s =
        match process_buffer rs (phi_of buffer) (buffer.length / 2) s.offset with
        | .error t =>
          { s with buffer := buffer, used := s.used + (n : Int), trap := some t }
        | .ok (processed, text) =>
          if s.used + (n : Int) - processed * 2 > 0 then
            if 0 ≤ processed ∧ processed * 2 + (s.used + (n : Int) - processed * 2) ≤
                buffer.length then
              ⟨(buffer.drop (processed * 2).toNat).take
                  (s.used + (n : Int) - processed * 2).toNat,
                s.used + (n : Int) - processed * 2,
                (((s.offset : Int) + processed) % 2 ^ 64).toNat, s.out ++ text, none⟩
            else
              ⟨buffer, s.used + (n : Int) - processed * 2,
                (((s.offset : Int) + processed) % 2 ^ 64).toNat, s.out ++ text,
                some .out_of_bounds⟩
          else
            ⟨[], s.used + (n : Int) - processed * 2,
              (((s.offset : Int) + processed) % 2 ^ 64).toNat, s.out ++ text, none⟩ := by
  obtain ⟨hce, hcl, hcw, hco⟩ := hcar
  obtain ⟨chunk, hchunk⟩ : ∃ chunk, chunk = (stream.drop (c + s.buffer.length)).take n :=
    ⟨_, rfl⟩
  have hcl' : chunk.length = n := by
    rw [hchunk, List.length_take, List.length_drop]
    omega
  rw [← hchunk]
  -- the raw bytes from the first unconverted word on
  have hraw : ∀ j, 2 * (s.buffer.length / 2) ≤ j → j < s.buffer.length + n →
      (s.buffer ++ chunk).getD j 0 = stream.getD (c + j) 0 := by
    intro j hj1 hj2
    by_cases hjl : j < s.buffer.length
    · rw [List.getD_append _ _ _ _ hjl]
      have hj : j = s.buffer.length - 1 := by omega
      rw [hj, hco (by omega)]
      congr 1
      omega
    · rw [List.getD_append_right _ _ _ _ (by omega), hchunk,
        getD_drop_take _ _ _ _ (by omega)]
      congr 1
      omega
  obtain ⟨buffer, hconv, hlen, hwords, hkeep⟩ := convert_to_phi_spec iqphase
    (s.buffer ++ chunk) (s.buffer.length / 2) ((s.buffer.length % 2 + n) / 2)
    (by rw [List.length_append, hcl']; omega)
  have hlen' : buffer.length = s.buffer.length + n := by
    rw [hlen, List.length_append, hcl']
  refine ⟨buffer, hlen', ⟨hce, by omega, ?_, ?_⟩, ?_⟩
  · intro k hk
    by_cases hkh : k < s.buffer.length / 2
    · rw [← hcw k hkh]
      unfold phi_of
      rw [hkeep (2 * k) (Or.inl (by omega)), hkeep (2 * k + 1) (Or.inl (by omega)),
        List.getD_append _ _ _ _ (by omega), List.getD_append _ _ _ _ (by omega)]
    · rw [hwords k (by omega) (by omega)]
      congr 2
      unfold phi_of
      rw [hraw (2 * k) (by omega) (by omega), hraw (2 * k + 1) (by omega) (by omega)]
      congr 3 <;> congr 1 <;> omega
  · intro hodd
    rw [hkeep (buffer.length - 1) (Or.inr (by omega)), hraw _ (by omega) (by omega)]
    congr 1
    omega
  · unfold intake_body
    have hstart : (s.used / 2).toNat = s.buffer.length / 2 := by rw [hused]; omega
    have hcnt : ((s.used % 2 + (n : Int)) / 2).toNat = (s.buffer.length % 2 + n) / 2 := by
      rw [hused]; omega
    have hlen2 : ((s.used + (n : Int)) / 2).toNat = buffer.length / 2 := by
      rw [hused, hlen']; omega
    rcases hpb : process_buffer rs (phi_of buffer) (buffer.length / 2) s.offset with
      t | ⟨processed, text⟩
    · simp only [hcl', hstart, hcnt, hconv, hlen2, hpb]
    · simp only [hcl', hstart, hcnt, hconv, hlen2, hpb]

/-- The carry-over after `process_buffer` has returned a count `q` of at most `used / 2`
samples: the bytes kept are those of the stream from `2 * q` bytes further on, the words among
them converted once. -/
theorem carried_after_memmove (iqphase : Nat → Nat) (stream : List Nat) (c : Nat)
    (buffer : List Nat) (q : Nat) (hb : carried iqphase stream c buffer)
    (hq : q ≤ buffer.length / 2) :
    carried iqphase stream (c + 2 * q) ((buffer.drop (2 * q)).take (buffer.length - 2 * q)) := by
  obtain ⟨hce, hcl, hcw, hco⟩ := hb
  have hlen : ((buffer.drop (2 * q)).take (buffer.length - 2 * q)).length =
      buffer.length - 2 * q := by
    rw [List.length_take, List.length_drop]
    omega
  refine ⟨by omega, by rw [hlen]; omega, ?_, ?_⟩
  · intro k hk
    rw [hlen] at hk
    rw [phi_of_drop_take buffer q _ k (by omega), hcw (k + q) (by omega)]
    congr 3
    omega
  · intro hodd
    rw [hlen] at hodd ⊢
    rw [getD_drop_take _ _ _ _ (by omega),
      show 2 * q + (buffer.length - 2 * q - 1) = buffer.length - 1 by omega, hco (by omega)]
    congr 1
    omega

/-- The first 19 iterations on an input that carries the ADS-B sync word in bit periods 1..36
and a short frame of zero bytes behind it: the word is seen at bit 18, the frame is accepted
with start bit 1 and 276 bits, its record is printed and `bit` moves to 278; `sync0` and
`sync1` keep the bits shifted in before the frame. -/
theorem scan_first_short_frame (rs : Decoders) (phi : Nat → Nat) (len offset : Nat)
    (lenbits : Int) (hlenbits : 19 ≤ lenbits) (hlen : 842 ≤ len)
    (hregs : regs_quiet phi 18 0 0 0 ∧ regs_after phi 18 0 0 0 = (120219, 10852) ∧
      shift_in 120219 (dbit phi (18 * 2)) = 240439 ∧
      shift_in 10852 (dbit phi (18 * 2 + 1)) = 21704)
    (hsync : check_sync_word phi len 2 ADSB_SYNC_WORD = .ok (0, true) ∧
      check_sync_word phi len 3 ADSB_SYNC_WORD = .ok (0, false))
    (hzero : ∀ t, t < 240 → ¬ (phi_difference (phi (2 + 72 + 2 * t) % 65536)
      (phi (2 + 72 + 2 * t + 1) % 65536) > 0))
    (hlong : ∀ codeword, (rs.rs_adsb_long codeword).2 = codeword ∨
      (rs.rs_adsb_long codeword).2 = List.replicate codeword.length 0)
    (hshort : rs.rs_adsb_short (List.replicate 30 0) = (0, List.replicate 30 0)) :
    ∃ fa fb, ∀ fuel, scan rs phi len offset lenbits (fuel + 19)
        ⟨0, 0, 0, List.replicate UPLINK_FRAME_BYTES 0, List.replicate UPLINK_FRAME_BYTES 0, []⟩ =
      scan rs phi len offset lenbits fuel
        ⟨278, 240439, 21704, fa, fb, short_zero_record⟩ := by
  obtain ⟨hq, hafter, h0, h1⟩ := hregs
  have hbuf : (List.replicate UPLINK_FRAME_BYTES 0).length = 552 := List.length_replicate _ _
  obtain ⟨hs2, hs3⟩ := hsync
  obtain ⟨tail, hd0⟩ := demod_adsb_zero_short rs phi len 2
    (List.replicate UPLINK_FRAME_BYTES 0) 0 (by omega) (by rw [hbuf]; decide) hs2 hzero
    hlong hshort
  have hd1 := demod_adsb_no_sync rs phi len 3 (List.replicate UPLINK_FRAME_BYTES 0) 0 hs3
  refine ⟨List.replicate 30 0 ++ tail, List.replicate UPLINK_FRAME_BYTES 0, fun fuel => ?_⟩
  rw [show fuel + 19 = (fuel + 1) + 18 by omega,
    scan_quiet_run rs phi len offset lenbits 18 (fuel + 1) _ hq
      (by simp only []; omega) (by simp only []; omega)]
  simp only [hafter, Nat.zero_add]
  rw [scan_adsb_hit rs phi len offset lenbits fuel
    ⟨18, 120219, 10852, List.replicate UPLINK_FRAME_BYTES 0,
      List.replicate UPLINK_FRAME_BYTES 0, []⟩ 240439 21704 2
    ⟨276, 0, List.replicate 30 0 ++ tail⟩ ⟨0, 9999, List.replicate UPLINK_FRAME_BYTES 0⟩
    (by decide) (by simp only []; omega) (by simp only []; omega) h0 h1 (Or.inl (by decide))
    (by decide) hd0 hd1
    (by show (276 : Int) ≠ 0; decide) (by show (0 : Int) ≤ 9999; decide)]
  simp only [List.nil_append, handle_adsb_frame_zero]
  rfl

theorem ovl_phase_idle (k : Nat) (h : 37 ≤ k / 2 ∧ k / 2 < 278) : ovl_phase k = 8192 := by
  have hb : ovl_bit (k / 2) = none := by
    unfold ovl_bit
    rw [if_neg (by omega), if_neg (by omega)]
  unfold ovl_phase
  rw [hb]
  split_ifs <;> rfl

theorem ovl_no_one (t : Nat) (h : t < 240) :
    ¬ (phi_difference (ovl_phase (2 + 72 + 2 * t) % 65536)
      (ovl_phase (2 + 72 + 2 * t + 1) % 65536) > 0) := by
  rw [ovl_phase_idle _ (by omega), ovl_phase_idle _ (by omega)]
  decide

theorem sync_checks_ovl (len : Nat) (h : 75 ≤ len) :
    check_sync_word ovl_phase len 2 ADSB_SYNC_WORD = .ok (0, true) ∧
      check_sync_word ovl_phase len 3 ADSB_SYNC_WORD = .ok (0, false) := by
  constructor
  · rw [check_sync_word_window ovl_phase ovl_phase len 74 2 2 ADSB_SYNC_WORD (by omega)
      (by decide) (fun i _ => rfl)]
    decide
  · rw [check_sync_word_window ovl_phase ovl_phase len 75 3 3 ADSB_SYNC_WORD (by omega)
      (by decide) (fun i _ => rfl)]
    decide

theorem regs_ovl :
    regs_quiet ovl_phase 18 0 0 0 ∧ regs_after ovl_phase 18 0 0 0 = (120219, 10852) ∧
      shift_in 120219 (dbit ovl_phase (18 * 2)) = 240439 ∧
      shift_in 10852 (dbit ovl_phase (18 * 2 + 1)) = 21704 := by
  decide

/-- The 14 iterations behind the accepted frame call no demodulator; in the 15th `sync0`
holds the first 18 bits of the ADS-B word: the three bits left from before the frame and the
15 bits shifted in since. -/
theorem regs_ovl_behind :
    regs_quiet ovl_phase 14 278 240439 21704 ∧
      regs_after ovl_phase 14 278 240439 21704 = (3939358107, 355609188) ∧
      shift_in 3939358107 (dbit ovl_phase (292 * 2)) = 7878716215 ∧
      shift_in 355609188 (dbit ovl_phase (292 * 2 + 1)) = 711218376 ∧
      7878716215 &&& CHECK_MASK = CHECK_ADSB := by
  decide

/-- On the overlap input the scan loop accepts the frame with start bit 1 and 276 bits, and 14
iterations later, at bit 292, calls `demod_adsb_frame` for the candidate start bit
292 - 18 + 1 = 275, at the samples from 550 on. -/
theorem scan_ovl_candidate (rs : Decoders) (len offset : Nat) (lenbits : Int)
    (hlenbits : 293 ≤ lenbits) (hlen : 842 ≤ len)
    (hlong : ∀ codeword, (rs.rs_adsb_long codeword).2 = codeword ∨
      (rs.rs_adsb_long codeword).2 = List.replicate codeword.length 0)
    (hshort : rs.rs_adsb_short (List.replicate 30 0) = (0, List.replicate 30 0)) :
    ∃ fa fb,
      (∀ fuel, scan rs ovl_phase len offset lenbits (fuel + 33)
          ⟨0, 0, 0, List.replicate UPLINK_FRAME_BYTES 0, List.replicate UPLINK_FRAME_BYTES 0,
            []⟩ =
        scan rs ovl_phase len offset lenbits fuel
          ⟨292, 3939358107, 355609188, fa, fb, short_zero_record⟩) ∧
      scan_body rs ovl_phase len offset
          ⟨292, 3939358107, 355609188, fa, fb, short_zero_record⟩ =
        (demod_adsb_frame rs ovl_phase len (275 * 2) fa >>= fun d0 =>
          demod_adsb_frame rs ovl_phase len (275 * 2 + 1) fb >>= fun d1 =>
          .ok (dispatch handle_adsb_frame offset (275 * 2) 275 d0 d1
            ⟨292, 7878716215, 711218376, d0.frame, d1.frame, short_zero_record⟩)) := by
  obtain ⟨fa, fb, hfirst⟩ := scan_first_short_frame rs ovl_phase len offset lenbits
    (by omega) hlen regs_ovl (sync_checks_ovl len (by omega)) ovl_no_one hlong hshort
  obtain ⟨hq, hafter, h0, h1, hhit⟩ := regs_ovl_behind
  refine ⟨fa, fb, ?_, ?_⟩
  · intro fuel
    rw [show fuel + 33 = (fuel + 14) + 19 by omega, hfirst (fuel + 14),
      scan_quiet_run rs ovl_phase len offset lenbits 14 fuel _ hq
        (by simp only []; omega) (by simp only []; omega)]
    simp only [hafter]
  · have hidx : (292 - CHECK_BITS + 1) * 2 + 0 = 275 * 2 := by decide
    have hsb : 292 - CHECK_BITS + 1 = 275 := by decide
    rw [scan_body_unfold rs ovl_phase len offset _ (by simp only []; omega)]
    simp only [h0, h1]
    rw [if_neg (by decide), if_pos (Or.inl hhit), if_pos hhit, hidx, hsb]

/-- C17 (the code at the failing input): in `process_buffer` on 9658 samples of the overlap
input, whose loop is `scan` with `lenbits = 395`, the frame with first sync bit 1 and 276
consumed bits is accepted and printed, and the iteration at bit 292 calls `demod_adsb_frame`
on the samples from 550 on, the candidate start bit 275, which is smaller than 1 + 276. -/
theorem candidate_inside_accepted_frame :
    process_buffer rs_near_zero ovl_phase 9658 0 =
        (scan rs_near_zero ovl_phase 9658 0 395 395
            ⟨0, 0, 0, List.replicate UPLINK_FRAME_BYTES 0, List.replicate UPLINK_FRAME_BYTES 0,
              []⟩ >>= fun s =>
          pure (((s.bit : Int) - (CHECK_BITS : Nat)) * 2, s.out)) ∧
      ∃ fa fb,
        scan rs_near_zero ovl_phase 9658 0 395 395
            ⟨0, 0, 0, List.replicate UPLINK_FRAME_BYTES 0, List.replicate UPLINK_FRAME_BYTES 0,
              []⟩ =
          scan rs_near_zero ovl_phase 9658 0 395 362
            ⟨292, 3939358107, 355609188, fa, fb, short_zero_record⟩ ∧
        scan_body rs_near_zero ovl_phase 9658 0
            ⟨292, 3939358107, 355609188, fa, fb, short_zero_record⟩ =
          (demod_adsb_frame rs_near_zero ovl_phase 9658 (275 * 2) fa >>= fun d0 =>
            demod_adsb_frame rs_near_zero ovl_phase 9658 (275 * 2 + 1) fb >>= fun d1 =>
            .ok (dispatch handle_adsb_frame 0 (275 * 2) 275 d0 d1
              ⟨292, 7878716215, 711218376, d0.frame, d1.frame, short_zero_record⟩)) ∧
        292 - CHECK_BITS + 1 = 275 ∧ 275 < 1 + 276 := by
  refine ⟨rfl, ?_⟩
  obtain ⟨fa, fb, hreach, hbody⟩ := scan_ovl_candidate rs_near_zero 9658 0 395 (by decide)
    (by decide) (near_zero_keeps_or_clears 7) (by decide)
  exact ⟨fa, fb, hreach 362, hbody, by decide, by decide⟩

/-! ## Angles checked with integers -/

theorem shr64_le (x : Nat) : ((Nat.shiftRight x 64 : Nat) : ℝ) ≤ (x : ℝ) / 2 ^ 64 := by
  have h : Nat.shiftRight x 64 = x / 2 ^ 64 := Nat.shiftRight_eq_div_pow x 64
  rw [h]
  have h2 : ((x / 2 ^ 64 : Nat) : ℝ) ≤ (x : ℝ) / ((2 ^ 64 : Nat) : ℝ) := Nat.cast_div_le
  have h3 : ((2 ^ 64 : Nat) : ℝ) = (2 : ℝ) ^ 64 := by norm_cast
  rw [h3] at h2
  exact h2

theorem shr64_ge (x : Nat) : (x : ℝ) / 2 ^ 64 ≤ ((Nat.shiftRight x 64 : Nat) : ℝ) + 1 := by
  have h : Nat.shiftRight x 64 = x / 2 ^ 64 := Nat.shiftRight_eq_div_pow x 64
  rw [h]
  have h1 : x < (x / 2 ^ 64 + 1) * 2 ^ 64 := by
    have := Nat.div_add_mod x (2 ^ 64)
    have := Nat.mod_lt x (show 0 < 2 ^ 64 by norm_num)
    nlinarith
  have h2 : (x : ℝ) < ((x / 2 ^ 64 : Nat) + 1 : ℝ) * ((2 ^ 64 : Nat) : ℝ) := by
    exact_mod_cast h1
  have h3 : ((2 ^ 64 : Nat) : ℝ) = (2 : ℝ) ^ 64 := by norm_cast
  rw [h3] at h2
  rw [div_le_iff₀ (pow_pos (by norm_num) 64)]
  exact le_of_lt h2

theorem cast_sub_ge (a b : Nat) : (a : ℝ) - b ≤ ((Nat.sub a b : Nat) : ℝ) := by
  have h : Nat.sub a b = a - b := rfl
  rw [h]
  by_cases hab : b ≤ a
  · rw [Nat.cast_sub hab]
  · have h0 : a - b = 0 := by omega
    rw [h0]
    have : (a : ℝ) < b := by exact_mod_cast (not_le.mp hab)
    simp only [Nat.cast_zero]
    linarith

theorem cast_sub_le (a b : Nat) (t : ℝ) (h : (a : ℝ) - b ≤ t) (h0 : 0 ≤ t) :
    ((Nat.sub a b : Nat) : ℝ) ≤ t := by
  have hs : Nat.sub a b = a - b := rfl
  rw [hs]
  by_cases hab : b ≤ a
  · rw [Nat.cast_sub hab]
    exact h
  · have h1 : a - b = 0 := by omega
    rw [h1]
    simpa using h0

/-- The product of two enclosures encloses the sum of the angles. -/
theorem encl_mul (t s : ℝ) (clo chi slo shi a b c d : Nat) (ht : 0 ≤ t) (hs : 0 ≤ s)
    (hsum : t + s ≤ Real.pi / 2) (E1 : Encl t clo chi slo shi) (E2 : Encl s a b c d) :
    Encl (t + s)
      (Nat.sub (Nat.shiftRight (Nat.mul clo a) 64)
        (Nat.add (Nat.shiftRight (Nat.mul shi d) 64) 1))
      (Nat.sub (Nat.add (Nat.shiftRight (Nat.mul chi b) 64) 1)
        (Nat.shiftRight (Nat.mul slo c) 64))
      (Nat.add (Nat.shiftRight (Nat.mul slo a) 64) (Nat.shiftRight (Nat.mul clo c) 64))
      (Nat.add (Nat.add (Nat.shiftRight (Nat.mul shi b) 64)
        (Nat.shiftRight (Nat.mul chi d) 64)) 2) := by
  have q (x y : Nat) : ((Nat.shiftRight (Nat.mul x y) 64 : Nat) : ℝ) ≤ (x : ℝ) * y / 2 ^ 64 := by
    have := shr64_le (Nat.mul x y)
    have hm : ((Nat.mul x y : Nat) : ℝ) = (x : ℝ) * y := by
      show ((x * y : Nat) : ℝ) = _
      push_cast
      rfl
    rwa [hm] at this
  have r (x y : Nat) : (x : ℝ) * y / 2 ^ 64 ≤ ((Nat.shiftRight (Nat.mul x y) 64 : Nat) : ℝ) + 1 := by
    have := shr64_ge (Nat.mul x y)
    have hm : ((Nat.mul x y : Nat) : ℝ) = (x : ℝ) * y := by
      show ((x * y : Nat) : ℝ) = _
      push_cast
      rfl
    rwa [hm] at this
  have hS : (0 : ℝ) < 2 ^ 64 := pow_pos (by norm_num) 64
  unfold Encl at E1 E2 ⊢
  generalize (2 : ℝ) ^ 64 = S at *
  obtain ⟨e1, e2, e3, e4⟩ := E1
  obtain ⟨f1, f2, f3, f4⟩ := E2
  have hpi := Real.pi_pos
  have hct : 0 ≤ Real.cos t := Real.cos_nonneg_of_neg_pi_div_two_le_of_le (by linarith)
    (by linarith)
  have hcs : 0 ≤ Real.cos s := Real.cos_nonneg_of_neg_pi_div_two_le_of_le (by linarith)
    (by linarith)
  have hst : 0 ≤ Real.sin t := Real.sin_nonneg_of_nonneg_of_le_pi ht (by linarith)
  have hss : 0 ≤ Real.sin s := Real.sin_nonneg_of_nonneg_of_le_pi hs (by linarith)
  have hcsum : 0 ≤ Real.cos (t + s) := Real.cos_nonneg_of_neg_pi_div_two_le_of_le
    (by linarith) hsum
  have hclo : (0 : ℝ) ≤ clo := Nat.cast_nonneg _
  have hslo : (0 : ℝ) ≤ slo := Nat.cast_nonneg _
  have ha : (0 : ℝ) ≤ a := Nat.cast_nonneg _
  have hc : (0 : ℝ) ≤ c := Nat.cast_nonneg _
  have hSct : 0 ≤ S * Real.cos t := mul_nonneg hS.le hct
  have hScs : 0 ≤ S * Real.cos s := mul_nonneg hS.le hcs
  have hSst : 0 ≤ S * Real.sin t := mul_nonneg hS.le hst
  have hSss : 0 ≤ S * Real.sin s := mul_nonneg hS.le hss
  have hchi : (0 : ℝ) ≤ chi := Nat.cast_nonneg _
  have hshi : (0 : ℝ) ≤ shi := Nat.cast_nonneg _
  -- the products
  have p1 : (clo : ℝ) * a ≤ (S * Real.cos t) * (S * Real.cos s) := mul_le_mul e1 f1 ha hSct
  have p2 : (S * Real.sin t) * (S * Real.sin s) ≤ (shi : ℝ) * d := mul_le_mul e4 f4 hSss hshi
  have p3 : (S * Real.cos t) * (S * Real.cos s) ≤ (chi : ℝ) * b := mul_le_mul e2 f2 hScs hchi
  have p4 : (slo : ℝ) * c ≤ (S * Real.sin t) * (S * Real.sin s) := mul_le_mul e3 f3 hc hSst
  have p5 : (slo : ℝ) * a ≤ (S * Real.sin t) * (S * Real.cos s) := mul_le_mul e3 f1 ha hSst
  have p6 : (clo : ℝ) * c ≤ (S * Real.cos t) * (S * Real.sin s) := mul_le_mul e1 f3 hc hSct
  have p7 : (S * Real.sin t) * (S * Real.cos s) ≤ (shi : ℝ) * b := mul_le_mul e4 f2 hScs hshi
  have p8 : (S * Real.cos t) * (S * Real.sin s) ≤ (chi : ℝ) * d := mul_le_mul e2 f4 hSss hchi
  have hcos : S * Real.cos (t + s) =
      ((S * Real.cos t) * (S * Real.cos s) -
        (S * Real.sin t) * (S * Real.sin s)) / S := by
    rw [Real.cos_add]
    field_simp
    ring
  have hsin : S * Real.sin (t + s) =
      ((S * Real.sin t) * (S * Real.cos s) +
        (S * Real.cos t) * (S * Real.sin s)) / S := by
    rw [Real.sin_add]
    field_simp
    ring
  have dv (x y : ℝ) (h : x ≤ y) : x / S ≤ y / S :=
    div_le_div_of_nonneg_right h hS.le
  have hadd (x y : Nat) : ((Nat.add x y : Nat) : ℝ) = (x : ℝ) + y := by
    show ((x + y : Nat) : ℝ) = _
    push_cast
    rfl
  refine ⟨?_, ?_, ?_, ?_⟩
  · apply cast_sub_le
    · rw [hadd, hcos, sub_div]
      have := q clo a
      have := r shi d
      have := dv _ _ p1
      have := dv _ _ p2
      push_cast
      linarith
    · exact mul_nonneg hS.le hcsum
  · refine le_trans ?_ (cast_sub_ge _ _)
    rw [hadd, hcos, sub_div]
    have := r chi b
    have := q slo c
    have := dv _ _ p3
    have := dv _ _ p4
    push_cast
    linarith
  · rw [hadd, hsin, add_div]
    have := q slo a
    have := q clo c
    have := dv _ _ p5
    have := dv _ _ p6
    linarith
  · rw [hadd, hadd, hsin, add_div]
    have := r shi b
    have := r chi d
    have := dv _ _ p7
    have := dv _ _ p8
    push_cast
    linarith

theorem nat_blt_cast (x y : Nat) (h : Nat.blt x y = true) : (x : ℝ) < (y : ℝ) := by
  have : x < y := by
    simpa [Nat.blt_eq] using h
  exact_mod_cast this

/-- The last step of `turn` is sound, given the enclosure of the angle `pi / 2^30`. -/
theorem turn_end_sound (u v : Nat) (a b c d : Nat) (hE : Encl (Real.pi / 2 ^ 30) a b c d)
    (k : Nat → Nat → Nat → Nat → Nat → Bool)
    (hk : ∀ K clo chi slo shi, k K clo chi slo shi =
      Nat.blt
        (Nat.mul u (Nat.add (Nat.add (Nat.shiftRight (Nat.mul shi b) 64)
          (Nat.shiftRight (Nat.mul chi d) 64)) 2))
        (Nat.mul v (Nat.sub (Nat.shiftRight (Nat.mul clo a) 64)
          (Nat.add (Nat.shiftRight (Nat.mul shi d) 64) 1)))) :
    turn_sound u v 1 k := by
  intro K clo chi slo shi t hK ht hsum E hrun
  have hK0 : K = 0 := by
    simp only [Nat.sub_self, pow_zero] at hK
    omega
  subst hK0
  simp only [Nat.cast_zero, zero_mul, zero_div, add_zero] at hsum ⊢
  have hpi := Real.pi_pos
  have h16 : Real.pi / 2 ^ 30 ≤ Real.pi / 2 ^ 16 := by
    apply div_le_div_of_nonneg_left hpi.le (by positivity)
    norm_num
  have hE2 := encl_mul t (Real.pi / 2 ^ 30) clo chi slo shi a b c d ht (by positivity)
    (by linarith) E hE
  obtain ⟨g1, _, _, g4⟩ := hE2
  rw [hk] at hrun
  have hlt := nat_blt_cast _ _ hrun
  have hm (x y : Nat) : ((Nat.mul x y : Nat) : ℝ) = (x : ℝ) * y := by
    show ((x * y : Nat) : ℝ) = _
    push_cast
    rfl
  rw [hm, hm] at hlt
  have hu : (0 : ℝ) ≤ u := Nat.cast_nonneg _
  have hv : (0 : ℝ) ≤ v := Nat.cast_nonneg _
  have h1 := mul_le_mul_of_nonneg_left g4 hu
  have h2 := mul_le_mul_of_nonneg_left g1 hv
  have hS : (0 : ℝ) < 2 ^ 64 := pow_pos (by norm_num) 64
  generalize (2 : ℝ) ^ 64 = S at *
  have h3 : S * ((u : ℝ) * Real.sin (t + Real.pi / 2 ^ 30)) <
      S * ((v : ℝ) * Real.cos (t + Real.pi / 2 ^ 30)) := by
    linarith
  exact lt_of_mul_lt_mul_left h3 hS.le

/-- A step of `turn` is sound when the step behind it is, given the enclosure of its angle. -/
theorem turn_step_sound (u v m : Nat) (a b c d : Nat)
    (k : Nat → Nat → Nat → Nat → Nat → Bool) (hm : 1 ≤ m)
    (hE : Encl (Real.pi / 2 ^ (m + 1)) a b c d) (hk : turn_sound u v m k) :
    turn_sound u v (m + 1) (turn_step a b c d k) := by
  intro K clo chi slo shi t hK ht hsum E hrun
  have hpi := Real.pi_pos
  have hpm : (0 : ℝ) < 2 ^ m := pow_pos (by norm_num) m
  have hpm1 : (2 : ℝ) ^ (m + 1) = 2 * 2 ^ m := by rw [pow_succ]; ring
  have hland : Nat.land K 1 = K % 2 := Nat.and_one_is_mod K
  have hshr : Nat.shiftRight K 1 = K / 2 := by
    have := Nat.shiftRight_eq_div_pow K 1
    simpa using this
  have hK2 : K / 2 < 2 ^ (m - 1) := by
    have h2 : 2 ^ (m + 1 - 1) = 2 * 2 ^ (m - 1) := by
      rw [Nat.add_sub_cancel]
      obtain ⟨j, hj⟩ : ∃ j, m = j + 1 := ⟨m - 1, by omega⟩
      rw [hj, Nat.add_sub_cancel, pow_succ]
      ring
    rw [h2] at hK
    omega
  have h16 : (0 : ℝ) < Real.pi / 2 ^ 16 := by positivity
  have hKr : (K : ℝ) = 2 * ((K / 2 : Nat) : ℝ) + ((K % 2 : Nat) : ℝ) := by
    have := Nat.div_add_mod K 2
    exact_mod_cast this.symm
  unfold turn_step at hrun
  rw [hland, hshr] at hrun
  by_cases hbit : K % 2 = 1
  · have hb : Nat.beq (K % 2) 1 = true := by rw [hbit]; rfl
    rw [hb] at hrun
    simp only [cond_true] at hrun
    have hang : t + (K : ℝ) * Real.pi / 2 ^ (m + 1) =
        t + Real.pi / 2 ^ (m + 1) + ((K / 2 : Nat) : ℝ) * Real.pi / 2 ^ m := by
      rw [hKr, hbit, hpm1]
      field_simp
      ring
    have hstep : 0 ≤ ((K / 2 : Nat) : ℝ) * Real.pi / 2 ^ m := by positivity
    have hE2 := encl_mul t (Real.pi / 2 ^ (m + 1)) clo chi slo shi a b c d ht (by positivity)
      (by rw [hang] at hsum; linarith) E hE
    have := hk (K / 2) _ _ _ _ (t + Real.pi / 2 ^ (m + 1)) hK2 (by positivity)
      (by rw [← hang]; exact hsum) hE2 hrun
    rw [hang]
    exact this
  · have hbit0 : K % 2 = 0 := by omega
    have hb : Nat.beq (K % 2) 1 = false := by rw [hbit0]; rfl
    rw [hb] at hrun
    simp only [cond_false] at hrun
    have hang : t + (K : ℝ) * Real.pi / 2 ^ (m + 1) =
        t + ((K / 2 : Nat) : ℝ) * Real.pi / 2 ^ m := by
      rw [hKr, hbit0, hpm1]
      field_simp
      ring
    have := hk (K / 2) _ _ _ _ t hK2 ht (by rw [← hang]; exact hsum) E hrun
    rw [hang]
    exact this

theorem half_real (S cx sx L H sl sh clo chi slo shi : ℝ) (hS : 0 < S) (hcx : 0 < cx)
    (hsx : 0 ≤ sx) (e1 : L ≤ S * (2 * cx ^ 2 - 1)) (e2 : S * (2 * cx ^ 2 - 1) ≤ H)
    (e3 : sl ≤ S * (2 * sx * cx)) (e4 : S * (2 * sx * cx) ≤ sh)
    (r1 : 2 * clo ^ 2 ≤ S * S + L * S) (r2 : S * S + H * S ≤ 2 * chi ^ 2)
    (r3 : slo * (2 * chi) ≤ sl * S) (r4 : sh * S ≤ shi * (2 * clo))
    (n1 : 0 < clo) (n2 : 0 ≤ chi) (n3 : 0 ≤ slo) :
    clo ≤ S * cx ∧ S * cx ≤ chi ∧ slo ≤ S * sx ∧ S * sx ≤ shi := by
  have hSc : 0 < S * cx := mul_pos hS hcx
  have hLS : L * S ≤ S * (2 * cx ^ 2 - 1) * S := mul_le_mul_of_nonneg_right e1 hS.le
  have hHS : S * (2 * cx ^ 2 - 1) * S ≤ H * S := mul_le_mul_of_nonneg_right e2 hS.le
  have k1 : clo ≤ S * cx := by
    have h : clo ^ 2 ≤ (S * cx) ^ 2 := by
      have : (S * cx) ^ 2 = (S * S + S * (2 * cx ^ 2 - 1) * S) / 2 := by ring
      rw [this]
      linarith
    exact (abs_le_of_sq_le_sq' h hSc.le).2
  have k2 : S * cx ≤ chi := by
    have h : (S * cx) ^ 2 ≤ chi ^ 2 := by
      have : (S * cx) ^ 2 = (S * S + S * (2 * cx ^ 2 - 1) * S) / 2 := by ring
      rw [this]
      linarith
    exact (abs_le_of_sq_le_sq' h n2).2
  refine ⟨k1, k2, ?_, ?_⟩
  · by_contra hcon
    push_neg at hcon
    have A := mul_lt_mul_of_pos_right hcon (show (0 : ℝ) < 2 * (S * cx) by linarith)
    have B := mul_le_mul_of_nonneg_left (show 2 * (S * cx) ≤ 2 * chi by linarith) n3
    have C := mul_le_mul_of_nonneg_right e3 hS.le
    have D : S * sx * (2 * (S * cx)) = S * (2 * sx * cx) * S := by ring
    linarith
  · by_contra hcon
    push_neg at hcon
    have A := mul_lt_mul_of_pos_right hcon (show (0 : ℝ) < 2 * clo by linarith)
    have B := mul_le_mul_of_nonneg_left (show 2 * clo ≤ 2 * (S * cx) by linarith)
      (mul_nonneg hS.le hsx)
    have C := mul_le_mul_of_nonneg_right e4 hS.le
    have D : S * sx * (2 * (S * cx)) = S * (2 * sx * cx) * S := by ring
    linarith

/-- The enclosure of an angle `2 x` yields that of `x` by the half-angle inequalities. -/
theorem half_step (x : ℝ) (p c : Nat × Nat × Nat × Nat) (hx : 0 < x) (hx4 : x ≤ Real.pi / 4)
    (hp : Encl (2 * x) p.1 p.2.1 p.2.2.1 p.2.2.2) (hc : half_angle_ok p c = true) :
    Encl x c.1 c.2.1 c.2.2.1 c.2.2.2 := by
  unfold half_angle_ok at hc
  simp only [Bool.and_eq_true, decide_eq_true_eq] at hc
  obtain ⟨⟨⟨⟨c1, c2⟩, c3⟩, c4⟩, c5⟩ := hc
  have h128 : (2 : Nat) ^ 128 = 2 ^ 64 * 2 ^ 64 := by rw [← pow_add]
  rw [h128] at c1 c2
  obtain ⟨N, hN⟩ : ∃ N : Nat, N = 2 ^ 64 := ⟨_, rfl⟩
  have hNr : (N : ℝ) = 2 ^ 64 := by
    rw [hN]
    norm_cast
  rw [← hN] at c1 c2 c3 c4
  unfold Encl at hp ⊢
  rw [← hNr] at hp ⊢
  have hS : (0 : ℝ) < N := by
    rw [hNr]
    exact pow_pos (by norm_num) 64
  obtain ⟨e1, e2, e3, e4⟩ := hp
  have hpi := Real.pi_pos
  have hcos : 0 < Real.cos x := Real.cos_pos_of_mem_Ioo ⟨by linarith, by linarith⟩
  have hsin : 0 ≤ Real.sin x := Real.sin_nonneg_of_nonneg_of_le_pi hx.le (by linarith)
  rw [Real.cos_two_mul] at e1 e2
  rw [Real.sin_two_mul] at e3 e4
  have r1 : 2 * (c.1 : ℝ) ^ 2 ≤ (N : ℝ) * N + (p.1 : ℝ) * N := by exact_mod_cast c1
  have r2 : (N : ℝ) * N + (p.2.1 : ℝ) * N ≤ 2 * (c.2.1 : ℝ) ^ 2 := by exact_mod_cast c2
  have r3 : (c.2.2.1 : ℝ) * (2 * c.2.1) ≤ (p.2.2.1 : ℝ) * N := by exact_mod_cast c3
  have r4 : (p.2.2.2 : ℝ) * N ≤ (c.2.2.2 : ℝ) * (2 * c.1) := by exact_mod_cast c4
  exact half_real N (Real.cos x) (Real.sin x) p.1 p.2.1 p.2.2.1 p.2.2.2 c.1 c.2.1 c.2.2.1
    c.2.2.2 hS hcos hsin e1 e2 e3 e4 r1 r2 r3 r4 (by exact_mod_cast c5) (Nat.cast_nonneg _)
    (Nat.cast_nonneg _)

/-- Along a list that passes `chain_ok`, every entry encloses half the angle of the entry
before it. -/
theorem chain_sound : ∀ (l : List (Nat × Nat × Nat × Nat)) (m : Nat) (e : Nat × Nat × Nat × Nat),
    1 ≤ m → Encl (Real.pi / 2 ^ m) e.1 e.2.1 e.2.2.1 e.2.2.2 → chain_ok (e :: l) = true →
    ∀ (j : Nat) (f : Nat × Nat × Nat × Nat), l.get? j = some f →
      Encl (Real.pi / 2 ^ (m + 1 + j)) f.1 f.2.1 f.2.2.1 f.2.2.2 := by
  intro l
  induction l with
  | nil =>
    intro m e _ _ _ j f hj
    simp at hj
  | cons b rest ih =>
    intro m e hm he hc j f hj
    have hc2 : half_angle_ok e b = true ∧ chain_ok (b :: rest) = true := by
      simpa [chain_ok] using hc
    have hpi := Real.pi_pos
    have hb : Encl (Real.pi / 2 ^ (m + 1)) b.1 b.2.1 b.2.2.1 b.2.2.2 := by
      apply half_step _ e b (by positivity) _ _ hc2.1
      · have h4 : (4 : ℝ) ≤ 2 ^ (m + 1) := by
          have : (2 : ℝ) ^ 2 ≤ 2 ^ (m + 1) := pow_le_pow_right₀ (by norm_num) (by omega)
          linarith
        exact div_le_div_of_nonneg_left hpi.le (by norm_num) h4
      · have : 2 * (Real.pi / 2 ^ (m + 1)) = Real.pi / 2 ^ m := by
          rw [pow_succ]
          field_simp
          ring
        rw [this]
        exact he
    cases j with
    | zero =>
      simp only [List.get?_cons_zero, Option.some.injEq] at hj
      subst hj
      exact hb
    | succ j =>
      simp only [List.get?_cons_succ] at hj
      have := ih (m + 1) b (by omega) hb hc2.2 j f hj
      rw [show m + 1 + (j + 1) = m + 1 + 1 + j by omega]
      exact this

theorem chain_ok_dyadic_list : chain_ok dyadic_list = true := by
  decide

/-- Entry `m - 1` of `dyadic_list` encloses the cosine and the sine of `pi / 2^m`. -/
theorem dyadic_sound (m : Nat) (e : Nat × Nat × Nat × Nat) (hm : 2 ≤ m)
    (h : dyadic_list.get? (m - 1) = some e) :
    Encl (Real.pi / 2 ^ m) e.1 e.2.1 e.2.2.1 e.2.2.2 := by
  have hbase : Encl (Real.pi / 2 ^ 1) (0 : Nat) (0 : Nat) 18446744073709551616
      18446744073709551616 := by
    unfold Encl
    rw [pow_one, Real.cos_pi_div_two, Real.sin_pi_div_two]
    norm_num
  obtain ⟨j, hj⟩ : ∃ j, m - 1 = j + 1 := ⟨m - 2, by omega⟩
  rw [hj] at h
  have := chain_sound dyadic_list.tail 1 (0, 0, 18446744073709551616, 18446744073709551616)
    (le_refl 1) hbase chain_ok_dyadic_list j e h
  rw [show 1 + 1 + j = m by omega] at this
  exact this

/-- The function `turn` is sound: from the enclosure of an angle `t` it answers true only if
the point `(u, v)` lies strictly above the angle `t + K pi / 2^16 + pi / 2^30`. -/
theorem turn_is_sound (u v : Nat) : turn_sound u v 16 (turn u v) :=
  (turn_step_sound u v 15 18446744052514737556 18446744052514737557 884279718664883 884279718664885 _ (by norm_num)
      (dyadic_sound 16 (18446744052514737556, 18446744052514737557, 884279718664883, 884279718664885) (by norm_num) rfl)
      (turn_step_sound u v 14 18446743988930295426 18446743988930295427 1768559435297739 1768559435297741 _ (by norm_num)
      (dyadic_sound 15 (18446743988930295426, 18446743988930295427, 1768559435297739, 1768559435297741) (by norm_num) rfl)
      (turn_step_sound u v 13 18446743734592527637 18446743734592527639 3537118854339261 3537118854339263 _ (by norm_num)
      (dyadic_sound 14 (18446743734592527637, 18446743734592527639, 3537118854339261, 3537118854339263) (by norm_num) rfl)
      (turn_step_sound u v 12 18446742717241468172 18446742717241468173 7074237578628774 7074237578628776 _ (by norm_num)
      (dyadic_sound 13 (18446742717241468172, 18446742717241468173, 7074237578628774, 7074237578628776) (by norm_num) rfl)
      (turn_step_sound u v 11 18446738647837417334 18446738647837417335 14148474116859584 14148474116859586 _ (by norm_num)
      (dyadic_sound 12 (18446738647837417334, 18446738647837417335, 14148474116859584, 14148474116859586) (by norm_num) rfl)
      (turn_step_sound u v 10 18446722370224206389 18446722370224206391 28296939910536373 28296939910536375 _ (by norm_num)
      (dyadic_sound 11 (18446722370224206389, 18446722370224206391, 28296939910536373, 28296939910536375) (by norm_num) rfl)
      (turn_step_sound u v 9 18446657259819241109 18446657259819241110 56593813235639762 56593813235639764 _ (by norm_num)
      (dyadic_sound 10 (18446657259819241109, 18446657259819241110, 56593813235639762, 56593813235639764) (by norm_num) rfl)
      (turn_step_sound u v 8 18446396818965434987 18446396818965434988 113187093788755729 113187093788755731 _ (by norm_num)
      (dyadic_sound 9 (18446396818965434987, 18446396818965434988, 113187093788755729, 113187093788755731) (by norm_num) rfl)
      (turn_step_sound u v 7 18445355067807029947 18445355067807029948 226369926147403916 226369926147403918 _ (by norm_num)
      (dyadic_sound 8 (18445355067807029947, 18445355067807029948, 226369926147403916, 226369926147403918) (by norm_num) rfl)
      (turn_step_sound u v 6 18441188259278644697 18441188259278644698 452705761816584061 452705761816584064 _ (by norm_num)
      (dyadic_sound 7 (18441188259278644697, 18441188259278644698, 452705761816584061, 452705761816584064) (by norm_num) rfl)
      (turn_step_sound u v 5 18424524162600791837 18424524162600791838 905138830610008562 905138830610008565 _ (by norm_num)
      (dyadic_sound 6 (18424524162600791837, 18424524162600791838, 905138830610008562, 905138830610008565) (by norm_num) rfl)
      (turn_step_sound u v 4 18357917958986607856 18357917958986607857 1808097102496279520 1808097102496279523 _ (by norm_num)
      (dyadic_sound 5 (18357917958986607856, 18357917958986607857, 1808097102496279520, 1808097102496279523) (by norm_num) rfl)
      (turn_step_sound u v 3 18092295058859852118 18092295058859852119 3598781241489102187 3598781241489102190 _ (by norm_num)
      (dyadic_sound 4 (18092295058859852118, 18092295058859852119, 3598781241489102187, 3598781241489102190) (by norm_num) rfl)
      (turn_step_sound u v 2 17042569291174129989 17042569291174129990 7059263338087549765 7059263338087549768 _ (by norm_num)
      (dyadic_sound 3 (17042569291174129989, 17042569291174129990, 7059263338087549765, 7059263338087549768) (by norm_num) rfl)
      (turn_step_sound u v 1 13043817825332782212 13043817825332782213 13043817825332782211 13043817825332782213 _ (by norm_num)
      (dyadic_sound 2 (13043817825332782212, 13043817825332782213, 13043817825332782211, 13043817825332782213) (by norm_num) rfl)
      (turn_end_sound u v 18446744073709551536 18446744073709551538 53972150818 53972150820
      (dyadic_sound 30 (18446744073709551536, 18446744073709551538, 53972150818, 53972150820) (by norm_num) rfl) _ (fun _ _ _ _ _ => rfl)))))))))))))))))

/-- What `below` certifies. -/
theorem below_sound (u v n : Nat) (hu : 0 < u) (h : below u v n = true) :
    1 ≤ n ∧ n ≤ 16383 ∧
      (2 * (n : ℝ) - 1) * Real.pi / 65536 + Real.pi / 2 ^ 30 < Real.arctan ((v : ℝ) / u) := by
  unfold below at h
  simp only [Bool.and_eq_true, Nat.ble_eq] at h
  obtain ⟨⟨h1, h2⟩, h3⟩ := h
  refine ⟨h1, h2, ?_⟩
  have hpi := Real.pi_pos
  have hK : Nat.sub (Nat.mul 2 n) 1 = 2 * n - 1 := rfl
  rw [hK] at h3
  have hKr : ((2 * n - 1 : Nat) : ℝ) = 2 * (n : ℝ) - 1 := by
    rw [Nat.cast_sub (by omega)]
    push_cast
    ring
  have hnr : (n : ℝ) ≤ 16383 := by exact_mod_cast h2
  have hn1 : (1 : ℝ) ≤ n := by exact_mod_cast h1
  have hE0 : Encl 0 18446744073709551616 18446744073709551616 0 0 := by
    unfold Encl
    rw [Real.cos_zero, Real.sin_zero]
    norm_num
  have h65 : (2 : ℝ) ^ 16 = 65536 := by norm_num
  have hsound := turn_is_sound u v (2 * n - 1) _ _ _ _ 0 (by norm_num; omega) (le_refl 0)
    (by
      rw [hKr, h65, zero_add]
      have : (2 * (n : ℝ) - 1) * Real.pi / 65536 ≤ 32765 * Real.pi / 65536 := by
        apply div_le_div_of_nonneg_right _ (by norm_num)
        nlinarith
      linarith)
    hE0 h3
  rw [hKr, h65, zero_add] at hsound
  obtain ⟨β, hβ⟩ : ∃ β : ℝ, β = (2 * (n : ℝ) - 1) * Real.pi / 65536 + Real.pi / 2 ^ 30 :=
    ⟨_, rfl⟩
  rw [← hβ] at hsound ⊢
  have hβ0 : 0 < β := by
    rw [hβ]
    have : 0 ≤ (2 * (n : ℝ) - 1) * Real.pi / 65536 := by
      apply div_nonneg _ (by norm_num)
      nlinarith
    have : 0 < Real.pi / 2 ^ 30 := by positivity
    linarith
  have hβ1 : β < Real.pi / 2 := by
    rw [hβ]
    have h30 : Real.pi / 2 ^ 30 < Real.pi / 65536 := by
      apply div_lt_div_of_pos_left hpi (by norm_num)
      norm_num
    have : (2 * (n : ℝ) - 1) * Real.pi / 65536 ≤ 32765 * Real.pi / 65536 := by
      apply div_le_div_of_nonneg_right _ (by norm_num)
      nlinarith
    linarith
  have hcos : 0 < Real.cos β := Real.cos_pos_of_mem_Ioo ⟨by linarith, hβ1⟩
  have hur : (0 : ℝ) < u := by exact_mod_cast hu
  have htan : Real.tan β < (v : ℝ) / u := by
    rw [Real.tan_eq_sin_div_cos, div_lt_div_iff₀ hcos hur]
    linarith
  have := Real.arctan_strictMono htan
  rwa [Real.arctan_tan (by linarith) hβ1] at this

/-- What `cell_ok` certifies: `32768 arctan (v / u) / pi` is nearer than `1/2 - 2^-15` to an
integer between 1 and 16383. -/
theorem cell_sound (u v : Nat) (hu : 0 < u) (hv : 0 < v) (h : cell_ok u v = true) :
    ∃ n : Nat, 1 ≤ n ∧ n ≤ 16383 ∧
      (n : ℝ) - 1 / 2 + 1 / 2 ^ 15 < 32768 * Real.arctan ((v : ℝ) / u) / Real.pi ∧
      32768 * Real.arctan ((v : ℝ) / u) / Real.pi < (n : ℝ) + 1 / 2 - 1 / 2 ^ 15 := by
  unfold cell_ok at h
  simp only [Bool.and_eq_true] at h
  obtain ⟨ha, hb⟩ := h
  obtain ⟨h1, h2, hlo⟩ := below_sound u v _ hu ha
  obtain ⟨_, _, hhi⟩ := below_sound v u _ hv hb
  refine ⟨guess_oct u v, h1, h2, ?_, ?_⟩
  all_goals generalize guess_oct u v = n at *
  · have hpi := Real.pi_pos
    rw [lt_div_iff₀ hpi]
    have e : ((n : ℝ) - 1 / 2 + 1 / 2 ^ 15) * Real.pi =
        32768 * ((2 * (n : ℝ) - 1) * Real.pi / 65536 + Real.pi / 2 ^ 30) := by
      norm_num
      ring
    rw [e]
    linarith
  · have hpi := Real.pi_pos
    have hs : Nat.sub 16384 n = 16384 - n := rfl
    rw [hs, Nat.cast_sub (by omega)] at hhi
    have hur : (0 : ℝ) < u := by exact_mod_cast hu
    have hvr : (0 : ℝ) < v := by exact_mod_cast hv
    have hinv : Real.arctan ((u : ℝ) / v) = Real.pi / 2 - Real.arctan ((v : ℝ) / u) := by
      rw [← Real.arctan_inv_of_pos (div_pos hvr hur), inv_div]
    rw [hinv] at hhi
    rw [div_lt_iff₀ hpi]
    have e : ((n : ℝ) + 1 / 2 - 1 / 2 ^ 15) * Real.pi =
        32768 * (Real.pi / 2 - ((2 * (((16384 : Nat) : ℝ) - (n : ℝ)) - 1) * Real.pi / 65536 +
          Real.pi / 2 ^ 30)) := by
      norm_num
      ring
    rw [e]
    linarith

theorem row_ok_cell (u : Nat) : ∀ (k b : Nat), row_ok u k = true → b < k →
    cell_ok u (2 * b + 1) = true := by
  intro k
  induction k with
  | zero =>
    intro b _ hb
    omega
  | succ k ih =>
    intro b h hb
    have h2 : cell_ok u (2 * k + 1) = true ∧ row_ok u k = true := by
      have : row_ok u (k + 1) =
          and (cell_ok u (Nat.add (Nat.mul 2 k) 1)) (row_ok u k) := rfl
      rw [this] at h
      simpa using h
    by_cases hbk : b = k
    · rw [hbk]
      exact h2.1
    · exact ih b h2.2 (by omega)

theorem rows_ok_cell : ∀ (k a b : Nat), rows_ok k = true → a < k → b ≤ a →
    cell_ok (2 * a + 1) (2 * b + 1) = true := by
  intro k
  induction k with
  | zero =>
    intro a b _ ha
    omega
  | succ k ih =>
    intro a b h ha hb
    have h2 : row_ok (2 * k + 1) (k + 1) = true ∧ rows_ok k = true := by
      have : rows_ok (k + 1) =
          and (row_ok (Nat.add (Nat.mul 2 k) 1) (Nat.add k 1)) (rows_ok k) := rfl
      rw [this] at h
      simpa using h
    by_cases hak : a = k
    · rw [hak]
      exact row_ok_cell _ _ b h2.1 (by omega)
    · exact ih a b h2.2 (by omega) hb

set_option maxRecDepth 1000000 in
/-- Every cell `(u, v)` with `u` and `v` odd and `v ≤ u ≤ 255` passes the check. -/
theorem rows_ok_all : rows_ok 128 = true := by
  decide!

/-- For odd `u` and `v` up to 255 the angle of the point `(u, v)`, in units of `pi / 32768`,
is nearer than `1/2 - 2^-15` to an integer between 1 and 16383. -/
theorem odd_angle_margin (a b : Nat) (ha : a < 128) (hb : b < 128) :
    ∃ n : Nat, 1 ≤ n ∧ n ≤ 16383 ∧
      (n : ℝ) - 1 / 2 + 1 / 2 ^ 15 <
        32768 * Real.arctan (((2 * b + 1 : Nat) : ℝ) / ((2 * a + 1 : Nat) : ℝ)) / Real.pi ∧
      32768 * Real.arctan (((2 * b + 1 : Nat) : ℝ) / ((2 * a + 1 : Nat) : ℝ)) / Real.pi <
        (n : ℝ) + 1 / 2 - 1 / 2 ^ 15 := by
  by_cases hab : b ≤ a
  · exact cell_sound _ _ (by omega) (by omega) (rows_ok_cell 128 a b rows_ok_all ha hab)
  · obtain ⟨n, h1, h2, h3, h4⟩ := cell_sound (2 * b + 1) (2 * a + 1) (by omega) (by omega)
      (rows_ok_cell 128 b a rows_ok_all hb (by omega))
    have hpi := Real.pi_pos
    have hur : (0 : ℝ) < ((2 * a + 1 : Nat) : ℝ) := by exact_mod_cast (by omega : 0 < 2 * a + 1)
    have hvr : (0 : ℝ) < ((2 * b + 1 : Nat) : ℝ) := by exact_mod_cast (by omega : 0 < 2 * b + 1)
    have hinv : Real.arctan (((2 * b + 1 : Nat) : ℝ) / ((2 * a + 1 : Nat) : ℝ)) =
        Real.pi / 2 - Real.arctan (((2 * a + 1 : Nat) : ℝ) / ((2 * b + 1 : Nat) : ℝ)) := by
      rw [← Real.arctan_inv_of_pos (div_pos hur hvr), inv_div]
    have hy : 32768 * Real.arctan (((2 * b + 1 : Nat) : ℝ) / ((2 * a + 1 : Nat) : ℝ)) / Real.pi =
        16384 - 32768 * Real.arctan (((2 * a + 1 : Nat) : ℝ) / ((2 * b + 1 : Nat) : ℝ)) /
          Real.pi := by
      rw [hinv]
      field_simp
      ring
    refine ⟨16384 - n, by omega, by omega, ?_, ?_⟩
    · rw [hy, Nat.cast_sub (by omega), show ((16384 : Nat) : ℝ) = 16384 by norm_num]
      linarith
    · rw [hy, Nat.cast_sub (by omega), show ((16384 : Nat) : ℝ) = 16384 by norm_num]
      linarith
/-! ## C16: the phase table -/

theorem table_index (i q : Nat) (hi : i < 256) : (q <<< 8) ||| i = i + 256 * q := by
  have h := Nat.mul_add_lt_is_or (show i < 2 ^ 8 from hi) q
  rw [Nat.shiftLeft_eq, Nat.mul_comm q (2 ^ 8), ← h]
  omega

/-- The inner loop of `make_atan2_table` fills the 256 entries of column `i` and leaves every
other entry alone. -/
theorem atan2_inner_spec (fp : Floats) (i : Nat) (table : Nat → Nat) :
    ∃ out, for_loop (atan2_inner_body fp i) 256 0 table = .ok out ∧
      (∀ q, q < 256 → out (i + 256 * q) = phase_entry (scaled_angle fp i q)) ∧
      ∀ index, (∀ q, q < 256 → index ≠ i + 256 * q) → out index = table index := by
  have := for_loop_inv (atan2_inner_body fp i)
    (fun n t => (∀ q, q < n → t (i + 256 * q) = phase_entry (scaled_angle fp i q)) ∧
      ∀ index, (∀ q, q < n → index ≠ i + 256 * q) → t index = table index)
    256 0 table ⟨fun q hq => absurd hq (Nat.not_lt_zero q), fun index _ => rfl⟩ ?_
  · simpa using this
  · intro j t _ hj ⟨h1, h2⟩
    refine ⟨_, rfl, ?_, ?_⟩
    · intro q hq
      by_cases hqj : q = j
      · rw [hqj]
        simp only [if_true]
      · have hne : i + 256 * q ≠ i + 256 * j := by omega
        simp only [if_neg hne]
        exact h1 q (by omega)
    · intro index hidx
      have hne : index ≠ i + 256 * j := hidx j (by omega)
      simp only [if_neg hne]
      exact h2 index (fun q hq => hidx q (by omega))

/-- After `make_atan2_table` the entry for the sample `(i, q)` is the value stored for it: no
later iteration writes the same index. -/
theorem make_atan2_table_spec (fp : Floats) :
    ∃ table, make_atan2_table fp = .ok table ∧
      ∀ i q, i < 256 → q < 256 → table (i + 256 * q) = phase_entry (scaled_angle fp i q) := by
  have := for_loop_inv (atan2_outer_body fp)
    (fun n t => ∀ i q, i < n → q < 256 → t (i + 256 * q) = phase_entry (scaled_angle fp i q))
    256 0 (fun _ => 0) (fun i q hi _ => absurd hi (Nat.not_lt_zero i)) ?_
  · simpa [make_atan2_table] using this
  · intro j t _ hj hP
    obtain ⟨out, hout, hcol, hrest⟩ := atan2_inner_spec fp j t
    refine ⟨out, hout, ?_⟩
    intro i q hi hq
    by_cases hij : i = j
    · rw [hij]
      exact hcol q hq
    · rw [hrest (i + 256 * q) (fun q' _ => by omega)]
      exact hP i q (by omega) hq

theorem c_round_of_nonneg (x : ℚ) (h : 0 ≤ x) : c_round x = ⌊x + 1 / 2⌋ := by
  unfold c_round
  rw [if_neg (by linarith)]

/-- For a value between 0 and 65535 the entry is the nearest integer. -/
theorem phase_entry_nearest (x : ℚ) (h0 : 0 ≤ x) (h1 : x ≤ 65535) :
    (phase_entry x : ℚ) - 1 / 2 ≤ x ∧ x < (phase_entry x : ℚ) + 1 / 2 := by
  have hlo : (0 : Int) ≤ ⌊x + 1 / 2⌋ := Int.floor_nonneg.mpr (by linarith)
  have hhi : ⌊x + 1 / 2⌋ ≤ 65535 := by
    have : ⌊x + 1 / 2⌋ < 65535 + 1 := Int.floor_lt.mpr (by push_cast; linarith)
    omega
  have hval : (phase_entry x : Int) = ⌊x + 1 / 2⌋ := by
    unfold phase_entry
    simp only [c_round_of_nonneg x h0]
    rw [if_neg (by omega), if_neg (by omega)]
    omega
  have hq : (phase_entry x : ℚ) = ((⌊x + 1 / 2⌋ : Int) : ℚ) := by
    rw [← hval]
    simp
  rw [hq]
  have f1 := Int.floor_le (x + 1 / 2)
  have f2 := Int.lt_floor_add_one (x + 1 / 2)
  constructor <;> linarith

/-- The entry for a value within 1/2 of the integer `n` (the upper half excluded) is `n`. -/
theorem phase_entry_of_near (x : ℚ) (n : Nat) (hn : n ≤ 65535) (h1 : (n : ℚ) - 1 / 2 ≤ x)
    (h2 : x < (n : ℚ) + 1 / 2) : phase_entry x = n := by
  have hx0 : 0 ≤ x ∨ n = 0 := by
    by_cases h : n = 0
    · exact Or.inr h
    · left
      have : (1 : ℚ) ≤ n := by exact_mod_cast Nat.one_le_iff_ne_zero.mpr h
      linarith
  have hfl : ∀ y : ℚ, (n : ℚ) - 1 / 2 ≤ y → y < (n : ℚ) + 1 / 2 → ⌊y + 1 / 2⌋ = (n : Int) := by
    intro y hy1 hy2
    rw [Int.floor_eq_iff]
    push_cast
    constructor <;> linarith
  by_cases hneg : x < 0
  · -- only for `n = 0`: the value rounds to 0
    have hn0 : n = 0 := by
      rcases hx0 with h | h
      · linarith
      · exact h
    subst hn0
    simp only [Nat.cast_zero] at h1
    have hfl0 : (0 : Int) ≤ ⌊-x + 1 / 2⌋ := Int.floor_nonneg.mpr (by linarith)
    have hfl1 : ⌊-x + 1 / 2⌋ < 2 := Int.floor_lt.mpr (by push_cast; linarith)
    unfold phase_entry c_round
    simp only [if_pos hneg]
    split_ifs <;> omega
  · have hr : c_round x = (n : Int) := by
      rw [c_round_of_nonneg x (by linarith)]
      exact hfl x h1 h2
    unfold phase_entry
    simp only [hr]
    rw [if_neg (by omega), if_neg (by omega)]
    omega

/-! ### The angle of a sample, quadrant by quadrant -/

theorem arg_of_re_pos (x y : ℝ) (hx : 0 < x) :
    Complex.arg ⟨x, y⟩ = Real.arctan (y / x) := by
  have h1 := Complex.tan_arg ⟨x, y⟩
  have h2 : |Complex.arg ⟨x, y⟩| < Real.pi / 2 :=
    Complex.abs_arg_lt_pi_div_two_iff.mpr (Or.inl hx)
  rw [abs_lt] at h2
  have h3 := Real.arctan_tan h2.1 h2.2
  rw [h1] at h3
  exact h3.symm

theorem arg_quadrant_1 (x y : ℝ) (hx : 0 < x) (_hy : 0 < y) :
    Complex.arg ⟨x, y⟩ + Real.pi = Real.pi + Real.arctan (y / x) := by
  rw [arg_of_re_pos x y hx]
  ring

theorem arg_quadrant_4 (x y : ℝ) (hx : 0 < x) (_hy : y < 0) :
    Complex.arg ⟨x, y⟩ + Real.pi = Real.pi - Real.arctan (-y / x) := by
  rw [arg_of_re_pos x y hx, neg_div, Real.arctan_neg]
  ring

theorem arg_quadrant_2 (x y : ℝ) (hx : x < 0) (hy : 0 < y) :
    Complex.arg ⟨x, y⟩ + Real.pi = 2 * Real.pi - Real.arctan (y / -x) := by
  have h1 := Complex.arg_neg_eq_arg_sub_pi_of_im_pos (x := ⟨x, y⟩) hy
  have h2 : (-(⟨x, y⟩ : ℂ)) = ⟨-x, -y⟩ := by
    apply Complex.ext <;> simp
  rw [h2, arg_of_re_pos (-x) (-y) (by linarith), neg_div, Real.arctan_neg] at h1
  linarith

theorem arg_quadrant_3 (x y : ℝ) (hx : x < 0) (hy : y < 0) :
    Complex.arg ⟨x, y⟩ + Real.pi = Real.arctan (-y / -x) := by
  have h1 := Complex.arg_neg_eq_arg_add_pi_of_im_neg (x := ⟨x, y⟩) hy
  have h2 : (-(⟨x, y⟩ : ℂ)) = ⟨-x, -y⟩ := by
    apply Complex.ext <;> simp
  rw [h2, arg_of_re_pos (-x) (-y) (by linarith)] at h1
  linarith

/-- A sample value minus 127.5 is half an odd number, positive or negative. -/
theorem half_odd (i : Nat) (hi : i < 256) :
    ∃ a : Nat, a < 128 ∧
      (((i : ℝ) - 127.5 = ((2 * a + 1 : Nat) : ℝ) / 2) ∨
        ((i : ℝ) - 127.5 = -(((2 * a + 1 : Nat) : ℝ) / 2))) := by
  by_cases h : 128 ≤ i
  · refine ⟨i - 128, by omega, Or.inl ?_⟩
    have : ((2 * (i - 128) + 1 : Nat) : ℝ) = 2 * (i : ℝ) - 255 := by
      have h2 : 2 * (i - 128) + 1 + 255 = 2 * i := by omega
      have h3 : ((2 * (i - 128) + 1 + 255 : Nat) : ℝ) = ((2 * i : Nat) : ℝ) := by rw [h2]
      push_cast at h3 ⊢
      linarith
    rw [this]
    norm_num
    ring
  · refine ⟨127 - i, by omega, Or.inr ?_⟩
    have : ((2 * (127 - i) + 1 : Nat) : ℝ) = 255 - 2 * (i : ℝ) := by
      have h2 : 2 * (127 - i) + 1 + 2 * i = 255 := by omega
      have h3 : ((2 * (127 - i) + 1 + 2 * i : Nat) : ℝ) = ((255 : Nat) : ℝ) := by rw [h2]
      push_cast at h3 ⊢
      linarith
    rw [this]
    norm_num
    ring

/-- For every sample `(i, q)` the exact value `32768 * (atan2(q - 127.5, i - 127.5) + pi) / pi`
is nearer than `1/2 - 2^-15` to an integer between 1 and 65535. -/
theorem table_angle_margin (i q : Nat) (hi : i < 256) (hq : q < 256) :
    ∃ N : Nat, 1 ≤ N ∧ N ≤ 65535 ∧
      (N : ℝ) - 1 / 2 + 1 / 2 ^ 15 <
        32768 * (Complex.arg ⟨(i : ℝ) - 127.5, (q : ℝ) - 127.5⟩ + Real.pi) / Real.pi ∧
      32768 * (Complex.arg ⟨(i : ℝ) - 127.5, (q : ℝ) - 127.5⟩ + Real.pi) / Real.pi <
        (N : ℝ) + 1 / 2 - 1 / 2 ^ 15 := by
  obtain ⟨a, ha, hx⟩ := half_odd i hi
  obtain ⟨b, hb, hy⟩ := half_odd q hq
  obtain ⟨n, h1, h2, h3, h4⟩ := odd_angle_margin a b ha hb
  have hpi := Real.pi_pos
  have hU : (0 : ℝ) < ((2 * a + 1 : Nat) : ℝ) := by exact_mod_cast (by omega : 0 < 2 * a + 1)
  have hV : (0 : ℝ) < ((2 * b + 1 : Nat) : ℝ) := by exact_mod_cast (by omega : 0 < 2 * b + 1)
  generalize ((2 * a + 1 : Nat) : ℝ) = U at *
  generalize ((2 * b + 1 : Nat) : ℝ) = V at *
  have hratio : V / 2 / (U / 2) = V / U := by
    field_simp
  have hn1 : (1 : ℝ) ≤ n := by exact_mod_cast h1
  have hn2 : (n : ℝ) ≤ 16383 := by exact_mod_cast h2
  generalize hψ : Real.arctan (V / U) = ψ at *
  have hy3 : 32768 * ψ / Real.pi = 32768 * (ψ / Real.pi) := by ring
  rw [hy3] at h3 h4
  rcases hx with hx | hx <;> rcases hy with hy | hy <;> rw [hx, hy]
  · -- both positive
    refine ⟨32768 + n, by omega, by omega, ?_, ?_⟩
    all_goals
      rw [arg_quadrant_1 _ _ (by linarith) (by linarith), hratio, hψ,
        show 32768 * (Real.pi + ψ) / Real.pi = 32768 + 32768 * (ψ / Real.pi) by
          field_simp
          ring]
      push_cast
      linarith
  · -- the I part positive, the Q part negative
    refine ⟨32768 - n, by omega, by omega, ?_, ?_⟩
    all_goals
      rw [arg_quadrant_4 _ _ (by linarith) (by linarith), neg_neg, hratio, hψ,
        show 32768 * (Real.pi - ψ) / Real.pi = 32768 - 32768 * (ψ / Real.pi) by
          field_simp
          ring,
        Nat.cast_sub (by omega)]
      push_cast
      linarith
  · -- the I part negative, the Q part positive
    refine ⟨65536 - n, by omega, by omega, ?_, ?_⟩
    all_goals
      rw [arg_quadrant_2 _ _ (by linarith) (by linarith), neg_neg, hratio, hψ,
        show 32768 * (2 * Real.pi - ψ) / Real.pi = 65536 - 32768 * (ψ / Real.pi) by
          field_simp
          ring,
        Nat.cast_sub (by omega)]
      push_cast
      linarith
  · -- both negative
    refine ⟨n, h1, by omega, ?_, ?_⟩
    all_goals
      rw [arg_quadrant_3 _ _ (by linarith) (by linarith), neg_neg, neg_neg, hratio, hψ,
        show 32768 * ψ / Real.pi = 32768 * (ψ / Real.pi) by ring]
      linarith

/-! ### The rounding errors of the computed value -/

/-- The rounding of a positive value in the range of the table computation, over the reals. -/
theorem fl_real (fp : Floats)
    (hfl : ∀ x : ℚ, 1 / 2 ^ 16 ≤ |x| → |x| ≤ 2 ^ 18 → |fp.fl x - x| ≤ |x| / 2 ^ 52)
    (x : ℚ) (hlo : (1 / 2 ^ 16 : ℝ) ≤ (x : ℝ)) (hhi : (x : ℝ) ≤ 2 ^ 18) :
    |((fp.fl x : ℚ) : ℝ) - (x : ℝ)| ≤ (x : ℝ) / 2 ^ 52 := by
  have hpos : (0 : ℝ) < (x : ℝ) := lt_of_lt_of_le (by positivity) hlo
  have hposq : (0 : ℚ) < x := by exact_mod_cast hpos
  have habs : |x| = x := abs_of_pos hposq
  have hlo' : (1 / 2 ^ 16 : ℚ) ≤ x := by
    have h : (((1 / 2 ^ 16 : ℚ)) : ℝ) ≤ (x : ℝ) := by
      push_cast
      exact hlo
    exact Rat.cast_le.mp h
  have hhi' : x ≤ (2 ^ 18 : ℚ) := by
    have h : (x : ℝ) ≤ (((2 ^ 18 : ℚ)) : ℝ) := by
      push_cast
      exact hhi
    exact Rat.cast_le.mp h
  have h := hfl x (by rw [habs]; exact hlo') (by rw [habs]; exact hhi')
  rw [habs] at h
  have h2 : (((|fp.fl x - x| : ℚ)) : ℝ) ≤ (((x / 2 ^ 52 : ℚ)) : ℝ) := Rat.cast_le.mpr h
  push_cast at h2
  exact h2

theorem M_PI_near : |((M_PI : ℚ) : ℝ) - Real.pi| ≤ 1 / 2 ^ 50 := by
  have h1 := Real.pi_gt_d20
  have h2 := Real.pi_lt_d20
  have hM : ((M_PI : ℚ) : ℝ) = 884279719003555 / 281474976710656 := by
    unfold M_PI
    push_cast
    rfl
  rw [hM, abs_le]
  constructor <;> norm_num at h1 h2 ⊢ <;> linarith

theorem scale_down (x c : ℝ) (hx : 0 ≤ x) (hc : x ≤ c) : x / 2 ^ 52 ≤ c / 10 ^ 15 := by
  have h1 : x / 2 ^ 52 ≤ x / 10 ^ 15 :=
    div_le_div_of_nonneg_left hx (by positivity) (by norm_num)
  have h2 : x / 10 ^ 15 ≤ c / 10 ^ 15 := div_le_div_of_nonneg_right hc (by positivity)
  exact le_trans h1 h2

/-- The error bound, first part: the sum `s`, its rounding `ang`, the product by 32768 and its
rounding `p`. -/
theorem scaled_near_product (T s ang p : ℝ) (hT0 : 4 / 100000 ≤ T) (hT1 : T ≤ 6.3)
    (hs : |s - T| ≤ 1 / 2 ^ 40 + 1 / 2 ^ 50)
    (h1 : |ang - s| ≤ s / 2 ^ 52) (h2 : |p - 32768 * ang| ≤ 32768 * ang / 2 ^ 52) :
    |p - 32768 * T| ≤ 1 / 10 ^ 7 ∧ 1 / 100000 ≤ s ∧ s ≤ 7 ∧ 1 / 100000 ≤ ang ∧ ang ≤ 7 := by
  have e1 : (1 : ℝ) / 2 ^ 40 + 1 / 2 ^ 50 ≤ 1 / 10 ^ 12 := by norm_num
  have hs' := le_trans hs e1
  have hsT := abs_le.mp hs'
  have c1 : (1 : ℝ) / 10 ^ 12 ≤ 1 / 100000 := by norm_num
  have hs0 : 3 / 100000 ≤ s := by linarith only [hsT.1, c1, hT0]
  have hs6 : s ≤ 6.4 := by linarith only [hsT.2, c1, hT1]
  have h1' : |ang - s| ≤ 6.4 / 10 ^ 15 :=
    le_trans h1 (scale_down s 6.4 (by linarith only [hs0]) hs6)
  have c2 : (6.4 : ℝ) / 10 ^ 15 + 1 / 10 ^ 12 ≤ 2 / 10 ^ 12 := by norm_num
  have hangT : |ang - T| ≤ 2 / 10 ^ 12 := by
    have h := abs_sub_le ang s T
    linarith only [h, h1', hs', c2]
  have hang := abs_le.mp hangT
  have c3 : (2 : ℝ) / 10 ^ 12 ≤ 1 / 100000 := by norm_num
  have hang0 : 3 / 100000 ≤ ang := by linarith only [hang.1, c3, hT0]
  have hang6 : ang ≤ 6.5 := by linarith only [hang.2, c3, hT1]
  have h2' : |p - 32768 * ang| ≤ 220000 / 10 ^ 15 :=
    le_trans h2 (scale_down _ 220000 (by linarith only [hang0]) (by linarith only [hang6]))
  have hpa : |32768 * ang - 32768 * T| ≤ 32768 * (2 / 10 ^ 12) := by
    rw [← mul_sub, abs_mul, abs_of_pos (by norm_num : (0 : ℝ) < 32768)]
    exact mul_le_mul_of_nonneg_left hangT (by norm_num)
  have c4 : (220000 : ℝ) / 10 ^ 15 + 32768 * (2 / 10 ^ 12) ≤ 1 / 10 ^ 7 := by norm_num
  have hpT : |p - 32768 * T| ≤ 1 / 10 ^ 7 := by
    have h := abs_sub_le p (32768 * ang) (32768 * T)
    linarith only [h, h2', hpa, c4]
  exact ⟨hpT, by linarith only [hs0], by linarith only [hs6], by linarith only [hang0],
    by linarith only [hang6]⟩

/-- The error bound, second part: the quotient by `M` and its rounding `r`. -/
theorem scaled_near_quotient (T p r M : ℝ) (hT0 : 4 / 100000 ≤ T) (hT1 : T ≤ 6.3)
    (hpT : |p - 32768 * T| ≤ 1 / 10 ^ 7) (hM : |M - Real.pi| ≤ 1 / 2 ^ 50)
    (h3 : |r - p / M| ≤ p / M / 2 ^ 52) :
    |r - 32768 * T / Real.pi| ≤ 1 / 2 ^ 16 ∧ 1 / 10 ≤ p ∧ p ≤ 230000 ∧ 3.13 < M ∧ M < 3.16 := by
  have hpi1 : 3.14 < Real.pi := Real.pi_gt_d2
  have hpi2 : Real.pi < 3.15 := Real.pi_lt_d2
  have hpi := Real.pi_pos
  have e2 : (1 : ℝ) / 2 ^ 50 ≤ 1 / 100 := by norm_num
  have e3 : (1 : ℝ) / 2 ^ 50 ≤ 1 / 10 ^ 15 := by norm_num
  have hpp := abs_le.mp hpT
  have c1 : (1 : ℝ) / 10 ^ 7 ≤ 1 / 10 := by norm_num
  have hp0 : 1 / 10 ≤ p := by linarith only [hpp.1, c1, hT0]
  have hp6 : p ≤ 210000 := by linarith only [hpp.2, c1, hT1]
  have hMM := abs_le.mp (le_trans hM e2)
  have hM0 : 3.13 < M := by linarith only [hMM.1, hpi1]
  have hM3 : M < 3.16 := by linarith only [hMM.2, hpi2]
  have hMpos : 0 < M := by linarith only [hM0]
  have hMpi : 9 ≤ M * Real.pi := by
    have h := mul_le_mul hM0.le hpi1.le (by norm_num : (0 : ℝ) ≤ 3.14) hMpos.le
    have c : (9 : ℝ) ≤ 3.13 * 3.14 := by norm_num
    linarith only [h, c]
  have hq : p / M - 32768 * T / Real.pi =
      ((p - 32768 * T) * Real.pi + 32768 * T * (Real.pi - M)) / (M * Real.pi) := by
    field_simp
    ring
  have hn1 : |(p - 32768 * T) * Real.pi| ≤ 1 / 10 ^ 7 * 3.15 := by
    rw [abs_mul, abs_of_pos hpi]
    exact mul_le_mul hpT hpi2.le hpi.le (by positivity)
  have hn2 : |32768 * T * (Real.pi - M)| ≤ 210000 * (1 / 10 ^ 15) := by
    rw [abs_mul, abs_of_pos (by linarith only [hT0] : 0 < 32768 * T), abs_sub_comm]
    exact mul_le_mul (by linarith only [hT1]) (le_trans hM e3) (abs_nonneg _) (by norm_num)
  have hquot : |p / M - 32768 * T / Real.pi| ≤ 1 / 10 ^ 7 := by
    rw [hq, abs_div, abs_of_pos (by linarith only [hMpi] : 0 < M * Real.pi),
      div_le_iff₀ (by linarith only [hMpi])]
    have h := abs_add ((p - 32768 * T) * Real.pi) (32768 * T * (Real.pi - M))
    have c : (1 : ℝ) / 10 ^ 7 * 3.15 + 210000 * (1 / 10 ^ 15) ≤ 1 / 10 ^ 7 * 9 := by norm_num
    have h9 : (1 : ℝ) / 10 ^ 7 * 9 ≤ 1 / 10 ^ 7 * (M * Real.pi) :=
      mul_le_mul_of_nonneg_left hMpi (by positivity)
    linarith only [h, hn1, hn2, c, h9]
  have hpM0 : 0 ≤ p / M := div_nonneg (by linarith only [hp0]) hMpos.le
  have hpM : p / M ≤ 70000 := by
    rw [div_le_iff₀ hMpos]
    linarith only [hp6, hM0]
  have h3' : |r - p / M| ≤ 70000 / 10 ^ 15 := le_trans h3 (scale_down _ 70000 hpM0 hpM)
  have c5 : (70000 : ℝ) / 10 ^ 15 + 1 / 10 ^ 7 ≤ 1 / 2 ^ 16 := by norm_num
  refine ⟨?_, hp0, by linarith only [hp6], hM0, hM3⟩
  have h := abs_sub_le r (p / M) (32768 * T / Real.pi)
  linarith only [h, h3', hquot, c5]

theorem sum_bounds (T s : ℝ) (hT0 : 4 / 100000 ≤ T) (hT1 : T ≤ 6.3)
    (hs : |s - T| ≤ 1 / 2 ^ 40 + 1 / 2 ^ 50) : 1 / 2 ^ 16 ≤ s ∧ s ≤ 2 ^ 18 := by
  have e1 : (1 : ℝ) / 2 ^ 40 + 1 / 2 ^ 50 ≤ 1 / 100000 := by norm_num
  have hsT := abs_le.mp (le_trans hs e1)
  have c1 : (1 : ℝ) / 2 ^ 16 ≤ 3 / 100000 := by norm_num
  have c2 : (7 : ℝ) ≤ 2 ^ 18 := by norm_num
  exact ⟨by linarith only [hsT.1, c1, hT0], by linarith only [hsT.2, c2, hT1]⟩

theorem product_bounds (ang : ℝ) (h0 : 1 / 100000 ≤ ang) (h7 : ang ≤ 7) :
    1 / 2 ^ 16 ≤ 32768 * ang ∧ 32768 * ang ≤ 2 ^ 18 := by
  have c1 : (1 : ℝ) / 2 ^ 16 ≤ 32768 * (1 / 100000) := by norm_num
  have c2 : (32768 : ℝ) * 7 ≤ 2 ^ 18 := by norm_num
  exact ⟨by linarith only [h0, c1], by linarith only [h7, c2]⟩

theorem ang_bounds (s ang : ℝ) (hs0 : 1 / 2 ^ 16 ≤ s) (hs6 : s ≤ 6.4)
    (h1 : |ang - s| ≤ s / 2 ^ 52) : 1 / 100000 ≤ ang ∧ ang ≤ 7 := by
  have h1' := le_trans h1 (scale_down s 6.4 (le_trans (by positivity) hs0) hs6)
  have h := abs_le.mp h1'
  have c1 : (1 : ℝ) / 100000 ≤ 1 / 2 ^ 16 - 6.4 / 10 ^ 15 := by norm_num
  have c2 : (6.4 : ℝ) / 10 ^ 15 ≤ 1 / 10 := by norm_num
  exact ⟨by linarith only [h.1, c1, hs0], by linarith only [h.2, c2, hs6]⟩

theorem quotient_bounds (p M : ℝ) (hp0 : 1 / 10 ≤ p) (hp6 : p ≤ 230000) (hM0 : 3.13 < M)
    (hM3 : M < 3.16) : 1 / 2 ^ 16 ≤ p / M ∧ p / M ≤ 2 ^ 18 := by
  have hMpos : 0 < M := by linarith only [hM0]
  constructor
  · rw [le_div_iff₀ hMpos]
    have c : (1 : ℝ) / 2 ^ 16 * 3.16 ≤ 1 / 10 := by norm_num
    have h := mul_le_mul_of_nonneg_left hM3.le (by positivity : (0 : ℝ) ≤ 1 / 2 ^ 16)
    linarith only [c, h, hp0]
  · rw [div_le_iff₀ hMpos]
    have c : (230000 : ℝ) ≤ 2 ^ 18 * 3.13 := by norm_num
    have h := mul_le_mul_of_nonneg_left hM0.le (by positivity : (0 : ℝ) ≤ 2 ^ 18)
    linarith only [c, h, hp6]

/-- The value the code computes for a sample lies within `2^-16` of the exact value, when
`atan2` is accurate to `2^-40` for the sample and every rounding has a relative error of at
most `2^-52`. -/
theorem scaled_angle_near (fp : Floats) (i q : Nat) (hi : i < 256) (hq : q < 256)
    (hfl : ∀ x : ℚ, 1 / 2 ^ 16 ≤ |x| → |x| ≤ 2 ^ 18 → |fp.fl x - x| ≤ |x| / 2 ^ 52)
    (hatan : |((fp.atan2 ((q : ℚ) - 255 / 2) ((i : ℚ) - 255 / 2) : ℚ) : ℝ) -
      Complex.arg ⟨(i : ℝ) - 127.5, (q : ℝ) - 127.5⟩| ≤ 1 / 2 ^ 40) :
    |((scaled_angle fp i q : ℚ) : ℝ) -
      32768 * (Complex.arg ⟨(i : ℝ) - 127.5, (q : ℝ) - 127.5⟩ + Real.pi) / Real.pi| ≤
        1 / 2 ^ 16 := by
  obtain ⟨N, hN1, _, hlo, _⟩ := table_angle_margin i q hi hq
  have hpi1 : 3.14 < Real.pi := Real.pi_gt_d2
  have hpi2 : Real.pi < 3.15 := Real.pi_lt_d2
  have hpi := Real.pi_pos
  have harg := Complex.arg_le_pi ⟨(i : ℝ) - 127.5, (q : ℝ) - 127.5⟩
  generalize Complex.arg ⟨(i : ℝ) - 127.5, (q : ℝ) - 127.5⟩ = θ at *
  obtain ⟨T, hT⟩ : ∃ T : ℝ, T = θ + Real.pi := ⟨_, rfl⟩
  rw [← hT] at hlo ⊢
  have hT1 : T ≤ 6.3 := by linarith only [hT, harg, hpi2]
  have hT0 : 4 / 100000 ≤ T := by
    have hN : (1 : ℝ) ≤ N := by exact_mod_cast hN1
    have c : (0 : ℝ) < 1 / 2 ^ 15 := by positivity
    have h1 : (1 : ℝ) / 2 < 32768 * T / Real.pi := by linarith only [hlo, hN, c]
    rw [lt_div_iff₀ hpi] at h1
    linarith only [h1, hpi1]
  -- the values of the computation
  obtain ⟨a, ha⟩ : ∃ a : ℚ, a = fp.atan2 ((q : ℚ) - 255 / 2) ((i : ℚ) - 255 / 2) := ⟨_, rfl⟩
  rw [← ha] at hatan
  have hval : scaled_angle fp i q =
      fp.fl (fp.fl (32768 * fp.fl (a + M_PI)) / M_PI) := by
    rw [ha]
    rfl
  rw [hval]
  have hMn := M_PI_near
  have hs : |((a + M_PI : ℚ) : ℝ) - T| ≤ 1 / 2 ^ 40 + 1 / 2 ^ 50 := by
    have h := abs_add ((a : ℝ) - θ) (((M_PI : ℚ) : ℝ) - Real.pi)
    have e : ((a + M_PI : ℚ) : ℝ) - T = ((a : ℝ) - θ) + (((M_PI : ℚ) : ℝ) - Real.pi) := by
      rw [hT]
      push_cast
      ring
    rw [e]
    linarith only [h, hatan, hMn]
  obtain ⟨hs0, hs6⟩ := sum_bounds T _ hT0 hT1 hs
  have h1 := fl_real fp hfl (a + M_PI) hs0 hs6
  have hs64 : (((a + M_PI : ℚ)) : ℝ) ≤ 6.4 := by
    have e1 : (1 : ℝ) / 2 ^ 40 + 1 / 2 ^ 50 ≤ 1 / 10 := by norm_num
    have h := (abs_le.mp (le_trans hs e1)).2
    linarith only [h, hT1]
  obtain ⟨hang0, hang7⟩ := ang_bounds _ _ hs0 hs64 h1
  obtain ⟨hp0, hp6⟩ := product_bounds _ hang0 hang7
  have hcast : ((32768 * fp.fl (a + M_PI) : ℚ) : ℝ) = 32768 * ((fp.fl (a + M_PI) : ℚ) : ℝ) := by
    push_cast
    rfl
  have h2 := fl_real fp hfl (32768 * fp.fl (a + M_PI)) (by rw [hcast]; exact hp0)
    (by rw [hcast]; exact hp6)
  rw [hcast] at h2
  obtain ⟨hpT, _⟩ := scaled_near_product T _ _ _ hT0 hT1 hs h1 h2
  have hpp := abs_le.mp hpT
  have c1 : (1 : ℝ) / 10 ^ 7 ≤ 1 / 10 := by norm_num
  have hpa : 1 / 10 ≤ ((fp.fl (32768 * fp.fl (a + M_PI)) : ℚ) : ℝ) := by
    linarith only [hpp.1, c1, hT0]
  have hpb : ((fp.fl (32768 * fp.fl (a + M_PI)) : ℚ) : ℝ) ≤ 230000 := by
    linarith only [hpp.2, c1, hT1]
  have e2 : (1 : ℝ) / 2 ^ 50 ≤ 1 / 100 := by norm_num
  have hMM := abs_le.mp (le_trans hMn e2)
  have hM0 : 3.13 < ((M_PI : ℚ) : ℝ) := by linarith only [hMM.1, hpi1]
  have hM3 : ((M_PI : ℚ) : ℝ) < 3.16 := by linarith only [hMM.2, hpi2]
  obtain ⟨hq0, hq6⟩ := quotient_bounds _ _ hpa hpb hM0 hM3
  have hcast2 : ((fp.fl (32768 * fp.fl (a + M_PI)) / M_PI : ℚ) : ℝ) =
      ((fp.fl (32768 * fp.fl (a + M_PI)) : ℚ) : ℝ) / ((M_PI : ℚ) : ℝ) := by
    push_cast
    rfl
  have h3 := fl_real fp hfl (fp.fl (32768 * fp.fl (a + M_PI)) / M_PI) (by rw [hcast2]; exact hq0)
    (by rw [hcast2]; exact hq6)
  rw [hcast2] at h3
  exact (scaled_near_quotient T _ _ _ hT0 hT1 hpT hMn h3).1

/-- The entry stored for a sample is the integer nearest to the exact value, under the
accuracy conditions of `scaled_angle_near`. -/
theorem table_entry (fp : Floats) (i q : Nat) (hi : i < 256) (hq : q < 256)
    (hfl : ∀ x : ℚ, 1 / 2 ^ 16 ≤ |x| → |x| ≤ 2 ^ 18 → |fp.fl x - x| ≤ |x| / 2 ^ 52)
    (hatan : |((fp.atan2 ((q : ℚ) - 255 / 2) ((i : ℚ) - 255 / 2) : ℚ) : ℝ) -
      Complex.arg ⟨(i : ℝ) - 127.5, (q : ℝ) - 127.5⟩| ≤ 1 / 2 ^ 40) :
    ∃ N : Nat, 1 ≤ N ∧ N ≤ 65535 ∧ phase_entry (scaled_angle fp i q) = N ∧
      (N : ℝ) - 1 / 2 + 1 / 2 ^ 15 <
        32768 * (Complex.arg ⟨(i : ℝ) - 127.5, (q : ℝ) - 127.5⟩ + Real.pi) / Real.pi ∧
      32768 * (Complex.arg ⟨(i : ℝ) - 127.5, (q : ℝ) - 127.5⟩ + Real.pi) / Real.pi <
        (N : ℝ) + 1 / 2 - 1 / 2 ^ 15 := by
  obtain ⟨N, hN1, hN2, hlo, hhi⟩ := table_angle_margin i q hi hq
  have hnear := abs_le.mp (scaled_angle_near fp i q hi hq hfl hatan)
  refine ⟨N, hN1, hN2, ?_, hlo, hhi⟩
  have c : (1 : ℝ) / 2 ^ 16 < 1 / 2 ^ 15 := by norm_num
  apply phase_entry_of_near _ N hN2
  · have h : ((((N : ℚ) - 1 / 2 : ℚ)) : ℝ) ≤ ((scaled_angle fp i q : ℚ) : ℝ) := by
      push_cast
      linarith only [hnear.1, hlo, c]
    exact Rat.cast_le.mp h
  · have h : ((scaled_angle fp i q : ℚ) : ℝ) < ((((N : ℚ) + 1 / 2 : ℚ)) : ℝ) := by
      push_cast
      linarith only [hnear.2, hhi, c]
    exact Rat.cast_lt.mp h

/-- C16 (as amended): `make_atan2_table` returns, and for every `(i, q)` in `[0, 255]^2` the
entry `iqphase[(q << 8) | i]` equals `round(32768 * (atan2(q - 127.5, i - 127.5) + pi) / pi)`
clamped to `[0, 65535]`, with the angle exact (`Complex.arg` of the point
`(i - 127.5) + (q - 127.5) i`) and `round` the nearest integer, when the
`atan2` of the C library is accurate to `2^-40` for the sample and every rounding of a
`double` result between `2^-16` and `2^18` has a relative error of at most `2^-52`. The clamp
changes nothing, and no value is halfway between two integers: the entry differs from the
exact value by less than 1/2. -/
theorem atan2_table_rounds (fp : Floats) (i q : Nat) (hi : i < 256) (hq : q < 256)
    (hfl : ∀ x : ℚ, 1 / 2 ^ 16 ≤ |x| → |x| ≤ 2 ^ 18 → |fp.fl x - x| ≤ |x| / 2 ^ 52)
    (hatan : |((fp.atan2 ((q : ℚ) - 255 / 2) ((i : ℚ) - 255 / 2) : ℚ) : ℝ) -
      Complex.arg ⟨(i : ℝ) - 127.5, (q : ℝ) - 127.5⟩| ≤ 1 / 2 ^ 40) :
    ∃ table, make_atan2_table fp = .ok table ∧
      ((table ((q <<< 8) ||| i) : Nat) : ℤ) =
        max 0 (min 65535 (round
          (32768 * (Complex.arg ⟨(i : ℝ) - 127.5, (q : ℝ) - 127.5⟩ + Real.pi) / Real.pi))) ∧
      ((table ((q <<< 8) ||| i) : Nat) : ℤ) =
        round (32768 * (Complex.arg ⟨(i : ℝ) - 127.5, (q : ℝ) - 127.5⟩ + Real.pi) / Real.pi) ∧
      |((table ((q <<< 8) ||| i) : Nat) : ℝ) -
        32768 * (Complex.arg ⟨(i : ℝ) - 127.5, (q : ℝ) - 127.5⟩ + Real.pi) / Real.pi| <
          1 / 2 := by
  obtain ⟨table, htable, hentry⟩ := make_atan2_table_spec fp
  obtain ⟨N, hN1, hN2, hN, hlo, hhi⟩ := table_entry fp i q hi hq hfl hatan
  have hidx : table ((q <<< 8) ||| i) = N := by
    rw [table_index i q hi, hentry i q hi hq, hN]
  have c : (0 : ℝ) < 1 / 2 ^ 15 := by positivity
  generalize 32768 * (Complex.arg ⟨(i : ℝ) - 127.5, (q : ℝ) - 127.5⟩ + Real.pi) / Real.pi = x
    at *
  have hround : round x = (N : ℤ) := by
    rw [round_eq, Int.floor_eq_iff]
    push_cast
    constructor <;> linarith only [hlo, hhi, c]
  refine ⟨table, htable, ?_, ?_, ?_⟩
  · rw [hidx, hround]
    omega
  · rw [hidx, hround]
  · rw [hidx, abs_lt]
    constructor <;> linarith only [hlo, hhi, c]

/-- On the diagonals `fp_diagonal.atan2` is accurate: a multiple `c * M_PI` with `|c| ≤ 1`
for the angle `c * pi`. -/
theorem diagonal_accurate (v : ℚ) (c : ℚ) (t : ℝ) (hv : v = c * M_PI)
    (ht : t = (c : ℝ) * Real.pi) (hc : |c| ≤ 1) : |(v : ℝ) - t| ≤ 1 / 2 ^ 40 := by
  have h := M_PI_near
  have e : (v : ℝ) - t = (c : ℝ) * (((M_PI : ℚ) : ℝ) - Real.pi) := by
    rw [hv, ht]
    push_cast
    ring
  have hc' : |(c : ℝ)| ≤ 1 := by exact_mod_cast hc
  rw [e, abs_mul]
  have h1 := mul_le_mul hc' h (abs_nonneg _) (by norm_num : (0 : ℝ) ≤ 1)
  have c2 : (1 : ℝ) * (1 / 2 ^ 50) ≤ 1 / 2 ^ 40 := by norm_num
  linarith only [h1, c2]

theorem atan2_table_rounds_witness :
    (∀ x : ℚ, 1 / 2 ^ 16 ≤ |x| → |x| ≤ 2 ^ 18 →
        |fp_diagonal.fl x - x| ≤ |x| / 2 ^ 52) ∧
      |((fp_diagonal.atan2 (((255 : Nat) : ℚ) - 255 / 2) (((255 : Nat) : ℚ) - 255 / 2) : ℚ) : ℝ) -
        Complex.arg ⟨((255 : Nat) : ℝ) - 127.5, ((255 : Nat) : ℝ) - 127.5⟩| ≤ 1 / 2 ^ 40 ∧
      ∃ table, make_atan2_table fp_diagonal = .ok table ∧
        table ((255 <<< 8) ||| 255) = 40960 ∧ table ((0 <<< 8) ||| 0) = 8192 ∧
        table ((0 <<< 8) ||| 255) = 24576 ∧ table ((255 <<< 8) ||| 0) = 57344 ∧
        ∀ w, w = 0x0000 ∨ w = 0x00FF ∨ w = 0xFFFF ∨ w = 0xFF00 → table w = iqphase_corners w := by
  have hpi := Real.pi_pos
  have hfl : ∀ x : ℚ, 1 / 2 ^ 16 ≤ |x| → |x| ≤ 2 ^ 18 →
      |fp_diagonal.fl x - x| ≤ |x| / 2 ^ 52 := by
    intro x _ _
    have : fp_diagonal.fl x = x := rfl
    rw [this, sub_self, abs_zero]
    positivity
  -- the four corners: the value of `atan2` and the exact angle
  have v1 : fp_diagonal.atan2 (((255 : Nat) : ℚ) - 255 / 2) (((255 : Nat) : ℚ) - 255 / 2) =
      (1 / 4 : ℚ) * M_PI := by
    unfold fp_diagonal
    simp only []
    rw [if_pos trivial, if_pos (by norm_num)]
    ring
  have v2 : fp_diagonal.atan2 (((0 : Nat) : ℚ) - 255 / 2) (((0 : Nat) : ℚ) - 255 / 2) =
      (-(3 / 4) : ℚ) * M_PI := by
    unfold fp_diagonal
    simp only []
    rw [if_pos trivial, if_neg (by norm_num)]
    ring
  have v3 : fp_diagonal.atan2 (((0 : Nat) : ℚ) - 255 / 2) (((255 : Nat) : ℚ) - 255 / 2) =
      (-(1 / 4) : ℚ) * M_PI := by
    unfold fp_diagonal
    simp only []
    rw [if_neg (by norm_num), if_pos (by norm_num), if_pos (by norm_num)]
    ring
  have v4 : fp_diagonal.atan2 (((255 : Nat) : ℚ) - 255 / 2) (((0 : Nat) : ℚ) - 255 / 2) =
      (3 / 4 : ℚ) * M_PI := by
    unfold fp_diagonal
    simp only []
    rw [if_neg (by norm_num), if_pos (by norm_num), if_neg (by norm_num)]
    ring
  have a1 : Complex.arg ⟨((255 : Nat) : ℝ) - 127.5, ((255 : Nat) : ℝ) - 127.5⟩ =
      ((1 / 4 : ℚ) : ℝ) * Real.pi := by
    have h := arg_quadrant_1 (((255 : Nat) : ℝ) - 127.5) (((255 : Nat) : ℝ) - 127.5)
      (by norm_num) (by norm_num)
    rw [div_self (by norm_num), Real.arctan_one] at h
    push_cast
    linarith only [h]
  have a2 : Complex.arg ⟨((0 : Nat) : ℝ) - 127.5, ((0 : Nat) : ℝ) - 127.5⟩ =
      ((-(3 / 4) : ℚ) : ℝ) * Real.pi := by
    have h := arg_quadrant_3 (((0 : Nat) : ℝ) - 127.5) (((0 : Nat) : ℝ) - 127.5)
      (by norm_num) (by norm_num)
    rw [div_self (by norm_num), Real.arctan_one] at h
    push_cast
    linarith only [h]
  have a3 : Complex.arg ⟨((255 : Nat) : ℝ) - 127.5, ((0 : Nat) : ℝ) - 127.5⟩ =
      ((-(1 / 4) : ℚ) : ℝ) * Real.pi := by
    have h := arg_quadrant_4 (((255 : Nat) : ℝ) - 127.5) (((0 : Nat) : ℝ) - 127.5)
      (by norm_num) (by norm_num)
    rw [show -(((0 : Nat) : ℝ) - 127.5) / (((255 : Nat) : ℝ) - 127.5) = 1 by norm_num,
      Real.arctan_one] at h
    push_cast
    linarith only [h]
  have a4 : Complex.arg ⟨((0 : Nat) : ℝ) - 127.5, ((255 : Nat) : ℝ) - 127.5⟩ =
      ((3 / 4 : ℚ) : ℝ) * Real.pi := by
    have h := arg_quadrant_2 (((0 : Nat) : ℝ) - 127.5) (((255 : Nat) : ℝ) - 127.5)
      (by norm_num) (by norm_num)
    rw [show (((255 : Nat) : ℝ) - 127.5) / -(((0 : Nat) : ℝ) - 127.5) = 1 by norm_num,
      Real.arctan_one] at h
    push_cast
    linarith only [h]
  have h1 := diagonal_accurate _ _ _ v1 a1 (by norm_num [abs_le])
  have h2 := diagonal_accurate _ _ _ v2 a2 (by norm_num [abs_le])
  have h3 := diagonal_accurate _ _ _ v3 a3 (by norm_num [abs_le])
  have h4 := diagonal_accurate _ _ _ v4 a4 (by norm_num [abs_le])
  obtain ⟨table, htable, _, e1, _⟩ :=
    atan2_table_rounds fp_diagonal 255 255 (by decide) (by decide) hfl h1
  obtain ⟨table2, htable2, _, e2, _⟩ :=
    atan2_table_rounds fp_diagonal 0 0 (by decide) (by decide) hfl h2
  obtain ⟨table3, htable3, _, e3, _⟩ :=
    atan2_table_rounds fp_diagonal 255 0 (by decide) (by decide) hfl h3
  obtain ⟨table4, htable4, _, e4, _⟩ :=
    atan2_table_rounds fp_diagonal 0 255 (by decide) (by decide) hfl h4
  rw [htable] at htable2 htable3 htable4
  cases htable2
  cases htable3
  cases htable4
  have x1 : 32768 * (((1 / 4 : ℚ) : ℝ) * Real.pi + Real.pi) / Real.pi = ((40960 : ℤ) : ℝ) := by
    push_cast
    field_simp
    ring
  have x2 : 32768 * (((-(3 / 4) : ℚ) : ℝ) * Real.pi + Real.pi) / Real.pi =
      ((8192 : ℤ) : ℝ) := by
    push_cast
    field_simp
    ring
  have x3 : 32768 * (((-(1 / 4) : ℚ) : ℝ) * Real.pi + Real.pi) / Real.pi =
      ((24576 : ℤ) : ℝ) := by
    push_cast
    field_simp
    ring
  have x4 : 32768 * (((3 / 4 : ℚ) : ℝ) * Real.pi + Real.pi) / Real.pi = ((57344 : ℤ) : ℝ) := by
    push_cast
    field_simp
    ring
  rw [a1, x1, round_intCast] at e1
  rw [a2, x2, round_intCast] at e2
  rw [a3, x3, round_intCast] at e3
  rw [a4, x4, round_intCast] at e4
  have t1 : table ((255 <<< 8) ||| 255) = 40960 := by exact_mod_cast e1
  have t2 : table ((0 <<< 8) ||| 0) = 8192 := by exact_mod_cast e2
  have t3 : table ((0 <<< 8) ||| 255) = 24576 := by exact_mod_cast e3
  have t4 : table ((255 <<< 8) ||| 0) = 57344 := by exact_mod_cast e4
  refine ⟨hfl, h1, table, htable, t1, t2, t3, t4, ?_⟩
  intro w hw
  rcases hw with hw | hw | hw | hw <;> rw [hw]
  · exact t2
  · exact t3
  · exact t1
  · exact t4

/-- The angle of the sample `(i, q) = (255, 128)`, `atan2(0.5, 127.5) = arctan(1/255)`, in
units of `pi / 32768`: between 40.75 and 41. -/
theorem arctan_inv_255_bounds :
    163 / 4 * Real.pi ≤ 32768 * Real.arctan (1 / 255) ∧
      32768 * Real.arctan (1 / 255) < 41 * Real.pi := by
  have hpi1 : 3.14 < Real.pi := Real.pi_gt_d2
  have hpi2 : Real.pi < 3.15 := Real.pi_lt_d2
  constructor
  · -- lower bound: `tan c ≤ 1/255` for `c = 40.75 pi / 32768`
    obtain ⟨c, hc⟩ : ∃ c : ℝ, c = 163 / 4 * Real.pi / 32768 := ⟨_, rfl⟩
    have hc0 : 0 < c := by rw [hc]; positivity
    have hc1 : c < 392 / 100000 := by rw [hc]; linarith
    have hsin : Real.sin c ≤ c := Real.sin_le (le_of_lt hc0)
    have hcos : 1 - c ^ 2 / 2 ≤ Real.cos c := Real.one_sub_sq_div_two_le_cos
    have hcos0 : 0 < Real.cos c := by nlinarith
    have htan : Real.tan c ≤ 1 / 255 := by
      rw [Real.tan_eq_sin_div_cos, div_le_iff₀ hcos0]
      nlinarith
    have hmono := Real.arctan_strictMono.monotone htan
    rw [Real.arctan_tan (by linarith) (by linarith)] at hmono
    rw [hc] at hmono
    linarith
  · -- upper bound: `arctan x < x`
    have hpos : 0 < Real.arctan (1 / 255) := by
      have := Real.arctan_strictMono (show (0 : ℝ) < 1 / 255 by norm_num)
      rwa [Real.arctan_zero] at this
    have hlt := Real.lt_tan hpos (Real.arctan_lt_pi_div_two _)
    rw [Real.tan_arctan] at hlt
    have : (32768 : ℝ) * (1 / 255) < 41 * 3.14 := by norm_num
    linarith

/-- C16, counterexample: for the sample `(i, q) = (255, 128)` the value
`32768 * (atan2(0.5, 127.5) + pi) / pi` lies between 32808.75 and 32809, so its floor is 32808;
but the entry `iqphase[(128 << 8) | 255]` is 32809 whenever `atan2` is accurate to `2^-40` for
the sample and every rounding of a `double` result between `2^-16` and `2^18` has a relative
error of at most `2^-52`. -/
theorem atan2_table_entry_is_not_floor :
    ⌊32768 * (Complex.arg ⟨((255 : Nat) : ℝ) - 127.5, ((128 : Nat) : ℝ) - 127.5⟩ + Real.pi) /
        Real.pi⌋ = 32808 ∧
      ∀ fp : Floats,
        (∀ x : ℚ, 1 / 2 ^ 16 ≤ |x| → |x| ≤ 2 ^ 18 → |fp.fl x - x| ≤ |x| / 2 ^ 52) →
        |((fp.atan2 (((128 : Nat) : ℚ) - 255 / 2) (((255 : Nat) : ℚ) - 255 / 2) : ℚ) : ℝ) -
          Complex.arg ⟨((255 : Nat) : ℝ) - 127.5, ((128 : Nat) : ℝ) - 127.5⟩| ≤ 1 / 2 ^ 40 →
        ∃ table, make_atan2_table fp = .ok table ∧ table ((128 <<< 8) ||| 255) = 32809 := by
  have harg : Complex.arg ⟨((255 : Nat) : ℝ) - 127.5, ((128 : Nat) : ℝ) - 127.5⟩ =
      Real.arctan (1 / 255) := by
    rw [arg_of_re_pos _ _ (by norm_num)]
    congr 1
    norm_num
  obtain ⟨hlo, hhi⟩ := arctan_inv_255_bounds
  have hpi : 0 < Real.pi := Real.pi_pos
  have hval : 32768 * (Real.arctan (1 / 255) + Real.pi) / Real.pi =
      32768 + 32768 * Real.arctan (1 / 255) / Real.pi := by
    field_simp
    ring
  have h1 : (163 / 4 : ℝ) ≤ 32768 * Real.arctan (1 / 255) / Real.pi := by
    rw [le_div_iff₀ hpi]
    exact hlo
  have h2 : 32768 * Real.arctan (1 / 255) / Real.pi < 41 := by
    rw [div_lt_iff₀ hpi]
    exact hhi
  constructor
  · rw [harg, hval, Int.floor_eq_iff]
    push_cast
    constructor <;> linarith only [h1, h2]
  · intro fp hfl hatan
    obtain ⟨table, htable, hentry⟩ := make_atan2_table_spec fp
    obtain ⟨N, _, _, hN, hNlo, hNhi⟩ := table_entry fp 255 128 (by decide) (by decide) hfl hatan
    refine ⟨table, htable, ?_⟩
    rw [table_index 255 128 (by decide), hentry 255 128 (by decide) (by decide), hN]
    rw [harg, hval] at hNlo hNhi
    have c : (0 : ℝ) < 1 / 2 ^ 15 := by positivity
    have k1 : (32808 : ℝ) < N := by linarith only [hNhi, h1, c]
    have k2 : (N : ℝ) < 32810 := by linarith only [hNlo, h2, c]
    have k3 : 32808 < N := by exact_mod_cast k1
    have k4 : N < 32810 := by exact_mod_cast k2
    omega
end Dump978
